import Mathlib

/-!
# FamilyHub: the document store, the family registry and the client that syncs with them

A shallow embedding of `src/api/_data-store.js`, of the request handlers of
`src/api/families.js`, `src/api/users.js` and `src/api/planner.js`, and of the parts of
`src/dashboard.js` that cache, sign, push and pull the family and planner documents.
Documents are JSON values; the in-memory store and the state of the client are passed
explicitly; the results of `Math.random()`, of the clock, of date parsing and of the
string functions of the platform are inputs; the answer to a request is an input of the
function that awaits it.
-/

namespace FamilyHub

/-! ## JSON values -/

/-- A JSON value, as produced by `JSON.parse`.  Numbers are restricted to integers (of a
magnitude that JavaScript prints in plain decimal).  A property that is absent (JavaScript
`undefined`) is `none` of `Option JVal`. -/
inductive JVal where
  | null : JVal
  | bool (b : Bool) : JVal
  | num (n : Int) : JVal
  | str (s : String) : JVal
  | arr (items : List JVal) : JVal
  | obj (fields : List (String × JVal)) : JVal

/-- A JSON object: its keys with their values, in insertion order (the engine's moving of
integer-like keys to the front is not modelled). -/
abbrev JObj := List (String × JVal)

/-- Property read `o.key` (or `o[key]`); `none` is `undefined`. -/
def JObj.get (o : JObj) (key : String) : Option JVal :=
  match o with
  | [] => none
  | (k, v) :: rest => if k = key then some v else JObj.get rest key

/-- Property write `o[key] = v`: an existing key keeps its place, a new key goes last. -/
def JObj.set (o : JObj) (key : String) (v : JVal) : JObj :=
  match o with
  | [] => [(key, v)]
  | (k, w) :: rest => if k = key then (k, v) :: rest else (k, w) :: JObj.set rest key v

/-- Object spread `{ ...a, ...b }`: the keys of `b` are written over `a` one by one. -/
def JObj.spread (a b : JObj) : JObj :=
  b.foldl (fun acc kv => JObj.set acc kv.1 kv.2) a

/-- The keys of an object. -/
def JObj.keys (o : JObj) : List String := o.map Prod.fst

/-- Writing a value that may be `undefined` into an object that is then
passed through `clone`: `JSON.stringify` drops an undefined property. -/
def JObj.setOpt (o : JObj) (key : String) (v : Option JVal) : JObj :=
  match v with
  | some w => JObj.set o key w
  | none => o

/-- The strict equality `a === b` of two values that do not share a reference
(every value handed out by the store is a fresh clone): primitives are compared
by value, two `undefined` are equal, arrays and objects are never equal. -/
def strictEq : Option JVal → Option JVal → Bool
  | none, none => true
  | some .null, some .null => true
  | some (.bool a), some (.bool b) => a == b
  | some (.num a), some (.num b) => a == b
  | some (.str a), some (.str b) => a == b
  | _, _ => false

/-- JavaScript truthiness of a value (`undefined` is `none`). -/
def truthy : Option JVal → Bool
  | none => false
  | some .null => false
  | some (.bool b) => b
  | some (.num n) => n != 0
  | some (.str s) => s != ""
  | some (.arr _) => true
  | some (.obj _) => true

/-- `Array.isArray(v)`. -/
def isArray : Option JVal → Bool
  | some (.arr _) => true
  | _ => false

mutual
/-- Equality of two JSON values, decided by recursion on their structure. -/
def JVal.same : JVal → JVal → Bool
  | .null, .null => true
  | .bool a, .bool b => a == b
  | .num a, .num b => a == b
  | .str a, .str b => a == b
  | .arr a, .arr b => JVal.sameItems a b
  | .obj a, .obj b => JVal.sameFields a b
  | _, _ => false
/-- Equality of two lists of JSON values. -/
def JVal.sameItems : List JVal → List JVal → Bool
  | [], [] => true
  | x :: xs, y :: ys => JVal.same x y && JVal.sameItems xs ys
  | _, _ => false
/-- Equality of two lists of fields. -/
def JVal.sameFields : List (String × JVal) → List (String × JVal) → Bool
  | [], [] => true
  | (k, x) :: xs, (l, y) :: ys => k == l && JVal.same x y && JVal.sameFields xs ys
  | _, _ => false
end

/-- `clone(value)`, that is `JSON.parse(JSON.stringify(value))`: the identity on JSON values. -/
def clone {α : Type} (value : α) : α := value

/-! ## The store -/

/-- The in-memory store `memoryStore`: three collections. -/
structure Store where
  users : List JObj
  planner : JObj
  families : List JObj

/-- `DEFAULT_STORE`. -/
def DEFAULT_STORE : Store := { users := [], planner := [], families := [] }

/-- `updateStore(mutator)`: the mutator runs on a clone of the store and its result
becomes the new store. -/
def updateStore (mutator : Store → Store) (memoryStore : Store) : Store :=
  mutator (clone memoryStore)

/-- `findUserByUsername(username)`. -/
def findUserByUsername (memoryStore : Store) (username : String) : Option JObj :=
  clone (memoryStore.users.find? fun user => strictEq (user.get "username") (some (.str username)))

/-- `updateUser(username, updates)`: returns the new store and the last record rewritten. -/
def updateUser (username : String) (updates : JObj) (memoryStore : Store) : Store × Option JObj :=
  let users := memoryStore.users.map fun user =>
    if !strictEq (user.get "username") (some (.str username)) then user
    else JObj.spread user (clone updates)
  let updatedUser := ((memoryStore.users.filter fun user =>
    strictEq (user.get "username") (some (.str username))).map fun user =>
      JObj.spread user (clone updates)).getLast?
  (updateStore (fun store => { store with users := users }) memoryStore, clone updatedUser)

/-- `listFamilies()`. -/
def listFamilies (memoryStore : Store) : List JObj := clone memoryStore.families

/-- `findFamilyById(familyId)`; the id asked for may be any value, also `undefined`. -/
def findFamilyById (memoryStore : Store) (familyId : Option JVal) : Option JObj :=
  clone (memoryStore.families.find? fun family => strictEq (family.get "id") familyId)

/-- `findFamilyByCode(code)`. -/
def findFamilyByCode (memoryStore : Store) (code : Option JVal) : Option JObj :=
  clone (memoryStore.families.find? fun family => strictEq (family.get "code") code)

/-! ## Invite codes -/

/-- The alphabet of `generateFamilyCode`. -/
def alphabet : String := "ABCDEFGHJKLMNPQRSTUVWXYZ23456789"

/-- The source of randomness: the successive values of
`Math.floor(Math.random() * alphabet.length)`, each an index below 32. -/
abbrev Rng := Nat → Fin 32

/-- The random source after `n` draws have been consumed. -/
def Rng.advance (rng : Rng) (n : Nat) : Rng := fun i => rng (i + n)

/-- `alphabet[i]` for an index below the length of the alphabet. -/
def alphabetAt (i : Fin 32) : Char := alphabet.toList.getD i.val 'A'

/-- One attempt: `Array.from({ length: 6 }, () => alphabet[...]).join('')`, six draws. -/
def drawAttempt (rng : Rng) : String :=
  String.mk ((List.range 6).map fun i => alphabetAt (rng i))

/-- The test of the `do ... while`: `existing.has(attempt) || findFamilyByCode(attempt)`. -/
def codeTaken (memoryStore : Store) (existing : List (Option JVal)) (attempt : String) : Bool :=
  existing.any (fun c => strictEq c (some (.str attempt)))
    || (findFamilyByCode memoryStore (some (.str attempt))).isSome

/-- The `do ... while` loop of `generateFamilyCode`.  A round entered with
`tries = 1999 - budget` draws an attempt and sets `tries` to `2000 - budget`; the loop
goes on while the attempt is taken and `tries < 2000`, that is while `budget` is not
zero.  Returns the last attempt and the random source left over. -/
def generateFamilyCodeLoop (taken : String → Bool) : Nat → Rng → String × Rng
  | 0, rng => (drawAttempt rng, rng.advance 6)
  | budget + 1, rng =>
    if taken (drawAttempt rng) then generateFamilyCodeLoop taken budget (rng.advance 6)
    else (drawAttempt rng, rng.advance 6)

/-- `generateFamilyCode(existing)`: at most 2000 attempts. -/
def generateFamilyCode (memoryStore : Store) (existing : List (Option JVal)) (rng : Rng) :
    String × Rng :=
  generateFamilyCodeLoop (codeTaken memoryStore existing) 1999 rng

/-- `createFamily({ name, ownerUsername })`.  The generated id
(`fam_<Date.now()>_<six hex digits>`) and the timestamp are inputs.  Returns the new
store and the family found under the new id. -/
def createFamily (name : JVal) (ownerUsername : String) (id now : String) (rng : Rng)
    (memoryStore : Store) : Store × Option JObj :=
  let families := listFamilies memoryStore
  let existingCodes := families.map fun f => f.get "code"
  let family : JObj :=
    [("id", .str id),
     ("name", name),
     ("code", .str (generateFamilyCode memoryStore existingCodes rng).1),
     ("owner", .str ownerUsername),
     ("createdAt", .str now),
     ("members", .arr [.obj [("username", .str ownerUsername), ("role", .str "owner")]]),
     ("reminders", .arr []),
     ("chat", .arr [])]
  let store1 := updateStore (fun store =>
    let familiesUpdated := store.families ++ [family]
    { store with families := familiesUpdated }) memoryStore
  let store2 := (updateUser ownerUsername
    [("familyId", .str id), ("role", .str "owner")] store1).1
  (store2, findFamilyById store2 (some (.str id)))

/-- `saveFamily(family)`: every stored family with the id of `family` is merged with it;
returns the new store and the last merged document (`null` when none matched). -/
def saveFamily (family : JObj) (memoryStore : Store) : Store × Option JObj :=
  let families := memoryStore.families.map fun item =>
    if !strictEq (item.get "id") (family.get "id") then item
    else JObj.spread item (clone family)
  let saved := ((memoryStore.families.filter fun item =>
    strictEq (item.get "id") (family.get "id")).map fun item =>
      JObj.spread item (clone family)).getLast?
  (updateStore (fun store => { store with families := families }) memoryStore, clone saved)

/-- The successive values of `new Date().toISOString()`. -/
abbrev Clock := Nat → String

/-- The clock after `n` readings. -/
def Clock.advance (clock : Clock) (n : Nat) : Clock := fun i => clock (i + n)

/-- `members.some(member => member.username === username)`.  Reading `.username` of a
`null` entry throws a `TypeError`: the result is then `none`.  A number, boolean, string
or array entry has no such property. -/
def someMember (username : String) : List JVal → Option Bool
  | [] => some false
  | .null :: _ => none
  | .obj o :: rest =>
    if strictEq (JObj.get o "username") (some (.str username)) then some true
    else someMember username rest
  | _ :: rest => someMember username rest

/-- The elements of a value that is an array (used after the `Array.isArray` test). -/
def arrayItems : Option JVal → List JVal
  | some (.arr items) => items
  | _ => []

/-- Assignment through the reference returned by `memoryStore.families.find(p)`: the first
element that satisfies `p` is replaced. -/
def replaceFirst (p : JObj → Bool) (next : JObj) : List JObj → List JObj
  | [] => []
  | item :: rest => if p item then next :: rest else item :: replaceFirst p next rest

/-- `joinFamilyByCode({ username, role, code })`.  `none`: the call throws (a `null` entry in
the roster).  Otherwise the new store, the family and the user returned. -/
def joinFamilyByCode (username : String) (role : JVal) (code : String) (memoryStore : Store) :
    Option (Store × Option JObj × Option JObj) :=
  let hasCode := fun (item : JObj) => strictEq (item.get "code") (some (.str code))
  match memoryStore.families.find? hasCode with
  | none => some (memoryStore, none, none)
  | some found =>
    let family1 := if !isArray (found.get "members") then found.set "members" (.arr []) else found
    match someMember username (arrayItems (family1.get "members")) with
    | none => none
    | some isMember =>
      let family :=
        if !isMember then
          family1.set "members" (.arr (arrayItems (family1.get "members")
            ++ [.obj [("username", .str username), ("role", role)]]))
        else family1
      -- `family` is the object inside `memoryStore`: the writes above happened in place
      let mutated : Store :=
        { memoryStore with families := replaceFirst hasCode family memoryStore.families }
      let store1 := updateStore (fun store =>
        let families := store.families.map fun item =>
          if strictEq (item.get "id") (family.get "id") then family else item
        { store with families := families }) mutated
      let r := updateUser username
        (JObj.set (JObj.setOpt [] "familyId" (family.get "id")) "role" role) store1
      some (r.1, findFamilyById r.1 (family.get "id"), r.2)

/-- The `store.families.map(...)` of `regenerateFamilyCode`: every family with the id gets
a newly generated code and the current time; also returns the last family rewritten. -/
def regenerateFamilies (taken : String → Bool) (familyId : String) :
    List JObj → Rng → Clock → List JObj × Option JObj
  | [], _, _ => ([], none)
  | family :: rest, rng, clock =>
    if !strictEq (family.get "id") (some (.str familyId)) then
      let r := regenerateFamilies taken familyId rest rng clock
      (family :: r.1, r.2)
    else
      let g := generateFamilyCodeLoop taken 1999 rng
      let updatedFamily := (family.set "code" (.str g.1)).set "regeneratedAt" (.str (clock 0))
      let r := regenerateFamilies taken familyId rest g.2 (clock.advance 1)
      (updatedFamily :: r.1, r.2.orElse fun _ => some updatedFamily)

/-- `regenerateFamilyCode(familyId)`: the new store and the family returned. -/
def regenerateFamilyCode (familyId : String) (rng : Rng) (clock : Clock) (memoryStore : Store) :
    Store × Option JObj :=
  let existingCodes := (clone memoryStore).families.map fun f => f.get "code"
  let r := regenerateFamilies (codeTaken memoryStore existingCodes) familyId
    (clone memoryStore).families rng clock
  (updateStore (fun store => { store with families := r.1 }) memoryStore, clone r.2)

/-! ## The request handler of `api/families` -/

mutual
/-- `String(v)` for a JSON value. -/
def jsString : JVal → String
  | .null => "null"
  | .bool b => if b then "true" else "false"
  | .num n => toString n
  | .str s => s
  | .arr items => jsJoin items
  | .obj _ => "[object Object]"
/-- `items.join(",")`: a `null` element gives the empty string. -/
def jsJoin : List JVal → String
  | [] => ""
  | [.null] => ""
  | [v] => jsString v
  | .null :: rest => "," ++ jsJoin rest
  | v :: rest => jsString v ++ "," ++ jsJoin rest
end

/-- `a || b`. -/
def jsOr (a : Option JVal) (b : JVal) : JVal :=
  if truthy a then a.getD b else b

/-- Property read `v.key` on a value that is not `null`: only an object has the keys read
by the handler. -/
def property (v : JVal) (key : String) : Option JVal :=
  match v with
  | .obj o => JObj.get o key
  | _ => none

/-- The properties `0`, `1`, ... of an array or of a string. -/
def indexKeys (items : List JVal) : JObj :=
  items.enum.map fun p => (toString p.1, p.2)

/-- The own enumerable properties copied by `{ ...v }`. -/
def spreadValue : JVal → JObj
  | .obj o => o
  | .arr items => indexKeys items
  | .str s => indexKeys (s.toList.map fun ch => .str (String.singleton ch))
  | _ => []

/-- `addUser(user)`. -/
def addUser (user : JObj) (memoryStore : Store) : Store × Option JObj :=
  let key := match user.get "username" with
    | some v => jsString v
    | none => "undefined"
  let store1 := updateStore (fun store =>
    let users := store.users ++ [clone user]
    let planner := JObj.set store.planner key
      (jsOr (store.planner.get key) (.obj [("entries", .arr [])]))
    { store with users := users, planner := planner }) memoryStore
  (store1, clone (store1.users.find? fun u => strictEq (u.get "username") (user.get "username")))

/-- `sanitizeFamily(family)`. -/
def sanitizeFamily (family : Option JObj) : Option JObj :=
  family.map fun f =>
    ((f.set "members" (.arr ((arrayItems (f.get "members")).map fun m => .obj (spreadValue m)))).set
      "reminders" (.arr ((arrayItems (f.get "reminders")).map fun m => .obj (spreadValue m)))).set
      "chat" (.arr ((arrayItems (f.get "chat")).map fun m => .obj (spreadValue m)))

/-- `sanitizeUserRecord(user)`: the record without its password. -/
def sanitizeUserRecord (user : Option JObj) : Option JObj :=
  user.map fun u => u.filter fun kv => kv.1 != "password"

/-- A reply of the handler: the HTTP status, the store afterwards, and the family and the
user of the JSON body when there are any. -/
structure Outcome where
  status : Nat
  store : Store
  family : Option JObj
  user : Option JObj

/-- The user record the handler builds from a profile sent along with a request.  The
default role, the default e-mail suffix, the generated id and the clock reading are given. -/
def profileUser (username : String) (profile : JObj) (defaultRole : JVal) (suffix : String)
    (generatedId now : String) : JObj :=
  [("id", jsOr (profile.get "id") (.str generatedId)),
   ("username", .str username),
   ("email", jsOr (profile.get "email") (.str (username ++ suffix))),
   ("password", (profile.get "password").getD .null),
   ("role", jsOr (profile.get "role") defaultRole),
   ("verified", .bool true),
   ("createdAt", jsOr (profile.get "createdAt") (.str now)),
   ("familyId", .null),
   ("lastLogin", jsOr (profile.get "lastLogin") .null),
   ("lastDeviceId", jsOr (profile.get "lastDeviceId") .null),
   ("lastDeviceLabel", jsOr (profile.get "lastDeviceLabel") .null)]

/-- The step shared by `POST` and `PATCH join`: when the user is unknown and the profile is
an object with a truthy password, the user is created. -/
def autoCreateUser (username : String) (profile : Option JVal) (defaultRole : JVal)
    (suffix generatedId now : String) (memoryStore : Store) : Store :=
  match findUserByUsername memoryStore username, profile with
  | none, some (.obj p) =>
    if truthy (JObj.get p "password") then
      (addUser (profileUser username p defaultRole suffix generatedId now) memoryStore).1
    else memoryStore
  | _, _ => memoryStore

/-- `POST`: create a family.  `userId` and `userNow` are the generated id and the clock
reading used when the owner is created on the fly, `familyId` and `familyNow` those of
`createFamily`. -/
def postFamily (name : Option JVal) (owner : String) (ownerProfile : Option JVal)
    (userId userNow familyId familyNow : String) (rng : Rng) (memoryStore : Store) : Outcome :=
  if !truthy name || owner == "" then ⟨400, memoryStore, none, none⟩
  else
    let store1 := autoCreateUser owner ownerProfile (.str "solo") "@familyhub.local"
      userId userNow memoryStore
    if (findUserByUsername store1 owner).isNone then ⟨404, store1, none, none⟩
    else
      let r := createFamily (name.getD .null) owner familyId familyNow rng store1
      ⟨201, r.1, sanitizeFamily r.2, none⟩

/-- The `map` over `family.chat` in `PUT`: `{ ...message, message: String(message.message || '') }`;
`none` when a `null` message makes it throw. -/
def sanitizeChat : List JVal → Option (List JVal)
  | [] => some []
  | .null :: _ => none
  | message :: rest =>
    (sanitizeChat rest).map fun r =>
      .obj ((spreadValue message).set "message"
        (.str (jsString (jsOr (property message "message") (.str ""))))) :: r

/-- `PUT`: replace a family.  `family` is `body.family`. -/
def putFamily (family : Option JVal) (memoryStore : Store) : Outcome :=
  match family with
  | some (.obj fam) =>
    if !truthy (JObj.get fam "id") then ⟨400, memoryStore, none, none⟩
    else if (findFamilyById memoryStore (JObj.get fam "id")).isNone then
      ⟨404, memoryStore, none, none⟩
    else
      match (if isArray (JObj.get fam "chat")
             then sanitizeChat (arrayItems (JObj.get fam "chat"))
             else some []) with
      | none => ⟨500, memoryStore, none, none⟩
      | some sanitizedChat =>
        let r := saveFamily (JObj.set fam "chat" (.arr sanitizedChat)) memoryStore
        ⟨200, r.1, sanitizeFamily r.2, none⟩
  | _ => ⟨400, memoryStore, none, none⟩

/-- `PATCH` with action `join`; an absent role defaults to `adult`. -/
def patchJoin (username code : String) (role : Option JVal) (userProfile : Option JVal)
    (userId userNow : String) (memoryStore : Store) : Outcome :=
  if username == "" || code == "" then ⟨400, memoryStore, none, none⟩
  else
    let store1 := autoCreateUser username userProfile (jsOr role (.str "adult"))
      "@familyhub.local\x7d" userId userNow memoryStore
    if (findUserByUsername store1 username).isNone then ⟨404, store1, none, none⟩
    else
      match joinFamilyByCode username (role.getD (.str "adult")) code store1 with
      | none => ⟨500, store1, none, none⟩
      | some (store2, family, user) =>
        if family.isNone then ⟨404, store2, none, none⟩
        else ⟨200, store2, sanitizeFamily family, sanitizeUserRecord user⟩

/-- `PATCH` with action `regenerate`. -/
def patchRegenerate (familyId : String) (rng : Rng) (clock : Clock) (memoryStore : Store) :
    Outcome :=
  if familyId == "" then ⟨400, memoryStore, none, none⟩
  else
    let r := regenerateFamilyCode familyId rng clock memoryStore
    if r.2.isNone then ⟨404, r.1, none, none⟩
    else ⟨200, r.1, sanitizeFamily r.2, none⟩

/-- The `map` over `family.members` in `updateMemberRole`; `none` when a `null` entry makes
it throw. -/
def updateRoleIn (username : String) (role : JVal) : List JVal → Option (List JVal)
  | [] => some []
  | .null :: _ => none
  | member :: rest =>
    (updateRoleIn username role rest).map fun r =>
      (if strictEq (property member "username") (some (.str username))
       then .obj ((spreadValue member).set "role" role) else member) :: r

/-- `PATCH` with action `updateMemberRole`. -/
def patchUpdateMemberRole (username familyId : String) (role : Option JVal)
    (memoryStore : Store) : Outcome :=
  if username == "" || familyId == "" || !truthy role then ⟨400, memoryStore, none, none⟩
  else
    match findFamilyById memoryStore (some (.str familyId)) with
    | none => ⟨404, memoryStore, none, none⟩
    | some family =>
      match (if isArray (family.get "members")
             then updateRoleIn username (role.getD .null) (arrayItems (family.get "members"))
             else some []) with
      | none => ⟨500, memoryStore, none, none⟩
      | some members =>
        let r := saveFamily (family.set "members" (.arr members)) memoryStore
        let u := updateUser username [("role", role.getD .null)] r.1
        ⟨200, u.1, sanitizeFamily r.2, sanitizeUserRecord u.2⟩

/-- A request to `api/families` that can change the store, with the values the handler
reads from its environment (generated ids, clock readings, random draws).  The usernames,
codes and family ids of the body are strings; the other fields are any JSON value, or
absent. -/
inductive Request where
  | post (name : Option JVal) (owner : String) (ownerProfile : Option JVal)
      (userId userNow familyId familyNow : String) (rng : Rng)
  | put (family : Option JVal)
  | join (username code : String) (role : Option JVal) (userProfile : Option JVal)
      (userId userNow : String)
  | regenerate (familyId : String) (rng : Rng) (clock : Clock)
  | updateMemberRole (username familyId : String) (role : Option JVal)

/-- The handler, by method and action. -/
def handle : Request → Store → Outcome
  | .post name owner ownerProfile userId userNow familyId familyNow rng, s =>
    postFamily name owner ownerProfile userId userNow familyId familyNow rng s
  | .put family, s => putFamily family s
  | .join username code role userProfile userId userNow, s =>
    patchJoin username code role userProfile userId userNow s
  | .regenerate familyId rng clock, s => patchRegenerate familyId rng clock s
  | .updateMemberRole username familyId role, s => patchUpdateMemberRole username familyId role s

/-- The store after a sequence of requests, handled one after the other. -/
def run : List Request → Store → Store
  | [], s => s
  | r :: rest, s => run rest (handle r s).store

/-! ## Sequences of calls of the data store -/

/-- A call of `createFamily` or of `joinFamilyByCode`, with the values that `createFamily`
takes from its environment. -/
inductive Call where
  | create (name : JVal) (ownerUsername id now : String) (rng : Rng) : Call
  | join (username : String) (role : JVal) (code : String) : Call

/-- The store after a call; a call of `joinFamilyByCode` that throws leaves it as it is. -/
def Call.apply : Call → Store → Store
  | .create name ownerUsername id now rng, s => (createFamily name ownerUsername id now rng s).1
  | .join username role code, s =>
    match joinFamilyByCode username role code s with
    | some r => r.1
    | none => s

/-- The store after a sequence of calls. -/
def applyCalls : List Call → Store → Store
  | [], s => s
  | c :: rest, s => applyCalls rest (c.apply s)

/-! ## The request handlers of `api/users` and `api/planner` -/

/-- The list `allowed` of the `PUT` handler of `api/users`. -/
def allowed : List String :=
  ["familyId", "role", "lastLogin", "email", "password", "verified"]

/-- The object `safeUpdates` of the `PUT` handler of `api/users`: the keys of `updates`
that are in `allowed`, with their values. -/
def safeUpdatesOf (updates : JVal) : JObj :=
  (spreadValue updates).foldl
    (fun safeUpdates kv => if allowed.contains kv.1 then JObj.set safeUpdates kv.1 kv.2
      else safeUpdates) []

/-- `PUT` of `api/users`: update a user. -/
def putUser (username : String) (updates : Option JVal) (memoryStore : Store) : Outcome :=
  if username == "" || !truthy updates then ⟨400, memoryStore, none, none⟩
  else if (findUserByUsername memoryStore username).isNone then ⟨404, memoryStore, none, none⟩
  else
    let r := updateUser username (safeUpdatesOf (updates.getD .null)) memoryStore
    ⟨200, r.1, none, sanitizeUserRecord r.2⟩

/-- `typeof v === 'object'` for a JSON value. -/
def typeofObject : JVal → Bool
  | .null => true
  | .arr _ => true
  | .obj _ => true
  | _ => false

/-- `getPlanner(username)`.  The read `memoryStore.planner[username]` of a key that the
collection does not have goes to `Object.prototype`: for `__proto__` it gives the
prototype itself, an object without enumerable properties of its own, whose clone is
`{}`; the other properties of the prototype are functions, which are not of type
`object`. -/
def getPlanner (memoryStore : Store) (username : String) : JVal :=
  match memoryStore.planner.get username with
  | some planner =>
    if truthy (some planner) && typeofObject planner then clone planner
    else .obj [("entries", .arr [])]
  | none => if username == "__proto__" then .obj [] else .obj [("entries", .arr [])]

/-- `setPlanner(username, plannerData)`: the new store and the planner returned.  The
computed key `[username]` of the object literal defines a property of the new object
itself, also for `__proto__`. -/
def setPlanner (username : String) (plannerData : Option JVal) (memoryStore : Store) :
    Store × JVal :=
  let safePlanner : JVal :=
    match plannerData with
    | some v => if truthy (some v) && typeofObject v then v else .obj [("entries", .arr [])]
    | none => .obj [("entries", .arr [])]
  let store1 := updateStore (fun store =>
    let planner := JObj.set store.planner username (clone safePlanner)
    { store with planner := planner }) memoryStore
  (store1, getPlanner store1 username)

/-- A reply of the handler of `api/planner`: the HTTP status, the store afterwards and the
planner of the JSON body. -/
structure PlannerOutcome where
  status : Nat
  store : Store
  planner : Option JVal

/-- `GET` of `api/planner`. -/
def getPlannerRequest (username : String) (memoryStore : Store) : PlannerOutcome :=
  if username == "" then ⟨400, memoryStore, none⟩
  else if (findUserByUsername memoryStore username).isNone then ⟨404, memoryStore, none⟩
  else ⟨200, memoryStore, some (getPlanner memoryStore username)⟩

/-- `PUT` of `api/planner`. -/
def putPlanner (username : String) (planner : Option JVal) (memoryStore : Store) :
    PlannerOutcome :=
  if username == "" || !truthy planner then ⟨400, memoryStore, none⟩
  else if (findUserByUsername memoryStore username).isNone then ⟨404, memoryStore, none⟩
  else
    let r := setPlanner username planner memoryStore
    ⟨200, r.1, some r.2⟩

/-! ## The client: signatures of documents (`dashboard.js`) -/

/-- What the client takes from the engine to order strings, to read dates and to
normalise strings: `a.localeCompare(b)` on two strings, the time value of `new Date(s)`
for a string (`none` is an invalid date), `s.trim()` and `s.toUpperCase()`. -/
structure Env where
  localeCompare : String → String → Int
  timeValue : String → Option Int
  trim : String → String
  toUpperCase : String → String

/-- `String(v)` of a value that may be `undefined`. -/
def jsStringOpt : Option JVal → String
  | none => "undefined"
  | some v => jsString v

/-- `a.localeCompare(b)` on two property values: a `TypeError` (`none`) unless `a` is a
string; `b` is converted to a string. -/
def localeCompareValues (env : Env) : Option JVal → Option JVal → Option Int
  | some (.str a), b => some (env.localeCompare a (jsStringOpt b))
  | _, _ => none

/-- The time value of `new Date(v || 0)`; `none` is an invalid date. -/
def dateValue (env : Env) (v : Option JVal) : Option Int :=
  if !truthy v then some 0
  else
    match v with
    | none => some 0
    | some (.num n) => if n.natAbs ≤ 8640000000000000 then some n else none
    | some (.bool _) => some 1
    | some (.str s) => env.timeValue s
    | some w => env.timeValue (jsString w)

/-- `Array.prototype.sort(cmp)`, insertion of one element of the array into the sorted
elements that stood before it: the element goes before the first one that it comes
before, so behind the ones it is equal to.  The comparator is called with the element
that stood later in the array as its first argument.  `none` when `cmp` throws. -/
def insertBy {α : Type} (cmp : α → α → Option Int) (x : α) : List α → Option (List α)
  | [] => some [x]
  | y :: rest =>
    match cmp x y with
    | none => none
    | some c => if c < 0 then some (x :: y :: rest)
                else (insertBy cmp x rest).map fun r => y :: r

/-- `Array.prototype.sort(cmp)`: a stable sort.  The elements are inserted from the left,
each into the sorted elements before it, and every call of the comparator has the later
element of the array as its first argument, as the calls of the engine have for the
arrays of fewer than 64 elements; every element but the first is a first argument.  For
a comparator that is consistent on the elements the result is the one sorted
arrangement that keeps equal elements in place.  A comparator result that is `NaN`
counts as `0` and is given as `0` by the comparators below.  `none` when `cmp` throws. -/
def sortBy {α : Type} (cmp : α → α → Option Int) (items : List α) : Option (List α) :=
  items.foldl (fun sorted x => sorted.bind (insertBy cmp x)) (some [])

/-- `items.map(f)` for an `f` that may throw: `none` when it throws on some element. -/
def mapAll {α β : Type} (f : α → Option β) : List α → Option (List β)
  | [] => some []
  | x :: rest =>
    match f x with
    | none => none
    | some y => (mapAll f rest).map fun r => y :: r

/-- An object literal whose values may be `undefined`, as `JSON.stringify` and property
reads see it: a property that is `undefined` is left out. -/
def literal (fields : List (String × Option JVal)) : JObj :=
  fields.filterMap fun kv => kv.2.map fun v => (kv.1, v)

/-- The object `{ k1: x.k1, k2: x.k2, ... }` built from a list element `x`; a `TypeError`
(`none`) when `x` is `null`. -/
def projectFields (keys : List String) : JVal → Option JVal
  | .null => none
  | x => some (.obj (literal (keys.map fun k => (k, property x k))))

/-- The comparator of the members: `a.username.localeCompare(b.username)`. -/
def memberOrder (env : Env) (a b : JVal) : Option Int :=
  localeCompareValues env (property a "username") (property b "username")

/-- The comparator of the chat messages: by `id` when the two `createdAt` are strictly
equal, else by the difference of the two dates. -/
def chatOrder (env : Env) (a b : JVal) : Option Int :=
  if strictEq (property a "createdAt") (property b "createdAt") then
    localeCompareValues env (property a "id") (property b "id")
  else
    match dateValue env (property a "createdAt"), dateValue env (property b "createdAt") with
    | some x, some y => some (x - y)
    | _, _ => some 0

/-- The pattern `Array.isArray(v) ? v.map(project).sort(cmp) : []`. -/
def projectAndSort (keys : List String) (cmp : JVal → JVal → Option Int) (v : Option JVal) :
    Option (List JVal) :=
  if isArray v then (mapAll (projectFields keys) (arrayItems v)).bind (sortBy cmp) else some []

/-- `computeFamilySignature(family)`.  The signature is the JSON text of a value;
`JSON.stringify` gives different texts for different values, and the text is
identified here with the value.  `none` is `null`. -/
def computeFamilySignature (env : Env) (family : Option JVal) : Option JVal :=
  match family with
  | none => none
  | some fam =>
    if !truthy (some fam) then none
    else
      match projectAndSort ["username", "role"] (memberOrder env) (property fam "members"),
            projectAndSort ["id", "username", "message", "createdAt"] (chatOrder env)
              (property fam "chat") with
      | some members, some chat =>
        some (.obj (literal [("id", property fam "id"), ("code", property fam "code"),
          ("members", some (.arr members)), ("chat", some (.arr chat))]))
      | _, _ => none

/-- The default `sort()` of `[...entry.assignees]`: by the string forms of the elements
(compared here by code points). -/
def defaultSort (items : List JVal) : List JVal :=
  items.insertionSort fun a b => ¬ jsString b < jsString a

/-- The keys of a planner entry that `computePlannerSignature` copies as they are. -/
def plannerKeys : List String :=
  ["id", "type", "title", "notes", "priority", "startDate", "endDate", "startTime", "endTime",
   "sharedWithFamily"]

/-- The object that `computePlannerSignature` builds from one entry. -/
def projectEntry : JVal → Option JVal
  | .null => none
  | entry => some (.obj (literal ((plannerKeys.map fun k => (k, property entry k)) ++
      [("assignees", some (.arr (if isArray (property entry "assignees")
          then defaultSort (arrayItems (property entry "assignees")) else [])))])))

/-- The comparator of the planner entries: by `startDate`, then `startTime`, then `id`. -/
def entryOrder (env : Env) (a b : JVal) : Option Int :=
  if strictEq (property a "startDate") (property b "startDate") then
    if strictEq (property a "startTime") (property b "startTime") then
      localeCompareValues env (some (jsOr (property a "id") (.str "")))
        (some (jsOr (property b "id") (.str "")))
    else
      localeCompareValues env (some (jsOr (property a "startTime") (.str "")))
        (some (jsOr (property b "startTime") (.str "")))
  else
    localeCompareValues env (some (jsOr (property a "startDate") (.str "")))
      (some (jsOr (property b "startDate") (.str "")))

/-- `computePlannerSignature(entries)` for a list of entries. -/
def computePlannerSignature (env : Env) (entries : List JVal) : Option JVal :=
  ((mapAll projectEntry entries).bind (sortBy (entryOrder env))).map fun normalized =>
    .arr normalized

/-- `a !== b` for two signatures. -/
def signatureDiffers : Option JVal → Option JVal → Bool
  | none, none => false
  | some a, some b => !JVal.same a b
  | _, _ => true

/-! ## The client: local storage and the cached family (`dashboard.js`) -/

/-- `delete o[key]`. -/
def JObj.erase (o : JObj) (key : String) : JObj :=
  o.filter fun kv => kv.1 != key

/-- The item `familyhub_backend_store` of local storage, as `loadBackendStore` reads it:
six collections (a collection that is missing or of the wrong type reads as empty). -/
structure BackendStore where
  users : List JVal
  families : List JVal
  planners : JObj
  memberships : JObj
  themes : JObj
  shareCodes : JObj

/-- The argument of `saveBackendStore`: an object with some of the six collections. -/
structure StorePatch where
  users : Option (List JVal)
  families : Option (List JVal)
  planners : Option JObj
  memberships : Option JObj
  themes : Option JObj
  shareCodes : Option JObj

/-- `saveBackendStore(store, options)`: the merged store, which is written and returned.
Writes to local storage are taken to succeed. -/
def saveBackendStore (store : StorePatch) (replaceShareCodes : Bool) (existing : BackendStore) :
    BackendStore :=
  { users := store.users.getD existing.users
    families := store.families.getD existing.families
    planners := JObj.spread existing.planners (store.planners.getD [])
    memberships := JObj.spread existing.memberships (store.memberships.getD [])
    themes := JObj.spread existing.themes (store.themes.getD [])
    shareCodes := if replaceShareCodes then JObj.spread [] (store.shareCodes.getD [])
                  else JObj.spread existing.shareCodes (store.shareCodes.getD []) }

/-- `setBackendMembership(username, familyId)`. -/
def setBackendMembership (username : String) (familyId : Option JVal) (store : BackendStore) :
    BackendStore :=
  if username == "" then store
  else
    let memberships :=
      if truthy familyId then JObj.set (JObj.spread [] store.memberships) username
        (familyId.getD .null)
      else JObj.erase (JObj.spread [] store.memberships) username
    saveBackendStore
      { users := some store.users, families := some store.families,
        planners := some store.planners, memberships := some memberships,
        themes := some store.themes, shareCodes := some store.shareCodes }
      false store

/-- `getBackendMembership(username)`; `none` is `null`. -/
def getBackendMembership (username : String) (store : BackendStore) : Option JVal :=
  if username == "" then none
  else if truthy (store.memberships.get username) then store.memberships.get username
  else none

/-- The elements of the page that the renders of the family look up when the dashboard
starts, `true` for an element that was found, and how the work on the page of the renders
of the planner ends.  `renderCalendar()`, the cards of `renderDayDetail()` and
`renderPlanningTips()` build elements from the entries of the planner and the reminders
of the family and assign no variable of the dashboard; whether each of them completes
(`true`) or throws (on an element that the page lacks, on a `null` entry, on a time that
`Intl.DateTimeFormat` rejects) is an input here. -/
structure Page where
  /-- The element `familyNameHeading`, without which `renderFamilyOverview` returns. -/
  familyNameHeading : Bool
  /-- The element `familyMemberListEl`, without which `renderFamilyMemberList` returns. -/
  familyMemberListEl : Bool
  /-- The element `familyChatMessagesEl`, without which `renderFamilyChat` returns. -/
  familyChatMessagesEl : Bool
  /-- The two elements `familyRemindersContainer` and `familyRemindersList`, without one of
  which `renderFamilyReminders` returns. -/
  familyRemindersList : Bool
  /-- The next `renderCalendar()` completes. -/
  calendarDrawn : Bool
  /-- The cards of the next `renderDayDetail()` are built without a throw. -/
  dayDrawn : Bool
  /-- The next `renderPlanningTips(...)` completes. -/
  tipsDrawn : Bool

/-- The variables of the dashboard that the synchroniser reads and writes, with the items
of local storage it uses.  `null` and `undefined` are both `none`.  `renders` lists the
renders that the synchroniser and the chat send have called, in the order of the calls;
`selectedDateISO` is the day selected in the calendar. -/
structure Client where
  currentUser : String
  isAdmin : Bool
  usersState : List JVal
  currentUserRecord : Option JVal
  familiesState : List JVal
  currentFamily : Option JVal
  currentFamilyMember : Option JVal
  isFamilyOwner : Bool
  isFamilyAdult : Bool
  lastFamilySyncSignature : Option JVal
  lastPlannerSyncSignature : Option JVal
  plannerData : JObj
  backend : BackendStore
  storedFamilies : List JVal
  storedUsers : List JVal
  storedPlanner : Option JVal
  membershipItem : Option String
  chatInput : String
  feedback : Option (String × String)
  renders : List String
  selectedDateISO : String
  page : Page

/-- `loadFamilies()`: the families of the backend store when it has some (they are copied
to the item `families`), else the item `families`. -/
def loadFamilies (s : Client) : Client × List JVal :=
  if s.backend.families.length != 0 then
    ({ s with storedFamilies := s.backend.families }, s.backend.families)
  else (s, s.storedFamilies)

/-- `saveFamilies(families)`. -/
def saveFamilies (families : List JVal) (s : Client) : Client :=
  { s with
    storedFamilies := families
    backend := saveBackendStore
      { users := none, families := some families, planners := none, memberships := none,
        themes := none, shareCodes := none } false s.backend }

/-- `loadUsers()`. -/
def loadUsers (s : Client) : List JVal :=
  if s.backend.users.length != 0 then s.backend.users else s.storedUsers

/-- `saveUsers(users)`. -/
def saveUsers (users : List JVal) (s : Client) : Client :=
  { s with
    storedUsers := users
    backend := saveBackendStore
      { users := some users, families := none, planners := none, memberships := none,
        themes := none, shareCodes := none } false s.backend }

/-- The answer to a request of `DataClient`: `failed` when `fetch` rejects or the status
is not ok (the request throws), else the parsed body. -/
inductive Response where
  | failed : Response
  | ok (data : JVal) : Response

/-- The value `data.key` that a method of `DataClient` returns from the answer; the outer
`none` when the request throws or the body is `null`. -/
def Response.field (r : Response) (key : String) : Option (Option JVal) :=
  match r with
  | .failed => none
  | .ok .null => none
  | .ok data => some (property data key)

/-- `a || b` on two values that may be `undefined`. -/
def orElse (a b : Option JVal) : Option JVal :=
  if truthy a then a else b

/-- `x?.key`. -/
def optProp (x : Option JVal) (key : String) : Option JVal :=
  x.bind fun v => property v key

/-- `DataClient.getFamilyById(familyId)` for a truthy id: `data.family || null`. -/
def getFamilyById (r : Response) : Option (Option JVal) :=
  (r.field "family").map fun family => if truthy family then family else none

/-- `items.findIndex(x => x.id === id)`: the outer `none` when the callback throws on a
`null` element, the inner `none` for `-1`. -/
def findIndexById (id : Option JVal) : List JVal → Option (Option Nat)
  | [] => some none
  | .null :: _ => none
  | x :: rest =>
    if strictEq (property x "id") id then some (some 0)
    else (findIndexById id rest).map fun r => r.map fun i => i + 1

/-- `items.find(member => member.username === username)`: the outer `none` when the
callback throws on a `null` element. -/
def findMember (username : String) : List JVal → Option (Option JVal)
  | [] => some none
  | .null :: _ => none
  | member :: rest =>
    if strictEq (property member "username") (some (.str username)) then some (some member)
    else findMember username rest

/-- `members?.find(...)`: `undefined` for no members, a `TypeError` for a value that is
not an array. -/
def optionalFind (username : String) : Option JVal → Option (Option JVal)
  | none => some none
  | some .null => some none
  | some (.arr items) => findMember username items
  | some _ => none

/-- `members.find(...)`: a `TypeError` for anything that is not an array. -/
def strictFind (username : String) : Option JVal → Option (Option JVal)
  | some (.arr items) => findMember username items
  | _ => none

/-- The part common to the writes of the cached family: `currentFamilyMember`, the two role
flags and the signature. -/
def setMember (env : Env) (found : Option JVal) (s : Client) : Client :=
  let member := if found.isSome then found else s.currentFamilyMember
  let role := orElse (optProp member "role") (optProp s.currentUserRecord "role")
  { s with
    currentFamilyMember := member
    isFamilyOwner := strictEq role (some (.str "owner"))
    isFamilyAdult := strictEq role (some (.str "owner")) || strictEq role (some (.str "adult"))
    lastFamilySyncSignature := computeFamilySignature env s.currentFamily }

/-- How a call of an `async` function ends: it returns a value or it throws. -/
inductive Completion (α : Type) where
  | returned (value : α) : Completion α
  | thrown : Completion α

/-- The local variables of `updateFamily` that are alive while its request is pending. -/
structure Pending where
  index : Nat
  draft : JObj

/-- A copy `[...v]` of a list, or `[]` when `v` is not an array. -/
def listOrEmpty (v : Option JVal) : JVal :=
  if isArray v then .arr (arrayItems v) else .arr []

/-- The draft of `updateFamily`: a copy of the cached document with copies of its three
lists. -/
def draftOf (stored : JVal) : JObj :=
  JObj.set (JObj.set (JObj.set (spreadValue stored)
    "members" (listOrEmpty (property stored "members")))
    "reminders" (listOrEmpty (property stored "reminders")))
    "chat" (listOrEmpty (property stored "chat"))

/-- The feedback of `sendFamilyChatMessage` when `updateFamily` returns nothing. -/
def chatFailure : String × String :=
  ("We couldnâ€™t send that message right now. Try again in a moment.", "error")

/-- The feedback of the task form when `updateFamily` returns nothing. -/
def reminderFailure : String × String :=
  ("Shared reminder did not sync. Please try again shortly.", "error")

/-- `updateFamily(mutator)` up to its request: the draft is built from the cached family
that `loadFamilies()` returns, mutated, and written to the cache. -/
def updateFamilyBegin (env : Env) (mutator : JObj → JObj) (s : Client) :
    Client × Completion (Option Pending) :=
  match s.currentFamily with
  | none => (s, .returned none)
  | some currentFamily =>
    if !truthy (some currentFamily) then (s, .returned none)
    else
      let loaded := loadFamilies s
      let s1 := { loaded.1 with familiesState := loaded.2 }
      match findIndexById (property currentFamily "id") s1.familiesState with
      | none => (s1, .thrown)
      | some none => (s1, .returned none)
      | some (some index) =>
        let stored := s1.familiesState.getD index .null
        let draft := mutator (draftOf stored)
        let families := s1.familiesState.set index (.obj draft)
        let s2 := saveFamilies families { s1 with familiesState := families }
        let s3 := { s2 with currentFamily := some (.obj draft) }
        match strictFind s.currentUser (draft.get "members") with
        | none => (s3, .thrown)
        | some found => (setMember env found s3, .returned (some ⟨index, draft⟩))

/-- `updateFamily(mutator)` from the answer to its request on: the document the server
returns is adopted, and without one the draft is returned. -/
def updateFamilyEnd (env : Env) (pending : Pending) (reply : Response) (s : Client) :
    Client × JVal :=
  match reply.field "family" with
  | none => (s, .obj pending.draft)
  | some none => (s, .obj pending.draft)
  | some (some savedFamily) =>
    if !truthy (some savedFamily) then (s, .obj pending.draft)
    else
      let families := s.familiesState.set pending.index savedFamily
      let s1 := saveFamilies families { s with familiesState := families }
      let s2 := { s1 with currentFamily := some savedFamily }
      match strictFind s.currentUser (property savedFamily "members") with
      | none => (s2, .obj pending.draft)
      | some found => (setMember env found s2, savedFamily)

/-- `updateFamily(mutator)` with nothing running between its two halves; `push` is the
answer of the server to the `PUT` of a document. -/
def updateFamily (env : Env) (mutator : JObj → JObj) (push : JObj → Response) (s : Client) :
    Client × Completion (Option JVal) :=
  match updateFamilyBegin env mutator s with
  | (s1, .thrown) => (s1, .thrown)
  | (s1, .returned none) => (s1, .returned none)
  | (s1, .returned (some pending)) =>
    let r := updateFamilyEnd env pending (push pending.draft) s1
    (r.1, .returned (some r.2))

/-! ## The client: the family read from storage (`dashboard.js`) -/

/-- `items.find(test)` for a test that reads a property of the element: the outer `none`
when the callback throws on a `null` element. -/
def findWhere (test : JVal → Bool) : List JVal → Option (Option JVal)
  | [] => some none
  | .null :: _ => none
  | item :: rest => if test item then some (some item) else findWhere test rest

/-- `items.filter(user => user.username !== username)`: `none` when the callback throws on
a `null` element. -/
def filterOthers (username : String) : List JVal → Option (List JVal)
  | [] => some []
  | .null :: _ => none
  | user :: rest =>
    (filterOthers username rest).map fun r =>
      if strictEq (property user "username") (some (.str username)) then r else user :: r

/-- The test of the second search of `updateFamilyStateFromStorage`:
`family.code && String(family.code).trim().toUpperCase() === normalizedCode`. -/
def codeMatches (env : Env) (normalizedCode : String) (family : JVal) : Bool :=
  truthy (property family "code")
    && env.toUpperCase (env.trim (jsStringOpt (property family "code"))) == normalizedCode

/-- The branch of `updateFamilyStateFromStorage` without a family. -/
def clearFamily (s : Client) : Client :=
  { s with
    currentFamily := none
    currentFamilyMember := none
    isFamilyOwner := false
    isFamilyAdult := false
    lastFamilySyncSignature := none }

/-- The pointer that `updateFamilyStateFromStorage` resolves: `currentUserRecord?.familyId`,
else the item `familyhub_membership_<user>`, else the pointer of the backend store. -/
def storedFamilyId (s : Client) : Option JVal :=
  orElse (optProp s.currentUserRecord "familyId")
    (orElse (s.membershipItem.map fun t => JVal.str t)
      (getBackendMembership s.currentUser s.backend))

/-- The test `localStorage.getItem(key) !== id`: an item that is not there is `null`. -/
def itemDiffers (item : Option String) (id : Option JVal) : Bool :=
  match item, id with
  | none, some .null => false
  | none, _ => true
  | some t, v => !strictEq (some (.str t)) v

/-- The role that `updateFamilyStateFromStorage` resolves:
`currentFamilyMember?.role || currentUserRecord?.role || 'adult'`. -/
def resolvedRole (member : Option JVal) (s : Client) : Option JVal :=
  orElse (optProp member "role")
    (orElse (optProp s.currentUserRecord "role") (some (.str "adult")))

/-- The family found is made the current one: the member, the role flags and the
signature are written. -/
def setStoredFamily (env : Env) (family : JVal) (member : Option JVal) (s : Client) : Client :=
  { s with
    currentFamily := some family
    isFamilyOwner := strictEq (resolvedRole member s) (some (.str "owner"))
    isFamilyAdult := strictEq (resolvedRole member s) (some (.str "owner"))
      || strictEq (resolvedRole member s) (some (.str "adult"))
    currentFamilyMember := if member.isSome then member
      else some (.obj (literal [("username", some (.str s.currentUser)),
        ("role", resolvedRole member s)]))
    lastFamilySyncSignature := computeFamilySignature env (some family) }

/-- The user record is rewritten when there is none or when its `familyId` is not the id of
the family; `none` when the filter over the users throws. -/
def writeUserRecord (family : JVal) (role : Option JVal) (s : Client) : Option Client :=
  if !truthy s.currentUserRecord
      || !strictEq (optProp s.currentUserRecord "familyId") (property family "id") then
    (filterOthers s.currentUser (loadUsers s)).map fun others =>
      { saveUsers (others ++ [JVal.obj (JObj.setOpt (JObj.setOpt (JObj.set
            (spreadValue (s.currentUserRecord.getD (.obj []))) "username" (.str s.currentUser))
            "familyId" (property family "id")) "role" role)])
          { s with currentUserRecord := some (JVal.obj (JObj.setOpt (JObj.setOpt (JObj.set
            (spreadValue (s.currentUserRecord.getD (.obj []))) "username" (.str s.currentUser))
            "familyId" (property family "id")) "role" role)) } with
        usersState := others ++ [JVal.obj (JObj.setOpt (JObj.setOpt (JObj.set
            (spreadValue (s.currentUserRecord.getD (.obj []))) "username" (.str s.currentUser))
            "familyId" (property family "id")) "role" role)] }
  else some s

/-- The item `familyhub_membership_<user>` is set to the id of the family when it is not
this id already. -/
def writePointer (family : JVal) (s : Client) : Client :=
  if itemDiffers s.membershipItem (property family "id") then
    { s with
      membershipItem := some (jsStringOpt (property family "id"))
      backend := setBackendMembership s.currentUser (property family "id") s.backend }
  else s

/-- The branch of `updateFamilyStateFromStorage` with a family found: the member, the role
flags, the signature, the user record and the pointer are written.  `none` when it
throws. -/
def adoptStoredFamily (env : Env) (family : JVal) (s : Client) : Option Client :=
  match optionalFind s.currentUser (property family "members") with
  | none => none
  | some member =>
    (writeUserRecord family (resolvedRole member s) (setStoredFamily env family member s)).map
      (writePointer family)

/-- The statement `familiesState = loadFamilies()`. -/
def reloadFamilies (s : Client) : Client :=
  { (loadFamilies s).1 with familiesState := (loadFamilies s).2 }

/-- `updateFamilyStateFromStorage()`; `none` when it throws. -/
def updateFamilyStateFromStorage (env : Env) (s : Client) : Option Client :=
  let s1 := reloadFamilies s
  if s1.isAdmin then some (clearFamily s1)
  else if truthy (storedFamilyId s1) then
    match findWhere (fun f => strictEq (property f "id") (storedFamilyId s1))
        s1.familiesState with
    | none => none
    | some (some family) => adoptStoredFamily env family s1
    | some none =>
      match findWhere
          (codeMatches env (env.toUpperCase (env.trim (jsStringOpt (storedFamilyId s1)))))
          s1.familiesState with
      | none => none
      | some (some family) => adoptStoredFamily env family s1
      | some none =>
        some { clearFamily s1 with
          membershipItem := none
          backend := setBackendMembership s1.currentUser none s1.backend }
  else
    some { clearFamily s1 with
      backend := setBackendMembership s1.currentUser none s1.backend }

/-- The user record that `updateFamilyStateFromStorage` writes for a family. -/
def userRecordFor (family : JVal) (role : Option JVal) (s : Client) : JVal :=
  JVal.obj (JObj.setOpt (JObj.setOpt (JObj.set
    (spreadValue (s.currentUserRecord.getD (.obj []))) "username" (.str s.currentUser))
    "familyId" (property family "id")) "role" role)

/-- The variables as the branch of `updateFamilyStateFromStorage` with a family found
leaves them when it throws: the family is the current one already when the search of the
members throws; the member, the role flags, the signature and the user record are
written too when the filter over the users throws. -/
def adoptStoredFamilyThrown (env : Env) (family : JVal) (s : Client) : Client :=
  match optionalFind s.currentUser (property family "members") with
  | none => { s with currentFamily := some family }
  | some member =>
    { setStoredFamily env family member s with
      currentUserRecord := some (userRecordFor family (resolvedRole member s) s) }

/-- The variables as `updateFamilyStateFromStorage()` leaves them when it throws: the list
of families is reloaded; the current family is as it was when the search by id throws and
is `null` when the search by code throws. -/
def familyStateAtThrow (env : Env) (s : Client) : Client :=
  match findWhere (fun f => strictEq (property f "id") (storedFamilyId (reloadFamilies s)))
      (reloadFamilies s).familiesState with
  | none => reloadFamilies s
  | some (some family) => adoptStoredFamilyThrown env family (reloadFamilies s)
  | some none =>
    match findWhere
        (codeMatches env
          (env.toUpperCase (env.trim (jsStringOpt (storedFamilyId (reloadFamilies s))))))
        (reloadFamilies s).familiesState with
    | some (some family) => adoptStoredFamilyThrown env family (reloadFamilies s)
    | _ => { reloadFamilies s with currentFamily := none }

/-- A call of `updateFamilyStateFromStorage()`: the variables it leaves, and whether it
completed (`false`: it threw). -/
def readFamilyState (env : Env) (s : Client) : Client × Bool :=
  match updateFamilyStateFromStorage env s with
  | some s2 => (s2, true)
  | none => (familyStateAtThrow env s, false)

/-! ## The client: the chat on the page (`dashboard.js`) -/

/-- The time value of `new Date(v)`; `none` is an invalid date. -/
def newDate (env : Env) : Option JVal → Option Int
  | none => none
  | some .null => some 0
  | some (.bool b) => some (if b then 1 else 0)
  | some (.num n) => if n.natAbs ≤ 8640000000000000 then some n else none
  | some (.str t) => env.timeValue t
  | some w => env.timeValue (jsString w)

/-- The comparator of `renderFamilyChat`: `new Date(a.createdAt) - new Date(b.createdAt)`,
which throws on `null` and is `NaN`, that is `0` for the sort, for an invalid date. -/
def renderOrder (env : Env) (a b : JVal) : Option Int :=
  match a, b with
  | .null, _ => none
  | _, .null => none
  | x, y =>
    match newDate env (property x "createdAt"), newDate env (property y "createdAt") with
    | some t, some u => some (t - u)
    | _, _ => some 0

/-- The messages in the order in which `renderFamilyChat` appends their bubbles to the
page: none without a family or without messages; `none` when the rendering throws on a
`null` message. -/
def displayedChat (env : Env) (s : Client) : Option (List JVal) :=
  match s.currentFamily with
  | none => some []
  | some fam =>
    if !truthy (some fam) then some []
    else
      (sortBy (renderOrder env) (arrayItems (listOrEmpty (property fam "chat")))).bind
        fun sorted => if sorted.any fun m => JVal.same m .null then none else some sorted

/-! ## The client: the renders of the family (`dashboard.js`) -/

/-- One statement after another: the second runs when the first has completed. -/
def andThen (first : Client × Bool) (second : Client → Client × Bool) : Client × Bool :=
  if first.2 then second first.1 else first

/-- The synchroniser calls the render of the given name. -/
def logRender (name : String) (s : Client) : Client :=
  { s with renders := s.renders ++ [name] }

/-- The value is `null`. -/
def JVal.isNull : JVal → Bool
  | .null => true
  | _ => false

/-- The comparator of `renderFamilyMemberList`: `a.username.localeCompare(b.username)` on
two members, which throws on `null` and on a username that is not a string. -/
def rowOrder (env : Env) (a b : JVal) : Option Int :=
  match a, b with
  | .null, _ => none
  | _, .null => none
  | x, y => localeCompareValues env (property x "username") (property y "username")

/-- The rows of `renderFamilyMemberList` are built without a throw: the sort of the members
does not throw, and no member is `null`. -/
def memberRowsDrawn (env : Env) (members : List JVal) : Bool :=
  match sortBy (rowOrder env) members with
  | none => false
  | some sorted => sorted.all fun m => !m.isNull

/-- `renderFamilyMemberList()`: the variables it leaves, and whether it completed.  It reads
the family from storage first. -/
def renderFamilyMemberList (env : Env) (s : Client) : Client × Bool :=
  if !s.page.familyMemberListEl then (s, true)
  else
    andThen (readFamilyState env s) fun s1 =>
      if !truthy s1.currentFamily then (s1, true)
      else (s1, memberRowsDrawn env
        (arrayItems (listOrEmpty (optProp s1.currentFamily "members"))))

/-- `formatInlineText(text)` completes: the text is falsy, and then the result is empty, or
it is a string; another value has no method `replace`. -/
def inlineFormats (text : Option JVal) : Bool :=
  match text with
  | some (.str _) => true
  | v => !truthy v

/-- The bubble of a chat message is built without a throw:
`Intl.DateTimeFormat.format(new Date(message.createdAt || Date.now()))` throws a
`RangeError` for an invalid date, and `applyInlineFormatting(message.message)` throws for
a text that is truthy and not a string. -/
def bubbleDrawn (env : Env) (message : JVal) : Bool :=
  (if truthy (property message "createdAt")
    then (newDate env (property message "createdAt")).isSome else true)
  && inlineFormats (property message "message")

/-- `renderFamilyChat()`: the variables it leaves, and whether it completed.  It draws the
chat of `currentFamily` as it is and does not read the family from storage. -/
def renderFamilyChat (env : Env) (s : Client) : Client × Bool :=
  if !s.page.familyChatMessagesEl then (s, true)
  else
    match displayedChat env s with
    | none => (s, false)
    | some sorted => (s, sorted.all (bubbleDrawn env))

/-- `items.filter(reminder => reminder.date === dateISO)`: `none` when the callback throws
on a `null` element. -/
def remindersOn (dateISO : String) : List JVal → Option (List JVal)
  | [] => some []
  | .null :: _ => none
  | reminder :: rest =>
    (remindersOn dateISO rest).map fun r =>
      if strictEq (property reminder "date") (some (.str dateISO)) then reminder :: r else r

/-- The second filter of `getFamilyRemindersForDate`: an owner or adult sees every
reminder, another member the ones assigned to nobody or to the member. -/
def visibleReminder (s : Client) (reminder : JVal) : Bool :=
  s.isFamilyOwner || s.isFamilyAdult
    || (arrayItems (listOrEmpty (property reminder "assignedTo"))).isEmpty
    || (arrayItems (listOrEmpty (property reminder "assignedTo"))).any fun a =>
        strictEq (some a) (some (.str s.currentUser))

/-- `getFamilyRemindersForDate(dateISO)`; `none` when it throws. -/
def getFamilyRemindersForDate (dateISO : String) (s : Client) : Option (List JVal) :=
  if !truthy s.currentFamily then some []
  else
    (remindersOn dateISO (arrayItems (listOrEmpty (optProp s.currentFamily "reminders")))).map
      fun onDate => onDate.filter (visibleReminder s)

/-- The comparator of `renderFamilyReminders`:
`(a.time || '23:59').localeCompare(b.time || '23:59')`. -/
def reminderOrder (env : Env) (a b : JVal) : Option Int :=
  match a, b with
  | .null, _ => none
  | _, .null => none
  | x, y =>
    localeCompareValues env (some (jsOr (property x "time") (.str "23:59")))
      (some (jsOr (property y "time") (.str "23:59")))

/-- The card of a reminder is built without a throw: `applyInlineFormatting(reminder.notes)`
throws for notes that are truthy and not a string, and for a truthy time
`formatTimeDisplay(reminder.date, reminder.time)` formats the date of the text
`date + "T" + time` and throws a `RangeError` when it is invalid. -/
def reminderCardDrawn (env : Env) (reminder : JVal) : Bool :=
  !reminder.isNull
    && inlineFormats (property reminder "notes")
    && (if truthy (property reminder "time")
        then (env.timeValue (jsStringOpt (property reminder "date") ++ "T"
          ++ jsStringOpt (property reminder "time"))).isSome
        else true)

/-- `renderFamilyReminders(dateISO, reminderList)`: the variables it leaves, and whether it
completed.  It reads the family from storage first; without a list it takes the
reminders of the date. -/
def renderFamilyReminders (env : Env) (dateISO : String) (reminderList : Option (List JVal))
    (s : Client) : Client × Bool :=
  if !s.page.familyRemindersList then (s, true)
  else
    andThen (readFamilyState env s) fun s1 =>
      if !truthy s1.currentFamily then (s1, true)
      else
        match (match reminderList with
            | some list => some list
            | none => getFamilyRemindersForDate dateISO s1) with
        | none => (s1, false)
        | some relevant =>
          match sortBy (reminderOrder env) relevant with
          | none => (s1, false)
          | some sorted => (s1, sorted.all (reminderCardDrawn env))

/-- `renderFamilyOverview()`: the variables it leaves, and whether it completed.  With or
without a family it ends with the list of the members, the chat and the reminders of
the selected day. -/
def renderFamilyOverview (env : Env) (s : Client) : Client × Bool :=
  if !s.page.familyNameHeading then (s, true)
  else
    andThen (andThen (renderFamilyMemberList env s) (renderFamilyChat env)) fun t =>
      renderFamilyReminders env t.selectedDateISO none t

/-- The three renders at the end of `syncCurrentFamilyFromServer`:
`renderFamilyOverview(); renderFamilyChat(); renderFamilyReminders(selectedDateISO)`. -/
def renderFamily (env : Env) (s : Client) : Client × Bool :=
  andThen
    (andThen (renderFamilyOverview env (logRender "renderFamilyOverview" s)) fun t =>
      renderFamilyChat env (logRender "renderFamilyChat" t))
    fun t => renderFamilyReminders env t.selectedDateISO none (logRender "renderFamilyReminders" t)

/-- `syncCurrentFamilyFromServer({ silent })`, given the answer to its request.  Returns the
new state and the value returned (`none` is `null`).  The renders run inside the `try`:
when one of them throws, the `catch` returns `false` and the variables stay as the throw
left them. -/
def syncCurrentFamilyFromServer (env : Env) (silent : Bool) (reply : Response) (s : Client) :
    Client × Option Bool :=
  if s.isAdmin then (s, some false)
  else
    let familyId := orElse (optProp s.currentFamily "id")
      (orElse (optProp s.currentUserRecord "familyId") (s.membershipItem.map .str))
    if !truthy familyId then (s, some false)
    else
      match getFamilyById reply with
      | none => (s, some false)
      | some none => (s, some false)
      | some (some remoteFamily) =>
        let signature := computeFamilySignature env (some remoteFamily)
        let hasChanged := signature.map fun _ =>
          signatureDiffers signature s.lastFamilySyncSignature
        match findIndexById (property remoteFamily "id") s.familiesState with
        | none => (s, some false)
        | some index =>
          let families := match index with
            | none => s.familiesState ++ [remoteFamily]
            | some i => s.familiesState.set i remoteFamily
          let s1 := saveFamilies families { s with familiesState := families }
          let s2 := { s1 with currentFamily := some remoteFamily }
          match optionalFind s.currentUser (property remoteFamily "members") with
          | none => (s2, some false)
          | some found =>
            let s3 := setMember env found s2
            let s4 := { s3 with
              lastFamilySyncSignature := signature
              backend := setBackendMembership s.currentUser
                (orElse (property remoteFamily "id") familyId) s3.backend }
            if !silent || hasChanged == some true then
              if (renderFamily env s4).2 then ((renderFamily env s4).1, hasChanged)
              else ((renderFamily env s4).1, some false)
            else (s4, hasChanged)

/-- The mutator of `sendFamilyChatMessage`. -/
def pushChatMessage (id username text now : String) (fam : JObj) : JObj :=
  JObj.set fam "chat" (.arr (arrayItems (listOrEmpty (fam.get "chat")) ++
    [.obj [("id", .str id), ("username", .str username), ("message", .str text),
           ("createdAt", .str now)]]))

/-- `sendFamilyChatMessage()`: `id` and `now` are the generated id and the clock reading,
`push` the answer to the `PUT`, `pull` the answer to the request of the sync that follows.
The input of the chat exists.  A throw of `renderFamilyChat()` ends the call. -/
def sendFamilyChatMessage (env : Env) (id now : String) (push : JObj → Response)
    (pull : Response) (s : Client) : Client × Completion Unit :=
  if !truthy s.currentFamily then (s, .returned ())
  else
    let text := env.trim s.chatInput
    if text == "" then (s, .returned ())
    else
      match updateFamily env (pushChatMessage id s.currentUser text now) push s with
      | (s1, .thrown) => (s1, .thrown)
      | (s1, .returned result) =>
        if !truthy result then
          ({ s1 with feedback := some chatFailure }, .returned ())
        else
          let s2 := renderFamilyChat env (logRender "renderFamilyChat" { s1 with chatInput := "" })
          if s2.2 then ((syncCurrentFamilyFromServer env true pull s2.1).1, .returned ())
          else (s2.1, .thrown)

/-- The mutator of the shared reminder of the task form. -/
def pushReminder (reminder : JVal) (fam : JObj) : JObj :=
  JObj.set fam "reminders" (.arr (arrayItems (listOrEmpty (fam.get "reminders")) ++ [reminder]))

/-- The shared-reminder step of the submit handler of the task form: when the user owns
the current family and the box is ticked, the reminder is added through `updateFamily`. -/
def shareReminder (env : Env) (checked : Bool) (reminder : JVal) (push : JObj → Response)
    (s : Client) : Client × Completion Unit :=
  if truthy s.currentFamily && s.isFamilyOwner && checked then
    match updateFamily env (pushReminder reminder) push s with
    | (s1, .thrown) => (s1, .thrown)
    | (s1, .returned updated) =>
      if !truthy updated then
        ({ s1 with feedback := some reminderFailure }, .returned ())
      else (s1, .returned ())
  else (s, .returned ())

/-! ## The client: share codes and the cached planner (`dashboard.js`) -/

/-- `existingCodes.has(attempt)`. -/
def hasCode (existing : List JVal) (attempt : String) : Bool :=
  existing.any fun c => strictEq (some c) (some (.str attempt))

/-- `generateShareCode(existingCodes)`: at most 5000 attempts, the last one is returned
whether or not it is taken. -/
def generateShareCode (existing : List JVal) (rng : Rng) : String × Rng :=
  generateFamilyCodeLoop (hasCode existing) 4999 rng

/-- The loop `code = generateShareCode(...)` `while (existingCodes.has(code))` of
`ensureEntryShareCodes`, for at most `fuel` calls of `generateShareCode`; `none` when
none of them gives a free code. -/
def freshShareCode (existing : List JVal) : Nat → Rng → Option (String × Rng)
  | 0, _ => none
  | fuel + 1, rng =>
    if hasCode existing (generateShareCode existing rng).1 then
      freshShareCode existing fuel (generateShareCode existing rng).2
    else some (generateShareCode existing rng)

/-- How a function with an unbounded loop ends within the given fuel. -/
inductive Run (α : Type) where
  | done (value : α) : Run α
  | throws : Run α
  | outOfFuel : Run α

/-- The value with which a run ends, if it ends with one. -/
def Run.result {α : Type} : Run α → Option α
  | .done value => some value
  | .throws => none
  | .outOfFuel => none

/-- The assignment `entry.shareCode = code`: it has an effect on an object (an array
keeps its JSON form, and on a primitive value the assignment does nothing). -/
def withShareCode (entry : JVal) (code : String) : JVal :=
  match entry with
  | .obj o => .obj (JObj.set o "shareCode" (.str code))
  | other => other

/-- The second loop of `ensureEntryShareCodes`: every entry without a share code gets a
fresh one; `entry.shareCode` throws on `null`. -/
def assignShareCodes (fuel : Nat) : List JVal → List JVal → Rng → Run (List JVal)
  | [], _, _ => .done []
  | .null :: _, _, _ => .throws
  | entry :: rest, existing, rng =>
    if truthy (property entry "shareCode") then
      match assignShareCodes fuel rest existing rng with
      | .done r => .done (entry :: r)
      | .throws => .throws
      | .outOfFuel => .outOfFuel
    else
      match freshShareCode existing fuel rng with
      | none => .outOfFuel
      | some fresh =>
        match assignShareCodes fuel rest (existing ++ [.str fresh.1]) fresh.2 with
        | .done r => .done (withShareCode entry fresh.1 :: r)
        | .throws => .throws
        | .outOfFuel => .outOfFuel

/-- The set `existingCodes` before the second loop: the keys of the registry and the share
codes that the entries carry. -/
def existingCodes (entries : List JVal) (store : BackendStore) : List JVal :=
  (store.shareCodes.map fun kv => JVal.str kv.1) ++
    entries.filterMap fun entry =>
      if truthy (property entry "shareCode") then property entry "shareCode" else none

/-- `ensureEntryShareCodes(entries)` for a list: the entries as the call leaves them. -/
def ensureEntryShareCodes (fuel : Nat) (rng : Rng) (entries : List JVal)
    (store : BackendStore) : Run (List JVal) :=
  assignShareCodes fuel entries (existingCodes entries store) rng

/-- The assignment `o[key] = v` of an object or an array `v` to a plain object: for the key
`__proto__` that the object does not have as a property of its own, the assignment sets
the prototype and defines no property, so nothing of it is left once the object has gone
through `JSON.stringify`. -/
def JObj.assign (o : JObj) (key : String) (v : JVal) : JObj :=
  if key = "__proto__" ∧ key ∉ o.keys then o else JObj.set o key v

/-- The record that `persistPlannerEntries` files under a share code. -/
def shareRecord (username : String) (entry : JVal) : JVal :=
  .obj [("owner", .str username), ("entry", .obj (spreadValue entry))]

/-- `persistPlannerEntries(username, entries)` for a list. -/
def persistPlannerEntries (username : String) (entries : List JVal) (store : BackendStore) :
    BackendStore :=
  if username == "" then store
  else
    let kept := (JObj.spread [] store.shareCodes).filter fun kv =>
      !strictEq (property kv.2 "owner") (some (.str username))
    let sanitizedEntries := entries.map fun entry => JVal.obj (spreadValue entry)
    let shareCodes := sanitizedEntries.foldl
      (fun acc entry =>
        if truthy (property entry "shareCode") then
          JObj.assign acc (jsStringOpt (property entry "shareCode"))
            (shareRecord username entry)
        else acc) kept
    { store with
      planners := JObj.assign (JObj.spread [] store.planners) username (.arr sanitizedEntries)
      shareCodes := shareCodes }

/-- `getPlannerEntryByShareCode(code)`; `none` is `null`.  For a code that the registry does
not have, the read `store.shareCodes[code]` gives `undefined` or a property of
`Object.prototype`, which has no `entry`: the function returns `null` in both cases. -/
def getPlannerEntryByShareCode (code : Option JVal) (store : BackendStore) : Option JVal :=
  if !truthy code then none
  else
    let record := store.shareCodes.get (jsStringOpt code)
    if !truthy record || !truthy (optProp record "entry") then none
    else some (.obj (literal [("owner", optProp record "owner"),
      ("entry", (optProp record "entry").map fun entry => .obj (spreadValue entry))]))

/-- `DataClient.getPlanner(username)`: `data.planner || { entries: [] }`; `none` when the
request throws. -/
def DataClient.getPlanner (r : Response) : Option JVal :=
  (r.field "planner").map fun planner =>
    if truthy planner then planner.getD .null else .obj [("entries", .arr [])]

/-- `renderCalendar()` completes.  It assigns no variable. -/
def renderCalendar (s : Client) : Bool := s.page.calendarDrawn

/-- `renderDayDetail()`: the variables it leaves, and whether it completed.  It reads the
family from storage, builds the cards of the day, for which it takes the reminders of
the selected day, and ends with `renderFamilyReminders(selectedDateISO, reminders)` and
`renderPlanningTips(...)`. -/
def renderDayDetail (env : Env) (s : Client) : Client × Bool :=
  andThen (readFamilyState env s) fun s1 =>
    match getFamilyRemindersForDate s1.selectedDateISO s1 with
    | none => (s1, false)
    | some forDay =>
      if !s1.page.dayDrawn then (s1, false)
      else
        andThen (renderFamilyReminders env s1.selectedDateISO (some forDay) s1) fun t =>
          (t, t.page.tipsDrawn)

/-- The two renders at the end of `syncPlannerFromServer`:
`renderCalendar(); renderDayDetail()`. -/
def renderPlanner (env : Env) (s : Client) : Client × Bool :=
  if !renderCalendar (logRender "renderCalendar" s) then (logRender "renderCalendar" s, false)
  else renderDayDetail env (logRender "renderDayDetail" (logRender "renderCalendar" s))

/-- `syncPlannerFromServer({ silent })`, given the answer to its request; `none` when the
share-code loop does not end within the fuel. -/
def syncPlannerFromServer (env : Env) (fuel : Nat) (rng : Rng) (silent : Bool)
    (reply : Response) (s : Client) : Option (Client × Option Bool) :=
  if s.isAdmin then some (s, some false)
  else
    match DataClient.getPlanner reply with
    | none => some (s, some false)
    | some remotePlanner =>
      let entries := arrayItems (listOrEmpty (property remotePlanner "entries"))
      let signature := computePlannerSignature env entries
      let hasChanged := signature.map fun _ =>
        signatureDiffers signature s.lastPlannerSyncSignature
      if hasChanged != some true && silent then some (s, some false)
      else
        match ensureEntryShareCodes fuel rng entries s.backend with
        | .outOfFuel => none
        | .throws => some (s, some false)
        | .done entries2 =>
          let s1 := { s with
            backend := persistPlannerEntries s.currentUser entries2 s.backend
            plannerData := JObj.set s.plannerData "entries" (.arr entries2)
            storedPlanner := some (.obj [("entries", .arr entries2)])
            lastPlannerSyncSignature := signature }
          if !silent || hasChanged == some true then
            if (renderPlanner env s1).2 then some ((renderPlanner env s1).1, hasChanged)
            else some ((renderPlanner env s1).1, some false)
          else some (s1, hasChanged)

/-! ## The client: the entry form (`dashboard.js`) -/

/-- The order of two strings by code points, as a comparator result. -/
def codePointCompare : List Char → List Char → Int
  | [], [] => 0
  | [], _ :: _ => -1
  | _ :: _, [] => 1
  | x :: xs, y :: ys =>
    if x.toNat < y.toNat then -1 else if y.toNat < x.toNat then 1 else codePointCompare xs ys

/-- `a < b` on two strings: JavaScript compares code units, which is the order of the code
points for the characters of a date. -/
def strLess (a b : String) : Bool :=
  codePointCompare a.toList b.toList < 0

/-- The values of the inputs of the entry form. -/
structure TaskForm where
  type : String
  title : String
  notes : String
  priority : String
  startDate : String
  startTime : String
  endDate : String
  endTime : String

/-- What the submit handler makes of the form before it touches the planner: an alert, or
the end date of the entry. -/
def formEndDate (env : Env) (form : TaskForm) : Except String String :=
  if form.startDate == "" then .error "Please choose a start date."
  else if env.trim form.title == "" then .error "Please enter a title."
  else if (if form.type == "" then "task" else form.type) == "event" then
    if strLess (if form.endDate == "" then form.startDate else form.endDate) form.startDate
    then .error "End date cannot be before start date."
    else .ok (if form.endDate == "" then form.startDate else form.endDate)
  else .ok form.startDate

/-- The object `entryPayload` of the submit handler.  `editingEntryId` is empty when a new
entry is created; `existingEntry` is the entry found under that id. -/
def entryPayload (env : Env) (form : TaskForm) (endDate editingEntryId : String)
    (existingEntry : Option JVal) (generatedId now : String) : JObj :=
  [("id", .str (if editingEntryId == "" then generatedId else editingEntryId)),
   ("type", .str (if form.type == "" then "task" else form.type)),
   ("title", .str (env.trim form.title)),
   ("notes", .str (env.trim form.notes)),
   ("priority", .str (if form.priority == "" then "normal" else form.priority)),
   ("startDate", .str form.startDate),
   ("endDate", .str endDate),
   ("startTime", .str form.startTime),
   ("endTime", .str form.endTime),
   ("createdAt", if editingEntryId == "" then .str now
      else jsOr (optProp existingEntry "createdAt") (.str now)),
   ("shareCode", jsOr (optProp existingEntry "shareCode") .null)]

/-- `items.find(item => item.id === id)`: the outer `none` when the callback throws on a
`null` element. -/
def findEntry (id : String) : List JVal → Option (Option JVal)
  | [] => some none
  | .null :: _ => none
  | item :: rest =>
    if strictEq (property item "id") (some (.str id)) then some (some item)
    else findEntry id rest

/-- `items.map(item => (item.id === id ? payload : item))`: `none` when the callback throws
on a `null` element. -/
def replaceEntry (id : String) (payload : JVal) : List JVal → Option (List JVal)
  | [] => some []
  | .null :: _ => none
  | item :: rest =>
    (replaceEntry id payload rest).map fun r =>
      (if strictEq (property item "id") (some (.str id)) then payload else item) :: r

/-- The comparator of the entries in the submit handler:
`new Date(a.startDate) - new Date(b.startDate)`. -/
def startOrder (env : Env) (a b : JVal) : Option Int :=
  match a, b with
  | .null, _ => none
  | _, .null => none
  | x, y =>
    match newDate env (property x "startDate"), newDate env (property y "startDate") with
    | some t, some u => some (t - u)
    | _, _ => some 0

/-- What a submit of the entry form leaves: the state of the client, the alert shown if
any, and the entries sent with `DataClient.savePlanner` when it is called. -/
structure SubmitResult where
  state : Client
  alert : Option String
  saved : Option (List JVal)

/-- `savePlannerData()` for the given entries; the answer to its request is ignored by the
code.  The state after a throw is not modelled. -/
def savePlannerData (env : Env) (fuel : Nat) (rng : Rng) (entries : List JVal) (s : Client) :
    Run SubmitResult :=
  match ensureEntryShareCodes fuel rng entries s.backend with
  | .outOfFuel => .outOfFuel
  | .throws => .throws
  | .done entries2 =>
    .done
      { state := { s with
          plannerData := JObj.set s.plannerData "entries" (.arr entries2)
          storedPlanner := some (.obj (JObj.set s.plannerData "entries" (.arr entries2)))
          lastPlannerSyncSignature := computePlannerSignature env entries2
          backend := persistPlannerEntries s.currentUser entries2 s.backend }
        alert := none
        saved := if s.isAdmin then none else some entries2 }

/-- The submit handler of the entry form, up to the end of `savePlannerData()`. -/
def submitTaskForm (env : Env) (fuel : Nat) (rng : Rng) (form : TaskForm)
    (editingEntryId generatedId now : String) (s : Client) : Run SubmitResult :=
  match formEndDate env form with
  | .error message => .done { state := s, alert := some message, saved := none }
  | .ok endDate =>
    let entries := arrayItems (s.plannerData.get "entries")
    if editingEntryId == "" then
      match sortBy (startOrder env)
          (entries ++ [.obj (entryPayload env form endDate editingEntryId none generatedId now)])
        with
      | none => .throws
      | some sorted => savePlannerData env fuel rng sorted s
    else
      match findEntry editingEntryId entries with
      | none => .throws
      | some existingEntry =>
        match (replaceEntry editingEntryId
            (.obj (entryPayload env form endDate editingEntryId existingEntry generatedId now))
            entries).bind (sortBy (startOrder env)) with
        | none => .throws
        | some sorted => savePlannerData env fuel rng sorted s

/-! ## The client: what runs while a request is pending (`dashboard.js`) -/

/-- A client together with the local variables of the call of `updateFamily` whose request
is pending, if there is one. -/
structure Session where
  client : Client
  pending : Option Pending

/-- What the event loop of the page runs: the user sends a chat message (`updateFamily` up
to its request), the answer to the pending `PUT` arrives (the rest of `updateFamily`), or
the callback of `setInterval` for the family runs
(`syncCurrentFamilyFromServer({ silent: true })`, given the answer to its request).  The
callback has no test of a pending mutation. -/
inductive Event where
  | sendStarts (id text now : String) : Event
  | pushAnswered (reply : Response) : Event
  | familyTick (reply : Response) : Event

/-- One event. -/
def Session.step (env : Env) : Event → Session → Session
  | .sendStarts id text now, σ =>
    match updateFamilyBegin env (pushChatMessage id σ.client.currentUser text now) σ.client with
    | (c, .returned (some pending)) => ⟨c, some pending⟩
    | (c, _) => ⟨c, σ.pending⟩
  | .pushAnswered reply, σ =>
    match σ.pending with
    | some pending => ⟨(updateFamilyEnd env pending reply σ.client).1, none⟩
    | none => σ
  | .familyTick reply, σ =>
    ⟨(syncCurrentFamilyFromServer env true reply σ.client).1, σ.pending⟩

/-- A sequence of events. -/
def Session.run (env : Env) : List Event → Session → Session
  | [], σ => σ
  | e :: rest, σ => Session.run env rest (Session.step env e σ)

/-! ## The client and the server together -/

/-- The answer that `DataClient` sees for a reply of the handler of `api/families`: the body
`{ family, user }` when the status is ok, a failure otherwise. -/
def Outcome.response (o : Outcome) : Response :=
  if 200 ≤ o.status ∧ o.status < 300 then
    .ok (.obj (literal [("family", o.family.map fun f => JVal.obj f),
      ("user", o.user.map fun u => JVal.obj u)]))
  else .failed

/-- The answer of a server whose store is `store` to the `PUT` of a family document. -/
def serverPut (store : Store) (draft : JObj) : Response :=
  (putFamily (some (.obj draft)) store).response

/-! ## Vocabulary of the statements -/

/-- The attempt drawn in round `k` (counted from 0) of the loop started on `rng`. -/
def attemptNo (rng : Rng) (k : Nat) : String := drawAttempt (rng.advance (6 * k))

/-- The document `createFamily` builds, given the code it generated. -/
def newFamilyDoc (name : JVal) (ownerUsername id now code : String) : JObj :=
  [("id", .str id), ("name", name), ("code", .str code), ("owner", .str ownerUsername),
   ("createdAt", .str now),
   ("members", .arr [.obj [("username", .str ownerUsername), ("role", .str "owner")]]),
   ("reminders", .arr []), ("chat", .arr [])]

/-- The roster of a family document: the elements of `members` when it is an array. -/
def roster (family : JObj) : List JVal := arrayItems (family.get "members")

/-- The roster entry `{ username, role }` that `joinFamilyByCode` pushes. -/
def memberEntry (username : String) (role : JVal) : JVal :=
  .obj [("username", .str username), ("role", role)]

/-- The number of roster entries that are objects with the given username. -/
def entriesFor (username : String) (items : List JVal) : Nat :=
  (items.filter fun m =>
    match m with
    | .obj o => strictEq (JObj.get o "username") (some (.str username))
    | _ => false).length

/-- The family document `joinFamilyByCode` leaves: the document itself for a member,
otherwise the document with the entry appended to its roster. -/
def joinedDoc (family : JObj) (username : String) (role : JVal) (isMember : Bool) : JObj :=
  if isMember then family
  else family.set "members" (.arr (roster family ++ [memberEntry username role]))

/-- The families of the store after `joinFamilyByCode` has written the document `family`
in place of the family found by code and of every family with the same id. -/
def familiesAfterJoin (code : String) (family : JObj) (families : List JObj) : List JObj :=
  (replaceFirst (fun item => strictEq (item.get "code") (some (.str code))) family families).map
    fun item => if strictEq (item.get "id") (family.get "id") then family else item

/-- The user records after `updateUser(username, { familyId, role })`. -/
def usersAfterJoin (username familyId : String) (role : JVal) (users : List JObj) : List JObj :=
  users.map fun user =>
    if strictEq (user.get "username") (some (.str username))
    then (user.set "familyId" (.str familyId)).set "role" role
    else user

/-- No two families of the store have the same value of `code`. -/
def CodesDistinct (s : Store) : Prop :=
  s.families.Pairwise fun f g => f.get "code" ≠ g.get "code"

/-- The document `regenerateFamilyCode` writes for a family: `{ ...family, code, regeneratedAt }`. -/
def regeneratedDoc (family : JObj) (code now : String) : JObj :=
  (family.set "code" (.str code)).set "regeneratedAt" (.str now)

/-- The value of `chat` that `PUT` stores for a submitted document: the sanitized messages
of an array, the empty array for anything else; `none` when sanitizing throws. -/
def sanitizedChatOf (d : JObj) : Option (List JVal) :=
  if isArray (d.get "chat") then sanitizeChat (arrayItems (d.get "chat")) else some []

/-- The field `k` of the merge `{ ...stored, ...submitted }`: the submitted value when the
submitted document has the key, the stored value otherwise. -/
def mergedField (stored submitted : JObj) (k : String) : Option JVal :=
  match submitted.get k with
  | some v => some v
  | none => stored.get k

/-- No two families of the store have the same value of `id`. -/
def IdsDistinct (s : Store) : Prop :=
  s.families.Pairwise fun f g => f.get "id" ≠ g.get "id"

/-- Every family of the store is a proper object: its keys are distinct. -/
def KeysDistinct (s : Store) : Prop :=
  ∀ f ∈ s.families, f.keys.Nodup

/-- Some attempt among the 2000 of a code generation is the code of no family. -/
def SomeAttemptFree (rng : Rng) (s : Store) : Prop :=
  ∃ k, k < 2000 ∧ ∀ f ∈ s.families, f.get "code" ≠ some (.str (attemptNo rng k))

/-- The conditions under which a request keeps the invite codes distinct: a `POST` gets an
unused family id and finds a free code within its 2000 attempts; a regeneration finds a
free code within its 2000 attempts; the document of a `PUT` is a proper object that has no
`code` or has the code of the stored family with its id. -/
def Request.Guarded : Request → Store → Prop
  | .post _ _ _ _ _ familyId _ rng, s =>
    findFamilyById s (some (.str familyId)) = none ∧ SomeAttemptFree rng s
  | .put family, s =>
    ∀ d : JObj, family = some (.obj d) →
      d.keys.Nodup ∧ ∀ f ∈ s.families, strictEq (f.get "id") (d.get "id") = true →
        d.get "code" = none ∨ d.get "code" = f.get "code"
  | .join _ _ _ _ _ _, _ => True
  | .regenerate _ rng _, s => SomeAttemptFree rng s
  | .updateMemberRole _ _ _, _ => True

/-- Every request of the sequence is guarded in the store it is handled in. -/
def GuardedRun : List Request → Store → Prop
  | [], _ => True
  | r :: rest, s => r.Guarded s ∧ GuardedRun rest (handle r s).store

/-- The invariant carried along a guarded run. -/
def Inv (s : Store) : Prop := KeysDistinct s ∧ IdsDistinct s ∧ CodesDistinct s

/-- The number of roster entries whose role is `owner`. -/
def ownerCount (items : List JVal) : Nat :=
  items.countP fun e => strictEq (property e "role") (some (.str "owner"))

/-- The role of a roster entry is one of `owner`, `adult`, `kid`. -/
def RoleOk (e : JVal) : Prop :=
  property e "role" = some (.str "owner") ∨ property e "role" = some (.str "adult")
    ∨ property e "role" = some (.str "kid")

/-- Single ownership, for a roster and the value of the `owner` field: the owner field is a
username, exactly one entry has the role `owner`, an entry with the role `owner` has the
username of the owner field, and every role is one of `owner`, `adult`, `kid`. -/
def RosterOk (owner : Option JVal) (items : List JVal) : Prop :=
  ∃ o, owner = some (.str o)
    ∧ ownerCount items = 1
    ∧ (∀ e ∈ items, property e "role" = some (.str "owner") →
        property e "username" = some (.str o))
    ∧ ∀ e ∈ items, RoleOk e

/-- Single ownership of a family document. -/
def OwnerOk (f : JObj) : Prop := RosterOk (f.get "owner") (roster f)

/-- The role of a request is `adult` or `kid`. -/
def PlainRole (role : Option JVal) : Prop :=
  role = some (.str "adult") ∨ role = some (.str "kid")

/-- The conditions under which a request keeps single ownership: the document of a `PUT`
is a proper object that has no `members` or the stored ones, and no `owner` or the stored
one; a `join` gives the role `adult` or `kid` (or none, which means `adult`); an
`updateMemberRole` gives the role `adult` or `kid` to a user who is not the owner of the
family. -/
def Request.RoleGuarded : Request → Store → Prop
  | .post _ _ _ _ _ _ _ _, _ => True
  | .put family, s =>
    ∀ d : JObj, family = some (.obj d) →
      d.keys.Nodup ∧ ∀ f ∈ s.families, strictEq (f.get "id") (d.get "id") = true →
        (d.get "members" = none ∨ d.get "members" = f.get "members")
          ∧ (d.get "owner" = none ∨ d.get "owner" = f.get "owner")
  | .join _ _ role _ _ _, _ => role = none ∨ PlainRole role
  | .regenerate _ _ _, _ => True
  | .updateMemberRole username familyId role, s =>
    PlainRole role ∧ ∀ f, findFamilyById s (some (.str familyId)) = some f →
      f.get "owner" ≠ some (.str username)

/-- Every request of the sequence is role-guarded in the store it is handled in. -/
def RoleGuardedRun : List Request → Store → Prop
  | [], _ => True
  | r :: rest, s => r.RoleGuarded s ∧ RoleGuardedRun rest (handle r s).store

/-- The invariant carried along a role-guarded run. -/
def OwnerInv (s : Store) : Prop := KeysDistinct s ∧ ∀ f ∈ s.families, OwnerOk f

/-- The comparator puts `a` before `b`, or leaves them as they are. -/
def Before {α : Type} (cmp : α → α → Option Int) (a b : α) : Prop :=
  ∃ c, cmp a b = some c ∧ c ≤ 0

/-- The comparator is consistent on the elements that satisfy `S`: it does not throw, it
gives `0` only for equal elements, swapping the arguments swaps the sign, and coming
before is transitive. -/
structure Consistent {α : Type} (cmp : α → α → Option Int) (S : α → Prop) : Prop where
  total : ∀ a b, S a → S b → ∃ c, cmp a b = some c
  zero : ∀ a b, S a → S b → cmp a b = some 0 → a = b
  flip : ∀ a b c d, S a → S b → cmp a b = some c → cmp b a = some d → (c < 0 ↔ 0 < d)
  trans : ∀ a b c x y, S a → S b → S c → cmp a b = some x → cmp b c = some y →
    x < 0 → y < 0 → ∃ z, cmp a c = some z ∧ z < 0

/-- On the strings that satisfy `P`, `localeCompare` is `0` only for equal strings, swapping
the arguments swaps the sign, and coming before is transitive. -/
def OrdersStrings (env : Env) (P : String → Prop) : Prop :=
  (∀ a b, P a → P b → env.localeCompare a b = 0 → a = b)
    ∧ (∀ a b, P a → P b → (env.localeCompare a b < 0 ↔ 0 < env.localeCompare b a))
    ∧ ∀ a b c, P a → P b → P c → env.localeCompare a b < 0 → env.localeCompare b c < 0 →
        env.localeCompare a c < 0

/-- The value of the key is a string, for some element of the list. -/
def StringOf (key : String) (items : List JVal) (n : String) : Prop :=
  ∃ m ∈ items, property m key = some (.str n)

/-- The members of a roster can be ordered: every username is a string, no two entries
have the same username, and `localeCompare` orders the usernames. -/
def MembersOrdered (env : Env) (members : List JVal) : Prop :=
  (∀ m ∈ members, ∃ n, property m "username" = some (.str n))
    ∧ members.Pairwise (fun a b => property a "username" ≠ property b "username")
    ∧ OrdersStrings env (StringOf "username" members)

/-- The messages of a chat can be ordered: every `id` is a string, no two messages have the
same `id`, every `createdAt` is a non-empty string that is a valid date, two messages
with the same date have the same `createdAt`, and `localeCompare` orders the ids. -/
def ChatOrdered (env : Env) (chat : List JVal) : Prop :=
  (∀ m ∈ chat, ∃ i, property m "id" = some (.str i))
    ∧ chat.Pairwise (fun a b => property a "id" ≠ property b "id")
    ∧ (∀ m ∈ chat, ∃ t v, property m "createdAt" = some (.str t) ∧ t ≠ ""
        ∧ env.timeValue t = some v)
    ∧ (∀ t u, StringOf "createdAt" chat t → StringOf "createdAt" chat u →
        env.timeValue t = env.timeValue u → t = u)
    ∧ OrdersStrings env (StringOf "id" chat)

/-- The object built from a list element that is not `null`. -/
def projected (keys : List String) (x : JVal) : JVal :=
  .obj (literal (keys.map fun k => (k, property x k)))

/-- A family document with the given roster and chat. -/
def withLists (family : JObj) (members chat : List JVal) : JObj :=
  (family.set "members" (.arr members)).set "chat" (.arr chat)

/-- The document that `updateFamily` is about to push, when its first half returns one. -/
def pushedDraft (r : Client × Completion (Option Pending)) : Option JObj :=
  match r.2 with
  | .returned (some pending) => some pending.draft
  | _ => none

/-- The value is an array of objects. -/
def ObjectList (v : Option JVal) : Prop :=
  ∃ items, v = some (.arr items) ∧ ∀ m ∈ items, ∃ o, m = JVal.obj o

/-- The store of the server after the client has pushed a chat message: the `PUT` of the
draft that `updateFamily` builds, or the store as it was when nothing is pushed. -/
def serverAfterSend (env : Env) (id username text now : String) (s : Client)
    (store : Store) : Store :=
  match pushedDraft (updateFamilyBegin env (pushChatMessage id username text now) s) with
  | some draft => (putFamily (some (.obj draft)) store).store
  | none => store

/-- The instant of a chat message as `renderFamilyChat` reads it. -/
def chatTime (env : Env) (m : JVal) : Int :=
  (newDate env (property m "createdAt")).getD 0

/-- The user is named by an entry of the roster of the family. -/
def InRoster (username : String) (family : JObj) : Prop :=
  ∃ e ∈ roster family, property e "username" = some (.str username)

/-- Roster and back-reference agree: a user record whose user is in the roster of a family
has the id of that family as `familyId`. -/
def BackRef (s : Store) : Prop :=
  ∀ f ∈ s.families, ∀ u, InRoster u f →
    ∀ r ∈ s.users, JObj.get r "username" = some (.str u) → JObj.get r "familyId" = f.get "id"

/-- The user who makes the call is in no roster of the store. -/
def Call.Fresh : Call → Store → Prop
  | .create _ ownerUsername _ _ _, s => ∀ f ∈ s.families, ¬ InRoster ownerUsername f
  | .join username _ _, s => ∀ f ∈ s.families, ¬ InRoster username f

/-- Every call of the sequence is made by a user who is in no roster at that time. -/
def FreshCalls : List Call → Store → Prop
  | [], _ => True
  | c :: rest, s => c.Fresh s ∧ FreshCalls rest (c.apply s)

/-- The invariant carried along a sequence of fresh calls. -/
def BackRefInv (s : Store) : Prop :=
  BackRef s ∧ ∀ f ∈ s.families, ∃ i, JObj.get f "id" = some (.str i)

/-- The cache can be read without a throw: no family and no user of the lists read is
`null`, and the members of every family are an array of objects or absent. -/
def ReadableCache (s : Client) : Prop :=
  (∀ f ∈ (loadFamilies s).2, f ≠ .null
      ∧ (property f "members" = none ∨ ObjectList (property f "members")))
    ∧ ∀ u ∈ loadUsers s, u ≠ .null

/-- Every entry without a share code gets the first attempt drawn for it: none of these
attempts is among the codes known when it is drawn. -/
def FreshDraws : List JVal → List JVal → Rng → Prop
  | [], _, _ => True
  | entry :: rest, existing, rng =>
    if truthy (property entry "shareCode") then FreshDraws rest existing rng
    else hasCode existing (drawAttempt rng) = false
      ∧ FreshDraws rest (existing ++ [.str (drawAttempt rng)]) (rng.advance 6)

/-- The character of the last decimal digit of a number. -/
def digitChar (n : Nat) : Char := Char.ofNat (48 + n % 10)

/-- The hyphen between the parts of a date. -/
def dash : Char := Char.ofNat 45

/-- The digits of a year in the value of a date input: four of them, and from the year
10000 on all of them. -/
def yearChars (year : Nat) : List Char :=
  (if year / 10000 = 0 then [] else Nat.toDigits 10 (year / 10000))
    ++ [digitChar (year / 1000), digitChar (year / 100), digitChar (year / 10), digitChar year]

/-- The value that a date input of the browser holds for the day `(year, month, day)`:
`yyyy-mm-dd`, the year with at least four digits. -/
def dateInputValue (day : Nat × Nat × Nat) : String :=
  String.mk (yearChars day.1
    ++ [dash, digitChar (day.2.1 / 10), digitChar day.2.1, dash, digitChar (day.2.2 / 10),
        digitChar day.2.2])

/-- The day `a` is earlier than the day `b`, both given as `(year, month, day)`. -/
def EarlierDay (a b : Nat × Nat × Nat) : Prop :=
  a.1 < b.1 ∨ (a.1 = b.1 ∧ (a.2.1 < b.2.1 ∨ (a.2.1 = b.2.1 ∧ a.2.2 < b.2.2)))

/-- The year of the day has at most four digits, its month and its day at most two. -/
def FourDigitYear (day : Nat × Nat × Nat) : Prop :=
  day.1 < 10000 ∧ day.2.1 < 100 ∧ day.2.2 < 100

/-- The order of two lists of numbers, as `codePointCompare` has it on the code points of
two strings. -/
def compareNats : List Nat → List Nat → Int
  | [], [] => 0
  | [], _ :: _ => -1
  | _ :: _, [] => 1
  | x :: xs, y :: ys =>
    if x < y then -1 else if y < x then 1 else compareNats xs ys

/-- What a read of the family from storage does not write, once the list of families is
reloaded: the flags of the session, the planner, the page, and the list of families in the
three places where the client keeps it. -/
def Client.kept (s : Client) :
    Bool × String × JObj × Option JVal × Option JVal × String × Option (String × String)
      × List String × String × Page × List JVal × List JVal × List JVal :=
  (s.isAdmin, s.currentUser, s.plannerData, s.lastPlannerSyncSignature, s.storedPlanner,
    s.chatInput, s.feedback, s.renders, s.selectedDateISO, s.page, s.familiesState,
    s.storedFamilies, s.backend.families)

/-- The list of families is `families` in the three places where the client keeps it: the
variable, the item of local storage and the backend store. -/
def Cached (families : List JVal) (s : Client) : Prop :=
  s.familiesState = families ∧ s.storedFamilies = families ∧ s.backend.families = families

/-- The cached list after `syncCurrentFamilyFromServer` has put the pulled family into it:
at the index found for its id, or at the end. -/
def placeFamily (index : Option Nat) (remoteFamily : JVal) (families : List JVal) :
    List JVal :=
  match index with
  | none => families ++ [remoteFamily]
  | some i => families.set i remoteFamily

/-- The variables after the writes of `syncCurrentFamilyFromServer`, before its renders:
the list with the pulled family is saved, and the current family, the member, the role
flags, the signature and the pointer of the backend store are set. -/
def adoptRemoteFamily (env : Env) (remoteFamily : JVal) (index : Option Nat)
    (found : Option JVal) (s : Client) : Client :=
  { setMember env found
      { saveFamilies (placeFamily index remoteFamily s.familiesState)
          { s with familiesState := placeFamily index remoteFamily s.familiesState } with
        currentFamily := some remoteFamily } with
    lastFamilySyncSignature := computeFamilySignature env (some remoteFamily)
    backend := setBackendMembership s.currentUser
      (orElse (property remoteFamily "id") (orElse (optProp s.currentFamily "id")
        (orElse (optProp s.currentUserRecord "familyId") (s.membershipItem.map .str))))
      (setMember env found
        { saveFamilies (placeFamily index remoteFamily s.familiesState)
            { s with familiesState := placeFamily index remoteFamily s.familiesState } with
          currentFamily := some remoteFamily }).backend }

/-- The text of every message of the chat is a string. -/
def TextsAreStrings (chat : List JVal) : Prop :=
  ∀ m ∈ chat, ∃ t, property m "message" = some (.str t)

/-- The reminders can be drawn: every reminder is an object whose notes are absent or a
string and whose time is absent, empty, or a string that gives with the date of the
reminder, a string too, a valid instant. -/
def RemindersDrawable (env : Env) (reminders : List JVal) : Prop :=
  ∀ r ∈ reminders, (∃ o, r = JVal.obj o)
    ∧ (property r "notes" = none ∨ ∃ n, property r "notes" = some (.str n))
    ∧ (property r "time" = none ∨ property r "time" = some (.str "")
        ∨ ∃ d t v, property r "date" = some (.str d) ∧ property r "time" = some (.str t)
            ∧ env.timeValue (d ++ "T" ++ t) = some v)

/-- The pulled family is the one that the client has adopted: the user is not the
administrator, the list of families is `families` in the three places where it is kept,
the pointer that `updateFamilyStateFromStorage` resolves is the id of the family, no user
of the cache is `null`, and the current family and the last signature are those of the
family. -/
def Adopted (env : Env) (remote : JVal) (families : List JVal) (t : Client) : Prop :=
  t.isAdmin = false ∧ Cached families t ∧ storedFamilyId t = property remote "id"
    ∧ (∀ u ∈ loadUsers t, u ≠ .null) ∧ t.currentFamily = some remote
    ∧ t.lastFamilySyncSignature = computeFamilySignature env (some remote)

/-- The entries of a planner can be ordered: the `id`, the `startDate` and the `startTime` of
every entry are strings, no two entries have the same `id`, and `localeCompare` orders
the strings. -/
def EntriesOrdered (env : Env) (entries : List JVal) : Prop :=
  (∀ e ∈ entries, ∃ i d t, property e "id" = some (.str i)
      ∧ property e "startDate" = some (.str d) ∧ property e "startTime" = some (.str t))
    ∧ entries.Pairwise (fun a b => property a "id" ≠ property b "id")
    ∧ OrdersStrings env (fun _ => True)

/-- The object that `computePlannerSignature` builds from an entry that is not `null`. -/
def projectedEntry (entry : JVal) : JVal :=
  .obj (literal ((plannerKeys.map fun k => (k, property entry k)) ++
    [("assignees", some (.arr (if isArray (property entry "assignees")
        then defaultSort (arrayItems (property entry "assignees")) else [])))]))

/-- The variables after the writes of `syncPlannerFromServer`, before its renders, for
entries that all carry a share code: the entries are filed in the backend store, cached
and stored, and the signature is set. -/
def adoptPlanner (env : Env) (entries : List JVal) (s : Client) : Client :=
  { s with
    backend := persistPlannerEntries s.currentUser entries s.backend
    plannerData := JObj.set s.plannerData "entries" (.arr entries)
    storedPlanner := some (.obj [("entries", .arr entries)])
    lastPlannerSyncSignature := computePlannerSignature env entries }

/-! ## Sample data -/

/-- The random source whose every draw is index 0, the letter `A`. -/
def zeroRng : Rng := fun _ => 0

/-- A store with one user and one family, whose invite code is `AAAAAA`. -/
def oneFamilyStore : Store :=
  { users := [[("username", .str "alice"), ("familyId", .str "fam_1"), ("role", .str "owner")],
              [("username", .str "bob"), ("familyId", .null), ("role", .str "solo")]],
    planner := [("alice", .obj [("entries", .arr [])]), ("bob", .obj [("entries", .arr [])])],
    families := [newFamilyDoc (.str "Smiths") "alice" "fam_1" "2024-05-01T10:00:00.000Z" "AAAAAA"] }

/-- The random source whose every draw is index 1, the letter `B`. -/
def onesRng : Rng := fun _ => 1

/-- A page with every element, on which the planner is drawn without a throw. -/
def fullPage : Page :=
  { familyNameHeading := true, familyMemberListEl := true, familyChatMessagesEl := true,
    familyRemindersList := true, calendarDrawn := true, dayDrawn := true, tipsDrawn := true }

/-- The family of `alice` with `bob` as a kid. -/
def smithsWithBob : JObj :=
  [("id", .str "fam_1"), ("name", .str "Smiths"), ("code", .str "AAAAAA"),
   ("owner", .str "alice"), ("createdAt", .str "2024-05-01T10:00:00.000Z"),
   ("members", .arr [memberEntry "alice" (.str "owner"), memberEntry "bob" (.str "kid")]),
   ("reminders", .arr []), ("chat", .arr [])]

/-- The one-family store after `bob` has joined the family as a kid. -/
def twoMemberStore : Store :=
  { users := [[("username", .str "alice"), ("familyId", .str "fam_1"), ("role", .str "owner")],
              [("username", .str "bob"), ("familyId", .str "fam_1"), ("role", .str "kid")]],
    planner := [("alice", .obj [("entries", .arr [])]), ("bob", .obj [("entries", .arr [])])],
    families := [smithsWithBob] }

/-- A store whose family lists `bob` twice (as a `PUT` of the family document can leave it). -/
def doubleEntryStore : Store :=
  { users := [[("username", .str "alice"), ("familyId", .str "fam_1"), ("role", .str "owner")],
              [("username", .str "bob"), ("familyId", .str "fam_1"), ("role", .str "kid")]],
    planner := [("alice", .obj [("entries", .arr [])]), ("bob", .obj [("entries", .arr [])])],
    families := [[("id", .str "fam_1"), ("name", .str "Smiths"), ("code", .str "AAAAAA"),
                  ("owner", .str "alice"), ("createdAt", .str "2024-05-01T10:00:00.000Z"),
                  ("members", .arr [memberEntry "alice" (.str "owner"),
                                    memberEntry "bob" (.str "kid"),
                                    memberEntry "bob" (.str "kid")]),
                  ("reminders", .arr []), ("chat", .arr [])]] }

/-- The random source whose every draw is index 2, the letter `C`. -/
def twosRng : Rng := fun _ => 2

/-- A clock that always reads the same instant. -/
def stillClock : Clock := fun _ => "2024-05-03T09:00:00.000Z"

/-- A document submitted to `PUT`: the id of the family and a new name, nothing else. -/
def renameDoc : JObj := [("id", .str "fam_1"), ("name", .str "Smith family")]

/-- Three requests: `alice` and `bob` each create a family (the owners are created on the
fly; the draws give the codes `AAAAAA` and `BBBBBB`), then a `PUT` gives the family of
`bob` the code of the family of `alice`. -/
def hijackRequests : List Request :=
  [.post (some (.str "Smiths")) "alice" (some (.obj [("password", .str "pw1")]))
      "user_1" "2024-05-01T09:59:00.000Z" "fam_1" "2024-05-01T10:00:00.000Z" zeroRng,
   .post (some (.str "Jones")) "bob" (some (.obj [("password", .str "pw2")]))
      "user_2" "2024-05-02T09:59:00.000Z" "fam_2" "2024-05-02T10:00:00.000Z" onesRng,
   .put (some (.obj [("id", .str "fam_2"), ("code", .str "AAAAAA")]))]

/-- Requests that keep the codes distinct: the two creations of `hijackRequests`, then `bob`
joins the family of `alice`, the code of that family is regenerated, and it is renamed. -/
def quietRequests : List Request :=
  [.post (some (.str "Smiths")) "alice" (some (.obj [("password", .str "pw1")]))
      "user_1" "2024-05-01T09:59:00.000Z" "fam_1" "2024-05-01T10:00:00.000Z" zeroRng,
   .post (some (.str "Jones")) "bob" (some (.obj [("password", .str "pw2")]))
      "user_2" "2024-05-02T09:59:00.000Z" "fam_2" "2024-05-02T10:00:00.000Z" onesRng,
   .join "bob" "AAAAAA" (some (.str "kid")) none "user_3" "2024-05-02T11:00:00.000Z",
   .regenerate "fam_1" twosRng stillClock,
   .put (some (.obj renameDoc))]

/-- Two requests: `alice` creates a family (code `AAAAAA`), then `bob` joins it with the
role `owner`. -/
def secondOwnerRequests : List Request :=
  [.post (some (.str "Smiths")) "alice" (some (.obj [("password", .str "pw1")]))
      "user_1" "2024-05-01T09:59:00.000Z" "fam_1" "2024-05-01T10:00:00.000Z" zeroRng,
   .join "bob" "AAAAAA" (some (.str "owner")) (some (.obj [("password", .str "pw2")]))
      "user_2" "2024-05-02T11:00:00.000Z"]

/-- Requests that keep single ownership: `alice` creates a family, `bob` joins it as an
adult, is made a kid, and the family is renamed. -/
def ownerSafeRequests : List Request :=
  [.post (some (.str "Smiths")) "alice" (some (.obj [("password", .str "pw1")]))
      "user_1" "2024-05-01T09:59:00.000Z" "fam_1" "2024-05-01T10:00:00.000Z" zeroRng,
   .join "bob" "AAAAAA" none (some (.obj [("password", .str "pw2")]))
      "user_2" "2024-05-02T11:00:00.000Z",
   .updateMemberRole "bob" "fam_1" (some (.str "kid")),
   .put (some (.obj renameDoc))]

/-- A letter `a` to `z` as a capital, any other character as it is. -/
def upperLetter (c : Char) : Char :=
  if 97 ≤ c.toNat ∧ c.toNat ≤ 122 then Char.ofNat (c.toNat - 32) else c

/-- The characters without the spaces at the two ends. -/
def trimSpaces (l : List Char) : List Char :=
  ((l.dropWhile fun c => c.toNat == 32).reverse.dropWhile fun c => c.toNat == 32).reverse

/-- A sample engine: strings are ordered by code points, three time stamps are known, two
of which are two spellings of the same instant, `trim` removes spaces and `toUpperCase`
capitalises the letters `a` to `z`. -/
def sampleEnv : Env :=
  { localeCompare := fun a b => codePointCompare a.toList b.toList
    timeValue := fun t =>
      if t = "2024-05-01T10:00:00.000Z" then some 1714557600000
      else if t = "2024-05-01T10:00:00Z" then some 1714557600000
      else if t = "2024-05-01T10:05:00.000Z" then some 1714557900000
      else none
    trim := fun t => String.mk (trimSpaces t.toList)
    toUpperCase := fun t => String.mk (t.toList.map upperLetter) }

/-- A chat message. -/
def chatMessage (id username message createdAt : String) : JVal :=
  .obj [("id", .str id), ("username", .str username), ("message", .str message),
        ("createdAt", .str createdAt)]

/-- Two messages sent at the same instant, whose `createdAt` spell it differently. -/
def sameInstantChat : List JVal :=
  [chatMessage "msg_1" "alice" "hi" "2024-05-01T10:00:00.000Z",
   chatMessage "msg_2" "bob" "hello" "2024-05-01T10:00:00Z"]

/-- Three messages, two of them with the same `createdAt`. -/
def orderedChat : List JVal :=
  [chatMessage "msg_3" "alice" "bye" "2024-05-01T10:05:00.000Z",
   chatMessage "msg_2" "bob" "hello" "2024-05-01T10:00:00.000Z",
   chatMessage "msg_1" "alice" "hi" "2024-05-01T10:00:00.000Z"]

/-- The roster of `alice` and `bob`. -/
def twoMembers : List JVal := [memberEntry "bob" (.str "kid"), memberEntry "alice" (.str "owner")]

/-- The family of `alice` and `bob` after a rename and with a reminder: the `id`, the `code`,
the members and the chat are those of `smithsWithBob`. -/
def smithsRenamed : JObj :=
  [("id", .str "fam_1"), ("name", .str "Smith family"), ("code", .str "AAAAAA"),
   ("owner", .str "alice"), ("createdAt", .str "2024-05-01T10:00:00.000Z"),
   ("members", .arr [memberEntry "alice" (.str "owner"), memberEntry "bob" (.str "kid")]),
   ("reminders", .arr [.obj [("id", .str "rem_1"), ("title", .str "Buy milk")]]),
   ("chat", .arr [])]

/-- A backend store with nothing in it. -/
def emptyBackend : BackendStore :=
  { users := [], families := [], planners := [], memberships := [], themes := [],
    shareCodes := [] }

/-- The client of `bob`, a kid of the family of `alice`, with the family in its cache. -/
def bobClient : Client :=
  { currentUser := "bob"
    isAdmin := false
    usersState := []
    currentUserRecord := some (.obj [("username", .str "bob"), ("familyId", .str "fam_1"),
      ("role", .str "kid")])
    familiesState := [.obj smithsWithBob]
    currentFamily := some (.obj smithsWithBob)
    currentFamilyMember := some (memberEntry "bob" (.str "kid"))
    isFamilyOwner := false
    isFamilyAdult := false
    lastFamilySyncSignature := computeFamilySignature sampleEnv (some (.obj smithsWithBob))
    lastPlannerSyncSignature := none
    plannerData := [("entries", .arr [])]
    backend := { emptyBackend with families := [.obj smithsWithBob] }
    storedFamilies := [.obj smithsWithBob]
    storedUsers := []
    storedPlanner := none
    membershipItem := some "fam_1"
    chatInput := " see you at six "
    feedback := none
    renders := []
    selectedDateISO := "2024-05-01"
    page := fullPage }

/-- The family of `alice` and `bob` with one chat message. -/
def smithsWithChat : JObj :=
  withLists smithsWithBob
    [memberEntry "alice" (.str "owner"), memberEntry "bob" (.str "kid")]
    [chatMessage "msg_1" "alice" "hi" "2024-05-01T10:00:00.000Z"]

/-- A planner entry that carries no share code. -/
def dentistEntry : JVal :=
  .obj [("id", .str "entry_1"), ("type", .str "task"), ("title", .str "Dentist"),
        ("startDate", .str "2024-05-02")]

/-- The client of `alice`, the owner of the family, with the family in its cache. -/
def aliceClient : Client :=
  { bobClient with
    currentUser := "alice"
    currentUserRecord := some (.obj [("username", .str "alice"), ("familyId", .str "fam_1"),
      ("role", .str "owner")])
    currentFamilyMember := some (memberEntry "alice" (.str "owner"))
    isFamilyOwner := true
    isFamilyAdult := true }

/-- A shared reminder. -/
def milkReminder : JVal :=
  .obj [("id", .str "famrem_1"), ("title", .str "Buy milk"), ("createdBy", .str "alice")]

/-- A backend store in which `bob` points to the family `fam_1`. -/
def bobBackend : BackendStore :=
  { emptyBackend with memberships := [("bob", .str "fam_1"), ("alice", .str "fam_1")] }

/-- A server store with `alice` and `bob` and their family, which has one chat message. -/
def chatServer : Store :=
  { users := [[("username", .str "alice"), ("familyId", .str "fam_1"), ("role", .str "owner")],
              [("username", .str "bob"), ("familyId", .str "fam_1"), ("role", .str "kid")]],
    planner := [],
    families := [smithsWithChat] }

/-- A server store with `alice` and `bob` and their family, which has no chat message. -/
def plainServer : Store :=
  { chatServer with families := [smithsWithBob] }

/-- The client of `bob` after a sync that has pulled the message of `alice`. -/
def bobSynced : Client :=
  { bobClient with
    familiesState := [.obj smithsWithChat]
    currentFamily := some (.obj smithsWithChat)
    backend := { emptyBackend with families := [.obj smithsWithChat] }
    storedFamilies := [.obj smithsWithChat] }

/-- The draft of `bob` for a second chat message, built from his synced cache. -/
def bobDraft : JObj :=
  pushChatMessage "msg_2" "bob" "hello" "2024-05-01T10:05:00.000Z" (draftOf (.obj smithsWithChat))

/-- Two messages with the same `createdAt`, the one with the greater id first. -/
def tiedChat : List JVal :=
  [chatMessage "msg_2" "bob" "hello" "2024-05-01T10:00:00.000Z",
   chatMessage "msg_1" "alice" "hi" "2024-05-01T10:00:00.000Z"]

/-- The client of `bob` with a given chat in the cached family. -/
def bobWithChat (chat : List JVal) : Client :=
  { bobClient with currentFamily := some (.obj (withLists smithsWithBob twoMembers chat)) }

/-- A store with the users `alice` and `bob` and no family. -/
def usersOnly : Store :=
  { users := [[("username", .str "alice"), ("familyId", .null), ("role", .str "solo")],
              [("username", .str "bob"), ("familyId", .null), ("role", .str "solo")]],
    planner := [],
    families := [] }

/-- `alice` and `bob` each create a family, then `alice` joins the family of `bob`. -/
def secondFamilyCalls : List Call :=
  [.create (.str "Smiths") "alice" "fam_1" "2024-05-01T10:00:00.000Z" zeroRng,
   .create (.str "Jones") "bob" "fam_2" "2024-05-01T11:00:00.000Z" onesRng,
   .join "alice" (.str "adult") "BBBBBB"]

/-- `alice` creates a family and `bob` joins it. -/
def oneFamilyCalls : List Call :=
  [.create (.str "Smiths") "alice" "fam_1" "2024-05-01T10:00:00.000Z" zeroRng,
   .join "bob" (.str "adult") "AAAAAA"]

/-- The form of an event that ends the day before it starts. -/
def backwardsEvent : TaskForm :=
  { type := "event", title := "Trip", notes := "", priority := "", startDate := "2024-05-01",
    startTime := "", endDate := "2024-04-30", endTime := "" }

/-- The form of an event of two days. -/
def twoDayEvent : TaskForm :=
  { backwardsEvent with startDate := "2024-05-01", endDate := "2024-05-02" }

/-- The client of `bob` whose pointer is the invite code of the family, in small letters and
with spaces, instead of its id. -/
def bobWithCode : Client :=
  { bobClient with
    currentUserRecord := some (.obj [("username", .str "bob"), ("role", .str "kid")])
    membershipItem := some " aaaaaa " }

/-- `bob` sends a message, and the timer of the family sync fires before the answer to his
push has arrived; the server sends the family as it has it, without the message. -/
def tickInFlight : List Event :=
  [.sendStarts "msg_2" "hello" "2024-05-01T10:05:00.000Z",
   .familyTick (.ok (.obj [("family", .obj smithsWithBob)]))]

/-- A second planner entry that carries no share code. -/
def pickupEntry : JVal :=
  .obj [("id", .str "entry_2"), ("type", .str "task"), ("title", .str "Pick up"),
        ("startDate", .str "2024-05-03")]

/-- A random source whose first attempt is `AAAAAA` and whose later attempts are
`BBBBBB`. -/
def stepRng : Rng := fun i => if i < 6 then 0 else 1

/-- Two planner entries that carry the same share code. -/
def twinEntries : List JVal :=
  [.obj [("id", .str "entry_1"), ("title", .str "Dentist"), ("shareCode", .str "AAAAAA")],
   .obj [("id", .str "entry_2"), ("title", .str "Pick up"), ("shareCode", .str "AAAAAA")]]

/-- The client of `bob` whose user record and whose item of local storage point to a family
that is not in the cache. -/
def bobStale : Client :=
  { bobClient with
    currentUserRecord := some (.obj [("username", .str "bob"), ("familyId", .str "fam_9"),
      ("role", .str "kid")])
    membershipItem := some "fam_9" }

/-- The client of `bob` for whom only the backend store points to a family, one that is not
in the cache. -/
def bobBackendOnly : Client :=
  { bobClient with
    currentUserRecord := some (.obj [("username", .str "bob"), ("role", .str "kid")])
    membershipItem := none
    backend := { emptyBackend with
      families := [.obj smithsWithBob]
      memberships := [("bob", .str "fam_9")] } }

/-- A store with one registered user, whose name is `__proto__`, and no planner. -/
def protoUserStore : Store :=
  { users := [[("username", .str "__proto__"), ("familyId", .null), ("role", .str "solo")]],
    planner := [],
    families := [] }

/-- The form of an event that starts on the first day of the year 10000 and ends the day
before. -/
def farFutureEvent : TaskForm :=
  { backwardsEvent with startDate := "10000-01-01", endDate := "9999-12-31" }

/-- The family of `alice` and `bob` with one chat message whose `createdAt` is not a
date. -/
def smithsBadDate : JObj :=
  withLists smithsWithBob
    [memberEntry "alice" (.str "owner"), memberEntry "bob" (.str "kid")]
    [chatMessage "msg_1" "alice" "hi" "not-a-date"]

/-- A planner entry as the entry form builds it, with its share code. -/
def examEntry : JVal :=
  .obj [("id", .str "entry_2"), ("type", .str "task"), ("title", .str "Exam"),
        ("notes", .str ""), ("priority", .str "normal"), ("startDate", .str "2024-05-03"),
        ("endDate", .str "2024-05-03"), ("startTime", .str "09:00"), ("endTime", .str ""),
        ("shareCode", .str "BBBBBB")]

/-! ## Facts about objects and strict equality -/

theorem strictEq_str_iff (x : Option JVal) (c : String) :
    strictEq x (some (.str c)) = true ↔ x = some (.str c) := by
  cases x with
  | none => simp [strictEq]
  | some v => cases v <;> simp [strictEq]

theorem JObj.get_set_self (o : JObj) (k : String) (v : JVal) :
    (JObj.set o k v).get k = some v := by
  induction o with
  | nil => simp [JObj.set, JObj.get]
  | cons kv rest ih =>
    obtain ⟨k1, w⟩ := kv
    by_cases h : k1 = k
    · simp [JObj.set, JObj.get, h]
    · simp [JObj.set, JObj.get, h, ih]

theorem JObj.get_set_other (o : JObj) (k k2 : String) (v : JVal) (h : k ≠ k2) :
    (JObj.set o k v).get k2 = o.get k2 := by
  induction o with
  | nil => simp [JObj.set, JObj.get, h]
  | cons kv rest ih =>
    obtain ⟨k1, w⟩ := kv
    by_cases h1 : k1 = k
    · subst h1
      simp [JObj.set, JObj.get, h]
    · by_cases h2 : k1 = k2
      · subst h2
        simp [JObj.set, JObj.get, h1]
      · simp [JObj.set, JObj.get, h1, h2, ih]

/-! ## Facts about the code generator -/

theorem Rng.advance_advance (rng : Rng) (a b : Nat) :
    (rng.advance a).advance b = rng.advance (b + a) := by
  funext i
  simp [Rng.advance, Nat.add_assoc]

theorem attemptNo_zero (rng : Rng) : attemptNo rng 0 = drawAttempt rng := by
  have : rng.advance 0 = rng := by funext i; simp [Rng.advance]
  simp [attemptNo, this]

theorem attemptNo_succ (rng : Rng) (k : Nat) :
    attemptNo (rng.advance 6) k = attemptNo rng (k + 1) := by
  simp only [attemptNo, Rng.advance_advance]
  congr 2

/-- The loop returns one of the attempts it was allowed to draw. -/
theorem generateFamilyCodeLoop_is_attempt (taken : String → Bool) (budget : Nat) (rng : Rng) :
    ∃ k, k ≤ budget ∧ (generateFamilyCodeLoop taken budget rng).1 = attemptNo rng k := by
  induction budget generalizing rng with
  | zero => exact ⟨0, le_refl _, by simp [generateFamilyCodeLoop, attemptNo_zero]⟩
  | succ n ih =>
    by_cases h : taken (drawAttempt rng) = true
    · obtain ⟨k, hk, hr⟩ := ih (rng.advance 6)
      refine ⟨k + 1, by omega, ?_⟩
      simp [generateFamilyCodeLoop, h, hr, attemptNo_succ]
    · exact ⟨0, by omega, by simp [generateFamilyCodeLoop, h, attemptNo_zero]⟩

/-- When some allowed attempt is free, the loop returns a free code. -/
theorem generateFamilyCodeLoop_free (taken : String → Bool) (budget : Nat) (rng : Rng)
    (h : ∃ k, k ≤ budget ∧ taken (attemptNo rng k) = false) :
    taken (generateFamilyCodeLoop taken budget rng).1 = false := by
  induction budget generalizing rng with
  | zero =>
    obtain ⟨k, hk, hf⟩ := h
    have : k = 0 := by omega
    subst this
    simpa [generateFamilyCodeLoop, attemptNo_zero] using hf
  | succ n ih =>
    by_cases h1 : taken (drawAttempt rng) = true
    · obtain ⟨k, hk, hf⟩ := h
      cases k with
      | zero => simp [attemptNo_zero, h1] at hf
      | succ j =>
        have := ih (rng.advance 6) ⟨j, by omega, by simpa [attemptNo_succ] using hf⟩
        simpa [generateFamilyCodeLoop, h1] using this
    · simp only [Bool.not_eq_true] at h1
      simp [generateFamilyCodeLoop, h1]

/-- When every allowed attempt is taken, the loop returns the last one, taken as it is. -/
theorem generateFamilyCodeLoop_exhausted (taken : String → Bool) (budget : Nat) (rng : Rng)
    (h : ∀ k, k ≤ budget → taken (attemptNo rng k) = true) :
    (generateFamilyCodeLoop taken budget rng).1 = attemptNo rng budget := by
  induction budget generalizing rng with
  | zero => simp [generateFamilyCodeLoop, attemptNo_zero]
  | succ n ih =>
    have h0 : taken (drawAttempt rng) = true := by simpa [attemptNo_zero] using h 0 (by omega)
    have := ih (rng.advance 6) (fun k hk => by simpa [attemptNo_succ] using h (k + 1) (by omega))
    simp [generateFamilyCodeLoop, h0, this, attemptNo_succ]

theorem codeTaken_eq_true_iff (s : Store) (a : String) :
    codeTaken s ((listFamilies s).map fun f => f.get "code") a = true
      ↔ ∃ f ∈ s.families, f.get "code" = some (.str a) := by
  simp only [codeTaken, listFamilies, clone, findFamilyByCode, Bool.or_eq_true, List.any_eq_true,
    List.mem_map, strictEq_str_iff, List.find?_isSome]
  constructor
  · rintro (⟨c, ⟨f, hf, rfl⟩, hc⟩ | ⟨f, hf, hc⟩)
    · exact ⟨f, hf, hc⟩
    · exact ⟨f, hf, hc⟩
  · rintro ⟨f, hf, hc⟩
    exact Or.inl ⟨_, ⟨f, hf, rfl⟩, hc⟩

theorem codeTaken_eq_false_iff (s : Store) (a : String) :
    codeTaken s ((listFamilies s).map fun f => f.get "code") a = false
      ↔ ∀ f ∈ s.families, f.get "code" ≠ some (.str a) := by
  rw [← Bool.not_eq_true, codeTaken_eq_true_iff]
  push_neg
  rfl

theorem updateUser_families (username : String) (updates : JObj) (s : Store) :
    (updateUser username updates s).1.families = s.families := rfl

theorem updateUser_planner (username : String) (updates : JObj) (s : Store) :
    (updateUser username updates s).1.planner = s.planner := rfl

theorem createFamily_families (name : JVal) (owner id now : String) (rng : Rng) (s : Store) :
    (createFamily name owner id now rng s).1.families
      = s.families ++ [newFamilyDoc name owner id now
          (generateFamilyCode s ((listFamilies s).map fun f => f.get "code") rng).1] := rfl

theorem zeroRng_advance (n : Nat) : zeroRng.advance n = zeroRng := rfl

theorem attemptNo_zeroRng (k : Nat) : attemptNo zeroRng k = "AAAAAA" := by
  simp only [attemptNo, zeroRng_advance]
  decide

theorem onesRng_advance (n : Nat) : onesRng.advance n = onesRng := rfl

theorem attemptNo_onesRng (k : Nat) : attemptNo onesRng k = "BBBBBB" := by
  simp only [attemptNo, onesRng_advance]
  decide

/-- When every one of the 2000 attempts is the code of a stored family, `createFamily`
appends a family that carries the 2000th attempt. -/
theorem createFamily_exhausted (name : JVal) (owner id now : String) (rng : Rng) (s : Store)
    (h : ∀ k, k < 2000 → ∃ f ∈ s.families, f.get "code" = some (.str (attemptNo rng k))) :
    (createFamily name owner id now rng s).1.families
      = s.families ++ [newFamilyDoc name owner id now (attemptNo rng 1999)] := by
  rw [createFamily_families, generateFamilyCode, generateFamilyCodeLoop_exhausted]
  intro k hk
  exact (codeTaken_eq_true_iff s _).2 (h k (by omega))

theorem find?_map_update {α : Type} (p : α → Bool) (g : α → α) (hg : ∀ a, p a = true → p (g a) = true)
    (l : List α) :
    (l.map fun a => if !p a then a else g a).find? p = (l.find? p).map g := by
  induction l with
  | nil => rfl
  | cons a rest ih =>
    by_cases h : p a = true
    · simp [List.find?, h, hg a h]
    · simp only [Bool.not_eq_true] at h
      simp only [List.map_cons, List.find?_cons, h, Bool.not_false, if_true, ih]

theorem find?_append_singleton_of_none {α : Type} (p : α → Bool) (l : List α) (a : α)
    (hl : l.find? p = none) (ha : p a = true) : (l ++ [a]).find? p = some a := by
  simp [List.find?_append, hl, List.find?, ha]

theorem spread_two (u : JObj) (k1 k2 : String) (v1 v2 : JVal) :
    JObj.spread u [(k1, v1), (k2, v2)] = (u.set k1 v1).set k2 v2 := rfl

/-- The value `createFamily` returns when the generated id is not in use: the document it
built. -/
theorem createFamily_returns (name : JVal) (owner id now : String) (rng : Rng) (s : Store)
    (hid : findFamilyById s (some (.str id)) = none) :
    (createFamily name owner id now rng s).2
      = some (newFamilyDoc name owner id now
          (generateFamilyCode s ((listFamilies s).map fun f => f.get "code") rng).1) := by
  have hf := createFamily_families name owner id now rng s
  simp only [createFamily, findFamilyById, clone] at hf ⊢
  rw [hf]
  apply find?_append_singleton_of_none
  · simpa [findFamilyById, clone] using hid
  · simp [newFamilyDoc, JObj.get, strictEq]

theorem drawAttempt_length (rng : Rng) : (drawAttempt rng).length = 6 := by
  simp [drawAttempt, String.length]

theorem alphabetAt_mem (i : Fin 32) : alphabetAt i ∈ alphabet.toList := by
  revert i
  decide

theorem drawAttempt_chars (rng : Rng) : ∀ ch ∈ (drawAttempt rng).toList, ch ∈ alphabet.toList := by
  intro ch hch
  simp only [drawAttempt, String.toList, List.mem_map] at hch
  obtain ⟨i, -, rfl⟩ := hch
  exact alphabetAt_mem _

/-! ## Facts about spread -/

theorem JObj.get_eq_none_of_not_mem_keys (o : JObj) (k : String) (h : k ∉ o.keys) :
    o.get k = none := by
  induction o with
  | nil => rfl
  | cons kv rest ih =>
    obtain ⟨k1, v⟩ := kv
    simp only [JObj.keys, List.map_cons, List.mem_cons, not_or] at h
    have h1 : ¬ k1 = k := fun e => h.1 e.symm
    simp only [JObj.get, h1, if_false]
    exact ih h.2

theorem JObj.keys_set_of_mem (o : JObj) (k : String) (v : JVal) (h : k ∈ o.keys) :
    (o.set k v).keys = o.keys := by
  induction o with
  | nil => simp [JObj.keys] at h
  | cons kv rest ih =>
    obtain ⟨k1, w⟩ := kv
    by_cases h1 : k1 = k
    · simp [JObj.set, JObj.keys, h1]
    · have hrest : k ∈ JObj.keys rest := by
        simp only [JObj.keys, List.map_cons, List.mem_cons] at h
        rcases h with h | h
        · exact absurd h.symm h1
        · exact h
      have := ih hrest
      simp only [JObj.keys] at this ⊢
      simp [JObj.set, h1, this]

theorem JObj.keys_set_of_not_mem (o : JObj) (k : String) (v : JVal) (h : k ∉ o.keys) :
    (o.set k v).keys = o.keys ++ [k] := by
  induction o with
  | nil => simp [JObj.set, JObj.keys]
  | cons kv rest ih =>
    obtain ⟨k1, w⟩ := kv
    simp only [JObj.keys, List.map_cons, List.mem_cons, not_or] at h
    have h1 : ¬ k1 = k := fun e => h.1 e.symm
    have := ih h.2
    simp only [JObj.keys] at this ⊢
    simp [JObj.set, h1, this]

theorem JObj.keys_set_nodup (o : JObj) (k : String) (v : JVal) (h : o.keys.Nodup) :
    (o.set k v).keys.Nodup := by
  by_cases hk : k ∈ o.keys
  · rw [JObj.keys_set_of_mem o k v hk]
    exact h
  · rw [JObj.keys_set_of_not_mem o k v hk]
    exact List.Nodup.append h (List.nodup_singleton k) (by simpa using hk)

theorem JObj.keys_spread_nodup (a b : JObj) (h : a.keys.Nodup) : (JObj.spread a b).keys.Nodup := by
  induction b generalizing a with
  | nil => exact h
  | cons kv rest ih =>
    exact ih (a.set kv.1 kv.2) (JObj.keys_set_nodup a kv.1 kv.2 h)

/-- A field of `{ ...a, ...b }` when `b` is a proper object (its keys are distinct). -/
theorem JObj.get_spread (a b : JObj) (k : String) (hb : b.keys.Nodup) :
    (JObj.spread a b).get k = mergedField a b k := by
  induction b generalizing a with
  | nil => simp [JObj.spread, mergedField, JObj.get]
  | cons kv rest ih =>
    obtain ⟨k1, v1⟩ := kv
    simp only [JObj.keys, List.map_cons, List.nodup_cons] at hb
    have hrest := ih (a.set k1 v1) hb.2
    simp only [JObj.spread, List.foldl_cons] at hrest ⊢
    rw [hrest]
    by_cases h1 : k1 = k
    · subst h1
      have : JObj.get rest k1 = none := JObj.get_eq_none_of_not_mem_keys rest k1 hb.1
      simp [mergedField, JObj.get, this, JObj.get_set_self]
    · simp [mergedField, JObj.get, h1, JObj.get_set_other _ _ _ _ h1]

theorem strictEq_eq_of_true (x y : Option JVal) (h : strictEq x y = true) : x = y := by
  cases x with
  | none =>
    cases y with
    | none => rfl
    | some w => simp [strictEq] at h
  | some v =>
    cases y with
    | none => cases v <;> simp [strictEq] at h
    | some w => cases v <;> cases w <;> simp_all [strictEq]

/-! ## Facts about joining -/

theorem JObj.set_set (o : JObj) (k : String) (v w : JVal) :
    (JObj.set o k v).set k w = o.set k w := by
  induction o with
  | nil => simp [JObj.set]
  | cons kv rest ih =>
    obtain ⟨k1, x⟩ := kv
    by_cases h : k1 = k
    · simp [JObj.set, h]
    · simp [JObj.set, h, ih]

theorem JObj.set_eq_self (o : JObj) (k : String) (v : JVal) (h : o.get k = some v) :
    o.set k v = o := by
  induction o with
  | nil => simp [JObj.get] at h
  | cons kv rest ih =>
    obtain ⟨k1, x⟩ := kv
    by_cases h1 : k1 = k
    · subst h1
      simp only [JObj.get, if_true, Option.some.injEq] at h
      simp [JObj.set, h]
    · simp only [JObj.get, h1, if_false] at h
      simp [JObj.set, h1, ih h]

theorem arrayItems_eq_nil_of_not_isArray (x : Option JVal) (h : isArray x = false) :
    arrayItems x = [] := by
  cases x with
  | none => rfl
  | some v => cases v <;> simp_all [isArray, arrayItems]

theorem someMember_append_entry (B : String) (role : JVal) (items : List JVal)
    (h : someMember B items = some false) :
    someMember B (items ++ [memberEntry B role]) = some true := by
  induction items with
  | nil => simp [someMember, memberEntry, JObj.get, strictEq]
  | cons m rest ih =>
    cases m with
    | null => simp [someMember] at h
    | obj o =>
      by_cases ho : strictEq (JObj.get o "username") (some (.str B)) = true
      · simp [someMember, ho] at h
      · simp only [someMember, ho] at h
        simp only [List.cons_append, someMember, ho]
        exact ih h
    | bool b => exact ih (by simpa [someMember] using h)
    | num n => exact ih (by simpa [someMember] using h)
    | str t => exact ih (by simpa [someMember] using h)
    | arr xs => exact ih (by simpa [someMember] using h)

theorem entriesFor_of_someMember_false (B : String) (items : List JVal)
    (h : someMember B items = some false) : entriesFor B items = 0 := by
  induction items with
  | nil => rfl
  | cons m rest ih =>
    cases m with
    | null => simp [someMember] at h
    | obj o =>
      by_cases ho : strictEq (JObj.get o "username") (some (.str B)) = true
      · simp [someMember, ho] at h
      · simp only [someMember, ho] at h
        have := ih h
        simp only [entriesFor] at this ⊢
        simp [List.filter, ho, this]
    | bool b =>
      have := ih (by simpa [someMember] using h)
      simp only [entriesFor] at this ⊢
      simp [List.filter, this]
    | num n =>
      have := ih (by simpa [someMember] using h)
      simp only [entriesFor] at this ⊢
      simp [List.filter, this]
    | str t =>
      have := ih (by simpa [someMember] using h)
      simp only [entriesFor] at this ⊢
      simp [List.filter, this]
    | arr xs =>
      have := ih (by simpa [someMember] using h)
      simp only [entriesFor] at this ⊢
      simp [List.filter, this]

theorem entriesFor_pos_of_someMember_true (B : String) (items : List JVal)
    (h : someMember B items = some true) : 0 < entriesFor B items := by
  induction items with
  | nil => simp [someMember] at h
  | cons m rest ih =>
    cases m with
    | null => simp [someMember] at h
    | obj o =>
      by_cases ho : strictEq (JObj.get o "username") (some (.str B)) = true
      · simp [entriesFor, List.filter, ho]
      · simp only [someMember, ho] at h
        have := ih h
        simp only [entriesFor] at this ⊢
        simpa [List.filter, ho] using this
    | bool b =>
      have := ih (by simpa [someMember] using h)
      simp only [entriesFor] at this ⊢
      simpa [List.filter] using this
    | num n =>
      have := ih (by simpa [someMember] using h)
      simp only [entriesFor] at this ⊢
      simpa [List.filter] using this
    | str t =>
      have := ih (by simpa [someMember] using h)
      simp only [entriesFor] at this ⊢
      simpa [List.filter] using this
    | arr xs =>
      have := ih (by simpa [someMember] using h)
      simp only [entriesFor] at this ⊢
      simpa [List.filter] using this

theorem entriesFor_append_entry (B : String) (role : JVal) (items : List JVal) :
    entriesFor B (items ++ [memberEntry B role]) = entriesFor B items + 1 := by
  simp [entriesFor, memberEntry, List.filter_append, List.filter, JObj.get, strictEq]

theorem joinFamilyByCode_eq (B : String) (role : JVal) (c : String) (s : Store) (F : JObj)
    (b : Bool) (hF : findFamilyByCode s (some (.str c)) = some F)
    (hm : someMember B (roster F) = some b) :
    joinFamilyByCode B role c s
      = some ((updateUser B
            (JObj.set (JObj.setOpt [] "familyId" ((joinedDoc F B role b).get "id")) "role" role)
            { s with families := familiesAfterJoin c (joinedDoc F B role b) s.families }).1,
          findFamilyById (updateUser B
            (JObj.set (JObj.setOpt [] "familyId" ((joinedDoc F B role b).get "id")) "role" role)
            { s with families := familiesAfterJoin c (joinedDoc F B role b) s.families }).1
            ((joinedDoc F B role b).get "id"),
          (updateUser B
            (JObj.set (JObj.setOpt [] "familyId" ((joinedDoc F B role b).get "id")) "role" role)
            { s with families := familiesAfterJoin c (joinedDoc F B role b) s.families }).2) := by
  simp only [findFamilyByCode, clone] at hF
  unfold joinFamilyByCode
  simp only [hF]
  by_cases ha : isArray (F.get "members") = true
  · simp only [ha, Bool.not_true, Bool.false_eq_true, if_false]
    simp only [roster] at hm
    simp only [hm]
    cases b <;> rfl
  · simp only [Bool.not_eq_true] at ha
    have hr : roster F = [] := arrayItems_eq_nil_of_not_isArray _ ha
    have hb : b = false := by
      rw [hr] at hm
      simpa [someMember] using hm.symm
    subst hb
    simp only [ha, Bool.not_false, if_true, JObj.get_set_self, arrayItems, someMember,
      JObj.set_set, List.nil_append]
    simp only [joinedDoc, hr, memberEntry, List.nil_append, Bool.false_eq_true, if_false]
    rfl

theorem mem_replaceFirst (p : JObj → Bool) (next : JObj) (l : List JObj)
    (h : (l.find? p).isSome = true) : next ∈ replaceFirst p next l := by
  induction l with
  | nil => simp at h
  | cons a rest ih =>
    by_cases ha : p a = true
    · simp [replaceFirst, ha]
    · simp only [Bool.not_eq_true] at ha
      simp only [List.find?, ha] at h
      simp [replaceFirst, ha, ih h]

theorem find?_map_const (p : JObj → Bool) (a : JObj) (ha : p a = true) (l : List JObj)
    (h : ∃ x ∈ l, p x = true) :
    (l.map fun x => if p x then a else x).find? p = some a := by
  induction l with
  | nil => simp at h
  | cons x rest ih =>
    by_cases hx : p x = true
    · simp [List.find?, hx, ha]
    · simp only [Bool.not_eq_true] at hx
      have hrest : ∃ y ∈ rest, p y = true := by
        obtain ⟨y, hy, hpy⟩ := h
        rcases List.mem_cons.1 hy with rfl | hy
        · simp [hx] at hpy
        · exact ⟨y, hy, hpy⟩
      simp only [List.map_cons, List.find?_cons, hx, Bool.false_eq_true, if_false, ih hrest]

theorem joinedDoc_get_other (F : JObj) (B : String) (role : JVal) (b : Bool) (k : String)
    (hk : "members" ≠ k) : (joinedDoc F B role b).get k = F.get k := by
  cases b
  · simp [joinedDoc, JObj.get_set_other _ _ _ _ hk]
  · simp [joinedDoc]

/-- The first family with the code, after a join, is the document the join wrote. -/
theorem find?_code_familiesAfterJoin (c : String) (F2 : JObj) (l : List JObj)
    (hcode : F2.get "code" = some (.str c))
    (hid : strictEq (F2.get "id") (F2.get "id") = true)
    (h : (l.find? fun item => strictEq (item.get "code") (some (.str c))).isSome = true) :
    (familiesAfterJoin c F2 l).find? (fun item => strictEq (item.get "code") (some (.str c)))
      = some F2 := by
  have hc2 : strictEq (F2.get "code") (some (.str c)) = true := (strictEq_str_iff _ _).2 hcode
  induction l with
  | nil => simp at h
  | cons a rest ih =>
    by_cases ha : strictEq (a.get "code") (some (.str c)) = true
    · simp [familiesAfterJoin, replaceFirst, ha, hid, hc2]
    · simp only [Bool.not_eq_true] at ha
      simp only [List.find?, ha] at h
      have := ih h
      simp only [familiesAfterJoin] at this ⊢
      by_cases hi : strictEq (a.get "id") (F2.get "id") = true
      · simp [replaceFirst, ha, hi, hc2]
      · simp only [Bool.not_eq_true] at hi
        simp [replaceFirst, ha, hi, this]

theorem find?_id_familiesAfterJoin (c : String) (F2 : JObj) (l : List JObj)
    (hid : strictEq (F2.get "id") (F2.get "id") = true)
    (h : (l.find? fun item => strictEq (item.get "code") (some (.str c))).isSome = true) :
    (familiesAfterJoin c F2 l).find? (fun item => strictEq (item.get "id") (F2.get "id"))
      = some F2 := by
  unfold familiesAfterJoin
  apply find?_map_const (fun item => strictEq (item.get "id") (F2.get "id")) F2 hid
  exact ⟨F2, mem_replaceFirst _ _ _ h, hid⟩

theorem updateUser_join_users (B fid : String) (role : JVal) (st : Store) :
    (updateUser B [("familyId", .str fid), ("role", role)] st).1.users
      = usersAfterJoin B fid role st.users := by
  simp only [updateUser, updateStore, clone, usersAfterJoin, spread_two]
  apply List.map_congr_left
  intro u _
  by_cases h : strictEq (u.get "username") (some (.str B)) = true
  · simp [h]
  · simp only [Bool.not_eq_true] at h
    simp [h]

theorem updateUser_join_result (B fid : String) (role : JVal) (st : Store)
    (hB : (findUserByUsername st B).isSome = true) :
    ∃ u ∈ st.users, u.get "username" = some (.str B)
      ∧ (updateUser B [("familyId", .str fid), ("role", role)] st).2
          = some ((u.set "familyId" (.str fid)).set "role" role) := by
  simp only [findUserByUsername, clone, List.find?_isSome] at hB
  obtain ⟨x, hx, hpx⟩ := hB
  have hne : (st.users.filter fun user => strictEq (user.get "username") (some (.str B))) ≠ [] := by
    intro h
    have : x ∈ st.users.filter fun user => strictEq (user.get "username") (some (.str B)) :=
      List.mem_filter.2 ⟨hx, hpx⟩
    simp [h] at this
  have hlast := List.getLast?_eq_getLast _ hne
  have hmem := List.getLast_mem hne
  rw [List.mem_filter] at hmem
  refine ⟨_, hmem.1, (strictEq_str_iff _ _).1 hmem.2, ?_⟩
  simp only [updateUser, clone, spread_two, List.getLast?_map, hlast, Option.map_some']

theorem find?_usersAfterJoin (B fid : String) (role : JVal) (users : List JObj) :
    (usersAfterJoin B fid role users).find?
        (fun user => strictEq (user.get "username") (some (.str B)))
      = ((users.find? fun user => strictEq (user.get "username") (some (.str B))).map
          fun user => (user.set "familyId" (.str fid)).set "role" role) := by
  induction users with
  | nil => rfl
  | cons u rest ih =>
    simp only [usersAfterJoin] at ih ⊢
    by_cases h : strictEq (u.get "username") (some (.str B)) = true
    · have h2 : strictEq (((u.set "familyId" (.str fid)).set "role" role).get "username")
          (some (.str B)) = true := by
        rw [JObj.get_set_other _ _ _ _ (by decide), JObj.get_set_other _ _ _ _ (by decide)]
        exact h
      simp [List.find?, h, h2]
    · simp only [Bool.not_eq_true] at h
      simp only [List.map_cons, List.find?_cons, h, Bool.false_eq_true, if_false, ih]

/-- What `joinFamilyByCode` does once the family is found by code, has a string id and the
roster test does not throw. -/
theorem joinFamilyByCode_store (B : String) (role : JVal) (c : String) (s : Store) (F : JObj)
    (fid : String) (b : Bool)
    (hF : findFamilyByCode s (some (.str c)) = some F)
    (hid : F.get "id" = some (.str fid))
    (hm : someMember B (roster F) = some b) :
    joinFamilyByCode B role c s
      = some ({ users := usersAfterJoin B fid role s.users,
                planner := s.planner,
                families := familiesAfterJoin c (joinedDoc F B role b) s.families },
              some (joinedDoc F B role b),
              (updateUser B [("familyId", .str fid), ("role", role)] s).2) := by
  have hid2 : (joinedDoc F B role b).get "id" = some (.str fid) := by
    rw [joinedDoc_get_other _ _ _ _ _ (by decide), hid]
  have hsome : (s.families.find? fun item => strictEq (item.get "code") (some (.str c))).isSome
      = true := by
    simp only [findFamilyByCode, clone] at hF
    simp [hF]
  rw [joinFamilyByCode_eq B role c s F b hF hm, hid2]
  have hupd : JObj.set (JObj.setOpt [] "familyId" (some (.str fid))) "role" role
      = [("familyId", .str fid), ("role", role)] := by
    simp [JObj.setOpt, JObj.set]
  rw [hupd]
  have hfind : findFamilyById (updateUser B [("familyId", .str fid), ("role", role)]
      { s with families := familiesAfterJoin c (joinedDoc F B role b) s.families }).1
        (some (.str fid)) = some (joinedDoc F B role b) := by
    simp only [findFamilyById, clone, updateUser_families]
    have := find?_id_familiesAfterJoin c (joinedDoc F B role b) s.families
      (by rw [hid2]; exact (strictEq_str_iff _ _).2 rfl) hsome
    rw [hid2] at this
    exact this
  rw [hfind]
  have husers := updateUser_join_users B fid role
    { s with families := familiesAfterJoin c (joinedDoc F B role b) s.families }
  have hres : (updateUser B [("familyId", .str fid), ("role", role)]
      { s with families := familiesAfterJoin c (joinedDoc F B role b) s.families }).2
        = (updateUser B [("familyId", .str fid), ("role", role)] s).2 := rfl
  rw [hres]
  congr 1
  congr 1
  cases hst : updateUser B [("familyId", .str fid), ("role", role)]
      { s with families := familiesAfterJoin c (joinedDoc F B role b) s.families } with
  | mk st res =>
    rw [hst] at husers
    have hfam := updateUser_families B [("familyId", .str fid), ("role", role)]
      { s with families := familiesAfterJoin c (joinedDoc F B role b) s.families }
    have hpl := updateUser_planner B [("familyId", .str fid), ("role", role)]
      { s with families := familiesAfterJoin c (joinedDoc F B role b) s.families }
    rw [hst] at hfam hpl
    cases st
    simp_all

theorem replaceFirst_self (p : JObj → Bool) (a : JObj) (l : List JObj)
    (h : l.find? p = some a) : replaceFirst p a l = l := by
  induction l with
  | nil => rfl
  | cons x rest ih =>
    by_cases hx : p x = true
    · simp only [List.find?, hx, Option.some.injEq] at h
      subst h
      simp [replaceFirst, hx]
    · simp only [Bool.not_eq_true] at hx
      simp only [List.find?, hx] at h
      simp [replaceFirst, hx, ih h]

/-- Writing the same document a second time changes nothing. -/
theorem familiesAfterJoin_idem (c : String) (F2 : JObj) (l : List JObj)
    (hcode : F2.get "code" = some (.str c))
    (hid : strictEq (F2.get "id") (F2.get "id") = true)
    (h : (l.find? fun item => strictEq (item.get "code") (some (.str c))).isSome = true) :
    familiesAfterJoin c F2 (familiesAfterJoin c F2 l) = familiesAfterJoin c F2 l := by
  have hfirst := find?_code_familiesAfterJoin c F2 l hcode hid h
  conv_lhs => rw [familiesAfterJoin, replaceFirst_self _ _ _ hfirst]
  simp only [familiesAfterJoin, List.map_map]
  apply List.map_congr_left
  intro x _
  by_cases hx : strictEq (x.get "id") (F2.get "id") = true
  · simp [hx, hid]
  · simp only [Bool.not_eq_true] at hx
    simp [hx]

/-- When the written document is the one found and no other family has its id, the
families are left as they were. -/
theorem familiesAfterJoin_self (c : String) (F : JObj) (l : List JObj)
    (hF : l.find? (fun item => strictEq (item.get "code") (some (.str c))) = some F)
    (honly : ∀ f ∈ l, strictEq (f.get "id") (F.get "id") = true → f = F) :
    familiesAfterJoin c F l = l := by
  rw [familiesAfterJoin, replaceFirst_self _ _ _ hF]
  conv_rhs => rw [← List.map_id l]
  apply List.map_congr_left
  intro x hx
  by_cases hi : strictEq (x.get "id") (F.get "id") = true
  · simp [hi, honly x hx hi]
  · simp only [Bool.not_eq_true] at hi
    simp [hi]

theorem roster_joinedDoc_false (F : JObj) (B : String) (role : JVal) :
    roster (joinedDoc F B role false) = roster F ++ [memberEntry B role] := by
  simp [joinedDoc, roster, JObj.get_set_self, arrayItems]

/-! ## Facts about regenerating a code -/

theorem regenerateFamilies_no_match (taken : String → Bool) (i : String) (l : List JObj)
    (rng : Rng) (clock : Clock)
    (h : ∀ x ∈ l, strictEq (x.get "id") (some (.str i)) = false) :
    regenerateFamilies taken i l rng clock = (l, none) := by
  induction l with
  | nil => rfl
  | cons x rest ih =>
    have hx := h x (List.mem_cons_self _ _)
    have hrest := ih (fun y hy => h y (List.mem_cons_of_mem _ hy))
    simp [regenerateFamilies, hx, hrest]

theorem regenerateFamilies_unique (taken : String → Bool) (i : String)
    (pre post : List JObj) (F : JObj) (rng : Rng) (clock : Clock)
    (hpre : ∀ x ∈ pre, strictEq (x.get "id") (some (.str i)) = false)
    (hF : strictEq (F.get "id") (some (.str i)) = true)
    (hpost : ∀ x ∈ post, strictEq (x.get "id") (some (.str i)) = false) :
    regenerateFamilies taken i (pre ++ F :: post) rng clock
      = (pre ++ regeneratedDoc F (generateFamilyCodeLoop taken 1999 rng).1 (clock 0) :: post,
         some (regeneratedDoc F (generateFamilyCodeLoop taken 1999 rng).1 (clock 0))) := by
  induction pre with
  | nil =>
    simp [regenerateFamilies, hF, regenerateFamilies_no_match taken i post _ _ hpost,
      regeneratedDoc]
  | cons x rest ih =>
    have hx := hpre x (List.mem_cons_self _ _)
    have hrest := ih (fun y hy => hpre y (List.mem_cons_of_mem _ hy))
    simp [regenerateFamilies, hx, hrest]

theorem filter_eq_singleton_split {α : Type} (p : α → Bool) (a : α) (l : List α)
    (h : l.filter p = [a]) :
    ∃ pre post, l = pre ++ a :: post ∧ (∀ x ∈ pre, p x = false) ∧ p a = true
      ∧ (∀ x ∈ post, p x = false) := by
  induction l with
  | nil => simp at h
  | cons x rest ih =>
    by_cases hx : p x = true
    · simp only [List.filter, hx, List.cons.injEq] at h
      obtain ⟨rfl, hrest⟩ := h
      refine ⟨[], rest, rfl, by simp, hx, ?_⟩
      intro y hy
      by_contra hy2
      have : y ∈ rest.filter p := List.mem_filter.2 ⟨hy, by simpa using hy2⟩
      simp [hrest] at this
    · simp only [Bool.not_eq_true] at hx
      simp only [List.filter, hx] at h
      obtain ⟨pre, post, hl, hpre, ha, hpost⟩ := ih h
      refine ⟨x :: pre, post, by simp [hl], ?_, ha, hpost⟩
      intro y hy
      rcases List.mem_cons.1 hy with rfl | hy
      · exact hx
      · exact hpre y hy

theorem regeneratedDoc_get_code (F : JObj) (code now : String) :
    (regeneratedDoc F code now).get "code" = some (.str code) := by
  rw [regeneratedDoc, JObj.get_set_other _ _ _ _ (by decide), JObj.get_set_self]

theorem regeneratedDoc_get_regeneratedAt (F : JObj) (code now : String) :
    (regeneratedDoc F code now).get "regeneratedAt" = some (.str now) := by
  rw [regeneratedDoc, JObj.get_set_self]

theorem regeneratedDoc_get_other (F : JObj) (code now k : String)
    (h1 : k ≠ "code") (h2 : k ≠ "regeneratedAt") :
    (regeneratedDoc F code now).get k = F.get k := by
  rw [regeneratedDoc, JObj.get_set_other _ _ _ _ (Ne.symm h2),
    JObj.get_set_other _ _ _ _ (Ne.symm h1)]

theorem regenerateFamilyCode_unique (i : String) (rng : Rng) (clock : Clock) (s : Store)
    (pre post : List JObj) (F : JObj)
    (hs : s.families = pre ++ F :: post)
    (hpre : ∀ x ∈ pre, strictEq (x.get "id") (some (.str i)) = false)
    (hF : strictEq (F.get "id") (some (.str i)) = true)
    (hpost : ∀ x ∈ post, strictEq (x.get "id") (some (.str i)) = false) :
    regenerateFamilyCode i rng clock s
      = ({ users := s.users, planner := s.planner,
           families := pre ++ regeneratedDoc F
             (generateFamilyCode s ((listFamilies s).map fun f => f.get "code") rng).1
             (clock 0) :: post },
         some (regeneratedDoc F
           (generateFamilyCode s ((listFamilies s).map fun f => f.get "code") rng).1
           (clock 0))) := by
  simp only [regenerateFamilyCode, clone, updateStore, hs]
  rw [regenerateFamilies_unique _ i pre post F rng clock hpre hF hpost]
  simp only [generateFamilyCode, listFamilies, clone, hs]

theorem find?_eq_none_of_forall {α : Type} (p : α → Bool) (l : List α)
    (h : ∀ x ∈ l, p x = false) : l.find? p = none := by
  rw [List.find?_eq_none]
  intro x hx
  simp [h x hx]

theorem find?_split {α : Type} (p : α → Bool) (pre post : List α) (a : α)
    (hpre : ∀ x ∈ pre, p x = false) (ha : p a = true) :
    (pre ++ a :: post).find? p = some a := by
  rw [List.find?_append, find?_eq_none_of_forall p pre hpre]
  simp [List.find?, ha]

theorem strictEq_str_eq_false_iff (x : Option JVal) (c : String) :
    strictEq x (some (.str c)) = false ↔ x ≠ some (.str c) := by
  rw [← Bool.not_eq_true, strictEq_str_iff]

/-- One regeneration, for the one family with the id, when some attempt is free. -/
theorem regenerateFamilyCode_step (i c : String) (rng : Rng) (clock : Clock) (s : Store)
    (F : JObj)
    (hcodes : CodesDistinct s)
    (hF : (s.families.filter fun f => strictEq (f.get "id") (some (.str i))) = [F])
    (hc : F.get "code" = some (.str c))
    (hfree : SomeAttemptFree rng s) :
    ∃ new, new ≠ c
      ∧ (regenerateFamilyCode i rng clock s).2 = some (regeneratedDoc F new (clock 0))
      ∧ findFamilyByCode (regenerateFamilyCode i rng clock s).1 (some (.str c)) = none
      ∧ findFamilyByCode (regenerateFamilyCode i rng clock s).1 (some (.str new))
          = some (regeneratedDoc F new (clock 0))
      ∧ findFamilyById (regenerateFamilyCode i rng clock s).1 (some (.str i))
          = some (regeneratedDoc F new (clock 0))
      ∧ CodesDistinct (regenerateFamilyCode i rng clock s).1
      ∧ ((regenerateFamilyCode i rng clock s).1.families.filter
          fun f => strictEq (f.get "id") (some (.str i))) = [regeneratedDoc F new (clock 0)] := by
  obtain ⟨pre, post, hs, hpre, hFid, hpost⟩ := filter_eq_singleton_split _ _ _ hF
  obtain ⟨k, hk, hfreek⟩ := hfree
  have hloop := generateFamilyCodeLoop_free
    (codeTaken s ((listFamilies s).map fun f => f.get "code")) 1999 rng
    ⟨k, by omega, (codeTaken_eq_false_iff s _).2 hfreek⟩
  have hnew : ∀ f ∈ s.families, f.get "code"
      ≠ some (.str (generateFamilyCode s ((listFamilies s).map fun f => f.get "code") rng).1) :=
    (codeTaken_eq_false_iff s _).1 hloop
  have hFmem : F ∈ s.families := by simp [hs]
  have hpremem : ∀ x ∈ pre, x ∈ s.families := fun x hx => by simp [hs, hx]
  have hpostmem : ∀ x ∈ post, x ∈ s.families := fun x hx => by simp [hs, hx]
  rw [regenerateFamilyCode_unique i rng clock s pre post F hs hpre hFid hpost]
  generalize (generateFamilyCode s ((listFamilies s).map fun f => f.get "code") rng).1 = new
    at hnew ⊢
  have hpw : (pre ++ F :: post).Pairwise fun f g => f.get "code" ≠ g.get "code" := by
    have := hcodes
    rwa [CodesDistinct, hs] at this
  rw [List.pairwise_append, List.pairwise_cons] at hpw
  obtain ⟨hpw1, ⟨hFpost, hpw2⟩, hcross⟩ := hpw
  have hne : new ≠ c := by
    intro h
    subst h
    exact hnew F hFmem hc
  refine ⟨new, hne, rfl, ?_, ?_, ?_, ?_, ?_⟩
  · simp only [findFamilyByCode, clone]
    apply find?_eq_none_of_forall
    intro x hx
    rw [strictEq_str_eq_false_iff]
    rcases List.mem_append.1 hx with hx | hx
    · have := hcross x hx F (List.mem_cons_self _ _)
      rwa [hc] at this
    · rcases List.mem_cons.1 hx with rfl | hx
      · rw [regeneratedDoc_get_code]
        simpa using hne
      · have := hFpost x hx
        rw [hc] at this
        exact fun h => this h.symm
  · simp only [findFamilyByCode, clone]
    apply find?_split
    · intro x hx
      rw [strictEq_str_eq_false_iff]
      exact hnew x (hpremem x hx)
    · rw [regeneratedDoc_get_code]
      exact (strictEq_str_iff _ _).2 rfl
  · simp only [findFamilyById, clone]
    apply find?_split _ _ _ _ hpre
    rw [regeneratedDoc_get_other _ _ _ _ (by decide) (by decide)]
    exact hFid
  · simp only [CodesDistinct]
    rw [List.pairwise_append, List.pairwise_cons]
    refine ⟨hpw1, ⟨?_, hpw2⟩, ?_⟩
    · intro y hy
      rw [regeneratedDoc_get_code]
      exact fun h => hnew y (hpostmem y hy) h.symm
    · intro x hx y hy
      rcases List.mem_cons.1 hy with rfl | hy
      · rw [regeneratedDoc_get_code]
        exact hnew x (hpremem x hx)
      · exact hcross x hx y (List.mem_cons_of_mem _ hy)
  · have h1 : pre.filter (fun f => strictEq (f.get "id") (some (.str i))) = [] := by
      rw [List.filter_eq_nil_iff]
      intro x hx
      simp [hpre x hx]
    have h2 : post.filter (fun f => strictEq (f.get "id") (some (.str i))) = [] := by
      rw [List.filter_eq_nil_iff]
      intro x hx
      simp [hpost x hx]
    have h3 : strictEq ((regeneratedDoc F new (clock 0)).get "id") (some (.str i)) = true := by
      rw [regeneratedDoc_get_other _ _ _ _ (by decide) (by decide)]
      exact hFid
    simp [List.filter_append, List.filter, h1, h2, h3]

theorem twosRng_advance (n : Nat) : twosRng.advance n = twosRng := rfl

theorem attemptNo_twosRng (k : Nat) : attemptNo twosRng k = "CCCCCC" := by
  simp only [attemptNo, twosRng_advance]
  decide

/-- The frame of the `map` of `regenerateFamilyCode`. -/
theorem regenerateFamilies_frame (taken : String → Bool) (i : String) (l : List JObj)
    (rng : Rng) (clock : Clock) :
    List.Forall₂ (fun f f2 =>
        (f.get "id" = some (.str i) → ∃ code now, f2 = regeneratedDoc f code now)
        ∧ (f.get "id" ≠ some (.str i) → f2 = f))
      l (regenerateFamilies taken i l rng clock).1 := by
  induction l generalizing rng clock with
  | nil => exact List.Forall₂.nil
  | cons x rest ih =>
    by_cases hx : strictEq (x.get "id") (some (.str i)) = true
    · simp only [regenerateFamilies, hx, Bool.not_true, Bool.false_eq_true, if_false]
      refine List.Forall₂.cons ⟨fun _ => ⟨_, _, rfl⟩, fun h => ?_⟩ (ih _ _)
      exact absurd ((strictEq_str_iff _ _).1 hx) h
    · simp only [Bool.not_eq_true] at hx
      simp only [regenerateFamilies, hx, Bool.not_false, if_true]
      refine List.Forall₂.cons ⟨fun h => ?_, fun _ => rfl⟩ (ih _ _)
      exact absurd h ((strictEq_str_eq_false_iff _ _).1 hx)

theorem regenerateFamilies_result_mem (taken : String → Bool) (i : String) (l : List JObj)
    (rng : Rng) (clock : Clock) (f2 : JObj)
    (h : (regenerateFamilies taken i l rng clock).2 = some f2) :
    f2 ∈ (regenerateFamilies taken i l rng clock).1 ∧ f2.get "id" = some (.str i) := by
  induction l generalizing rng clock with
  | nil => simp [regenerateFamilies] at h
  | cons x rest ih =>
    by_cases hx : strictEq (x.get "id") (some (.str i)) = true
    · simp only [regenerateFamilies, hx, Bool.not_true, Bool.false_eq_true, if_false] at h ⊢
      cases hr : (regenerateFamilies taken i rest (generateFamilyCodeLoop taken 1999 rng).2
          (clock.advance 1)).2 with
      | none =>
        rw [hr] at h
        simp only [Option.orElse, Option.some.injEq] at h
        subst h
        refine ⟨List.mem_cons_self _ _, ?_⟩
        rw [JObj.get_set_other _ _ _ _ (by decide), JObj.get_set_other _ _ _ _ (by decide)]
        exact (strictEq_str_iff _ _).1 hx
      | some g =>
        rw [hr] at h
        simp only [Option.orElse, Option.some.injEq] at h
        subst h
        have := ih _ _ hr
        exact ⟨List.mem_cons_of_mem _ this.1, this.2⟩
    · simp only [Bool.not_eq_true] at hx
      simp only [regenerateFamilies, hx, Bool.not_false, if_true] at h ⊢
      have := ih _ _ h
      exact ⟨List.mem_cons_of_mem _ this.1, this.2⟩

theorem regenerateFamilies_result_isSome (taken : String → Bool) (i : String) (l : List JObj)
    (rng : Rng) (clock : Clock)
    (h : ∃ x ∈ l, strictEq (x.get "id") (some (.str i)) = true) :
    (regenerateFamilies taken i l rng clock).2.isSome = true := by
  induction l generalizing rng clock with
  | nil => simp at h
  | cons x rest ih =>
    by_cases hx : strictEq (x.get "id") (some (.str i)) = true
    · simp only [regenerateFamilies, hx, Bool.not_true, Bool.false_eq_true, if_false]
      cases (regenerateFamilies taken i rest (generateFamilyCodeLoop taken 1999 rng).2
          (clock.advance 1)).2 <;> simp [Option.orElse]
    · simp only [Bool.not_eq_true] at hx
      simp only [regenerateFamilies, hx, Bool.not_false, if_true]
      apply ih
      obtain ⟨y, hy, hpy⟩ := h
      rcases List.mem_cons.1 hy with rfl | hy
      · simp [hx] at hpy
      · exact ⟨y, hy, hpy⟩

theorem generateFamilyCode_oneFamilyStore_zeroRng :
    (generateFamilyCode oneFamilyStore ((listFamilies oneFamilyStore).map fun f => f.get "code")
      zeroRng).1 = "AAAAAA" := by
  rw [generateFamilyCode, generateFamilyCodeLoop_exhausted, attemptNo_zeroRng]
  intro k _
  rw [attemptNo_zeroRng]
  rfl

/-! ## Facts about `PUT` -/

theorem putFamily_ok (d : JObj) (s : Store) (chat : List JVal)
    (hid : truthy (d.get "id") = true)
    (hfound : (findFamilyById s (d.get "id")).isSome = true)
    (hchat : sanitizedChatOf d = some chat) :
    putFamily (some (.obj d)) s
      = ⟨200, (saveFamily (d.set "chat" (.arr chat)) s).1,
          sanitizeFamily (saveFamily (d.set "chat" (.arr chat)) s).2, none⟩ := by
  have hnone : (findFamilyById s (d.get "id")).isNone = false := by
    cases h : findFamilyById s (d.get "id") with
    | none => simp [h] at hfound
    | some f => rfl
  simp only [sanitizedChatOf] at hchat
  simp only [putFamily, hid, hnone, Bool.not_true, Bool.false_eq_true, if_false, hchat]

theorem saveFamily_families (d : JObj) (s : Store) :
    (saveFamily d s).1.families
      = s.families.map fun item =>
          if strictEq (item.get "id") (d.get "id") then JObj.spread item d else item := by
  simp only [saveFamily, updateStore, clone]
  apply List.map_congr_left
  intro x _
  cases strictEq (x.get "id") (d.get "id") <;> simp

/-! ## The invariant of guarded runs -/

theorem pairwise_get_iff_map (k : String) (l : List JObj) :
    l.Pairwise (fun f g => f.get k ≠ g.get k)
      ↔ (l.map fun f => JObj.get f k).Pairwise (fun a b => a ≠ b) := by
  rw [List.pairwise_map]

/-- The invariant only looks at the ids, the codes and the keys of the families. -/
theorem Inv_of_same_ids_codes (s s2 : Store) (h : Inv s)
    (hids : (s2.families.map fun f => JObj.get f "id") = s.families.map fun f => JObj.get f "id")
    (hcodes : (s2.families.map fun f => JObj.get f "code")
      = s.families.map fun f => JObj.get f "code")
    (hkeys : ∀ f ∈ s2.families, f.keys.Nodup) : Inv s2 := by
  obtain ⟨-, hi, hc⟩ := h
  refine ⟨hkeys, ?_, ?_⟩
  · simp only [IdsDistinct] at hi ⊢
    rw [pairwise_get_iff_map] at hi ⊢
    rw [hids]
    exact hi
  · simp only [CodesDistinct] at hc ⊢
    rw [pairwise_get_iff_map] at hc ⊢
    rw [hcodes]
    exact hc

theorem Inv_of_same_families (s s2 : Store) (h : Inv s) (hf : s2.families = s.families) :
    Inv s2 := by
  simpa [Inv, KeysDistinct, IdsDistinct, CodesDistinct, hf] using h

/-- In a list with distinct ids, two members with the same id are the same. -/
theorem eq_of_same_id (l : List JObj) (h : l.Pairwise fun f g => f.get "id" ≠ g.get "id")
    (x y : JObj) (hx : x ∈ l) (hy : y ∈ l) (hxy : x.get "id" = y.get "id") : x = y := by
  by_contra hne
  have hsym : Symmetric (fun f g : JObj => f.get "id" ≠ g.get "id") :=
    fun a b hab => Ne.symm hab
  exact List.Pairwise.forall hsym h hx hy hne hxy

theorem autoCreateUser_families (username : String) (profile : Option JVal) (defaultRole : JVal)
    (suffix generatedId now : String) (s : Store) :
    (autoCreateUser username profile defaultRole suffix generatedId now s).families
      = s.families := by
  unfold autoCreateUser
  split
  · split
    · rfl
    · rfl
  · rfl

theorem newFamilyDoc_keys (name : JVal) (owner id now code : String) :
    (newFamilyDoc name owner id now code).keys.Nodup := by
  simp [newFamilyDoc, JObj.keys]

theorem Inv_append (s s2 : Store) (doc : JObj) (h : Inv s)
    (hf : s2.families = s.families ++ [doc])
    (hkeys : doc.keys.Nodup)
    (hid : ∀ f ∈ s.families, f.get "id" ≠ doc.get "id")
    (hcode : ∀ f ∈ s.families, f.get "code" ≠ doc.get "code") : Inv s2 := by
  obtain ⟨hk, hi, hc⟩ := h
  refine ⟨?_, ?_, ?_⟩
  · intro f hfm
    rw [hf] at hfm
    rcases List.mem_append.1 hfm with hfm | hfm
    · exact hk f hfm
    · rw [List.mem_singleton.1 hfm]
      exact hkeys
  · simp only [IdsDistinct, hf] at hi ⊢
    rw [List.pairwise_append]
    refine ⟨hi, List.pairwise_singleton _ _, ?_⟩
    intro x hx y hy
    rw [List.mem_singleton.1 hy]
    exact hid x hx
  · simp only [CodesDistinct, hf] at hc ⊢
    rw [List.pairwise_append]
    refine ⟨hc, List.pairwise_singleton _ _, ?_⟩
    intro x hx y hy
    rw [List.mem_singleton.1 hy]
    exact hcode x hx

theorem postFamily_inv (name : Option JVal) (owner : String) (ownerProfile : Option JVal)
    (userId userNow familyId familyNow : String) (rng : Rng) (s : Store) (h : Inv s)
    (hid : findFamilyById s (some (.str familyId)) = none)
    (hfree : SomeAttemptFree rng s) :
    Inv (postFamily name owner ownerProfile userId userNow familyId familyNow rng s).store := by
  have hauto := autoCreateUser_families owner ownerProfile (.str "solo") "@familyhub.local"
    userId userNow s
  simp only [postFamily]
  by_cases h1 : (!truthy name || owner == "") = true
  · rw [if_pos h1]
    exact h
  · rw [if_neg h1]
    by_cases h2 : (findUserByUsername (autoCreateUser owner ownerProfile (.str "solo")
        "@familyhub.local" userId userNow s) owner).isNone = true
    · rw [if_pos h2]
      exact Inv_of_same_families _ _ h hauto
    · rw [if_neg h2]
      have hinv1 : Inv (autoCreateUser owner ownerProfile (.str "solo") "@familyhub.local"
          userId userNow s) := Inv_of_same_families _ _ h hauto
      apply Inv_append _ _ _ hinv1 (createFamily_families _ _ _ _ _ _) (newFamilyDoc_keys _ _ _ _ _)
      · intro f hf
        rw [hauto] at hf
        simp only [findFamilyById, clone, List.find?_eq_none] at hid
        have := hid f hf
        simp only [newFamilyDoc, JObj.get, if_true]
        intro hEq
        exact this ((strictEq_str_iff _ _).2 hEq)
      · obtain ⟨k, hk, hfreek⟩ := hfree
        have hfree1 : ∀ f ∈ (autoCreateUser owner ownerProfile (.str "solo") "@familyhub.local"
            userId userNow s).families, f.get "code" ≠ some (.str (attemptNo rng k)) := by
          intro f hf
          rw [hauto] at hf
          exact hfreek f hf
        have hloop := generateFamilyCodeLoop_free
          (codeTaken _ ((listFamilies (autoCreateUser owner ownerProfile (.str "solo")
            "@familyhub.local" userId userNow s)).map fun f => f.get "code")) 1999 rng
          ⟨k, by omega, (codeTaken_eq_false_iff _ _).2 hfree1⟩
        have := (codeTaken_eq_false_iff _ _).1 hloop
        intro f hf
        simpa [newFamilyDoc, JObj.get, generateFamilyCode] using this f hf

theorem mergedField_id (f d : JObj) (h : strictEq (f.get "id") (d.get "id") = true) :
    mergedField f d "id" = f.get "id" := by
  have := strictEq_eq_of_true _ _ h
  simp only [mergedField]
  cases hd : d.get "id" with
  | none => rfl
  | some v => rw [this, hd]

/-- `saveFamily` keeps the value of the key `k` in every family when the merge does. -/
theorem saveFamily_map_get (d : JObj) (s : Store) (k : String) (hd : d.keys.Nodup)
    (h : ∀ f ∈ s.families, strictEq (f.get "id") (d.get "id") = true →
      mergedField f d k = f.get k) :
    ((saveFamily d s).1.families.map fun f => JObj.get f k)
      = s.families.map fun f => JObj.get f k := by
  rw [saveFamily_families, List.map_map]
  apply List.map_congr_left
  intro f hf
  by_cases hm : strictEq (f.get "id") (d.get "id") = true
  · simp only [Function.comp, hm, if_true]
    rw [JObj.get_spread _ _ _ hd]
    exact h f hf hm
  · simp [Function.comp, hm]

theorem saveFamily_keys (d : JObj) (s : Store) (h : KeysDistinct s) :
    ∀ f ∈ (saveFamily d s).1.families, f.keys.Nodup := by
  intro f hf
  rw [saveFamily_families, List.mem_map] at hf
  obtain ⟨g, hg, rfl⟩ := hf
  by_cases hm : strictEq (g.get "id") (d.get "id") = true
  · simp only [hm, if_true]
    exact JObj.keys_spread_nodup _ _ (h g hg)
  · simp only [hm, if_false]
    exact h g hg

theorem saveFamily_inv (d : JObj) (s : Store) (h : Inv s) (hd : d.keys.Nodup)
    (hcode : ∀ f ∈ s.families, strictEq (f.get "id") (d.get "id") = true →
      mergedField f d "code" = f.get "code") :
    Inv (saveFamily d s).1 :=
  Inv_of_same_ids_codes s _ h
    (saveFamily_map_get d s "id" hd (fun f _ hm => mergedField_id f d hm))
    (saveFamily_map_get d s "code" hd hcode)
    (saveFamily_keys d s h.1)

theorem putFamily_store (family : Option JVal) (s : Store) :
    (putFamily family s).store = s
      ∨ ∃ d chat, family = some (.obj d)
          ∧ (putFamily family s).store = (saveFamily (JObj.set d "chat" (.arr chat)) s).1 := by
  unfold putFamily
  split
  · rename_i fam
    by_cases h1 : (!truthy (JObj.get fam "id")) = true
    · rw [if_pos h1]
      exact Or.inl rfl
    · rw [if_neg h1]
      by_cases h2 : (findFamilyById s (JObj.get fam "id")).isNone = true
      · rw [if_pos h2]
        exact Or.inl rfl
      · rw [if_neg h2]
        split
        · exact Or.inl rfl
        · rename_i chat _
          exact Or.inr ⟨fam, chat, rfl, rfl⟩
  · exact Or.inl rfl

theorem putFamily_inv (family : Option JVal) (s : Store) (h : Inv s)
    (hg : (Request.put family).Guarded s) :
    Inv (putFamily family s).store := by
  rcases putFamily_store family s with hs | ⟨d, chat, hfam, hs⟩
  · rw [hs]
    exact h
  · rw [hs]
    obtain ⟨hd, hcode⟩ := hg d hfam
    apply saveFamily_inv _ s h (JObj.keys_set_nodup d _ _ hd)
    intro f hf hm
    rw [JObj.get_set_other _ _ _ _ (by decide)] at hm
    simp only [mergedField]
    rw [JObj.get_set_other _ _ _ _ (by decide)]
    rcases hcode f hf hm with hnone | hsame
    · rw [hnone]
    · rw [hsame]
      cases f.get "code" <;> rfl

theorem patchUpdateMemberRole_inv (username familyId : String) (role : Option JVal) (s : Store)
    (h : Inv s) : Inv (patchUpdateMemberRole username familyId role s).store := by
  simp only [patchUpdateMemberRole]
  by_cases h1 : (username == "" || familyId == "" || !truthy role) = true
  · rw [if_pos h1]
    exact h
  · rw [if_neg h1]
    cases hfind : findFamilyById s (some (.str familyId)) with
    | none => exact h
    | some family =>
      simp only []
      have hmem : family ∈ s.families := by
        simp only [findFamilyById, clone] at hfind
        exact List.mem_of_find?_eq_some hfind
      generalize (if isArray (family.get "members") = true
        then updateRoleIn username (role.getD .null) (arrayItems (family.get "members"))
        else some []) = roles
      cases roles with
      | none => exact h
      | some members =>
        apply Inv_of_same_families (saveFamily (family.set "members" (.arr members)) s).1 _
        · apply saveFamily_inv _ s h (JObj.keys_set_nodup family _ _ (h.1 family hmem))
          intro f hf hm
          rw [JObj.get_set_other _ _ _ _ (by decide)] at hm
          have hEq : f = family :=
            eq_of_same_id s.families h.2.1 f family hf hmem (strictEq_eq_of_true _ _ hm)
          subst hEq
          simp only [mergedField]
          rw [JObj.get_set_other _ _ _ _ (by decide)]
          cases f.get "code" <;> rfl
        · rfl

theorem map_get_replaceFirst (p : JObj → Bool) (F F2 : JObj) (l : List JObj) (k : String)
    (hfind : l.find? p = some F) (hk : F2.get k = F.get k) :
    ((replaceFirst p F2 l).map fun f => JObj.get f k) = l.map fun f => JObj.get f k := by
  induction l with
  | nil => rfl
  | cons x rest ih =>
    by_cases hx : p x = true
    · simp only [List.find?, hx, Option.some.injEq] at hfind
      subst hfind
      simp [replaceFirst, hx, hk]
    · simp only [Bool.not_eq_true] at hx
      simp only [List.find?, hx] at hfind
      simp [replaceFirst, hx, ih hfind]

theorem mem_replaceFirst_cases (p : JObj → Bool) (F2 : JObj) (l : List JObj) (x : JObj)
    (h : x ∈ replaceFirst p F2 l) : x = F2 ∨ x ∈ l := by
  induction l with
  | nil => simp [replaceFirst] at h
  | cons y rest ih =>
    by_cases hy : p y = true
    · have h0 : x ∈ F2 :: rest := by simpa [replaceFirst, hy] using h
      rcases List.mem_cons.1 h0 with h1 | h2
      · exact Or.inl h1
      · exact Or.inr (List.mem_cons_of_mem _ h2)
    · have h0 : x ∈ y :: replaceFirst p F2 rest := by simpa [replaceFirst, hy] using h
      rcases List.mem_cons.1 h0 with h1 | h2
      · exact Or.inr (by simp [h1])
      · rcases ih h2 with h3 | h3
        · exact Or.inl h3
        · exact Or.inr (List.mem_cons_of_mem _ h3)

/-- With distinct ids, the `map` of `joinFamilyByCode` rewrites no family but the one
already written in place. -/
theorem familiesAfterJoin_eq_replaceFirst (c : String) (F F2 : JObj) (l : List JObj)
    (hids : l.Pairwise fun f g => f.get "id" ≠ g.get "id")
    (hfind : l.find? (fun item => strictEq (item.get "code") (some (.str c))) = some F)
    (hid : F2.get "id" = F.get "id") :
    familiesAfterJoin c F2 l
      = replaceFirst (fun item => strictEq (item.get "code") (some (.str c))) F2 l := by
  have hids2 : (replaceFirst (fun item => strictEq (item.get "code") (some (.str c))) F2
      l).Pairwise fun f g => f.get "id" ≠ g.get "id" := by
    rw [pairwise_get_iff_map] at hids ⊢
    rw [map_get_replaceFirst _ F F2 l "id" hfind hid]
    exact hids
  have hmem : F2 ∈ replaceFirst (fun item => strictEq (item.get "code") (some (.str c))) F2 l :=
    mem_replaceFirst _ _ _ (by simp [hfind])
  unfold familiesAfterJoin
  conv_rhs => rw [← List.map_id
    (replaceFirst (fun item => strictEq (item.get "code") (some (.str c))) F2 l)]
  apply List.map_congr_left
  intro x hx
  by_cases hm : strictEq (x.get "id") (F2.get "id") = true
  · have := eq_of_same_id _ hids2 x F2 hx hmem (strictEq_eq_of_true _ _ hm)
    simp [hm, this]
  · simp [hm]

theorem joinedDoc_keys (F : JObj) (B : String) (role : JVal) (b : Bool) (h : F.keys.Nodup) :
    (joinedDoc F B role b).keys.Nodup := by
  cases b
  · simp only [joinedDoc, Bool.false_eq_true, if_false]
    exact JObj.keys_set_nodup _ _ _ h
  · simpa [joinedDoc] using h

theorem joinFamilyByCode_throw (B : String) (role : JVal) (c : String) (s : Store) (F : JObj)
    (hF : findFamilyByCode s (some (.str c)) = some F)
    (hm : someMember B (roster F) = none) :
    joinFamilyByCode B role c s = none := by
  simp only [findFamilyByCode, clone] at hF
  unfold joinFamilyByCode
  simp only [hF]
  by_cases ha : isArray (F.get "members") = true
  · simp only [ha, Bool.not_true, Bool.false_eq_true, if_false]
    simp only [roster] at hm
    simp only [hm]
  · simp only [Bool.not_eq_true] at ha
    have hr : roster F = [] := arrayItems_eq_nil_of_not_isArray _ ha
    rw [hr] at hm
    simp [someMember] at hm

theorem joinFamilyByCode_not_found (B : String) (role : JVal) (c : String) (s : Store)
    (hF : findFamilyByCode s (some (.str c)) = none) :
    joinFamilyByCode B role c s = some (s, none, none) := by
  simp only [findFamilyByCode, clone] at hF
  unfold joinFamilyByCode
  simp only [hF]

theorem joinFamilyByCode_inv (B : String) (role : JVal) (c : String) (s s2 : Store)
    (fam user : Option JObj) (h : Inv s)
    (hj : joinFamilyByCode B role c s = some (s2, fam, user)) : Inv s2 := by
  cases hF : findFamilyByCode s (some (.str c)) with
  | none =>
    rw [joinFamilyByCode_not_found B role c s hF] at hj
    simp only [Option.some.injEq, Prod.mk.injEq] at hj
    rw [← hj.1]
    exact h
  | some F =>
    cases hm : someMember B (roster F) with
    | none =>
      rw [joinFamilyByCode_throw B role c s F hF hm] at hj
      exact Option.noConfusion hj
    | some b =>
      rw [joinFamilyByCode_eq B role c s F b hF hm] at hj
      simp only [Option.some.injEq, Prod.mk.injEq] at hj
      rw [← hj.1]
      have hfind : s.families.find? (fun item => strictEq (item.get "code") (some (.str c)))
          = some F := by
        simpa [findFamilyByCode, clone] using hF
      have hFmem : F ∈ s.families := List.mem_of_find?_eq_some hfind
      have hid : (joinedDoc F B role b).get "id" = F.get "id" :=
        joinedDoc_get_other _ _ _ _ _ (by decide)
      have hcode : (joinedDoc F B role b).get "code" = F.get "code" :=
        joinedDoc_get_other _ _ _ _ _ (by decide)
      have hfams : (updateUser B
          (JObj.set (JObj.setOpt [] "familyId" ((joinedDoc F B role b).get "id")) "role" role)
          { s with families := familiesAfterJoin c (joinedDoc F B role b) s.families }).1.families
          = replaceFirst (fun item => strictEq (item.get "code") (some (.str c)))
              (joinedDoc F B role b) s.families := by
        rw [updateUser_families]
        exact familiesAfterJoin_eq_replaceFirst c F _ s.families h.2.1 hfind hid
      apply Inv_of_same_ids_codes s _ h
      · rw [hfams]
        exact map_get_replaceFirst _ F _ s.families "id" hfind hid
      · rw [hfams]
        exact map_get_replaceFirst _ F _ s.families "code" hfind hcode
      · rw [hfams]
        intro f hf
        rcases mem_replaceFirst_cases _ _ _ _ hf with rfl | hf
        · exact joinedDoc_keys F B role b (h.1 F hFmem)
        · exact h.1 f hf

theorem patchJoin_inv (username code : String) (role : Option JVal) (userProfile : Option JVal)
    (userId userNow : String) (s : Store) (h : Inv s) :
    Inv (patchJoin username code role userProfile userId userNow s).store := by
  have hauto := autoCreateUser_families username userProfile (jsOr role (.str "adult"))
    "@familyhub.local\x7d" userId userNow s
  have hinv1 := Inv_of_same_families s _ h hauto
  simp only [patchJoin]
  by_cases h1 : (username == "" || code == "") = true
  · rw [if_pos h1]
    exact h
  · rw [if_neg h1]
    by_cases h2 : (findUserByUsername (autoCreateUser username userProfile
        (jsOr role (.str "adult")) "@familyhub.local\x7d" userId userNow s) username).isNone = true
    · rw [if_pos h2]
      exact hinv1
    · rw [if_neg h2]
      cases hj : joinFamilyByCode username (role.getD (.str "adult")) code
          (autoCreateUser username userProfile (jsOr role (.str "adult"))
            "@familyhub.local\x7d" userId userNow s) with
      | none => exact hinv1
      | some r =>
        obtain ⟨store2, fam, user⟩ := r
        have := joinFamilyByCode_inv _ _ _ _ _ _ _ hinv1 hj
        simp only []
        split <;> exact this

theorem regenerateFamilies_map_id (taken : String → Bool) (i : String) (l : List JObj)
    (rng : Rng) (clock : Clock) :
    ((regenerateFamilies taken i l rng clock).1.map fun f => JObj.get f "id")
      = l.map fun f => JObj.get f "id" := by
  induction l generalizing rng clock with
  | nil => rfl
  | cons x rest ih =>
    by_cases hx : strictEq (x.get "id") (some (.str i)) = true
    · simp only [regenerateFamilies, hx, Bool.not_true, Bool.false_eq_true, if_false,
        List.map_cons, ih]
      rw [JObj.get_set_other _ _ _ _ (by decide), JObj.get_set_other _ _ _ _ (by decide)]
    · simp only [Bool.not_eq_true] at hx
      simp only [regenerateFamilies, hx, Bool.not_false, if_true, List.map_cons, ih]

theorem regenerateFamilies_keys (taken : String → Bool) (i : String) (l : List JObj)
    (rng : Rng) (clock : Clock) (h : ∀ f ∈ l, f.keys.Nodup) :
    ∀ f ∈ (regenerateFamilies taken i l rng clock).1, f.keys.Nodup := by
  induction l generalizing rng clock with
  | nil => simp [regenerateFamilies]
  | cons x rest ih =>
    have hx0 := h x (List.mem_cons_self _ _)
    have hrest : ∀ f ∈ rest, f.keys.Nodup := fun f hf => h f (List.mem_cons_of_mem _ hf)
    intro f hf
    by_cases hx : strictEq (x.get "id") (some (.str i)) = true
    · simp only [regenerateFamilies, hx, Bool.not_true, Bool.false_eq_true, if_false,
        List.mem_cons] at hf
      rcases hf with h1 | h2
      · rw [h1]
        exact JObj.keys_set_nodup _ _ _ (JObj.keys_set_nodup _ _ _ hx0)
      · exact ih _ _ hrest f h2
    · simp only [Bool.not_eq_true] at hx
      simp only [regenerateFamilies, hx, Bool.not_false, if_true, List.mem_cons] at hf
      rcases hf with h1 | h2
      · rw [h1]
        exact hx0
      · exact ih _ _ hrest f h2

theorem filter_id_singleton (i : String) (l : List JObj) (F : JObj)
    (hids : l.Pairwise fun f g => f.get "id" ≠ g.get "id")
    (hF : F ∈ l) (hid : strictEq (F.get "id") (some (.str i)) = true) :
    (l.filter fun f => strictEq (f.get "id") (some (.str i))) = [F] := by
  induction l with
  | nil => simp at hF
  | cons x rest ih =>
    rw [List.pairwise_cons] at hids
    have hFid := (strictEq_str_iff _ _).1 hid
    rcases List.mem_cons.1 hF with h1 | h2
    · subst h1
      have hrest : (rest.filter fun f => strictEq (f.get "id") (some (.str i))) = [] := by
        rw [List.filter_eq_nil_iff]
        intro y hy hyid
        exact hids.1 y hy (hFid.trans ((strictEq_str_iff _ _).1 hyid).symm)
      simp [List.filter, hid, hrest]
    · have hx : strictEq (x.get "id") (some (.str i)) = false := by
        rw [strictEq_str_eq_false_iff]
        intro hxid
        exact hids.1 F h2 (hxid.trans hFid.symm)
      simp only [List.filter, hx]
      exact ih hids.2 h2

theorem regenerateFamilyCode_codesDistinct (i : String) (rng : Rng) (clock : Clock)
    (s : Store) (F : JObj)
    (hcodes : CodesDistinct s)
    (hF : (s.families.filter fun f => strictEq (f.get "id") (some (.str i))) = [F])
    (hfree : SomeAttemptFree rng s) :
    CodesDistinct (regenerateFamilyCode i rng clock s).1 := by
  obtain ⟨pre, post, hs, hpre, hFid, hpost⟩ := filter_eq_singleton_split _ _ _ hF
  obtain ⟨k, hk, hfreek⟩ := hfree
  have hloop := generateFamilyCodeLoop_free
    (codeTaken s ((listFamilies s).map fun f => f.get "code")) 1999 rng
    ⟨k, by omega, (codeTaken_eq_false_iff s _).2 hfreek⟩
  have hnew : ∀ f ∈ s.families, f.get "code"
      ≠ some (.str (generateFamilyCode s ((listFamilies s).map fun f => f.get "code") rng).1) :=
    (codeTaken_eq_false_iff s _).1 hloop
  have hpremem : ∀ x ∈ pre, x ∈ s.families := fun x hx => by simp [hs, hx]
  have hpostmem : ∀ x ∈ post, x ∈ s.families := fun x hx => by simp [hs, hx]
  rw [regenerateFamilyCode_unique i rng clock s pre post F hs hpre hFid hpost]
  generalize (generateFamilyCode s ((listFamilies s).map fun f => f.get "code") rng).1 = new
    at hnew ⊢
  have hpw : (pre ++ F :: post).Pairwise fun f g => f.get "code" ≠ g.get "code" := by
    have := hcodes
    rwa [CodesDistinct, hs] at this
  rw [List.pairwise_append, List.pairwise_cons] at hpw
  obtain ⟨hpw1, ⟨-, hpw2⟩, hcross⟩ := hpw
  simp only [CodesDistinct]
  rw [List.pairwise_append, List.pairwise_cons]
  refine ⟨hpw1, ⟨?_, hpw2⟩, ?_⟩
  · intro y hy
    rw [regeneratedDoc_get_code]
    exact fun h => hnew y (hpostmem y hy) h.symm
  · intro x hx y hy
    rcases List.mem_cons.1 hy with rfl | hy
    · rw [regeneratedDoc_get_code]
      exact hnew x (hpremem x hx)
    · exact hcross x hx y (List.mem_cons_of_mem _ hy)

theorem regenerateFamilyCode_inv (i : String) (rng : Rng) (clock : Clock) (s : Store)
    (h : Inv s) (hfree : SomeAttemptFree rng s) :
    Inv (regenerateFamilyCode i rng clock s).1 := by
  refine ⟨?_, ?_, ?_⟩
  · exact regenerateFamilies_keys _ i s.families rng clock h.1
  · have hi := h.2.1
    simp only [IdsDistinct] at hi ⊢
    rw [pairwise_get_iff_map] at hi ⊢
    have := regenerateFamilies_map_id
      (codeTaken s ((clone s).families.map fun f => f.get "code")) i s.families rng clock
    simp only [regenerateFamilyCode, updateStore, clone] at this ⊢
    rw [this]
    exact hi
  · by_cases hex : ∃ F ∈ s.families, strictEq (F.get "id") (some (.str i)) = true
    · obtain ⟨F, hFmem, hFid⟩ := hex
      exact regenerateFamilyCode_codesDistinct i rng clock s F h.2.2
        (filter_id_singleton i s.families F h.2.1 hFmem hFid) hfree
    · have hno : ∀ x ∈ s.families, strictEq (x.get "id") (some (.str i)) = false := by
        intro x hx
        by_contra hc
        exact hex ⟨x, hx, by simpa using hc⟩
      have := regenerateFamilies_no_match
        (codeTaken s ((clone s).families.map fun f => f.get "code")) i s.families rng clock hno
      simp only [CodesDistinct, regenerateFamilyCode, updateStore, clone] at this ⊢
      rw [this]
      exact h.2.2

theorem patchRegenerate_inv (familyId : String) (rng : Rng) (clock : Clock) (s : Store)
    (h : Inv s) (hfree : SomeAttemptFree rng s) :
    Inv (patchRegenerate familyId rng clock s).store := by
  simp only [patchRegenerate]
  by_cases h1 : (familyId == "") = true
  · rw [if_pos h1]
    exact h
  · rw [if_neg h1]
    split <;> exact regenerateFamilyCode_inv familyId rng clock s h hfree

theorem handle_inv (r : Request) (s : Store) (h : Inv s) (hg : r.Guarded s) :
    Inv (handle r s).store := by
  cases r with
  | post name owner ownerProfile userId userNow familyId familyNow rng =>
    exact postFamily_inv name owner ownerProfile userId userNow familyId familyNow rng s h
      hg.1 hg.2
  | put family => exact putFamily_inv family s h hg
  | join username code role userProfile userId userNow =>
    exact patchJoin_inv username code role userProfile userId userNow s h
  | regenerate familyId rng clock => exact patchRegenerate_inv familyId rng clock s h hg
  | updateMemberRole username familyId role =>
    exact patchUpdateMemberRole_inv username familyId role s h

theorem run_inv (reqs : List Request) (s : Store) (h : Inv s) (hg : GuardedRun reqs s) :
    Inv (run reqs s) := by
  induction reqs generalizing s with
  | nil => exact h
  | cons r rest ih => exact ih _ (handle_inv r s h hg.1) hg.2

theorem Inv_default : Inv DEFAULT_STORE := by
  simp [Inv, KeysDistinct, IdsDistinct, CodesDistinct, DEFAULT_STORE]

/-- With distinct codes, at most one family has a given code. -/
theorem filter_code_length_le_one (s : Store) (h : CodesDistinct s) (c : String) :
    (s.families.filter fun f => strictEq (f.get "code") (some (.str c))).length ≤ 1 := by
  have hsub : (s.families.filter fun f => strictEq (f.get "code") (some (.str c))).Pairwise
      fun f g => f.get "code" ≠ g.get "code" := List.Pairwise.sublist (List.filter_sublist _) h
  cases hl : s.families.filter fun f => strictEq (f.get "code") (some (.str c)) with
  | nil => simp
  | cons a rest =>
    cases rest with
    | nil => simp
    | cons b rest2 =>
      exfalso
      rw [hl, List.pairwise_cons] at hsub
      have ha : a ∈ s.families.filter fun f => strictEq (f.get "code") (some (.str c)) := by
        simp [hl]
      have hb : b ∈ s.families.filter fun f => strictEq (f.get "code") (some (.str c)) := by
        simp [hl]
      have ha2 := (strictEq_str_iff _ _).1 (List.mem_filter.1 ha).2
      have hb2 := (strictEq_str_iff _ _).1 (List.mem_filter.1 hb).2
      exact hsub.1 b (List.mem_cons_self _ _) (ha2.trans hb2.symm)

theorem free_of_all (l : List JObj) (a : String)
    (h : (l.all fun f => !strictEq (f.get "code") (some (.str a))) = true) :
    ∀ f ∈ l, f.get "code" ≠ some (.str a) := by
  intro f hf
  have := List.all_eq_true.1 h f hf
  rw [← strictEq_str_eq_false_iff]
  simpa using this

theorem quietRequests_guarded : GuardedRun quietRequests DEFAULT_STORE := by
  refine ⟨⟨rfl, 0, by decide, free_of_all _ _ rfl⟩, ⟨rfl, 0, by decide, free_of_all _ _ rfl⟩,
    trivial, ⟨0, by decide, free_of_all _ _ rfl⟩, ?_, trivial⟩
  intro d hd
  have hd2 : renameDoc = d := by
    simp only [Option.some.injEq, JVal.obj.injEq] at hd
    exact hd
  subst hd2
  exact ⟨by decide, fun _ _ _ => Or.inl rfl⟩

/-! ## The invariant of role-guarded runs -/

theorem roster_congr (f g : JObj) (h : g.get "members" = f.get "members") :
    roster g = roster f := by
  simp [roster, h]

theorem OwnerOk_congr (f g : JObj) (ho : g.get "owner" = f.get "owner")
    (hm : g.get "members" = f.get "members") (h : OwnerOk f) : OwnerOk g := by
  simpa [OwnerOk, ho, roster_congr f g hm] using h

theorem OwnerOk_newFamilyDoc (name : JVal) (owner id now code : String) :
    OwnerOk (newFamilyDoc name owner id now code) := by
  refine ⟨owner, rfl, ?_, ?_, ?_⟩
  · simp [roster, newFamilyDoc, JObj.get, arrayItems, ownerCount, property, strictEq]
  · intro e he _
    simp only [roster, newFamilyDoc, JObj.get, arrayItems] at he
    simp at he
    subst he
    simp [property, JObj.get]
  · intro e he
    simp only [roster, newFamilyDoc, JObj.get, arrayItems] at he
    simp at he
    subst he
    exact Or.inl (by simp [property, JObj.get])

theorem OwnerInv_default : OwnerInv DEFAULT_STORE := by
  simp [OwnerInv, KeysDistinct, DEFAULT_STORE]

theorem OwnerInv_of_same_families (s s2 : Store) (h : OwnerInv s)
    (hf : s2.families = s.families) : OwnerInv s2 := by
  simpa [OwnerInv, KeysDistinct, hf] using h

theorem postFamily_ownerInv (name : Option JVal) (owner : String) (ownerProfile : Option JVal)
    (userId userNow familyId familyNow : String) (rng : Rng) (s : Store) (h : OwnerInv s) :
    OwnerInv (postFamily name owner ownerProfile userId userNow familyId familyNow rng s).store := by
  have hauto := autoCreateUser_families owner ownerProfile (.str "solo") "@familyhub.local"
    userId userNow s
  simp only [postFamily]
  by_cases h1 : (!truthy name || owner == "") = true
  · rw [if_pos h1]
    exact h
  · rw [if_neg h1]
    by_cases h2 : (findUserByUsername (autoCreateUser owner ownerProfile (.str "solo")
        "@familyhub.local" userId userNow s) owner).isNone = true
    · rw [if_pos h2]
      exact OwnerInv_of_same_families _ _ h hauto
    · rw [if_neg h2]
      have hfam := createFamily_families (name.getD .null) owner familyId familyNow rng
        (autoCreateUser owner ownerProfile (.str "solo") "@familyhub.local" userId userNow s)
      rw [hauto] at hfam
      constructor
      · intro f hf
        rw [hfam] at hf
        rcases List.mem_append.1 hf with hf | hf
        · exact h.1 f hf
        · rw [List.mem_singleton.1 hf]
          exact newFamilyDoc_keys _ _ _ _ _
      · intro f hf
        rw [hfam] at hf
        rcases List.mem_append.1 hf with hf | hf
        · exact h.2 f hf
        · rw [List.mem_singleton.1 hf]
          exact OwnerOk_newFamilyDoc _ _ _ _ _

/-- `saveFamily` keeps single ownership when the merge keeps `owner` and `members`, or
writes a roster that is in order for the owner it writes. -/
theorem saveFamily_ownerInv (d : JObj) (s : Store) (h : OwnerInv s) (hd : d.keys.Nodup)
    (hok : ∀ f ∈ s.families, strictEq (f.get "id") (d.get "id") = true →
      RosterOk (mergedField f d "owner") (arrayItems (mergedField f d "members"))) :
    OwnerInv (saveFamily d s).1 := by
  refine ⟨saveFamily_keys d s h.1, ?_⟩
  intro f hf
  rw [saveFamily_families, List.mem_map] at hf
  obtain ⟨g, hg, rfl⟩ := hf
  by_cases hm : strictEq (g.get "id") (d.get "id") = true
  · simp only [hm, if_true]
    have := hok g hg hm
    simpa [OwnerOk, roster, JObj.get_spread _ _ _ hd] using this
  · simp only [hm, if_false]
    exact h.2 g hg

theorem mergedField_keep (f d : JObj) (k : String)
    (h : d.get k = none ∨ d.get k = f.get k) : mergedField f d k = f.get k := by
  simp only [mergedField]
  rcases h with h | h
  · rw [h]
  · rw [h]
    cases f.get k <;> rfl

theorem putFamily_ownerInv (family : Option JVal) (s : Store) (h : OwnerInv s)
    (hg : (Request.put family).RoleGuarded s) :
    OwnerInv (putFamily family s).store := by
  rcases putFamily_store family s with hs | ⟨d, chat, hfam, hs⟩
  · rw [hs]
    exact h
  · rw [hs]
    obtain ⟨hd, hkeep⟩ := hg d hfam
    apply saveFamily_ownerInv _ s h (JObj.keys_set_nodup d _ _ hd)
    intro f hf hm
    rw [JObj.get_set_other _ _ _ _ (by decide)] at hm
    have hk := hkeep f hf hm
    have h1 : mergedField f (JObj.set d "chat" (.arr chat)) "owner" = f.get "owner" := by
      apply mergedField_keep
      rw [JObj.get_set_other _ _ _ _ (by decide)]
      exact hk.2
    have h2 : mergedField f (JObj.set d "chat" (.arr chat)) "members" = f.get "members" := by
      apply mergedField_keep
      rw [JObj.get_set_other _ _ _ _ (by decide)]
      exact hk.1
    rw [h1, h2]
    exact h.2 f hf

theorem property_memberEntry_role (B : String) (r : JVal) :
    property (memberEntry B r) "role" = some r := by
  simp [memberEntry, property, JObj.get]

theorem strictEq_plain_owner (r : JVal) (hr : r = .str "adult" ∨ r = .str "kid") :
    strictEq (some r) (some (.str "owner")) = false := by
  rcases hr with rfl | rfl <;> simp [strictEq]

theorem plain_ne_owner (r : JVal) (hr : r = .str "adult" ∨ r = .str "kid") :
    (some r : Option JVal) ≠ some (.str "owner") := by
  rcases hr with rfl | rfl <;> simp

theorem RoleOk_of_plain (e : JVal) (r : JVal) (hr : r = .str "adult" ∨ r = .str "kid")
    (he : property e "role" = some r) : RoleOk e := by
  rcases hr with rfl | rfl
  · exact Or.inr (Or.inl he)
  · exact Or.inr (Or.inr he)

theorem RosterOk_append_plain (o : Option JVal) (items : List JVal) (B : String) (r : JVal)
    (hr : r = .str "adult" ∨ r = .str "kid") (h : RosterOk o items) :
    RosterOk o (items ++ [memberEntry B r]) := by
  obtain ⟨o1, ho, hcount, hown, hroles⟩ := h
  refine ⟨o1, ho, ?_, ?_, ?_⟩
  · simp only [ownerCount] at hcount ⊢
    rw [List.countP_append, hcount]
    simp [List.countP_cons, property_memberEntry_role, strictEq_plain_owner r hr]
  · intro e he hrole
    rcases List.mem_append.1 he with he | he
    · exact hown e he hrole
    · rw [List.mem_singleton.1 he, property_memberEntry_role] at hrole
      exact absurd hrole (plain_ne_owner r hr)
  · intro e he
    rcases List.mem_append.1 he with he | he
    · exact hroles e he
    · rw [List.mem_singleton.1 he]
      exact RoleOk_of_plain _ r hr (property_memberEntry_role B r)

theorem mem_familiesAfterJoin (c : String) (F2 : JObj) (l : List JObj) (x : JObj)
    (h : x ∈ familiesAfterJoin c F2 l) : x = F2 ∨ x ∈ l := by
  simp only [familiesAfterJoin, List.mem_map] at h
  obtain ⟨y, hy, rfl⟩ := h
  by_cases hm : strictEq (y.get "id") (F2.get "id") = true
  · simp [hm]
  · simp only [hm, if_false]
    exact mem_replaceFirst_cases _ _ _ _ hy

theorem OwnerOk_joinedDoc (F : JObj) (B : String) (r : JVal) (b : Bool)
    (hr : r = .str "adult" ∨ r = .str "kid") (h : OwnerOk F) : OwnerOk (joinedDoc F B r b) := by
  cases b
  · simp only [OwnerOk, roster_joinedDoc_false]
    rw [joinedDoc_get_other _ _ _ _ _ (by decide)]
    exact RosterOk_append_plain _ _ B r hr h
  · simpa [joinedDoc] using h

theorem joinFamilyByCode_ownerInv (B : String) (role : JVal) (c : String) (s s2 : Store)
    (fam user : Option JObj) (h : OwnerInv s)
    (hr : role = .str "adult" ∨ role = .str "kid")
    (hj : joinFamilyByCode B role c s = some (s2, fam, user)) : OwnerInv s2 := by
  cases hF : findFamilyByCode s (some (.str c)) with
  | none =>
    rw [joinFamilyByCode_not_found B role c s hF] at hj
    simp only [Option.some.injEq, Prod.mk.injEq] at hj
    rw [← hj.1]
    exact h
  | some F =>
    cases hm : someMember B (roster F) with
    | none =>
      rw [joinFamilyByCode_throw B role c s F hF hm] at hj
      exact Option.noConfusion hj
    | some b =>
      rw [joinFamilyByCode_eq B role c s F b hF hm] at hj
      simp only [Option.some.injEq, Prod.mk.injEq] at hj
      rw [← hj.1]
      have hfind : s.families.find? (fun item => strictEq (item.get "code") (some (.str c)))
          = some F := by
        simpa [findFamilyByCode, clone] using hF
      have hFmem : F ∈ s.families := List.mem_of_find?_eq_some hfind
      constructor
      · intro f hf
        rw [updateUser_families] at hf
        rcases mem_familiesAfterJoin _ _ _ _ hf with rfl | hf
        · exact joinedDoc_keys F B role b (h.1 F hFmem)
        · exact h.1 f hf
      · intro f hf
        rw [updateUser_families] at hf
        rcases mem_familiesAfterJoin _ _ _ _ hf with rfl | hf
        · exact OwnerOk_joinedDoc F B role b hr (h.2 F hFmem)
        · exact h.2 f hf

theorem patchJoin_ownerInv (username code : String) (role : Option JVal)
    (userProfile : Option JVal) (userId userNow : String) (s : Store) (h : OwnerInv s)
    (hg : role = none ∨ PlainRole role) :
    OwnerInv (patchJoin username code role userProfile userId userNow s).store := by
  have hauto := autoCreateUser_families username userProfile (jsOr role (.str "adult"))
    "@familyhub.local\x7d" userId userNow s
  have hinv1 := OwnerInv_of_same_families s _ h hauto
  have hr : role.getD (.str "adult") = .str "adult" ∨ role.getD (.str "adult") = .str "kid" := by
    rcases hg with rfl | hp | hp
    · exact Or.inl rfl
    · exact Or.inl (by rw [hp]; rfl)
    · exact Or.inr (by rw [hp]; rfl)
  simp only [patchJoin]
  by_cases h1 : (username == "" || code == "") = true
  · rw [if_pos h1]
    exact h
  · rw [if_neg h1]
    by_cases h2 : (findUserByUsername (autoCreateUser username userProfile
        (jsOr role (.str "adult")) "@familyhub.local\x7d" userId userNow s) username).isNone = true
    · rw [if_pos h2]
      exact hinv1
    · rw [if_neg h2]
      cases hj : joinFamilyByCode username (role.getD (.str "adult")) code
          (autoCreateUser username userProfile (jsOr role (.str "adult"))
            "@familyhub.local\x7d" userId userNow s) with
      | none => exact hinv1
      | some r =>
        obtain ⟨store2, fam, user⟩ := r
        have := joinFamilyByCode_ownerInv _ _ _ _ _ _ _ hinv1 hr hj
        simp only []
        split <;> exact this

theorem regenerateFamilies_mem (taken : String → Bool) (i : String) (l : List JObj)
    (rng : Rng) (clock : Clock) :
    ∀ f2 ∈ (regenerateFamilies taken i l rng clock).1,
      ∃ f ∈ l, f2 = f ∨ ∃ code now, f2 = regeneratedDoc f code now := by
  induction l generalizing rng clock with
  | nil => simp [regenerateFamilies]
  | cons x rest ih =>
    intro f2 hf2
    by_cases hx : strictEq (x.get "id") (some (.str i)) = true
    · simp only [regenerateFamilies, hx, Bool.not_true, Bool.false_eq_true, if_false] at hf2
      rcases List.mem_cons.1 hf2 with h1 | h2
      · exact ⟨x, List.mem_cons_self _ _, Or.inr ⟨_, _, h1⟩⟩
      · obtain ⟨f, hf, hcase⟩ := ih _ _ f2 h2
        exact ⟨f, List.mem_cons_of_mem _ hf, hcase⟩
    · simp only [Bool.not_eq_true] at hx
      simp only [regenerateFamilies, hx, Bool.not_false, if_true] at hf2
      rcases List.mem_cons.1 hf2 with h1 | h2
      · exact ⟨x, List.mem_cons_self _ _, Or.inl h1⟩
      · obtain ⟨f, hf, hcase⟩ := ih _ _ f2 h2
        exact ⟨f, List.mem_cons_of_mem _ hf, hcase⟩

theorem regenerateFamilyCode_ownerInv (i : String) (rng : Rng) (clock : Clock) (s : Store)
    (h : OwnerInv s) : OwnerInv (regenerateFamilyCode i rng clock s).1 := by
  refine ⟨regenerateFamilies_keys _ i s.families rng clock h.1, ?_⟩
  intro f2 hf2
  obtain ⟨f, hf, hcase⟩ := regenerateFamilies_mem _ i s.families rng clock f2 hf2
  rcases hcase with rfl | ⟨code, now, rfl⟩
  · exact h.2 _ hf
  · exact OwnerOk_congr f _ (regeneratedDoc_get_other f code now "owner" (by decide) (by decide))
      (regeneratedDoc_get_other f code now "members" (by decide) (by decide)) (h.2 f hf)

theorem patchRegenerate_ownerInv (familyId : String) (rng : Rng) (clock : Clock) (s : Store)
    (h : OwnerInv s) : OwnerInv (patchRegenerate familyId rng clock s).store := by
  simp only [patchRegenerate]
  by_cases h1 : (familyId == "") = true
  · rw [if_pos h1]
    exact h
  · rw [if_neg h1]
    split <;> exact regenerateFamilyCode_ownerInv familyId rng clock s h

/-- The entry that the `map` of `updateMemberRole` returns for one roster entry. -/
theorem updateRoleIn_eq (username : String) (role : JVal) (items : List JVal)
    (h : ∀ e ∈ items, e ≠ .null) :
    updateRoleIn username role items = some (items.map fun member =>
      if strictEq (property member "username") (some (.str username))
      then .obj ((spreadValue member).set "role" role) else member) := by
  induction items with
  | nil => rfl
  | cons member rest ih =>
    have hrest := ih fun e he => h e (List.mem_cons_of_mem _ he)
    have hne := h member (List.mem_cons_self _ _)
    cases member with
    | null => exact absurd rfl hne
    | bool b => simp [updateRoleIn, hrest]
    | num n => simp [updateRoleIn, hrest]
    | str t => simp [updateRoleIn, hrest]
    | arr a => simp [updateRoleIn, hrest]
    | obj o => simp [updateRoleIn, hrest]

theorem RoleOk_ne_null (e : JVal) (h : RoleOk e) : e ≠ .null := by
  intro he
  subst he
  rcases h with h | h | h <;> simp [property] at h

theorem RosterOk_updateRole (o : Option JVal) (items : List JVal) (username : String)
    (r : JVal) (hr : r = .str "adult" ∨ r = .str "kid") (hne : o ≠ some (.str username))
    (h : RosterOk o items) :
    RosterOk o (items.map fun member =>
      if strictEq (property member "username") (some (.str username))
      then .obj ((spreadValue member).set "role" r) else member) := by
  obtain ⟨o1, ho, hcount, hown, hroles⟩ := h
  have hset : ∀ member : JVal,
      property (.obj ((spreadValue member).set "role" r)) "role" = some r := by
    intro member
    simp [property, JObj.get_set_self]
  have hnot : ∀ e ∈ items, strictEq (property e "username") (some (.str username)) = true →
      strictEq (property e "role") (some (.str "owner")) = false := by
    intro e he hu
    cases hrole : strictEq (property e "role") (some (.str "owner")) with
    | false => rfl
    | true =>
      exfalso
      have h1 := hown e he (strictEq_eq_of_true _ _ hrole)
      have h2 := strictEq_eq_of_true _ _ hu
      apply hne
      rw [ho, ← h1, h2]
  refine ⟨o1, ho, ?_, ?_, ?_⟩
  · simp only [ownerCount] at hcount ⊢
    rw [List.countP_map, ← hcount]
    apply List.countP_congr
    intro e he
    by_cases hu : strictEq (property e "username") (some (.str username)) = true
    · simp only [Function.comp, hu, if_true, hset, strictEq_plain_owner r hr, hnot e he hu]
    · simp only [Bool.not_eq_true] at hu
      simp [Function.comp, hu]
  · intro e2 he2 hrole
    obtain ⟨e, he, rfl⟩ := List.mem_map.1 he2
    by_cases hu : strictEq (property e "username") (some (.str username)) = true
    · simp only [hu, if_true, hset] at hrole
      exact absurd hrole (plain_ne_owner r hr)
    · simp only [hu, if_false] at hrole ⊢
      exact hown e he hrole
  · intro e2 he2
    obtain ⟨e, he, rfl⟩ := List.mem_map.1 he2
    by_cases hu : strictEq (property e "username") (some (.str username)) = true
    · simp only [hu, if_true]
      exact RoleOk_of_plain _ r hr (hset e)
    · simp only [hu, if_false]
      exact hroles e he

theorem OwnerOk_isArray (f : JObj) (h : OwnerOk f) : isArray (f.get "members") = true := by
  obtain ⟨o1, _, hcount, _, _⟩ := h
  simp only [roster] at hcount
  cases hm : f.get "members" with
  | none => rw [hm] at hcount; simp [arrayItems, ownerCount] at hcount
  | some v =>
    rw [hm] at hcount
    cases v <;> first | rfl | simp [arrayItems, ownerCount] at hcount

theorem patchUpdateMemberRole_ownerInv (username familyId : String) (role : Option JVal)
    (s : Store) (h : OwnerInv s)
    (hg : (Request.updateMemberRole username familyId role).RoleGuarded s) :
    OwnerInv (patchUpdateMemberRole username familyId role s).store := by
  obtain ⟨hplain, howner⟩ := hg
  have hr : role.getD .null = .str "adult" ∨ role.getD .null = .str "kid" := by
    rcases hplain with hp | hp
    · exact Or.inl (by rw [hp]; rfl)
    · exact Or.inr (by rw [hp]; rfl)
  simp only [patchUpdateMemberRole]
  by_cases h1 : (username == "" || familyId == "" || !truthy role) = true
  · rw [if_pos h1]
    exact h
  · rw [if_neg h1]
    cases hfind : findFamilyById s (some (.str familyId)) with
    | none => exact h
    | some family =>
      simp only []
      have hmem : family ∈ s.families := by
        simp only [findFamilyById, clone] at hfind
        exact List.mem_of_find?_eq_some hfind
      have hok := h.2 family hmem
      have hroles : (if isArray (family.get "members") = true
          then updateRoleIn username (role.getD .null) (arrayItems (family.get "members"))
          else some []) = some ((roster family).map fun member =>
            if strictEq (property member "username") (some (.str username))
            then .obj ((spreadValue member).set "role" (role.getD .null)) else member) := by
        rw [if_pos (OwnerOk_isArray family hok)]
        obtain ⟨_, _, _, _, hall⟩ := hok
        exact updateRoleIn_eq _ _ _ fun e he => RoleOk_ne_null e (hall e he)
      rw [hroles]
      simp only []
      apply OwnerInv_of_same_families (saveFamily (family.set "members" (.arr
        ((roster family).map fun member =>
          if strictEq (property member "username") (some (.str username))
          then .obj ((spreadValue member).set "role" (role.getD .null)) else member))) s).1 _
      · apply saveFamily_ownerInv _ s h (JObj.keys_set_nodup family _ _ (h.1 family hmem))
        intro f _ _
        have hnew := RosterOk_updateRole _ _ username _ hr (howner family hfind) hok
        obtain ⟨o1, ho1, _⟩ := hok
        have e1 : mergedField f (family.set "members" (.arr ((roster family).map fun member =>
            if strictEq (property member "username") (some (.str username))
            then .obj ((spreadValue member).set "role" (role.getD .null)) else member)))
            "owner" = family.get "owner" := by
          simp only [mergedField]
          rw [JObj.get_set_other _ _ _ _ (by decide), ho1]
        have e2 : mergedField f (family.set "members" (.arr ((roster family).map fun member =>
            if strictEq (property member "username") (some (.str username))
            then .obj ((spreadValue member).set "role" (role.getD .null)) else member)))
            "members" = some (.arr ((roster family).map fun member =>
            if strictEq (property member "username") (some (.str username))
            then .obj ((spreadValue member).set "role" (role.getD .null)) else member)) := by
          simp only [mergedField]
          rw [JObj.get_set_self]
        rw [e1, e2]
        exact hnew
      · rfl

theorem handle_ownerInv (r : Request) (s : Store) (h : OwnerInv s) (hg : r.RoleGuarded s) :
    OwnerInv (handle r s).store := by
  cases r with
  | post name owner ownerProfile userId userNow familyId rng clock =>
    exact postFamily_ownerInv name owner ownerProfile userId userNow familyId rng clock s h
  | put family => exact putFamily_ownerInv family s h hg
  | join username code role userProfile userId userNow =>
    exact patchJoin_ownerInv username code role userProfile userId userNow s h hg
  | regenerate familyId rng clock => exact patchRegenerate_ownerInv familyId rng clock s h
  | updateMemberRole username familyId role =>
    exact patchUpdateMemberRole_ownerInv username familyId role s h hg

theorem run_ownerInv (reqs : List Request) (s : Store) (h : OwnerInv s)
    (hg : RoleGuardedRun reqs s) : OwnerInv (run reqs s) := by
  induction reqs generalizing s with
  | nil => exact h
  | cons r rest ih => exact ih _ (handle_ownerInv r s h hg.1) hg.2

theorem ownerSafeRequests_guarded : RoleGuardedRun ownerSafeRequests DEFAULT_STORE := by
  refine ⟨trivial, Or.inl rfl, ⟨Or.inr rfl, ?_⟩, ?_, trivial⟩
  · intro f hf
    have h2 : (findFamilyById (handle (.join "bob" "AAAAAA" none
          (some (.obj [("password", .str "pw2")])) "user_2" "2024-05-02T11:00:00.000Z")
        (handle (.post (some (.str "Smiths")) "alice" (some (.obj [("password", .str "pw1")]))
          "user_1" "2024-05-01T09:59:00.000Z" "fam_1" "2024-05-01T10:00:00.000Z" zeroRng)
          DEFAULT_STORE).store).store (some (.str "fam_1"))).bind (fun g => g.get "owner")
        = some (.str "alice") := rfl
    rw [hf] at h2
    simp only [Option.some_bind] at h2
    rw [h2]
    simp
  · intro d hd
    have hd2 : renameDoc = d := by
      simp only [Option.some.injEq, JVal.obj.injEq] at hd
      exact hd
    subst hd2
    exact ⟨by decide, fun _ _ _ => ⟨Or.inl rfl, Or.inl rfl⟩⟩

/-! ## Facts about sorting -/

theorem Before.of_pos {α : Type} {cmp : α → α → Option Int} {S : α → Prop}
    (h : Consistent cmp S) {x y : α} (hx : S x) (hy : S y) {c : Int}
    (hc : cmp x y = some c) (hpos : 0 < c) : Before cmp y x := by
  obtain ⟨d, hd⟩ := h.total y x hy hx
  exact ⟨d, hd, le_of_lt ((h.flip y x d c hy hx hd hc).2 hpos)⟩

theorem Before.trans_of {α : Type} {cmp : α → α → Option Int} {S : α → Prop}
    (h : Consistent cmp S) {a b c : α} (ha : S a) (hb : S b) (hc : S c)
    (hab : Before cmp a b) (hbc : Before cmp b c) : Before cmp a c := by
  obtain ⟨x, hx, hx0⟩ := hab
  obtain ⟨y, hy, hy0⟩ := hbc
  rcases lt_or_eq_of_le hx0 with hxlt | hxeq
  · rcases lt_or_eq_of_le hy0 with hylt | hyeq
    · obtain ⟨z, hz, hz0⟩ := h.trans a b c x y ha hb hc hx hy hxlt hylt
      exact ⟨z, hz, le_of_lt hz0⟩
    · subst hyeq
      have := h.zero b c hb hc hy
      subst this
      exact ⟨x, hx, hx0⟩
  · subst hxeq
    have := h.zero a b ha hb hx
    subst this
    exact ⟨y, hy, hy0⟩

theorem Before.antisymm_of {α : Type} {cmp : α → α → Option Int} {S : α → Prop}
    (h : Consistent cmp S) {a b : α} (ha : S a) (hb : S b)
    (hab : Before cmp a b) (hba : Before cmp b a) : a = b := by
  obtain ⟨x, hx, hx0⟩ := hab
  obtain ⟨y, hy, hy0⟩ := hba
  rcases lt_or_eq_of_le hx0 with hxlt | hxeq
  · have := (h.flip a b x y ha hb hx hy).1 hxlt
    omega
  · subst hxeq
    exact h.zero a b ha hb hx

theorem sortBy_nil {α : Type} (cmp : α → α → Option Int) : sortBy cmp [] = some [] := rfl

theorem sortBy_concat {α : Type} (cmp : α → α → Option Int) (l : List α) (x : α) :
    sortBy cmp (l ++ [x]) = (sortBy cmp l).bind (insertBy cmp x) := by
  simp only [sortBy, List.foldl_append, List.foldl_cons, List.foldl_nil]

theorem insertBy_spec {α : Type} {cmp : α → α → Option Int} {S : α → Prop}
    (h : Consistent cmp S) (x : α) (ys : List α) (hx : S x) (hys : ∀ y ∈ ys, S y)
    (hsorted : ys.Pairwise (Before cmp)) :
    ∃ r, insertBy cmp x ys = some r ∧ r.Perm (x :: ys) ∧ r.Pairwise (Before cmp) := by
  induction ys with
  | nil => exact ⟨[x], rfl, List.Perm.refl _, List.pairwise_singleton _ _⟩
  | cons y rest ih =>
    have hy : S y := hys y (List.mem_cons_self _ _)
    have hrest : ∀ z ∈ rest, S z := fun z hz => hys z (List.mem_cons_of_mem _ hz)
    obtain ⟨hyrest, hsrest⟩ := List.pairwise_cons.1 hsorted
    obtain ⟨c, hc⟩ := h.total x y hx hy
    by_cases hlt : c < 0
    · refine ⟨x :: y :: rest, by simp [insertBy, hc, hlt], List.Perm.refl _, ?_⟩
      refine List.pairwise_cons.2 ⟨?_, hsorted⟩
      intro z hz
      rcases List.mem_cons.1 hz with rfl | hz
      · exact ⟨c, hc, le_of_lt hlt⟩
      · exact Before.trans_of h hx hy (hrest z hz) ⟨c, hc, le_of_lt hlt⟩ (hyrest z hz)
    · obtain ⟨r, hr, hperm, hrs⟩ := ih hrest hsrest
      refine ⟨y :: r, by simp [insertBy, hc, hlt, hr], ?_, ?_⟩
      · exact (List.Perm.cons y hperm).trans (List.Perm.swap x y rest)
      · refine List.pairwise_cons.2 ⟨?_, hrs⟩
        intro z hz
        rcases List.mem_cons.1 (hperm.subset hz) with rfl | hz
        · rcases lt_or_eq_of_le (not_lt.1 hlt) with hpos | hzero
          · exact Before.of_pos h hx hy hc hpos
          · rw [← hzero] at hc
            have hxy := h.zero _ _ hx hy hc
            subst hxy
            exact ⟨0, hc, le_refl _⟩
        · exact hyrest z hz

theorem sortBy_spec {α : Type} {cmp : α → α → Option Int} {S : α → Prop}
    (h : Consistent cmp S) (l : List α) (hl : ∀ y ∈ l, S y) :
    ∃ r, sortBy cmp l = some r ∧ r.Perm l ∧ r.Pairwise (Before cmp) := by
  induction l using List.reverseRecOn with
  | nil => exact ⟨[], rfl, List.Perm.refl _, List.Pairwise.nil⟩
  | append_singleton rest x ih =>
    obtain ⟨r, hr, hperm, hrs⟩ := ih fun y hy => hl y (List.mem_append_left _ hy)
    obtain ⟨r2, hr2, hperm2, hrs2⟩ := insertBy_spec h x r
      (hl x (List.mem_append_right _ (List.mem_singleton_self x)))
      (fun y hy => hl y (List.mem_append_left _ (hperm.subset hy))) hrs
    exact ⟨r2, by simp [sortBy_concat, hr, hr2],
      hperm2.trans ((List.Perm.cons x hperm).trans (List.perm_append_singleton x rest).symm),
      hrs2⟩

theorem sorted_unique {α : Type} {cmp : α → α → Option Int} {S : α → Prop}
    (h : Consistent cmp S) (r1 r2 : List α) (hperm : r1.Perm r2) (hS : ∀ y ∈ r1, S y)
    (h1 : r1.Pairwise (Before cmp)) (h2 : r2.Pairwise (Before cmp)) : r1 = r2 := by
  induction r1 generalizing r2 with
  | nil => exact (List.Perm.nil_eq hperm)
  | cons a t1 ih =>
    cases r2 with
    | nil => exact absurd (List.Perm.nil_eq hperm.symm) (by simp)
    | cons b t2 =>
      obtain ⟨ha1, hs1⟩ := List.pairwise_cons.1 h1
      obtain ⟨hb2, hs2⟩ := List.pairwise_cons.1 h2
      have hSa : S a := hS a (List.mem_cons_self _ _)
      have hSb : S b := hS b (hperm.symm.subset (List.mem_cons_self _ _))
      have hab : a = b := by
        rcases List.mem_cons.1 (hperm.subset (List.mem_cons_self a t1)) with e | hin
        · exact e
        · rcases List.mem_cons.1 (hperm.symm.subset (List.mem_cons_self b t2)) with e | hin2
          · exact e.symm
          · exact Before.antisymm_of h hSa hSb (ha1 b hin2) (hb2 a hin)
      subst hab
      rw [ih t2 (List.Perm.cons_inv hperm) (fun y hy => hS y (List.mem_cons_of_mem _ hy))
        hs1 hs2]

theorem sortBy_perm {α : Type} {cmp : α → α → Option Int} {S : α → Prop}
    (h : Consistent cmp S) (l1 l2 : List α) (hperm : l1.Perm l2) (hl : ∀ y ∈ l1, S y) :
    ∃ r, sortBy cmp l1 = some r ∧ sortBy cmp l2 = some r := by
  obtain ⟨r1, hr1, hp1, hs1⟩ := sortBy_spec h l1 hl
  obtain ⟨r2, hr2, hp2, hs2⟩ := sortBy_spec h l2 fun y hy => hl y (hperm.symm.subset hy)
  have : r1 = r2 := sorted_unique h r1 r2 (hp1.trans (hperm.trans hp2.symm))
    (fun y hy => hl y (hp1.subset hy)) hs1 hs2
  subst this
  exact ⟨r1, hr1, hr2⟩

/-! ## Facts about the signature of a family -/

theorem pairwise_inj {α β : Type} (f : α → β) (l : List α)
    (h : l.Pairwise fun a b => f a ≠ f b) :
    ∀ a ∈ l, ∀ b ∈ l, f a = f b → a = b := by
  induction l with
  | nil => intro a ha; simp at ha
  | cons x rest ih =>
    obtain ⟨hx, hrest⟩ := List.pairwise_cons.1 h
    intro a ha b hb hab
    rcases List.mem_cons.1 ha with ea | ha2
    · rcases List.mem_cons.1 hb with eb | hb2
      · rw [ea, eb]
      · rw [ea] at hab
        exact absurd hab (hx b hb2)
    · rcases List.mem_cons.1 hb with eb | hb2
      · rw [eb] at hab
        exact absurd hab.symm (hx a ha2)
      · exact ih hrest a ha2 b hb2 hab

theorem mapAll_eq_map {α β : Type} (f : α → Option β) (g : α → β) (l : List α)
    (h : ∀ x ∈ l, f x = some (g x)) : mapAll f l = some (l.map g) := by
  induction l with
  | nil => rfl
  | cons x rest ih =>
    simp [mapAll, h x (List.mem_cons_self _ _),
      ih fun y hy => h y (List.mem_cons_of_mem _ hy)]

theorem projectFields_eq (keys : List String) (x : JVal) (hx : x ≠ .null) :
    projectFields keys x = some (projected keys x) := by
  cases x <;> first | exact absurd rfl hx | rfl

theorem get_literal_of_not_mem (keys : List String) (f : String → Option JVal) (k : String)
    (hk : k ∉ keys) : JObj.get (literal (keys.map fun k => (k, f k))) k = none := by
  induction keys with
  | nil => rfl
  | cons k0 rest ih =>
    have hne : k0 ≠ k := fun e => hk (e ▸ List.mem_cons_self _ _)
    have hrest := ih fun hin => hk (List.mem_cons_of_mem _ hin)
    simp only [literal] at hrest ⊢
    cases hf : f k0 with
    | none => simpa [List.filterMap_cons, hf] using hrest
    | some v => simpa [List.filterMap_cons, hf, JObj.get, hne] using hrest

theorem get_literal (keys : List String) (f : String → Option JVal) (k : String)
    (hk : k ∈ keys) : JObj.get (literal (keys.map fun k => (k, f k))) k = f k := by
  induction keys with
  | nil => simp at hk
  | cons k0 rest ih =>
    by_cases hne : k0 = k
    · subst hne
      cases hf : f k0 with
      | some v => simp [literal, List.filterMap_cons, hf, JObj.get]
      | none =>
        by_cases hin : k0 ∈ rest
        · have := ih hin
          simp only [literal] at this ⊢
          simpa [List.filterMap_cons, hf] using this
        · have := get_literal_of_not_mem rest f k0 hin
          simp only [literal] at this ⊢
          simpa [List.filterMap_cons, hf] using this
    · have hin : k ∈ rest := by
        rcases List.mem_cons.1 hk with e | hin
        · exact absurd e.symm hne
        · exact hin
      have := ih hin
      simp only [literal] at this ⊢
      cases hf : f k0 with
      | none => simpa [List.filterMap_cons, hf] using this
      | some v => simpa [List.filterMap_cons, hf, JObj.get, hne] using this

theorem property_projected (keys : List String) (x : JVal) (k : String) (hk : k ∈ keys) :
    property (projected keys x) k = property x k := by
  simp only [projected, property]
  exact get_literal keys (fun k => property x k) k hk

theorem jsString_str (t : String) : jsString (.str t) = t := by
  simp [jsString]

theorem memberOrder_projected (env : Env) (a b : JVal) (na nb : String)
    (ha : property a "username" = some (.str na)) (hb : property b "username" = some (.str nb)) :
    memberOrder env (projected ["username", "role"] a) (projected ["username", "role"] b)
      = some (env.localeCompare na nb) := by
  simp only [memberOrder]
  rw [property_projected _ _ _ (by decide), property_projected _ _ _ (by decide), ha, hb]
  simp [localeCompareValues, jsStringOpt, jsString_str]

theorem memberOrder_consistent (env : Env) (members : List JVal)
    (h : MembersOrdered env members) :
    Consistent (memberOrder env)
      (fun z => z ∈ members.map (projected ["username", "role"])) := by
  obtain ⟨hstr, hdistinct, hzero, hflip, htrans⟩ := h
  have key : ∀ z, z ∈ members.map (projected ["username", "role"]) →
      ∃ a n, a ∈ members ∧ z = projected ["username", "role"] a
        ∧ property a "username" = some (.str n) := by
    intro z hz
    obtain ⟨a, ha, rfl⟩ := List.mem_map.1 hz
    obtain ⟨n, hn⟩ := hstr a ha
    exact ⟨a, n, ha, rfl, hn⟩
  constructor
  · intro x y hx hy
    obtain ⟨a, na, _, rfl, hna⟩ := key x hx
    obtain ⟨b, nb, _, rfl, hnb⟩ := key y hy
    exact ⟨_, memberOrder_projected env a b na nb hna hnb⟩
  · intro x y hx hy h0
    obtain ⟨a, na, ha, rfl, hna⟩ := key x hx
    obtain ⟨b, nb, hb, rfl, hnb⟩ := key y hy
    rw [memberOrder_projected env a b na nb hna hnb] at h0
    have hname : na = nb := hzero na nb ⟨a, ha, hna⟩ ⟨b, hb, hnb⟩ (Option.some.inj h0)
    have : a = b := pairwise_inj (fun m => property m "username") members hdistinct a ha b hb
      (by simp only []; rw [hna, hnb, hname])
    rw [this]
  · intro x y c d hx hy hc hd
    obtain ⟨a, na, ha, rfl, hna⟩ := key x hx
    obtain ⟨b, nb, hb, rfl, hnb⟩ := key y hy
    rw [memberOrder_projected env a b na nb hna hnb] at hc
    rw [memberOrder_projected env b a nb na hnb hna] at hd
    rw [← Option.some.inj hc, ← Option.some.inj hd]
    exact hflip na nb ⟨a, ha, hna⟩ ⟨b, hb, hnb⟩
  · intro x y z c d hx hy hz hc hd hc0 hd0
    obtain ⟨a, na, ha, rfl, hna⟩ := key x hx
    obtain ⟨b, nb, hb, rfl, hnb⟩ := key y hy
    obtain ⟨e, ne, he, rfl, hne⟩ := key z hz
    rw [memberOrder_projected env a b na nb hna hnb] at hc
    rw [memberOrder_projected env b e nb ne hnb hne] at hd
    refine ⟨_, memberOrder_projected env a e na ne hna hne, ?_⟩
    rw [← Option.some.inj hc] at hc0
    rw [← Option.some.inj hd] at hd0
    exact htrans na nb ne ⟨a, ha, hna⟩ ⟨b, hb, hnb⟩ ⟨e, he, hne⟩ hc0 hd0

theorem dateValue_str (env : Env) (t : String) (ht : t ≠ "") :
    dateValue env (some (.str t)) = env.timeValue t := by
  simp [dateValue, truthy, ht]

theorem chatOrder_projected (env : Env) (a b : JVal) (ia ib ta tb : String)
    (hia : property a "id" = some (.str ia)) (hib : property b "id" = some (.str ib))
    (hta : property a "createdAt" = some (.str ta))
    (htb : property b "createdAt" = some (.str tb)) (ha0 : ta ≠ "") (hb0 : tb ≠ "")
    (va vb : Int) (hva : env.timeValue ta = some va) (hvb : env.timeValue tb = some vb) :
    chatOrder env (projected ["id", "username", "message", "createdAt"] a)
        (projected ["id", "username", "message", "createdAt"] b)
      = if ta = tb then some (env.localeCompare ia ib) else some (va - vb) := by
  simp only [chatOrder]
  rw [property_projected _ a _ (by decide), property_projected _ b _ (by decide),
    property_projected _ a _ (by decide), property_projected _ b _ (by decide),
    hia, hib, hta, htb, dateValue_str env ta ha0, dateValue_str env tb hb0, hva, hvb]
  by_cases h : ta = tb
  · simp [strictEq, h, localeCompareValues, jsStringOpt, jsString_str]
  · simp [strictEq, h]

theorem chatOrder_consistent (env : Env) (chat : List JVal) (h : ChatOrdered env chat) :
    Consistent (chatOrder env)
      (fun z => z ∈ chat.map (projected ["id", "username", "message", "createdAt"])) := by
  obtain ⟨hid, hdistinct, hstamp, hinj, hzero, hflip, htrans⟩ := h
  have key : ∀ z, z ∈ chat.map (projected ["id", "username", "message", "createdAt"]) →
      ∃ a i t v, a ∈ chat ∧ z = projected ["id", "username", "message", "createdAt"] a
        ∧ property a "id" = some (.str i) ∧ property a "createdAt" = some (.str t)
        ∧ t ≠ "" ∧ env.timeValue t = some v := by
    intro z hz
    obtain ⟨a, ha, rfl⟩ := List.mem_map.1 hz
    obtain ⟨i, hi⟩ := hid a ha
    obtain ⟨t, v, ht, ht0, hv⟩ := hstamp a ha
    exact ⟨a, i, t, v, ha, rfl, hi, ht, ht0, hv⟩
  constructor
  · intro x y hx hy
    obtain ⟨a, ia, ta, va, _, rfl, hia, hta, ha0, hva⟩ := key x hx
    obtain ⟨b, ib, tb, vb, _, rfl, hib, htb, hb0, hvb⟩ := key y hy
    rw [chatOrder_projected env a b ia ib ta tb hia hib hta htb ha0 hb0 va vb hva hvb]
    by_cases e : ta = tb
    · exact ⟨_, if_pos e⟩
    · exact ⟨_, if_neg e⟩
  · intro x y hx hy h0
    obtain ⟨a, ia, ta, va, ha, rfl, hia, hta, ha0, hva⟩ := key x hx
    obtain ⟨b, ib, tb, vb, hb, rfl, hib, htb, hb0, hvb⟩ := key y hy
    rw [chatOrder_projected env a b ia ib ta tb hia hib hta htb ha0 hb0 va vb hva hvb] at h0
    by_cases e : ta = tb
    · rw [if_pos e] at h0
      have hname : ia = ib := hzero ia ib ⟨a, ha, hia⟩ ⟨b, hb, hib⟩ (Option.some.inj h0)
      have : a = b := pairwise_inj (fun m => property m "id") chat hdistinct a ha b hb
        (by simp only []; rw [hia, hib, hname])
      rw [this]
    · rw [if_neg e] at h0
      have hv : va = vb := by
        have := Option.some.inj h0
        omega
      exact absurd (hinj ta tb ⟨a, ha, hta⟩ ⟨b, hb, htb⟩ (by rw [hva, hvb, hv])) e
  · intro x y c d hx hy hc hd
    obtain ⟨a, ia, ta, va, ha, rfl, hia, hta, ha0, hva⟩ := key x hx
    obtain ⟨b, ib, tb, vb, hb, rfl, hib, htb, hb0, hvb⟩ := key y hy
    rw [chatOrder_projected env a b ia ib ta tb hia hib hta htb ha0 hb0 va vb hva hvb] at hc
    rw [chatOrder_projected env b a ib ia tb ta hib hia htb hta hb0 ha0 vb va hvb hva] at hd
    by_cases e : ta = tb
    · rw [if_pos e] at hc
      rw [if_pos e.symm] at hd
      rw [← Option.some.inj hc, ← Option.some.inj hd]
      exact hflip ia ib ⟨a, ha, hia⟩ ⟨b, hb, hib⟩
    · rw [if_neg e] at hc
      rw [if_neg (fun e2 => e e2.symm)] at hd
      have h1 := Option.some.inj hc
      have h2 := Option.some.inj hd
      omega
  · intro x y z c d hx hy hz hc hd hc0 hd0
    obtain ⟨a, ia, ta, va, ha, rfl, hia, hta, ha0, hva⟩ := key x hx
    obtain ⟨b, ib, tb, vb, hb, rfl, hib, htb, hb0, hvb⟩ := key y hy
    obtain ⟨e, ie, te, ve, he, rfl, hie, hte, he0, hve⟩ := key z hz
    rw [chatOrder_projected env a b ia ib ta tb hia hib hta htb ha0 hb0 va vb hva hvb] at hc
    rw [chatOrder_projected env b e ib ie tb te hib hie htb hte hb0 he0 vb ve hvb hve] at hd
    rw [chatOrder_projected env a e ia ie ta te hia hie hta hte ha0 he0 va ve hva hve]
    by_cases e1 : ta = tb
    · rw [if_pos e1] at hc
      have hc1 := Option.some.inj hc
      have hvab : va = vb := by
        have := hva
        rw [e1, hvb] at this
        exact (Option.some.inj this).symm
      by_cases e2 : tb = te
      · rw [if_pos e2] at hd
        have hd1 := Option.some.inj hd
        rw [if_pos (e1.trans e2)]
        refine ⟨_, rfl, ?_⟩
        rw [← hc1] at hc0
        rw [← hd1] at hd0
        exact htrans ia ib ie ⟨a, ha, hia⟩ ⟨b, hb, hib⟩ ⟨e, he, hie⟩ hc0 hd0
      · rw [if_neg e2] at hd
        have hd1 := Option.some.inj hd
        rw [if_neg (fun e3 => e2 (e1.symm.trans e3))]
        exact ⟨_, rfl, by omega⟩
    · rw [if_neg e1] at hc
      have hc1 := Option.some.inj hc
      by_cases e2 : tb = te
      · rw [if_pos e2] at hd
        have hvbe : vb = ve := by
          have := hvb
          rw [e2, hve] at this
          exact (Option.some.inj this).symm
        rw [if_neg (fun e3 => e1 (e3.trans e2.symm))]
        exact ⟨_, rfl, by omega⟩
      · rw [if_neg e2] at hd
        have hd1 := Option.some.inj hd
        have hne : ta ≠ te := by
          intro e3
          have := hva
          rw [e3, hve] at this
          have := Option.some.inj this
          omega
        rw [if_neg hne]
        exact ⟨_, rfl, by omega⟩

theorem projectAndSort_perm (keys : List String) (cmp : JVal → JVal → Option Int)
    (l1 l2 : List JVal) (hperm : l1.Perm l2) (hnn : ∀ x ∈ l1, x ≠ .null)
    (hcons : Consistent cmp (fun z => z ∈ l1.map (projected keys))) :
    ∃ r, projectAndSort keys cmp (some (.arr l1)) = some r
      ∧ projectAndSort keys cmp (some (.arr l2)) = some r := by
  have h1 : mapAll (projectFields keys) l1 = some (l1.map (projected keys)) :=
    mapAll_eq_map _ _ _ fun x hx => projectFields_eq keys x (hnn x hx)
  have h2 : mapAll (projectFields keys) l2 = some (l2.map (projected keys)) :=
    mapAll_eq_map _ _ _ fun x hx => projectFields_eq keys x (hnn x (hperm.symm.subset hx))
  obtain ⟨r, hr1, hr2⟩ := sortBy_perm hcons _ _ (hperm.map (projected keys)) fun y hy => hy
  exact ⟨r, by simp [projectAndSort, isArray, arrayItems, h1, hr1],
    by simp [projectAndSort, isArray, arrayItems, h2, hr2]⟩

theorem ne_null_of_property (x : JVal) (k : String) (v : JVal) (h : property x k = some v) :
    x ≠ .null := by
  intro e
  subst e
  simp [property] at h

theorem char_eq_of_toNat (x y : Char) (h : x.toNat = y.toNat) : x = y := by
  apply Char.ext
  apply UInt32.ext
  exact h

theorem codePointCompare_zero : ∀ a b : List Char, codePointCompare a b = 0 → a = b
  | [], [] => fun _ => rfl
  | [], _ :: _ => fun h => by simp [codePointCompare] at h
  | _ :: _, [] => fun h => by simp [codePointCompare] at h
  | x :: xs, y :: ys => fun h => by
    simp only [codePointCompare] at h
    split_ifs at h with h1 h2
    · omega
    · rw [codePointCompare_zero xs ys h, char_eq_of_toNat x y (by omega)]

theorem codePointCompare_flip : ∀ a b : List Char,
    (codePointCompare a b < 0 ↔ 0 < codePointCompare b a)
  | [], [] => by simp [codePointCompare]
  | [], _ :: _ => by simp [codePointCompare]
  | _ :: _, [] => by simp [codePointCompare]
  | x :: xs, y :: ys => by
    have ih := codePointCompare_flip xs ys
    simp only [codePointCompare]
    split_ifs <;> omega

theorem codePointCompare_trans : ∀ a b c : List Char,
    codePointCompare a b < 0 → codePointCompare b c < 0 → codePointCompare a c < 0
  | [], [], _ => fun h _ => by simp [codePointCompare] at h
  | [], _ :: _, [] => fun _ h => by simp [codePointCompare] at h
  | [], _ :: _, _ :: _ => fun _ _ => by simp [codePointCompare]
  | _ :: _, [], _ => fun h _ => by simp [codePointCompare] at h
  | _ :: _, _ :: _, [] => fun _ h => by simp [codePointCompare] at h
  | x :: xs, y :: ys, z :: zs => fun h1 h2 => by
    have ih := codePointCompare_trans xs ys zs
    simp only [codePointCompare] at h1 h2 ⊢
    split_ifs at h1 h2 ⊢ <;> omega

theorem sampleEnv_orders (P : String → Prop) : OrdersStrings sampleEnv P :=
  ⟨fun _ _ _ _ h => String.toList_inj.1 (codePointCompare_zero _ _ h),
    fun _ _ _ _ => codePointCompare_flip _ _,
    fun _ _ _ _ _ _ => codePointCompare_trans _ _ _⟩

theorem twoMembers_ordered : MembersOrdered sampleEnv twoMembers := by
  refine ⟨?_, ?_, sampleEnv_orders _⟩
  · intro m hm
    simp only [twoMembers, List.mem_cons, List.mem_singleton, List.not_mem_nil, or_false] at hm
    rcases hm with rfl | rfl
    · exact ⟨"bob", rfl⟩
    · exact ⟨"alice", rfl⟩
  · simp [twoMembers, memberEntry, property, JObj.get]

theorem orderedChat_ordered : ChatOrdered sampleEnv orderedChat := by
  have hmem : ∀ m ∈ orderedChat,
      m = chatMessage "msg_3" "alice" "bye" "2024-05-01T10:05:00.000Z"
        ∨ m = chatMessage "msg_2" "bob" "hello" "2024-05-01T10:00:00.000Z"
        ∨ m = chatMessage "msg_1" "alice" "hi" "2024-05-01T10:00:00.000Z" := by
    intro m hm
    simpa [orderedChat] using hm
  have hstamp : ∀ t, StringOf "createdAt" orderedChat t →
      t = "2024-05-01T10:05:00.000Z" ∨ t = "2024-05-01T10:00:00.000Z" := by
    intro t ht
    obtain ⟨m, hm, hp⟩ := ht
    rcases hmem m hm with rfl | rfl | rfl
    · left
      simpa [chatMessage, property, JObj.get] using hp.symm
    · right
      simpa [chatMessage, property, JObj.get] using hp.symm
    · right
      simpa [chatMessage, property, JObj.get] using hp.symm
  refine ⟨?_, ?_, ?_, ?_, sampleEnv_orders _⟩
  · intro m hm
    rcases hmem m hm with rfl | rfl | rfl
    · exact ⟨"msg_3", rfl⟩
    · exact ⟨"msg_2", rfl⟩
    · exact ⟨"msg_1", rfl⟩
  · simp [orderedChat, chatMessage, property, JObj.get]
  · intro m hm
    rcases hmem m hm with rfl | rfl | rfl
    · exact ⟨"2024-05-01T10:05:00.000Z", 1714557900000, rfl, by decide, by decide⟩
    · exact ⟨"2024-05-01T10:00:00.000Z", 1714557600000, rfl, by decide, by decide⟩
    · exact ⟨"2024-05-01T10:00:00.000Z", 1714557600000, rfl, by decide, by decide⟩
  · intro t u ht hu hv
    rcases hstamp t ht with rfl | rfl <;> rcases hstamp u hu with rfl | rfl
    · rfl
    · simp [sampleEnv] at hv
    · simp [sampleEnv] at hv
    · rfl

theorem insertBy_perm {α : Type} (cmp : α → α → Option Int) (x : α) (ys r : List α)
    (h : insertBy cmp x ys = some r) : r.Perm (x :: ys) := by
  induction ys generalizing r with
  | nil =>
    simp only [insertBy, Option.some.injEq] at h
    rw [← h]
  | cons y rest ih =>
    simp only [insertBy] at h
    cases hc : cmp x y with
    | none => rw [hc] at h; exact Option.noConfusion h
    | some c =>
      rw [hc] at h
      simp only [] at h
      by_cases hlt : c < 0
      · rw [if_pos hlt, Option.some.injEq] at h
        rw [← h]
      · rw [if_neg hlt] at h
        cases hr : insertBy cmp x rest with
        | none => rw [hr] at h; exact Option.noConfusion h
        | some r2 =>
          rw [hr, Option.map_some', Option.some.injEq] at h
          rw [← h]
          exact (List.Perm.cons y (ih r2 hr)).trans (List.Perm.swap x y rest)

theorem sortBy_perm_of_some {α : Type} (cmp : α → α → Option Int) (l r : List α)
    (h : sortBy cmp l = some r) : r.Perm l := by
  induction l using List.reverseRecOn generalizing r with
  | nil =>
    simp only [sortBy_nil, Option.some.injEq] at h
    rw [← h]
  | append_singleton rest x ih =>
    rw [sortBy_concat] at h
    cases hr : sortBy cmp rest with
    | none => rw [hr] at h; exact Option.noConfusion h
    | some r2 =>
      rw [hr, Option.some_bind] at h
      exact (insertBy_perm cmp x r2 r h).trans
        ((List.Perm.cons x (ih r2 hr)).trans (List.perm_append_singleton x rest).symm)

theorem mapAll_projectFields (keys : List String) (l r : List JVal)
    (h : mapAll (projectFields keys) l = some r) : r = l.map (projected keys) := by
  induction l generalizing r with
  | nil =>
    simp only [mapAll, Option.some.injEq] at h
    rw [← h]
    rfl
  | cons x rest ih =>
    simp only [mapAll] at h
    by_cases hx : x = .null
    · subst hx
      simp [projectFields] at h
    · rw [projectFields_eq keys x hx] at h
      simp only [] at h
      cases hr : mapAll (projectFields keys) rest with
      | none => rw [hr] at h; exact Option.noConfusion h
      | some r2 =>
        rw [hr, Option.map_some', Option.some.injEq] at h
        rw [← h, ih r2 hr]
        rfl

theorem projectAndSort_perm_of_some (keys : List String) (cmp : JVal → JVal → Option Int)
    (v : Option JVal) (r : List JVal) (h : projectAndSort keys cmp v = some r) :
    r.Perm ((arrayItems v).map (projected keys)) := by
  simp only [projectAndSort] at h
  by_cases ha : isArray v = true
  · rw [if_pos ha] at h
    cases hm : mapAll (projectFields keys) (arrayItems v) with
    | none => rw [hm] at h; exact Option.noConfusion h
    | some l2 =>
      rw [hm, Option.some_bind] at h
      rw [← mapAll_projectFields keys _ l2 hm]
      exact sortBy_perm_of_some cmp l2 r h
  · rw [if_neg ha, Option.some.injEq] at h
    rw [← h]
    have : arrayItems v = [] := by
      cases v with
      | none => rfl
      | some w => cases w <;> first | rfl | exact absurd rfl ha
    rw [this]
    exact List.Perm.refl _

theorem signature_literal_inj (x y x2 y2 : Option JVal) (m c m2 c2 : List JVal)
    (h : literal [("id", x), ("code", y), ("members", some (.arr m)), ("chat", some (.arr c))]
      = literal [("id", x2), ("code", y2), ("members", some (.arr m2)),
          ("chat", some (.arr c2))]) :
    x = x2 ∧ y = y2 ∧ m = m2 ∧ c = c2 := by
  cases x <;> cases y <;> cases x2 <;> cases y2 <;>
    simp [literal, List.filterMap_cons] at h ⊢ <;> exact h

theorem computeFamilySignature_some (env : Env) (a : JObj) (sig : JVal)
    (h : computeFamilySignature env (some (.obj a)) = some sig) :
    ∃ m c, projectAndSort ["username", "role"] (memberOrder env) (a.get "members") = some m
      ∧ projectAndSort ["id", "username", "message", "createdAt"] (chatOrder env)
          (a.get "chat") = some c
      ∧ sig = .obj (literal [("id", a.get "id"), ("code", a.get "code"),
          ("members", some (.arr m)), ("chat", some (.arr c))]) := by
  simp only [computeFamilySignature, truthy, Bool.not_true, Bool.false_eq_true, if_false,
    property] at h
  cases hm : projectAndSort ["username", "role"] (memberOrder env) (a.get "members") with
  | none => rw [hm] at h; exact Option.noConfusion h
  | some m =>
    cases hc : projectAndSort ["id", "username", "message", "createdAt"] (chatOrder env)
        (a.get "chat") with
    | none => rw [hm, hc] at h; exact Option.noConfusion h
    | some c =>
      rw [hm, hc] at h
      exact ⟨m, c, rfl, rfl, (Option.some.inj h).symm⟩

/-! ## Facts about the equality of JSON values -/

mutual
theorem JVal.same_iff : ∀ a b : JVal, JVal.same a b = true ↔ a = b
  | .null, b => by cases b <;> simp [JVal.same]
  | .bool a, b => by cases b <;> simp [JVal.same]
  | .num a, b => by cases b <;> simp [JVal.same]
  | .str a, b => by cases b <;> simp [JVal.same]
  | .arr a, b => by
    cases b <;> simp [JVal.same]
    exact JVal.sameItems_iff a _
  | .obj a, b => by
    cases b <;> simp [JVal.same]
    exact JVal.sameFields_iff a _
theorem JVal.sameItems_iff : ∀ a b : List JVal, JVal.sameItems a b = true ↔ a = b
  | [], b => by cases b <;> simp [JVal.sameItems]
  | x :: xs, b => by
    cases b with
    | nil => simp [JVal.sameItems]
    | cons y ys => simp [JVal.sameItems, JVal.same_iff x y, JVal.sameItems_iff xs ys]
theorem JVal.sameFields_iff :
    ∀ a b : List (String × JVal), JVal.sameFields a b = true ↔ a = b
  | [], b => by cases b <;> simp [JVal.sameFields]
  | (k, x) :: xs, b => by
    cases b with
    | nil => simp [JVal.sameFields]
    | cons p ys =>
      obtain ⟨l, y⟩ := p
      simp [JVal.sameFields, JVal.same_iff x y, JVal.sameFields_iff xs ys, and_assoc]
end

theorem signatureDiffers_self (a : Option JVal) : signatureDiffers a a = false := by
  cases a with
  | none => rfl
  | some v => simp [signatureDiffers, (JVal.same_iff v v).2 rfl]

theorem signatureDiffers_eq_false_iff (a b : Option JVal) :
    signatureDiffers a b = false ↔ a = b := by
  constructor
  · intro h
    cases a with
    | none => cases b <;> simp [signatureDiffers] at h ⊢
    | some v =>
      cases b with
      | none => simp [signatureDiffers] at h
      | some w =>
        simp only [signatureDiffers, Bool.not_eq_false'] at h
        rw [(JVal.same_iff v w).1 h]
  · intro h
    rw [h]
    exact signatureDiffers_self b

/-! ## Facts about the family sync -/

theorem findIndexById_total (id : Option JVal) (l : List JVal) (h : ∀ f ∈ l, f ≠ .null) :
    ∃ r, findIndexById id l = some r := by
  induction l with
  | nil => exact ⟨none, rfl⟩
  | cons x rest ih =>
    obtain ⟨r, hr⟩ := ih fun f hf => h f (List.mem_cons_of_mem _ hf)
    have hx := h x (List.mem_cons_self _ _)
    by_cases hm : strictEq (property x "id") id = true
    · refine ⟨some 0, ?_⟩
      cases x <;> first | exact absurd rfl hx | simp [findIndexById, hm]
    · refine ⟨r.map fun i => i + 1, ?_⟩
      cases x <;> first | exact absurd rfl hx | simp [findIndexById, hm, hr]

theorem findMember_total (username : String) (l : List JVal) (h : ∀ f ∈ l, f ≠ .null) :
    ∃ r, findMember username l = some r := by
  induction l with
  | nil => exact ⟨none, rfl⟩
  | cons x rest ih =>
    obtain ⟨r, hr⟩ := ih fun f hf => h f (List.mem_cons_of_mem _ hf)
    have hx := h x (List.mem_cons_self _ _)
    by_cases hm : strictEq (property x "username") (some (.str username)) = true
    · refine ⟨some x, ?_⟩
      cases x <;> first | exact absurd rfl hx | simp [findMember, hm]
    · refine ⟨r, ?_⟩
      cases x <;> first | exact absurd rfl hx | simp [findMember, hm, hr]

theorem mapAll_some_ne_null (keys : List String) (l r : List JVal)
    (h : mapAll (projectFields keys) l = some r) : ∀ x ∈ l, x ≠ .null := by
  induction l generalizing r with
  | nil => intro x hx; simp at hx
  | cons y rest ih =>
    simp only [mapAll] at h
    cases hy : projectFields keys y with
    | none => rw [hy] at h; exact Option.noConfusion h
    | some z =>
      rw [hy] at h
      simp only [] at h
      cases hr : mapAll (projectFields keys) rest with
      | none => rw [hr] at h; exact Option.noConfusion h
      | some r2 =>
        intro x hx
        rcases List.mem_cons.1 hx with e | hin
        · intro hnull
          rw [← e, hnull] at hy
          simp [projectFields] at hy
        · exact ih r2 hr x hin

theorem members_ne_null_of_signature (env : Env) (remote : JVal) (sig : JVal)
    (items : List JVal) (hm : property remote "members" = some (.arr items))
    (h : computeFamilySignature env (some remote) = some sig) : ∀ x ∈ items, x ≠ .null := by
  simp only [computeFamilySignature] at h
  by_cases ht : truthy (some remote) = true
  · simp only [ht, Bool.not_true, Bool.false_eq_true, if_false, hm] at h
    cases hp : projectAndSort ["username", "role"] (memberOrder env) (some (.arr items)) with
    | none => rw [hp] at h; exact Option.noConfusion h
    | some r =>
      simp only [projectAndSort, isArray, if_true, arrayItems] at hp
      cases hmap : mapAll (projectFields ["username", "role"]) items with
      | none => rw [hmap] at hp; exact Option.noConfusion hp
      | some r2 => exact mapAll_some_ne_null _ _ r2 hmap
  · simp [ht] at h

theorem find_after_sync (id : String) (remote : JVal)
    (hr : property remote "id" = some (.str id)) (l : List JVal) :
    ∀ r, findIndexById (some (.str id)) l = some r →
      (match r with
        | none => l ++ [remote]
        | some k => l.set k remote).find?
          (fun f => strictEq (property f "id") (some (.str id))) = some remote := by
  have hp : strictEq (property remote "id") (some (.str id)) = true := by
    rw [hr]
    simp [strictEq]
  induction l with
  | nil =>
    intro r h
    simp only [findIndexById, Option.some.injEq] at h
    subst h
    simp [List.find?, hp]
  | cons x rest ih =>
    intro r h
    by_cases hx : x = .null
    · subst hx
      simp [findIndexById] at h
    · by_cases hm : strictEq (property x "id") (some (.str id)) = true
      · have : findIndexById (some (.str id)) (x :: rest) = some (some 0) := by
          cases x <;> first | exact absurd rfl hx | simp [findIndexById, hm]
        rw [this] at h
        simp only [Option.some.injEq] at h
        subst h
        simp [List.set, List.find?, hp]
      · have hstep : findIndexById (some (.str id)) (x :: rest)
            = (findIndexById (some (.str id)) rest).map fun r => r.map fun i => i + 1 := by
          cases x <;> first | exact absurd rfl hx | simp [findIndexById, hm]
        rw [hstep] at h
        cases hrest : findIndexById (some (.str id)) rest with
        | none => rw [hrest] at h; exact Option.noConfusion h
        | some r2 =>
          rw [hrest, Option.map_some', Option.some.injEq] at h
          subst h
          have := ih r2 hrest
          simp only [Bool.not_eq_true] at hm
          cases r2 with
          | none => simpa [List.find?, hm] using this
          | some k => simpa [List.set, List.find?, hm] using this

theorem getFamilyById_ok (data remote : JVal) (hdata : property data "family" = some remote)
    (ht : truthy (some remote) = true) : getFamilyById (.ok data) = some (some remote) := by
  cases data <;> first | (simp [property] at hdata; done) |
    simp [getFamilyById, Response.field, hdata, ht]

theorem truthy_of_property (v : JVal) (k : String) (w : JVal) (h : property v k = some w) :
    truthy (some v) = true := by
  cases v <;> first | rfl | simp [property] at h

theorem bobClient_cache : ∀ f ∈ bobClient.familiesState, f ≠ .null := by
  intro f hf
  simp only [bobClient, List.mem_singleton] at hf
  rw [hf]
  simp

/-! ## Facts about the planner sync -/

theorem assignShareCodes_done (fuel : Nat) (entries existing : List JVal) (rng : Rng)
    (h : ∀ e ∈ entries, truthy (property e "shareCode") = true) :
    assignShareCodes fuel entries existing rng = .done entries := by
  induction entries with
  | nil => rfl
  | cons x rest ih =>
    have hx := h x (List.mem_cons_self _ _)
    have hrest := ih fun e he => h e (List.mem_cons_of_mem _ he)
    cases x <;> first | (simp [property, truthy] at hx; done) |
      simp [assignShareCodes, hx, hrest]

theorem getPlanner_ok (data planner : JVal) (k : String) (v : JVal)
    (hdata : property data "planner" = some planner) (hk : property planner k = some v) :
    DataClient.getPlanner (.ok data) = some planner := by
  have ht := truthy_of_property planner k v hk
  cases data <;> first | (simp [property] at hdata; done) |
    simp [DataClient.getPlanner, Response.field, hdata, ht]

/-! ## Facts about `updateFamily` -/

theorem findIndexById_some (id : Option JVal) (l : List JVal) (i : Nat)
    (h : findIndexById id l = some (some i)) :
    ∃ x, l.get? i = some x ∧ l.getD i .null = x ∧ strictEq (property x "id") id = true := by
  induction l generalizing i with
  | nil => simp [findIndexById] at h
  | cons x rest ih =>
    by_cases hx : x = .null
    · subst hx
      simp [findIndexById] at h
    · by_cases hm : strictEq (property x "id") id = true
      · have : findIndexById id (x :: rest) = some (some 0) := by
          cases x <;> first | exact absurd rfl hx | simp [findIndexById, hm]
        rw [this] at h
        simp only [Option.some.injEq] at h
        subst h
        exact ⟨x, rfl, rfl, hm⟩
      · have hstep : findIndexById id (x :: rest)
            = (findIndexById id rest).map fun r => r.map fun i => i + 1 := by
          cases x <;> first | exact absurd rfl hx | simp [findIndexById, hm]
        rw [hstep] at h
        cases hrest : findIndexById id rest with
        | none => rw [hrest] at h; exact Option.noConfusion h
        | some r2 =>
          rw [hrest, Option.map_some', Option.some.injEq] at h
          cases r2 with
          | none => exact Option.noConfusion h
          | some k =>
            simp only [Option.map_some', Option.some.injEq] at h
            subst h
            obtain ⟨y, h1, h2, h3⟩ := ih k hrest
            exact ⟨y, by simpa using h1, by simpa using h2, h3⟩

theorem updateFamilyBegin_draft (env : Env) (mutator : JObj → JObj) (s s1 : Client)
    (pending : Pending)
    (h : updateFamilyBegin env mutator s = (s1, .returned (some pending))) :
    ∃ cached, (loadFamilies s).2.get? pending.index = some cached
      ∧ strictEq (property cached "id") (optProp s.currentFamily "id") = true
      ∧ pending.draft = mutator (draftOf cached) := by
  simp only [updateFamilyBegin] at h
  cases hcf : s.currentFamily with
  | none => rw [hcf] at h; simp at h
  | some cf =>
    rw [hcf] at h
    simp only [] at h
    by_cases ht : (!truthy (some cf)) = true
    · rw [if_pos ht] at h
      simp at h
    · rw [if_neg ht] at h
      cases hidx : findIndexById (property cf "id") (loadFamilies s).2 with
      | none => rw [hidx] at h; simp at h
      | some r =>
        cases r with
        | none => rw [hidx] at h; simp at h
        | some index =>
          rw [hidx] at h
          simp only [] at h
          obtain ⟨cached, hget, hgetD, hmatch⟩ := findIndexById_some _ _ _ hidx
          cases hfind : strictFind s.currentUser
              ((mutator (draftOf ((loadFamilies s).2.getD index .null))).get "members") with
          | none => rw [hfind] at h; simp at h
          | some found =>
            rw [hfind] at h
            simp only [Prod.mk.injEq, Completion.returned.injEq, Option.some.injEq] at h
            obtain ⟨_, hp⟩ := h
            rw [← hp]
            refine ⟨cached, hget, ?_, ?_⟩
            · simpa [optProp] using hmatch
            · simp only [hgetD]

theorem sanitizeChat_strings (l : List JVal)
    (h : ∀ m ∈ l, ∃ o t, m = JVal.obj o ∧ JObj.get o "message" = some (.str t)) :
    sanitizeChat l = some l := by
  induction l with
  | nil => rfl
  | cons m rest ih =>
    obtain ⟨o, t, rfl, hmsg⟩ := h m (List.mem_cons_self _ _)
    have hrest := ih fun x hx => h x (List.mem_cons_of_mem _ hx)
    have hself : JObj.set o "message"
        (.str (jsString (jsOr (property (.obj o) "message") (.str "")))) = o := by
      apply JObj.set_eq_self
      rw [hmsg]
      by_cases ht : t = ""
      · simp [property, hmsg, jsOr, truthy, ht, jsString_str]
      · simp [property, hmsg, jsOr, truthy, ht, jsString_str]
    simp only [sanitizeChat, hrest, Option.map_some', spreadValue, hself]

theorem draftOf_keys (o : JObj) (h : o.keys.Nodup) : (draftOf (.obj o)).keys.Nodup := by
  simp only [draftOf, spreadValue]
  exact JObj.keys_set_nodup _ _ _ (JObj.keys_set_nodup _ _ _ (JObj.keys_set_nodup _ _ _ h))

theorem draftOf_get_other (o : JObj) (k : String) (h1 : k ≠ "members") (h2 : k ≠ "reminders")
    (h3 : k ≠ "chat") : (draftOf (.obj o)).get k = o.get k := by
  simp only [draftOf, spreadValue]
  rw [JObj.get_set_other _ _ _ _ (fun e => h3 e.symm),
    JObj.get_set_other _ _ _ _ (fun e => h2 e.symm),
    JObj.get_set_other _ _ _ _ (fun e => h1 e.symm)]

theorem pushChatMessage_chat (o : JObj) (chat0 : List JVal) (id username text now : String)
    (h : o.get "chat" = some (.arr chat0)) :
    (pushChatMessage id username text now (draftOf (.obj o))).get "chat"
      = some (.arr (chat0 ++ [chatMessage id username text now])) := by
  simp only [pushChatMessage, JObj.get_set_self, draftOf, property, h, listOrEmpty, isArray,
    arrayItems, if_true, chatMessage]

/-- The chat that a `PUT` stores when the messages of the draft are objects with a text. -/
theorem putFamily_chat (d : JObj) (store : Store) (chat : List JVal)
    (hkeys : d.keys.Nodup) (hid : truthy (d.get "id") = true)
    (hfound : (findFamilyById store (d.get "id")).isSome = true)
    (hchat : d.get "chat" = some (.arr chat))
    (hobj : ∀ m ∈ chat, ∃ o t, m = JVal.obj o ∧ JObj.get o "message" = some (.str t)) :
    (putFamily (some (.obj d)) store).status = 200
      ∧ ∀ f ∈ (putFamily (some (.obj d)) store).store.families,
          strictEq (f.get "id") (d.get "id") = true → f.get "chat" = some (.arr chat) := by
  have hsan : sanitizedChatOf d = some chat := by
    simp only [sanitizedChatOf, hchat, isArray, if_true, arrayItems]
    exact sanitizeChat_strings chat hobj
  have hself : JObj.set d "chat" (.arr chat) = d := JObj.set_eq_self d _ _ hchat
  rw [putFamily_ok d store chat hid hfound hsan, hself]
  refine ⟨rfl, ?_⟩
  intro f hf hm
  simp only [] at hf
  rw [saveFamily_families, List.mem_map] at hf
  obtain ⟨item, _, rfl⟩ := hf
  by_cases hitem : strictEq (item.get "id") (d.get "id") = true
  · simp only [hitem, if_true]
    rw [JObj.get_spread _ _ _ hkeys]
    simp [mergedField, hchat]
  · simp only [hitem, if_false] at hm
    exact absurd hm hitem

/-! ## Facts about the answer of the server to a push -/

theorem map_spread_objects (items : List JVal) (h : ∀ m ∈ items, ∃ o, m = JVal.obj o) :
    (items.map fun m => JVal.obj (spreadValue m)) = items := by
  induction items with
  | nil => rfl
  | cons x rest ih =>
    obtain ⟨o, rfl⟩ := h (x) (List.mem_cons_self _ _)
    have hrest := ih fun m hm => h m (List.mem_cons_of_mem _ hm)
    rw [List.map_cons, hrest]
    rfl

theorem sanitizeFamily_objects (f : JObj) (hm : ObjectList (f.get "members"))
    (hr : ObjectList (f.get "reminders")) (hc : ObjectList (f.get "chat")) :
    sanitizeFamily (some f) = some f := by
  obtain ⟨ms, hms, hmo⟩ := hm
  obtain ⟨rs, hrs, hro⟩ := hr
  obtain ⟨cs, hcs, hco⟩ := hc
  simp only [sanitizeFamily, Option.map_some', hms, arrayItems, map_spread_objects ms hmo]
  rw [JObj.set_eq_self f _ _ hms]
  simp only [hrs, arrayItems, map_spread_objects rs hro]
  rw [JObj.set_eq_self f _ _ hrs]
  simp only [hcs, arrayItems, map_spread_objects cs hco]
  rw [JObj.set_eq_self f _ _ hcs]

theorem sanitizeChat_objects (l : List JVal) (h : ∀ m ∈ l, m ≠ .null) :
    ∃ r, sanitizeChat l = some r ∧ ∀ m ∈ r, ∃ o, m = JVal.obj o := by
  induction l with
  | nil => exact ⟨[], rfl, fun m hm => by simp at hm⟩
  | cons x rest ih =>
    obtain ⟨r, hr, hobj⟩ := ih fun m hm => h m (List.mem_cons_of_mem _ hm)
    have hx := h x (List.mem_cons_self _ _)
    refine ⟨.obj ((spreadValue x).set "message"
      (.str (jsString (jsOr (property x "message") (.str ""))))) :: r, ?_, ?_⟩
    · cases x <;> first | exact absurd rfl hx | simp [sanitizeChat, hr]
    · intro m hm
      rcases List.mem_cons.1 hm with e | hin
      · exact ⟨_, e⟩
      · exact hobj m hin

theorem saveFamily_result (d : JObj) (s : Store)
    (hfound : (findFamilyById s (d.get "id")).isSome = true) :
    ∃ item ∈ s.families, strictEq (item.get "id") (d.get "id") = true
      ∧ (saveFamily d s).2 = some (JObj.spread item d) := by
  have hne : (s.families.filter fun item => strictEq (item.get "id") (d.get "id")) ≠ [] := by
    intro hnil
    simp only [findFamilyById, clone] at hfound
    rw [List.find?_isSome] at hfound
    obtain ⟨x, hx, hp⟩ := hfound
    have : x ∈ s.families.filter fun item => strictEq (item.get "id") (d.get "id") :=
      List.mem_filter.2 ⟨hx, hp⟩
    rw [hnil] at this
    simp at this
  obtain ⟨item, hlast⟩ : ∃ item, (s.families.filter fun item =>
      strictEq (item.get "id") (d.get "id")).getLast? = some item := by
    cases hl : (s.families.filter fun item =>
        strictEq (item.get "id") (d.get "id")).getLast? with
    | none => exact absurd (List.getLast?_eq_none_iff.1 hl) hne
    | some item => exact ⟨item, rfl⟩
  have hmem := List.mem_of_getLast?_eq_some hlast
  obtain ⟨hin, hp⟩ := List.mem_filter.1 hmem
  refine ⟨item, hin, hp, ?_⟩
  simp only [saveFamily, clone, List.getLast?_map, hlast, Option.map_some']

theorem mem_saveFamily (d : JObj) (s : Store) (item : JObj) (hin : item ∈ s.families)
    (hp : strictEq (item.get "id") (d.get "id") = true) :
    JObj.spread item d ∈ (saveFamily d s).1.families := by
  rw [saveFamily_families, List.mem_map]
  exact ⟨item, hin, by simp [hp]⟩

theorem findMember_objects (username : String) (items : List JVal)
    (h : ∀ m ∈ items, ∃ o, m = JVal.obj o) : ∃ r, findMember username items = some r :=
  findMember_total username items fun m hm => by
    obtain ⟨o, rfl⟩ := h m hm
    simp

/-! ## Facts about the order of the chat on the page -/

theorem filter_key_above {α : Type} (key : α → Int) (x : α) (ys : List α)
    (h : ∀ y ∈ ys, key x < key y) : ys.filter (fun a => key a == key x) = [] := by
  rw [List.filter_eq_nil_iff]
  intro y hy
  have := h y hy
  simp only [beq_iff_eq]
  omega

theorem insertBy_key {α : Type} (key : α → Int) (cmp : α → α → Option Int) (x : α)
    (ys : List α) (h : ∀ y ∈ ys, cmp x y = some (key x - key y))
    (hs : ys.Pairwise fun a b => key a ≤ key b) :
    ∃ r, insertBy cmp x ys = some r ∧ r.Perm (x :: ys)
      ∧ r.Pairwise (fun a b => key a ≤ key b)
      ∧ ∀ t : Int, r.filter (fun a => key a == t)
          = (ys ++ [x]).filter (fun a => key a == t) := by
  induction ys with
  | nil => exact ⟨[x], rfl, List.Perm.refl _, List.pairwise_singleton _ _, fun _ => rfl⟩
  | cons y rest ih =>
    obtain ⟨hy, hrest⟩ := List.pairwise_cons.1 hs
    have hc := h y (List.mem_cons_self _ _)
    by_cases hlt : key x - key y < 0
    · refine ⟨x :: y :: rest, by simp [insertBy, hc, hlt], List.Perm.refl _, ?_, ?_⟩
      · refine List.pairwise_cons.2 ⟨?_, hs⟩
        intro z hz
        rcases List.mem_cons.1 hz with e | hz
        · rw [e]
          omega
        · have := hy z hz
          omega
      · intro t
        have habove : ∀ z ∈ y :: rest, key x < key z := by
          intro z hz
          rcases List.mem_cons.1 hz with e | hz
          · rw [e]
            omega
          · have := hy z hz
            omega
        by_cases hxt : key x = t
        · subst hxt
          rw [List.filter_append, List.filter_cons, filter_key_above key x _ habove]
          simp
        · simp [List.filter_cons, List.filter_append, hxt]
    · obtain ⟨r, hr, hperm, hsorted, hfilter⟩ :=
        ih (fun z hz => h z (List.mem_cons_of_mem _ hz)) hrest
      refine ⟨y :: r, by simp [insertBy, hc, hlt, hr], ?_, ?_, ?_⟩
      · exact (List.Perm.cons y hperm).trans (List.Perm.swap x y rest)
      · refine List.pairwise_cons.2 ⟨?_, hsorted⟩
        intro z hz
        rcases List.mem_cons.1 (hperm.subset hz) with e | hz
        · rw [e]
          omega
        · exact hy z hz
      · intro t
        simp only [List.cons_append, List.filter_cons, hfilter t]

theorem sortBy_key {α : Type} (key : α → Int) (cmp : α → α → Option Int) (l : List α)
    (h : ∀ a ∈ l, ∀ b ∈ l, cmp a b = some (key a - key b)) :
    ∃ r, sortBy cmp l = some r ∧ r.Perm l
      ∧ r.Pairwise (fun a b => key a ≤ key b)
      ∧ ∀ t : Int, r.filter (fun a => key a == t) = l.filter (fun a => key a == t) := by
  induction l using List.reverseRecOn with
  | nil => exact ⟨[], rfl, List.Perm.refl _, List.Pairwise.nil, fun _ => rfl⟩
  | append_singleton rest x ih =>
    obtain ⟨r, hr, hperm, hsorted, hfilter⟩ :=
      ih fun a ha b hb => h a (List.mem_append_left _ ha) b (List.mem_append_left _ hb)
    obtain ⟨r2, hr2, hperm2, hsorted2, hfilter2⟩ := insertBy_key key cmp x r
      (fun y hy => h x (List.mem_append_right _ (List.mem_singleton_self x)) y
        (List.mem_append_left _ (hperm.subset hy)))
      hsorted
    refine ⟨r2, by simp [sortBy_concat, hr, hr2],
      hperm2.trans ((List.Perm.cons x hperm).trans (List.perm_append_singleton x rest).symm),
      hsorted2, ?_⟩
    intro t
    rw [hfilter2 t, List.filter_append, List.filter_append, hfilter t]

theorem renderOrder_key (env : Env) (a b : JVal) (ha : a ≠ .null) (hb : b ≠ .null)
    (hta : ∃ t, newDate env (property a "createdAt") = some t)
    (htb : ∃ t, newDate env (property b "createdAt") = some t) :
    renderOrder env a b = some (chatTime env a - chatTime env b) := by
  obtain ⟨t, ht⟩ := hta
  obtain ⟨u, hu⟩ := htb
  cases a <;> first | exact absurd rfl ha |
    (cases b <;> first | exact absurd rfl hb | simp [renderOrder, chatTime, ht, hu])

theorem any_null_eq_false (l : List JVal) (h : ∀ m ∈ l, m ≠ .null) :
    (l.any fun m => JVal.same m .null) = false := by
  rw [List.any_eq_false]
  intro m hm hsame
  exact h m hm ((JVal.same_iff m .null).1 hsame)

/-! ## Rosters and back-references -/

theorem someMember_true_inRoster (u : String) (items : List JVal)
    (h : someMember u items = some true) :
    ∃ e ∈ items, property e "username" = some (.str u) := by
  induction items with
  | nil => simp [someMember] at h
  | cons m rest ih =>
    cases m with
    | null => simp [someMember] at h
    | obj o =>
      by_cases ho : strictEq (JObj.get o "username") (some (.str u)) = true
      · exact ⟨.obj o, List.mem_cons_self _ _, (strictEq_str_iff _ _).1 ho⟩
      · simp only [someMember, ho] at h
        obtain ⟨e, he, hp⟩ := ih h
        exact ⟨e, List.mem_cons_of_mem _ he, hp⟩
    | bool b =>
      simp only [someMember] at h
      obtain ⟨e, he, hp⟩ := ih h
      exact ⟨e, List.mem_cons_of_mem _ he, hp⟩
    | num n =>
      simp only [someMember] at h
      obtain ⟨e, he, hp⟩ := ih h
      exact ⟨e, List.mem_cons_of_mem _ he, hp⟩
    | str t =>
      simp only [someMember] at h
      obtain ⟨e, he, hp⟩ := ih h
      exact ⟨e, List.mem_cons_of_mem _ he, hp⟩
    | arr a =>
      simp only [someMember] at h
      obtain ⟨e, he, hp⟩ := ih h
      exact ⟨e, List.mem_cons_of_mem _ he, hp⟩

/-- A record of the users after `updateUser(u, { familyId, role })`: a record of another
user as it was, or a record of `u` with the new family id. -/
theorem mem_usersAfterJoin (u fid : String) (role : JVal) (users : List JObj) (r2 : JObj)
    (h : r2 ∈ usersAfterJoin u fid role users) :
    (r2 ∈ users ∧ JObj.get r2 "username" ≠ some (.str u))
      ∨ (JObj.get r2 "username" = some (.str u) ∧ JObj.get r2 "familyId" = some (.str fid)) := by
  simp only [usersAfterJoin, List.mem_map] at h
  obtain ⟨r, hr, rfl⟩ := h
  by_cases hm : strictEq (JObj.get r "username") (some (.str u)) = true
  · right
    simp only [hm, if_true]
    constructor
    · rw [JObj.get_set_other _ _ _ _ (by decide), JObj.get_set_other _ _ _ _ (by decide)]
      exact (strictEq_str_iff _ _).1 hm
    · rw [JObj.get_set_other _ _ _ _ (by decide), JObj.get_set_self]
  · left
    simp only [hm, if_false]
    exact ⟨hr, fun e => hm ((strictEq_str_iff _ _).2 e)⟩

theorem createFamily_users (name : JVal) (owner id now : String) (rng : Rng) (s : Store) :
    (createFamily name owner id now rng s).1.users
      = usersAfterJoin owner id (.str "owner") s.users := by
  simp only [createFamily]
  rw [updateUser_join_users]
  rfl

theorem roster_newFamilyDoc (name : JVal) (owner id now code : String) :
    roster (newFamilyDoc name owner id now code) = [memberEntry owner (.str "owner")] := by
  simp [roster, newFamilyDoc, JObj.get, arrayItems, memberEntry]

theorem createFamily_backRef (name : JVal) (owner id now : String) (rng : Rng) (s : Store)
    (h : BackRefInv s) (hg : (Call.create name owner id now rng).Fresh s) :
    BackRefInv (createFamily name owner id now rng s).1 := by
  constructor
  · intro f hf u hu r2 hr2 hname
    rw [createFamily_users] at hr2
    rw [createFamily_families] at hf
    rcases List.mem_append.1 hf with hold | hnew
    · have hne : u ≠ owner := by
        intro e
        subst e
        exact hg f hold hu
      rcases mem_usersAfterJoin owner id _ s.users r2 hr2 with ⟨hin, _⟩ | ⟨hn, _⟩
      · exact h.1 f hold u hu r2 hin hname
      · rw [hn] at hname
        simp only [Option.some.injEq, JVal.str.injEq] at hname
        exact absurd hname.symm hne
    · rw [List.mem_singleton.1 hnew] at hu ⊢
      obtain ⟨e, he, hp⟩ := hu
      rw [roster_newFamilyDoc, List.mem_singleton] at he
      rw [he] at hp
      have hu2 : owner = u := by
        simpa [memberEntry, property, JObj.get] using hp
      subst hu2
      rcases mem_usersAfterJoin owner id _ s.users r2 hr2 with ⟨_, hn⟩ | ⟨_, hfid⟩
      · exact absurd hname hn
      · rw [hfid]
        rfl
  · intro f hf
    rw [createFamily_families] at hf
    rcases List.mem_append.1 hf with hold | hnew
    · exact h.2 f hold
    · rw [List.mem_singleton.1 hnew]
      exact ⟨id, rfl⟩

theorem joinFamilyByCode_backRef (u : String) (role : JVal) (c : String) (s : Store)
    (h : BackRefInv s) (hg : (Call.join u role c).Fresh s) :
    BackRefInv ((Call.join u role c).apply s) := by
  simp only [Call.apply]
  cases hF : findFamilyByCode s (some (.str c)) with
  | none =>
    rw [joinFamilyByCode_not_found u role c s hF]
    exact h
  | some F =>
    have hfind : s.families.find? (fun item => strictEq (item.get "code") (some (.str c)))
        = some F := by
      simpa [findFamilyByCode, clone] using hF
    have hFmem : F ∈ s.families := List.mem_of_find?_eq_some hfind
    obtain ⟨fid, hfid⟩ := h.2 F hFmem
    cases hm : someMember u (roster F) with
    | none =>
      rw [joinFamilyByCode_throw u role c s F hF hm]
      exact h
    | some b =>
      cases b with
      | true =>
        obtain ⟨e, he, hp⟩ := someMember_true_inRoster u (roster F) hm
        exact absurd ⟨e, he, hp⟩ (hg F hFmem)
      | false =>
        rw [joinFamilyByCode_store u role c s F fid false hF hfid hm]
        have hid2 : (joinedDoc F u role false).get "id" = some (.str fid) := by
          rw [joinedDoc_get_other _ _ _ _ _ (by decide), hfid]
        constructor
        · intro f hf v hv r2 hr2 hname
          simp only [] at hf hr2
          rcases mem_familiesAfterJoin _ _ _ _ hf with rfl | hold
          · rw [hid2]
            obtain ⟨e, he, hp⟩ := hv
            rw [roster_joinedDoc_false] at he
            rcases List.mem_append.1 he with hin | hnew
            · have hne : v ≠ u := by
                intro e2
                subst e2
                exact hg F hFmem ⟨e, hin, hp⟩
              rcases mem_usersAfterJoin u fid role s.users r2 hr2 with ⟨hin2, _⟩ | ⟨hn, _⟩
              · rw [← hfid]
                exact h.1 F hFmem v ⟨e, hin, hp⟩ r2 hin2 hname
              · rw [hn] at hname
                simp only [Option.some.injEq, JVal.str.injEq] at hname
                exact absurd hname.symm hne
            · rw [List.mem_singleton.1 hnew] at hp
              have hu2 : u = v := by
                simpa [memberEntry, property, JObj.get] using hp
              subst hu2
              rcases mem_usersAfterJoin u fid role s.users r2 hr2 with ⟨_, hn⟩ | ⟨_, hf2⟩
              · exact absurd hname hn
              · exact hf2
          · have hne : v ≠ u := by
              intro e2
              subst e2
              exact hg f hold hv
            rcases mem_usersAfterJoin u fid role s.users r2 hr2 with ⟨hin2, _⟩ | ⟨hn, _⟩
            · exact h.1 f hold v hv r2 hin2 hname
            · rw [hn] at hname
              simp only [Option.some.injEq, JVal.str.injEq] at hname
              exact absurd hname.symm hne
        · intro f hf
          simp only [] at hf
          rcases mem_familiesAfterJoin _ _ _ _ hf with rfl | hold
          · exact ⟨fid, hid2⟩
          · exact h.2 f hold

theorem applyCalls_backRef (calls : List Call) (s : Store) (h : BackRefInv s)
    (hg : FreshCalls calls s) : BackRefInv (applyCalls calls s) := by
  induction calls generalizing s with
  | nil => exact h
  | cons c rest ih =>
    apply ih _ _ hg.2
    cases c with
    | create name owner id now rng => exact createFamily_backRef name owner id now rng s h hg.1
    | join u role code => exact joinFamilyByCode_backRef u role code s h hg.1

theorem oneFamilyCalls_fresh : FreshCalls oneFamilyCalls usersOnly := by
  refine ⟨?_, ?_, trivial⟩
  · intro f hf
    simp [usersOnly] at hf
  · intro f hf
    have hfam : ((Call.create (.str "Smiths") "alice" "fam_1" "2024-05-01T10:00:00.000Z"
        zeroRng).apply usersOnly).families
        = [newFamilyDoc (.str "Smiths") "alice" "fam_1" "2024-05-01T10:00:00.000Z" "AAAAAA"] :=
      rfl
    rw [hfam, List.mem_singleton] at hf
    rw [hf]
    rintro ⟨e, he, hp⟩
    rw [roster_newFamilyDoc, List.mem_singleton] at he
    rw [he] at hp
    simp [memberEntry, property, JObj.get] at hp

/-! ## Facts about the family read from storage -/

theorem findWhere_eq (test : JVal → Bool) (l : List JVal) (h : ∀ f ∈ l, f ≠ .null) :
    findWhere test l = some (l.find? test) := by
  induction l with
  | nil => rfl
  | cons x rest ih =>
    have hx := h x (List.mem_cons_self _ _)
    have hrest := ih fun f hf => h f (List.mem_cons_of_mem _ hf)
    by_cases ht : test x = true
    · cases x <;> first | exact absurd rfl hx | simp [findWhere, List.find?, ht]
    · simp only [Bool.not_eq_true] at ht
      cases x <;> first | exact absurd rfl hx | simp [findWhere, List.find?, ht, hrest]

theorem filterOthers_total (username : String) (l : List JVal) (h : ∀ u ∈ l, u ≠ .null) :
    ∃ r, filterOthers username l = some r := by
  induction l with
  | nil => exact ⟨[], rfl⟩
  | cons x rest ih =>
    obtain ⟨r, hr⟩ := ih fun u hu => h u (List.mem_cons_of_mem _ hu)
    have hx := h x (List.mem_cons_self _ _)
    refine ⟨if strictEq (property x "username") (some (.str username)) then r else x :: r, ?_⟩
    cases x <;> first | exact absurd rfl hx | simp [filterOthers, hr]

theorem optionalFind_total (username : String) (v : Option JVal)
    (h : v = none ∨ ObjectList v) : ∃ r, optionalFind username v = some r := by
  rcases h with rfl | ⟨items, rfl, hobj⟩
  · exact ⟨none, rfl⟩
  · obtain ⟨r, hr⟩ := findMember_objects username items hobj
    exact ⟨r, by simp [optionalFind, hr]⟩

theorem itemDiffers_false (item : Option String) (i : String)
    (h : itemDiffers item (some (.str i)) = false) : item = some i := by
  cases item with
  | none => simp [itemDiffers] at h
  | some t =>
    simp only [itemDiffers, Bool.not_eq_false'] at h
    have := (strictEq_str_iff _ _).1 h
    simpa using this

theorem loadUsers_congr (a b : Client) (h1 : a.backend = b.backend)
    (h2 : a.storedUsers = b.storedUsers) : loadUsers a = loadUsers b := by
  simp only [loadUsers, h1, h2]

theorem reloadFamilies_isAdmin (s : Client) : (reloadFamilies s).isAdmin = s.isAdmin := by
  simp only [reloadFamilies, loadFamilies]
  split <;> rfl

theorem reloadFamilies_familiesState (s : Client) :
    (reloadFamilies s).familiesState = (loadFamilies s).2 := rfl

theorem storedFamilyId_reload (s : Client) :
    storedFamilyId (reloadFamilies s) = storedFamilyId s := by
  simp only [reloadFamilies, loadFamilies]
  split <;> rfl

theorem loadUsers_reload (s : Client) : loadUsers (reloadFamilies s) = loadUsers s := by
  simp only [reloadFamilies, loadFamilies]
  split <;> rfl

theorem writePointer_spec (family : JVal) (s : Client) :
    (writePointer family s).currentFamily = s.currentFamily
      ∧ ∀ i, property family "id" = some (.str i) →
          (writePointer family s).membershipItem = some i := by
  simp only [writePointer]
  by_cases h : itemDiffers s.membershipItem (property family "id") = true
  · rw [if_pos h]
    refine ⟨rfl, ?_⟩
    intro i hi
    simp [jsStringOpt, hi, jsString_str]
  · rw [if_neg h]
    refine ⟨rfl, ?_⟩
    intro i hi
    rw [hi] at h
    exact itemDiffers_false _ i (by simpa using h)

theorem writeUserRecord_spec (family : JVal) (role : Option JVal) (s : Client)
    (husers : ∀ u ∈ loadUsers s, u ≠ .null) :
    ∃ s2, writeUserRecord family role s = some s2 ∧ s2.currentFamily = s.currentFamily := by
  obtain ⟨others, hothers⟩ := filterOthers_total s.currentUser (loadUsers s) husers
  simp only [writeUserRecord]
  by_cases h : (!truthy s.currentUserRecord
      || !strictEq (optProp s.currentUserRecord "familyId") (property family "id")) = true
  · rw [if_pos h, hothers]
    exact ⟨_, rfl, rfl⟩
  · rw [if_neg h]
    exact ⟨s, rfl, rfl⟩

theorem adoptStoredFamily_spec (env : Env) (family : JVal) (s : Client)
    (hmembers : property family "members" = none ∨ ObjectList (property family "members"))
    (husers : ∀ u ∈ loadUsers s, u ≠ .null) :
    ∃ s2, adoptStoredFamily env family s = some s2 ∧ s2.currentFamily = some family
      ∧ ∀ i, property family "id" = some (.str i) → s2.membershipItem = some i := by
  obtain ⟨member, hmember⟩ := optionalFind_total s.currentUser _ hmembers
  obtain ⟨s2, hs2, hcur⟩ := writeUserRecord_spec family (resolvedRole member s)
    (setStoredFamily env family member s) husers
  refine ⟨writePointer family s2, ?_, ?_, (writePointer_spec family s2).2⟩
  · simp only [adoptStoredFamily, hmember, hs2, Option.map_some']
  · rw [(writePointer_spec family s2).1, hcur]
    rfl

theorem updateFamilyEnd_saved (env : Env) (s : Client) (pending : Pending)
    (store : Store)
    (hkeys : pending.draft.keys.Nodup) (hid : truthy (pending.draft.get "id") = true)
    (hfound : (findFamilyById store (pending.draft.get "id")).isSome = true)
    (hmembers : ObjectList (pending.draft.get "members"))
    (hreminders : ObjectList (pending.draft.get "reminders"))
    (hchat : ∃ chat, pending.draft.get "chat" = some (.arr chat) ∧ ∀ m ∈ chat, m ≠ .null)
    (hindex : pending.index < s.familiesState.length) :
    ∃ saved : JObj,
      saved ∈ (putFamily (some (.obj pending.draft)) store).store.families
      ∧ (putFamily (some (.obj pending.draft)) store).family = some saved
      ∧ (updateFamilyEnd env pending (serverPut store pending.draft) s).2 = .obj saved
      ∧ (updateFamilyEnd env pending (serverPut store pending.draft) s).1.currentFamily
          = some (.obj saved)
      ∧ (updateFamilyEnd env pending (serverPut store pending.draft)
            s).1.familiesState.get? pending.index = some (.obj saved)
      ∧ (updateFamilyEnd env pending (serverPut store pending.draft)
            s).1.lastFamilySyncSignature = computeFamilySignature env (some (.obj saved)) := by
  obtain ⟨chat, hch, hnn⟩ := hchat
  obtain ⟨chat2, hsan, hobj⟩ := sanitizeChat_objects chat hnn
  have hsan2 : sanitizedChatOf pending.draft = some chat2 := by
    simp only [sanitizedChatOf, hch, isArray, if_true, arrayItems]
    exact hsan
  have hput := putFamily_ok pending.draft store chat2 hid hfound hsan2
  have hk2 : (JObj.set pending.draft "chat" (.arr chat2)).keys.Nodup :=
    JObj.keys_set_nodup _ _ _ hkeys
  have hid2 : (JObj.set pending.draft "chat" (.arr chat2)).get "id" = pending.draft.get "id" :=
    JObj.get_set_other _ _ _ _ (by decide)
  obtain ⟨item, hin, hp, hres⟩ := saveFamily_result (JObj.set pending.draft "chat" (.arr chat2))
    store (by rw [hid2]; exact hfound)
  have hmem := mem_saveFamily _ store item hin hp
  have hsaved : sanitizeFamily (some (JObj.spread item
      (JObj.set pending.draft "chat" (.arr chat2))))
      = some (JObj.spread item (JObj.set pending.draft "chat" (.arr chat2))) := by
    apply sanitizeFamily_objects
    · rw [JObj.get_spread _ _ _ hk2]
      obtain ⟨ms, hms, hmo⟩ := hmembers
      exact ⟨ms, by simp [mergedField, JObj.get_set_other _ _ _ _ (show "chat" ≠ "members" by
        decide), hms], hmo⟩
    · rw [JObj.get_spread _ _ _ hk2]
      obtain ⟨rs, hrs, hro⟩ := hreminders
      exact ⟨rs, by simp [mergedField, JObj.get_set_other _ _ _ _ (show "chat" ≠ "reminders" by
        decide), hrs], hro⟩
    · rw [JObj.get_spread _ _ _ hk2]
      exact ⟨chat2, by simp [mergedField, JObj.get_set_self], hobj⟩
  obtain ⟨items, hitems, hio⟩ : ObjectList ((JObj.spread item
      (JObj.set pending.draft "chat" (.arr chat2))).get "members") := by
    rw [JObj.get_spread _ _ _ hk2]
    obtain ⟨ms, hms, hmo⟩ := hmembers
    exact ⟨ms, by simp [mergedField, JObj.get_set_other _ _ _ _ (show "chat" ≠ "members" by
      decide), hms], hmo⟩
  obtain ⟨found, hfoundm⟩ := findMember_objects s.currentUser items hio
  refine ⟨JObj.spread item (JObj.set pending.draft "chat" (.arr chat2)), ?_, ?_, ?_⟩
  · rw [hput]
    exact hmem
  · rw [hput]
    simp only [hres, hsaved]
  · have hreply : serverPut store pending.draft
        = .ok (.obj [("family", .obj (JObj.spread item
            (JObj.set pending.draft "chat" (.arr chat2))))]) := by
      simp [serverPut, hput, Outcome.response, hres, hsaved, literal]
    simp only [hreply, updateFamilyEnd, Response.field, property, JObj.get, if_true, truthy,
      Bool.not_true, Bool.false_eq_true, if_false, hitems, strictFind, hfoundm]
    refine ⟨trivial, ?_, ?_, ?_⟩
    · simp [setMember, saveFamilies]
    · simp [setMember, saveFamilies, hindex]
    · simp [setMember, saveFamilies]

/-! ## Facts about the renders of the family -/

theorem insertBy_total {α : Type} (cmp : α → α → Option Int) (x : α) (ys : List α)
    (h : ∀ y ∈ ys, ∃ c, cmp x y = some c) : ∃ r, insertBy cmp x ys = some r := by
  induction ys with
  | nil => exact ⟨[x], rfl⟩
  | cons y rest ih =>
    obtain ⟨c, hc⟩ := h y (List.mem_cons_self _ _)
    obtain ⟨r, hr⟩ := ih fun z hz => h z (List.mem_cons_of_mem _ hz)
    by_cases hlt : c < 0
    · exact ⟨x :: y :: rest, by simp [insertBy, hc, hlt]⟩
    · exact ⟨y :: r, by simp [insertBy, hc, hlt, hr]⟩

/-- A comparator that throws on no pair of elements of the list sorts it. -/
theorem sortBy_total {α : Type} (cmp : α → α → Option Int) (l : List α)
    (h : ∀ a ∈ l, ∀ b ∈ l, ∃ c, cmp a b = some c) :
    ∃ r, sortBy cmp l = some r ∧ r.Perm l := by
  induction l using List.reverseRecOn with
  | nil => exact ⟨[], rfl, List.Perm.refl _⟩
  | append_singleton rest x ih =>
    obtain ⟨r, hr, hperm⟩ := ih fun a ha b hb =>
      h a (List.mem_append_left _ ha) b (List.mem_append_left _ hb)
    obtain ⟨r2, hr2⟩ := insertBy_total cmp x r fun y hy =>
      h x (List.mem_append_right _ (List.mem_singleton_self x)) y
        (List.mem_append_left _ (hperm.subset hy))
    refine ⟨r2, by simp [sortBy_concat, hr, hr2], ?_⟩
    exact (insertBy_perm cmp x r r2 hr2).trans
      ((List.Perm.cons x hperm).trans (List.perm_append_singleton x rest).symm)

theorem isNull_eq_false (m : JVal) (h : m ≠ .null) : m.isNull = false := by
  cases m <;> first | exact absurd rfl h | rfl

theorem rowOrder_total (env : Env) (a b : JVal) (n : String)
    (ha : property a "username" = some (.str n)) (hb : b ≠ .null) :
    ∃ c, rowOrder env a b = some c := by
  apply Option.isSome_iff_exists.1
  cases a <;> first | (simp [property] at ha; done) | skip
  cases b <;> first | exact absurd rfl hb | simp [rowOrder, ha, localeCompareValues]

theorem memberRowsDrawn_of (env : Env) (members : List JVal)
    (h : ∀ m ∈ members, ∃ n, property m "username" = some (.str n)) :
    memberRowsDrawn env members = true := by
  have hnn : ∀ m ∈ members, m ≠ .null := fun m hm => by
    obtain ⟨n, hn⟩ := h m hm
    exact ne_null_of_property m _ _ hn
  obtain ⟨r, hr, hperm⟩ := sortBy_total (rowOrder env) members (by
    intro a ha b hb
    obtain ⟨n, hn⟩ := h a ha
    exact rowOrder_total env a b n hn (hnn b hb))
  simp only [memberRowsDrawn, hr, List.all_eq_true]
  intro m hm
  rw [isNull_eq_false m (hnn m (hperm.subset hm))]
  rfl

theorem renderOrder_total (env : Env) (a b : JVal) (ha : a ≠ .null) (hb : b ≠ .null) :
    ∃ c, renderOrder env a b = some c := by
  apply Option.isSome_iff_exists.1
  cases a <;> first | exact absurd rfl ha | skip
  all_goals
    cases b <;> first | exact absurd rfl hb | skip
  all_goals
    simp only [renderOrder]
    split <;> rfl

theorem renderFamilyChat_completes (env : Env) (s : Client) (remote : JVal)
    (chat : List JVal) (hcur : s.currentFamily = some remote)
    (hchat : property remote "chat" = some (.arr chat))
    (hdates : ∀ m ∈ chat, ∃ t v, property m "createdAt" = some (.str t) ∧ t ≠ ""
      ∧ env.timeValue t = some v)
    (htexts : TextsAreStrings chat) :
    renderFamilyChat env s = (s, true) := by
  have hnn : ∀ m ∈ chat, m ≠ .null := fun m hm => by
    obtain ⟨t, ht⟩ := htexts m hm
    exact ne_null_of_property m _ _ ht
  obtain ⟨r, hr, hperm⟩ := sortBy_total (renderOrder env) chat fun a ha b hb =>
    renderOrder_total env a b (hnn a ha) (hnn b hb)
  have hany : (r.any fun m => JVal.same m .null) = false := by
    rw [List.any_eq_false]
    intro m hm
    have := hnn m (hperm.subset hm)
    cases m <;> first | exact absurd rfl this | simp [JVal.same]
  have hdisp : displayedChat env s = some r := by
    simp only [displayedChat, hcur, truthy_of_property remote _ _ hchat, Bool.not_true,
      Bool.false_eq_true, if_false, hchat, listOrEmpty, isArray, arrayItems, if_true, hr,
      Option.some_bind, hany]
  have hall : r.all (bubbleDrawn env) = true := by
    rw [List.all_eq_true]
    intro m hm
    obtain ⟨t, v, hc, hne, hv⟩ := hdates m (hperm.subset hm)
    obtain ⟨x, hx⟩ := htexts m (hperm.subset hm)
    have ht : truthy (some (JVal.str t)) = true := by simp [truthy, hne]
    simp [bubbleDrawn, hc, hx, ht, newDate, hv, inlineFormats]
  simp only [renderFamilyChat, hdisp, hall]
  split <;> rfl

theorem remindersOn_total (dateISO : String) (l : List JVal) (h : ∀ r ∈ l, r ≠ .null) :
    ∃ out, remindersOn dateISO l = some out ∧ ∀ r ∈ out, r ∈ l := by
  induction l with
  | nil => exact ⟨[], rfl, fun _ hr => hr⟩
  | cons x rest ih =>
    obtain ⟨out, hout, hsub⟩ := ih fun r hr => h r (List.mem_cons_of_mem _ hr)
    have hx := h x (List.mem_cons_self _ _)
    by_cases hd : strictEq (property x "date") (some (.str dateISO)) = true
    · refine ⟨x :: out, ?_, ?_⟩
      · cases x <;> first | exact absurd rfl hx | simp [remindersOn, hout, hd]
      · intro r hr
        rcases List.mem_cons.1 hr with e | hr
        · rw [e]
          exact List.mem_cons_self _ _
        · exact List.mem_cons_of_mem _ (hsub r hr)
    · refine ⟨out, ?_, fun r hr => List.mem_cons_of_mem _ (hsub r hr)⟩
      cases x <;> first | exact absurd rfl hx | simp [remindersOn, hout, hd]

theorem reminderOrder_total (env : Env) (reminders : List JVal)
    (h : RemindersDrawable env reminders) (a b : JVal) (ha : a ∈ reminders)
    (hb : b ∈ reminders) : ∃ c, reminderOrder env a b = some c := by
  obtain ⟨⟨oa, rfl⟩, -, hta⟩ := h a ha
  obtain ⟨⟨ob, rfl⟩, -, -⟩ := h b hb
  apply Option.isSome_iff_exists.1
  simp only [reminderOrder]
  rcases hta with h1 | h1 | ⟨d, t, v, -, h1, -⟩
  · simp [h1, jsOr, truthy, localeCompareValues]
  · simp [h1, jsOr, truthy, localeCompareValues]
  · by_cases ht : truthy (some (JVal.str t)) = true
    · simp [h1, jsOr, ht, localeCompareValues]
    · simp [h1, jsOr, ht, localeCompareValues]

theorem reminderCardDrawn_of (env : Env) (reminders : List JVal)
    (h : RemindersDrawable env reminders) (r : JVal) (hr : r ∈ reminders) :
    reminderCardDrawn env r = true := by
  obtain ⟨⟨o, rfl⟩, hnotes, htime⟩ := h r hr
  have h1 : inlineFormats (property (JVal.obj o) "notes") = true := by
    rcases hnotes with hn | ⟨n, hn⟩
    · rw [hn]
      rfl
    · rw [hn]
      rfl
  have h2 : (if truthy (property (JVal.obj o) "time") = true
      then (env.timeValue (jsStringOpt (property (JVal.obj o) "date") ++ "T"
        ++ jsStringOpt (property (JVal.obj o) "time"))).isSome
      else true) = true := by
    rcases htime with ht | ht | ⟨d, t, v, hd, ht, hv⟩
    · rw [ht]
      rfl
    · rw [ht]
      rfl
    · rw [hd, ht]
      split
      · simp [jsStringOpt, jsString_str, hv]
      · rfl
  simp only [reminderCardDrawn, JVal.isNull, Bool.not_false, Bool.true_and, h1, h2,
    Bool.and_self]

/-- The part of `renderFamilyReminders` after the read of the family, for a family whose
reminders can be drawn. -/
theorem reminders_drawn (env : Env) (dateISO : String) (t : Client) (remote : JVal)
    (reminders : List JVal) (hcur : t.currentFamily = some remote)
    (hrem : property remote "reminders" = some (.arr reminders))
    (hdraw : RemindersDrawable env reminders) :
    ∃ relevant sorted, getFamilyRemindersForDate dateISO t = some relevant
      ∧ sortBy (reminderOrder env) relevant = some sorted
      ∧ sorted.all (reminderCardDrawn env) = true := by
  have hnn : ∀ r ∈ reminders, r ≠ .null := fun r hr => by
    obtain ⟨⟨o, rfl⟩, -, -⟩ := hdraw r hr
    simp
  obtain ⟨out, hout, hsub⟩ := remindersOn_total dateISO reminders hnn
  have hsub2 : ∀ r ∈ out.filter (visibleReminder t), r ∈ reminders := fun r hr =>
    hsub r (List.mem_filter.1 hr).1
  obtain ⟨sorted, hsorted, hperm⟩ := sortBy_total (reminderOrder env)
    (out.filter (visibleReminder t)) fun a ha b hb =>
      reminderOrder_total env reminders hdraw a b (hsub2 a ha) (hsub2 b hb)
  refine ⟨out.filter (visibleReminder t), sorted, ?_, hsorted, ?_⟩
  · simp only [getFamilyRemindersForDate, hcur, truthy_of_property remote _ _ hrem,
      Bool.not_true, Bool.false_eq_true, if_false, optProp, Option.some_bind, hrem,
      listOrEmpty, isArray, if_true, arrayItems, hout, Option.map_some']
  · rw [List.all_eq_true]
    intro r hr
    exact reminderCardDrawn_of env reminders hdraw r (hsub2 r (hperm.subset hr))

theorem setBackendMembership_families (username : String) (familyId : Option JVal)
    (store : BackendStore) :
    (setBackendMembership username familyId store).families = store.families := by
  simp only [setBackendMembership]
  split <;> simp [saveBackendStore]

theorem writePointer_kept (family : JVal) (s : Client) :
    (writePointer family s).kept = s.kept := by
  simp only [writePointer]
  split
  · simp [Client.kept, setBackendMembership_families]
  · rfl

theorem writeUserRecord_kept (family : JVal) (role : Option JVal) (s s2 : Client)
    (h : writeUserRecord family role s = some s2) : s2.kept = s.kept := by
  simp only [writeUserRecord] at h
  split at h
  · cases hf : filterOthers s.currentUser (loadUsers s) with
    | none => rw [hf] at h; exact Option.noConfusion h
    | some others =>
      rw [hf, Option.map_some', Option.some.injEq] at h
      rw [← h]
      simp [Client.kept, saveUsers, saveBackendStore]
  · rw [Option.some.injEq] at h
    rw [h]

theorem adoptStoredFamily_kept (env : Env) (family : JVal) (s s2 : Client)
    (h : adoptStoredFamily env family s = some s2) : s2.kept = s.kept := by
  simp only [adoptStoredFamily] at h
  cases hm : optionalFind s.currentUser (property family "members") with
  | none => rw [hm] at h; exact Option.noConfusion h
  | some member =>
    rw [hm] at h
    simp only [] at h
    cases hw : writeUserRecord family (resolvedRole member s)
        (setStoredFamily env family member s) with
    | none => rw [hw] at h; exact Option.noConfusion h
    | some s3 =>
      rw [hw, Option.map_some', Option.some.injEq] at h
      rw [← h, writePointer_kept, writeUserRecord_kept _ _ _ _ hw]
      rfl

theorem adoptStoredFamilyThrown_kept (env : Env) (family : JVal) (s : Client) :
    (adoptStoredFamilyThrown env family s).kept = s.kept := by
  simp only [adoptStoredFamilyThrown]
  split <;> rfl

theorem updateFamilyStateFromStorage_kept (env : Env) (s s2 : Client)
    (h : updateFamilyStateFromStorage env s = some s2) :
    s2.kept = (reloadFamilies s).kept := by
  simp only [updateFamilyStateFromStorage] at h
  split at h
  · rw [Option.some.injEq] at h
    rw [← h]
    rfl
  · split at h
    · split at h
      · exact Option.noConfusion h
      · exact adoptStoredFamily_kept env _ _ _ h
      · split at h
        · exact Option.noConfusion h
        · exact adoptStoredFamily_kept env _ _ _ h
        · rw [Option.some.injEq] at h
          rw [← h]
          simp [Client.kept, clearFamily, setBackendMembership_families]
    · rw [Option.some.injEq] at h
      rw [← h]
      simp [Client.kept, clearFamily, setBackendMembership_families]

theorem familyStateAtThrow_kept (env : Env) (s : Client) :
    (familyStateAtThrow env s).kept = (reloadFamilies s).kept := by
  simp only [familyStateAtThrow]
  split
  · rfl
  · exact adoptStoredFamilyThrown_kept env _ _
  · split
    · exact adoptStoredFamilyThrown_kept env _ _
    · rfl

theorem readFamilyState_kept (env : Env) (s : Client) :
    (readFamilyState env s).1.kept = (reloadFamilies s).kept := by
  simp only [readFamilyState]
  cases h : updateFamilyStateFromStorage env s with
  | none => exact familyStateAtThrow_kept env s
  | some s2 => exact updateFamilyStateFromStorage_kept env s s2 h

/-- The list of families is the same in the three places where the client keeps it. -/
theorem reloadFamilies_kept (s : Client) (F : List JVal) (h1 : s.familiesState = F)
    (h2 : s.storedFamilies = F) (h3 : s.backend.families = F) :
    (reloadFamilies s).kept = s.kept := by
  simp only [reloadFamilies, loadFamilies]
  split <;> simp [Client.kept, h1, h2, h3]

theorem cached_of_kept (F : List JVal) (s s2 : Client) (h : s2.kept = s.kept)
    (hc : Cached F s) : Cached F s2 := by
  simp only [Client.kept, Prod.mk.injEq] at h
  obtain ⟨-, -, -, -, -, -, -, -, -, -, h1, h2, h3⟩ := h
  exact ⟨h1.trans hc.1, h2.trans hc.2.1, h3.trans hc.2.2⟩

theorem readFamilyState_kept_of_cached (env : Env) (F : List JVal) (s : Client)
    (hc : Cached F s) : (readFamilyState env s).1.kept = s.kept :=
  (readFamilyState_kept env s).trans (reloadFamilies_kept s F hc.1 hc.2.1 hc.2.2)

theorem readFamilyState_cached (env : Env) (F : List JVal) (s : Client) (hc : Cached F s) :
    Cached F (readFamilyState env s).1 :=
  cached_of_kept F s _ (readFamilyState_kept_of_cached env F s hc) hc

theorem andThen_keeps (P : Client → Prop) (first : Client × Bool)
    (second : Client → Client × Bool) (h1 : P first.1) (h2 : ∀ t, P t → P (second t).1) :
    P (andThen first second).1 := by
  simp only [andThen]
  split
  · exact h2 _ h1
  · exact h1

theorem renderFamilyMemberList_cached (env : Env) (F : List JVal) (s : Client)
    (hc : Cached F s) : Cached F (renderFamilyMemberList env s).1 := by
  simp only [renderFamilyMemberList]
  split
  · exact hc
  · refine andThen_keeps (Cached F) _ _ (readFamilyState_cached env F s hc) ?_
    intro t ht
    split <;> exact ht

theorem renderFamilyChat_state (env : Env) (s : Client) : (renderFamilyChat env s).1 = s := by
  simp only [renderFamilyChat]
  split
  · rfl
  · split <;> rfl

theorem renderFamilyReminders_cached (env : Env) (F : List JVal) (dateISO : String)
    (reminderList : Option (List JVal)) (s : Client) (hc : Cached F s) :
    Cached F (renderFamilyReminders env dateISO reminderList s).1 := by
  simp only [renderFamilyReminders]
  split
  · exact hc
  · refine andThen_keeps (Cached F) _ _ (readFamilyState_cached env F s hc) ?_
    intro t ht
    split
    · exact ht
    · split
      · exact ht
      · split <;> exact ht

theorem renderFamilyOverview_cached (env : Env) (F : List JVal) (s : Client)
    (hc : Cached F s) : Cached F (renderFamilyOverview env s).1 := by
  simp only [renderFamilyOverview]
  split
  · exact hc
  · refine andThen_keeps (Cached F) _ _ ?_ ?_
    · refine andThen_keeps (Cached F) _ _ (renderFamilyMemberList_cached env F s hc) ?_
      intro t ht
      rw [renderFamilyChat_state]
      exact ht
    · intro t ht
      exact renderFamilyReminders_cached env F _ _ t ht

theorem renderFamily_cached (env : Env) (F : List JVal) (s : Client) (hc : Cached F s) :
    Cached F (renderFamily env s).1 := by
  simp only [renderFamily]
  refine andThen_keeps (Cached F) _ _ ?_ ?_
  · refine andThen_keeps (Cached F) _ _ (renderFamilyOverview_cached env F _ hc) ?_
    intro t ht
    rw [renderFamilyChat_state]
    exact ht
  · intro t ht
    exact renderFamilyReminders_cached env F _ _ _ ht

/-! ## Facts about the family adopted by a sync -/

theorem storedFamilyId_truthy (t : Client) (v : JVal) (h : storedFamilyId t = some v) :
    truthy (some v) = true := by
  simp only [storedFamilyId, orElse, getBackendMembership] at h
  split at h
  · rw [← h]
    assumption
  · split at h
    · rw [← h]
      assumption
    · split at h
      · exact Option.noConfusion h
      · split at h
        · rw [← h]
          assumption
        · exact Option.noConfusion h

theorem storedFamilyId_of_record (t : Client) (v : JVal)
    (h : optProp t.currentUserRecord "familyId" = some v) (ht : truthy (some v) = true) :
    storedFamilyId t = some v := by
  simp only [storedFamilyId, orElse, h, ht, if_true]

theorem setBackendMembership_users (username : String) (familyId : Option JVal)
    (store : BackendStore) :
    (setBackendMembership username familyId store).users = store.users := by
  simp only [setBackendMembership]
  split <;> simp [saveBackendStore]

theorem getBackendMembership_set (username : String) (v : JVal) (store : BackendStore)
    (hu : username ≠ "") (hv : truthy (some v) = true) :
    getBackendMembership username (setBackendMembership username (some v) store) = some v := by
  have hu2 : (username == "") = false := by simpa using hu
  have hget : (JObj.spread store.memberships
      (JObj.set (JObj.spread [] store.memberships) username v)).get username = some v := by
    rw [JObj.get_spread _ _ _
      (JObj.keys_set_nodup _ _ _ (JObj.keys_spread_nodup [] _ List.nodup_nil))]
    simp [mergedField, JObj.get_set_self]
  simp only [getBackendMembership, setBackendMembership, hu2, Bool.false_eq_true, if_false,
    hv, if_true, Option.getD_some, saveBackendStore, hget]

theorem writePointer_frame (family : JVal) (s : Client) :
    (writePointer family s).currentUserRecord = s.currentUserRecord
      ∧ loadUsers (writePointer family s) = loadUsers s
      ∧ (writePointer family s).currentFamily = s.currentFamily
      ∧ (writePointer family s).lastFamilySyncSignature = s.lastFamilySyncSignature := by
  simp only [writePointer]
  split
  · refine ⟨rfl, ?_, rfl, rfl⟩
    simp only [loadUsers, setBackendMembership_users]
  · exact ⟨rfl, rfl, rfl, rfl⟩

theorem filterOthers_subset (username : String) (l r : List JVal)
    (h : filterOthers username l = some r) : ∀ u ∈ r, u ∈ l := by
  induction l generalizing r with
  | nil =>
    simp only [filterOthers, Option.some.injEq] at h
    rw [← h]
    intro u hu
    exact hu
  | cons x rest ih =>
    cases x with
    | null => simp [filterOthers] at h
    | bool _ | num _ | str _ | arr _ | obj _ =>
      simp only [filterOthers] at h
      cases hr : filterOthers username rest with
      | none => rw [hr] at h; exact Option.noConfusion h
      | some r2 =>
        rw [hr, Option.map_some', Option.some.injEq] at h
        rw [← h]
        intro u hu
        split at hu
        · exact List.mem_cons_of_mem _ (ih r2 hr u hu)
        · rcases List.mem_cons.1 hu with e | hu
          · rw [e]
            exact List.mem_cons_self _ _
          · exact List.mem_cons_of_mem _ (ih r2 hr u hu)

theorem userRecordFor_familyId (family : JVal) (role : Option JVal) (s : Client) (v : JVal)
    (h : property family "id" = some v) :
    property (userRecordFor family role s) "familyId" = some v := by
  rw [userRecordFor, h]
  cases role with
  | none => exact JObj.get_set_self _ _ _
  | some w =>
    show JObj.get (JObj.set (JObj.set _ "familyId" v) "role" w) "familyId" = some v
    rw [JObj.get_set_other _ _ _ _ (by decide), JObj.get_set_self]

theorem writeUserRecord_eq (family : JVal) (role : Option JVal) (s : Client) :
    writeUserRecord family role s
      = if (!truthy s.currentUserRecord
          || !strictEq (optProp s.currentUserRecord "familyId") (property family "id")) = true
        then (filterOthers s.currentUser (loadUsers s)).map fun others =>
          { saveUsers (others ++ [userRecordFor family role s])
              { s with currentUserRecord := some (userRecordFor family role s) } with
            usersState := others ++ [userRecordFor family role s] }
        else some s := rfl

theorem loadUsers_saveUsers (users : List JVal) (s : Client) :
    loadUsers (saveUsers users s) = users := by
  simp only [loadUsers, saveUsers, saveBackendStore, Option.getD_some]
  split <;> rfl

theorem adoptStoredFamily_adopted (env : Env) (remote : JVal) (id : String)
    (F : List JVal) (t : Client)
    (hid : property remote "id" = some (.str id))
    (hmembers : ObjectList (property remote "members"))
    (hadmin : t.isAdmin = false) (hc : Cached F t)
    (hptr : storedFamilyId t = some (.str id))
    (husers : ∀ u ∈ loadUsers t, u ≠ .null) :
    ∃ t2, adoptStoredFamily env remote t = some t2 ∧ Adopted env remote F t2 := by
  have htruthy := storedFamilyId_truthy t _ hptr
  obtain ⟨member, hmember⟩ := optionalFind_total t.currentUser _ (Or.inr hmembers)
  have hstep : adoptStoredFamily env remote t
      = (writeUserRecord remote (resolvedRole member t)
          (setStoredFamily env remote member t)).map (writePointer remote) := by
    simp only [adoptStoredFamily, hmember]
  by_cases hcond : (!truthy t.currentUserRecord
      || !strictEq (optProp t.currentUserRecord "familyId") (property remote "id")) = true
  · obtain ⟨others, hothers⟩ := filterOthers_total t.currentUser (loadUsers t) husers
    have hw : writeUserRecord remote (resolvedRole member t)
        (setStoredFamily env remote member t)
        = some { saveUsers (others ++ [userRecordFor remote (resolvedRole member t) t])
            { setStoredFamily env remote member t with
              currentUserRecord := some (userRecordFor remote (resolvedRole member t) t) }
            with usersState := others ++ [userRecordFor remote (resolvedRole member t) t] } := by
      rw [writeUserRecord_eq]
      have hl : loadUsers (setStoredFamily env remote member t) = loadUsers t := rfl
      have hcond2 : (!truthy (setStoredFamily env remote member t).currentUserRecord
          || !strictEq (optProp (setStoredFamily env remote member t).currentUserRecord
            "familyId") (property remote "id")) = true := hcond
      rw [if_pos hcond2, hl]
      show (filterOthers t.currentUser (loadUsers t)).map _ = _
      rw [hothers]
      rfl
    rw [hw, Option.map_some'] at hstep
    refine ⟨_, hstep, ?_⟩
    have hkept := adoptStoredFamily_kept env remote t _ hstep
    obtain ⟨f1, f2, f3, f4⟩ := writePointer_frame remote
      { saveUsers (others ++ [userRecordFor remote (resolvedRole member t) t])
          { setStoredFamily env remote member t with
            currentUserRecord := some (userRecordFor remote (resolvedRole member t) t) }
          with usersState := others ++ [userRecordFor remote (resolvedRole member t) t] }
    refine ⟨?_, cached_of_kept F t _ hkept hc, ?_, ?_, ?_, ?_⟩
    · have := congrArg (fun k => k.1) hkept
      exact this.trans hadmin
    · rw [hid]
      apply storedFamilyId_of_record _ _ _ htruthy
      rw [f1]
      exact userRecordFor_familyId remote _ t _ hid
    · rw [f2]
      have hl : loadUsers { saveUsers (others ++ [userRecordFor remote (resolvedRole member t) t])
          { setStoredFamily env remote member t with
            currentUserRecord := some (userRecordFor remote (resolvedRole member t) t) }
          with usersState := others ++ [userRecordFor remote (resolvedRole member t) t] }
          = others ++ [userRecordFor remote (resolvedRole member t) t] :=
        loadUsers_saveUsers _ _
      rw [hl]
      intro u hu
      rcases List.mem_append.1 hu with hu | hu
      · exact husers u (filterOthers_subset _ _ _ hothers u hu)
      · rw [List.mem_singleton.1 hu]
        simp [userRecordFor]
    · rw [f3]
      rfl
    · rw [f4]
      rfl
  · have hw : writeUserRecord remote (resolvedRole member t)
        (setStoredFamily env remote member t) = some (setStoredFamily env remote member t) := by
      rw [writeUserRecord_eq]
      have hcond2 : ¬ (!truthy (setStoredFamily env remote member t).currentUserRecord
          || !strictEq (optProp (setStoredFamily env remote member t).currentUserRecord
            "familyId") (property remote "id")) = true := hcond
      rw [if_neg hcond2]
    rw [hw, Option.map_some'] at hstep
    refine ⟨_, hstep, ?_⟩
    have hkept := adoptStoredFamily_kept env remote t _ hstep
    obtain ⟨f1, f2, f3, f4⟩ := writePointer_frame remote (setStoredFamily env remote member t)
    simp only [Bool.or_eq_true, Bool.not_eq_true', not_or, Bool.not_eq_false] at hcond
    have hrec : optProp t.currentUserRecord "familyId" = some (.str id) := by
      rw [← hid]
      exact strictEq_eq_of_true _ _ hcond.2
    refine ⟨?_, cached_of_kept F t _ hkept hc, ?_, ?_, ?_, ?_⟩
    · have := congrArg (fun k => k.1) hkept
      exact this.trans hadmin
    · rw [hid]
      apply storedFamilyId_of_record _ _ _ htruthy
      rw [f1]
      exact hrec
    · rw [f2]
      exact husers
    · rw [f3]
      rfl
    · rw [f4]
      rfl

theorem loadFamilies_of_cached (F : List JVal) (t : Client) (hc : Cached F t) :
    (loadFamilies t).2 = F := by
  simp only [loadFamilies]
  split
  · exact hc.2.2
  · exact hc.2.1

/-- A read of the family from storage resolves the family adopted again. -/
theorem updateFamilyStateFromStorage_adopted (env : Env) (remote : JVal) (id : String)
    (F : List JVal) (t : Client)
    (hid : property remote "id" = some (.str id))
    (hfind : findWhere (fun f => strictEq (property f "id") (some (.str id))) F
      = some (some remote))
    (hmembers : ObjectList (property remote "members"))
    (hadmin : t.isAdmin = false) (hc : Cached F t)
    (hptr : storedFamilyId t = some (.str id))
    (husers : ∀ u ∈ loadUsers t, u ≠ .null) :
    ∃ t2, updateFamilyStateFromStorage env t = some t2 ∧ Adopted env remote F t2 := by
  have hc1 : Cached F (reloadFamilies t) :=
    cached_of_kept F t _ (reloadFamilies_kept t F hc.1 hc.2.1 hc.2.2) hc
  obtain ⟨t2, ht2, had⟩ := adoptStoredFamily_adopted env remote id F (reloadFamilies t) hid
    hmembers ((reloadFamilies_isAdmin t).trans hadmin) hc1
    ((storedFamilyId_reload t).trans hptr) (by rw [loadUsers_reload]; exact husers)
  refine ⟨t2, ?_, had⟩
  have hF : (reloadFamilies t).familiesState = F := hc1.1
  simp only [updateFamilyStateFromStorage, reloadFamilies_isAdmin, hadmin, Bool.false_eq_true,
    if_false, storedFamilyId_reload, hptr, storedFamilyId_truthy t _ hptr, if_true, hF, hfind]
  exact ht2

theorem readFamilyState_adopted (env : Env) (remote : JVal) (id : String)
    (F : List JVal) (t : Client)
    (hid : property remote "id" = some (.str id))
    (hfind : findWhere (fun f => strictEq (property f "id") (some (.str id))) F
      = some (some remote))
    (hmembers : ObjectList (property remote "members"))
    (h : Adopted env remote F t) :
    (readFamilyState env t).2 = true ∧ Adopted env remote F (readFamilyState env t).1 := by
  obtain ⟨hadmin, hc, hptr, husers, -, -⟩ := h
  obtain ⟨t2, ht2, had⟩ := updateFamilyStateFromStorage_adopted env remote id F t hid hfind
    hmembers hadmin hc (hptr.trans hid) husers
  rw [readFamilyState, ht2]
  exact ⟨rfl, had⟩

theorem andThen_done (P : Client → Prop) (first : Client × Bool)
    (second : Client → Client × Bool) (h1 : first.2 = true ∧ P first.1)
    (h2 : ∀ t, P t → (second t).2 = true ∧ P (second t).1) :
    (andThen first second).2 = true ∧ P (andThen first second).1 := by
  simp only [andThen, h1.1, if_true]
  exact h2 _ h1.2

theorem findWhere_place (id : String) (remote : JVal)
    (hr : property remote "id" = some (.str id)) (l : List JVal) :
    ∀ r, findIndexById (some (.str id)) l = some r →
      findWhere (fun f => strictEq (property f "id") (some (.str id))) (placeFamily r remote l)
        = some (some remote) := by
  have hp : strictEq (property remote "id") (some (.str id)) = true := by
    rw [hr]
    simp [strictEq]
  have hnn : remote ≠ .null := ne_null_of_property remote _ _ hr
  induction l with
  | nil =>
    intro r h
    simp only [findIndexById, Option.some.injEq] at h
    rw [← h]
    cases remote <;> first | exact absurd rfl hnn | simp [placeFamily, findWhere, hp]
  | cons x rest ih =>
    intro r h
    cases x with
    | null => simp [findIndexById] at h
    | bool _ | num _ | str _ | arr _ | obj _ =>
      simp only [findIndexById] at h
      split at h
      · rw [Option.some.injEq] at h
        rw [← h]
        cases remote <;> first | exact absurd rfl hnn |
          simp [placeFamily, findWhere, hp]
      · rename_i hx
        cases hrest : findIndexById (some (.str id)) rest with
        | none => rw [hrest] at h; exact Option.noConfusion h
        | some r2 =>
          rw [hrest, Option.map_some', Option.some.injEq] at h
          have := ih r2 hrest
          rw [← h]
          cases r2 with
          | none =>
            simp only [Option.map_none', placeFamily, List.cons_append, findWhere, hx,
              Bool.false_eq_true, if_false]
            exact this
          | some k =>
            simp only [Option.map_some', placeFamily, List.set_cons_succ, findWhere, hx,
              Bool.false_eq_true, if_false]
            exact this

theorem adoptRemoteFamily_cached (env : Env) (remote : JVal) (index : Option Nat)
    (found : Option JVal) (s : Client) :
    Cached (placeFamily index remote s.familiesState)
      (adoptRemoteFamily env remote index found s) := by
  refine ⟨rfl, rfl, ?_⟩
  simp [adoptRemoteFamily, setBackendMembership_families, setMember, saveFamilies,
    saveBackendStore]

/-- The sync after a pull that succeeds: its writes, then the renders when it is not silent
or the signature has changed. -/
theorem syncCurrentFamilyFromServer_eq (env : Env) (silent : Bool) (reply : Response)
    (s : Client) (remote : JVal) (index : Option Nat) (found : Option JVal)
    (hadmin : s.isAdmin = false)
    (hknown : truthy (orElse (optProp s.currentFamily "id")
      (orElse (optProp s.currentUserRecord "familyId") (s.membershipItem.map .str))) = true)
    (hget : getFamilyById reply = some (some remote))
    (hindex : findIndexById (property remote "id") s.familiesState = some index)
    (hfound : optionalFind s.currentUser (property remote "members") = some found) :
    syncCurrentFamilyFromServer env silent reply s
      = if (!silent || (computeFamilySignature env (some remote)).map (fun _ =>
            signatureDiffers (computeFamilySignature env (some remote))
              s.lastFamilySyncSignature) == some true) = true then
          if (renderFamily env (adoptRemoteFamily env remote index found s)).2 = true then
            ((renderFamily env (adoptRemoteFamily env remote index found s)).1,
              (computeFamilySignature env (some remote)).map fun _ =>
                signatureDiffers (computeFamilySignature env (some remote))
                  s.lastFamilySyncSignature)
          else ((renderFamily env (adoptRemoteFamily env remote index found s)).1, some false)
        else (adoptRemoteFamily env remote index found s,
          (computeFamilySignature env (some remote)).map fun _ =>
            signatureDiffers (computeFamilySignature env (some remote))
              s.lastFamilySyncSignature) := by
  unfold syncCurrentFamilyFromServer
  rw [if_neg (by rw [hadmin]; decide)]
  simp only [hknown, hget, hindex, hfound, Bool.false_eq_true, if_false, Bool.not_true]
  cases index <;> rfl

theorem sync_length (env : Env) (silent : Bool) (reply : Response) (s : Client) :
    s.familiesState.length
      ≤ (syncCurrentFamilyFromServer env silent reply s).1.familiesState.length := by
  by_cases hadmin : s.isAdmin = true
  · simp [syncCurrentFamilyFromServer, hadmin]
  · simp only [Bool.not_eq_true] at hadmin
    by_cases hknown : truthy (orElse (optProp s.currentFamily "id")
      (orElse (optProp s.currentUserRecord "familyId") (s.membershipItem.map .str))) = true
    swap
    · simp [syncCurrentFamilyFromServer, hadmin, hknown]
    · cases hget : getFamilyById reply with
      | none => simp [syncCurrentFamilyFromServer, hadmin, hknown, hget]
      | some r =>
        cases r with
        | none => simp [syncCurrentFamilyFromServer, hadmin, hknown, hget]
        | some remote =>
          cases hindex : findIndexById (property remote "id") s.familiesState with
          | none => simp [syncCurrentFamilyFromServer, hadmin, hknown, hget, hindex]
          | some index =>
            have hlen : s.familiesState.length
                ≤ (placeFamily index remote s.familiesState).length := by
              cases index <;> simp [placeFamily]
            cases hfound : optionalFind s.currentUser (property remote "members") with
            | none =>
              unfold syncCurrentFamilyFromServer
              rw [if_neg (by rw [hadmin]; decide)]
              simp only [hknown, hget, hindex, hfound, Bool.false_eq_true, if_false,
                Bool.not_true]
              cases index <;> simpa [saveFamilies, placeFamily] using hlen
            | some found =>
              rw [syncCurrentFamilyFromServer_eq env silent reply s remote index found hadmin
                hknown hget hindex hfound]
              have hc := adoptRemoteFamily_cached env remote index found s
              have hr := renderFamily_cached env _ _ hc
              split
              · split
                · show _ ≤ (renderFamily env _).1.familiesState.length
                  rw [hr.1]
                  exact hlen
                · show _ ≤ (renderFamily env _).1.familiesState.length
                  rw [hr.1]
                  exact hlen
              · show _ ≤ (adoptRemoteFamily env remote index found s).familiesState.length
                rw [hc.1]
                exact hlen

theorem run_ticks (env : Env) (ticks : List Response) (σ : Session) :
    (Session.run env (ticks.map Event.familyTick) σ).pending = σ.pending
      ∧ σ.client.familiesState.length
          ≤ (Session.run env (ticks.map Event.familyTick) σ).client.familiesState.length := by
  induction ticks generalizing σ with
  | nil => exact ⟨rfl, le_refl _⟩
  | cons reply rest ih =>
    obtain ⟨h1, h2⟩ := ih (Session.step env (.familyTick reply) σ)
    refine ⟨h1, le_trans ?_ h2⟩
    exact sync_length env true reply σ.client

theorem run_append_one (env : Env) (l : List Event) (e : Event) (σ : Session) :
    Session.run env (l ++ [e]) σ = Session.step env e (Session.run env l σ) := by
  induction l generalizing σ with
  | nil => rfl
  | cons x rest ih => exact ih (Session.step env x σ)

/-! ## Facts about share codes -/

theorem hasCode_append (existing more : List JVal) (c : String) :
    hasCode (existing ++ more) c = (hasCode existing c || hasCode more c) := by
  simp [hasCode, List.any_append]

theorem hasCode_of_mem (existing : List JVal) (c : String) (h : JVal.str c ∈ existing) :
    hasCode existing c = true := by
  simp only [hasCode, List.any_eq_true]
  exact ⟨.str c, h, by simp [strictEq]⟩

theorem hasCode_keys (o : JObj) (c : String)
    (h : hasCode (o.map fun kv => JVal.str kv.1) c = false) : c ∉ o.keys := by
  intro hc
  simp only [JObj.keys, List.mem_map] at hc
  obtain ⟨kv, hkv, rfl⟩ := hc
  rw [hasCode_of_mem _ _ (List.mem_map.2 ⟨kv, hkv, rfl⟩)] at h
  exact Bool.noConfusion h

theorem generateFamilyCodeLoop_first (taken : String → Bool) (budget : Nat) (rng : Rng)
    (h : taken (drawAttempt rng) = false) :
    generateFamilyCodeLoop taken budget rng = (drawAttempt rng, rng.advance 6) := by
  cases budget <;> simp [generateFamilyCodeLoop, h]

theorem freshShareCode_spec (existing : List JVal) (fuel : Nat) (rng : Rng)
    (fresh : String × Rng) (h : freshShareCode existing fuel rng = some fresh) :
    hasCode existing fresh.1 = false ∧ fresh.1.length = 6 := by
  induction fuel generalizing rng with
  | zero => simp [freshShareCode] at h
  | succ n ih =>
    simp only [freshShareCode] at h
    split_ifs at h with h1
    · exact ih _ h
    · injection h with h
      subst h
      refine ⟨by simpa using h1, ?_⟩
      obtain ⟨k, -, hk⟩ := generateFamilyCodeLoop_is_attempt (hasCode existing) 4999 rng
      rw [generateShareCode, hk]
      exact drawAttempt_length _

theorem assignShareCodes_runs (fuel : Nat) (entries : List JVal) :
    ∀ (existing : List JVal) (rng : Rng), (∀ e ∈ entries, e ≠ .null) →
      FreshDraws entries existing rng →
      ∃ result, assignShareCodes (fuel + 1) entries existing rng = .done result := by
  induction entries with
  | nil => exact fun _ _ _ _ => ⟨[], rfl⟩
  | cons x rest ih =>
    intro existing rng hnn hfd
    have hx := hnn x (List.mem_cons_self _ _)
    have hnn2 : ∀ e ∈ rest, e ≠ .null := fun e he => hnn e (List.mem_cons_of_mem _ he)
    simp only [FreshDraws] at hfd
    by_cases ht : truthy (property x "shareCode") = true
    · rw [if_pos ht] at hfd
      obtain ⟨r, hr⟩ := ih existing rng hnn2 hfd
      refine ⟨x :: r, ?_⟩
      cases x <;> first | exact absurd rfl hx | simp [assignShareCodes, ht, hr]
    · rw [if_neg ht] at hfd
      obtain ⟨hfree, hrest⟩ := hfd
      have hgen : generateShareCode existing rng = (drawAttempt rng, rng.advance 6) :=
        generateFamilyCodeLoop_first _ _ _ hfree
      have hfresh : freshShareCode existing (fuel + 1) rng
          = some (drawAttempt rng, rng.advance 6) := by
        simp [freshShareCode, hgen, hfree]
      obtain ⟨r, hr⟩ := ih _ _ hnn2 hrest
      refine ⟨withShareCode x (drawAttempt rng) :: r, ?_⟩
      cases x <;> first | exact absurd rfl hx | simp [assignShareCodes, ht, hfresh, hr]

theorem assignShareCodes_spec (fuel : Nat) (entries : List JVal) :
    ∀ (existing : List JVal) (rng : Rng) (result : List JVal),
      assignShareCodes fuel entries existing rng = .done result →
      (∀ e ∈ entries, ∃ o, e = JVal.obj o) →
      (∀ e ∈ entries, truthy (property e "shareCode") = true →
        ∃ c, property e "shareCode" = some (.str c) ∧ hasCode existing c = true) →
      entries.Pairwise (fun a b => truthy (property a "shareCode") = true →
        property a "shareCode" ≠ property b "shareCode") →
      result.length = entries.length
        ∧ (∀ e ∈ result, (e ∈ entries ∧ truthy (property e "shareCode") = true)
            ∨ ∃ o c, e = JVal.obj o ∧ property e "shareCode" = some (.str c) ∧ c.length = 6
                ∧ hasCode existing c = false)
        ∧ result.Pairwise (fun a b => property a "shareCode" ≠ property b "shareCode") := by
  induction entries with
  | nil =>
    intro existing rng result h _ _ _
    simp only [assignShareCodes, Run.done.injEq] at h
    subst h
    exact ⟨rfl, by simp, List.Pairwise.nil⟩
  | cons x rest ih =>
    intro existing rng result h hobj hin hpw
    obtain ⟨o, rfl⟩ := hobj x (List.mem_cons_self _ _)
    have hobj2 : ∀ e ∈ rest, ∃ o, e = JVal.obj o := fun e he =>
      hobj e (List.mem_cons_of_mem _ he)
    have hin2 : ∀ e ∈ rest, truthy (property e "shareCode") = true →
        ∃ c, property e "shareCode" = some (.str c) ∧ hasCode existing c = true := fun e he =>
      hin e (List.mem_cons_of_mem _ he)
    rw [List.pairwise_cons] at hpw
    by_cases hx : truthy (property (.obj o) "shareCode") = true
    · simp only [assignShareCodes, hx, if_true] at h
      cases hr : assignShareCodes fuel rest existing rng with
      | throws => simp [hr] at h
      | outOfFuel => simp [hr] at h
      | done r =>
        simp only [hr, Run.done.injEq] at h
        subst h
        obtain ⟨h1, h2, h3⟩ := ih existing rng r hr hobj2 hin2 hpw.2
        refine ⟨by simp [h1], ?_, ?_⟩
        · intro e he
          rcases List.mem_cons.1 he with rfl | he
          · exact Or.inl ⟨List.mem_cons_self _ _, hx⟩
          · rcases h2 e he with ⟨hm, ht⟩ | hnew
            · exact Or.inl ⟨List.mem_cons_of_mem _ hm, ht⟩
            · exact Or.inr hnew
        · rw [List.pairwise_cons]
          refine ⟨?_, h3⟩
          intro e he
          rcases h2 e he with ⟨hm, _⟩ | ⟨o2, c, -, hc, -, hfree⟩
          · exact hpw.1 e hm hx
          · obtain ⟨c0, hc0, hhas⟩ := hin _ (List.mem_cons_self _ _) hx
            rw [hc0, hc]
            intro heq
            simp only [Option.some.injEq, JVal.str.injEq] at heq
            subst heq
            rw [hhas] at hfree
            exact Bool.noConfusion hfree
    · simp only [Bool.not_eq_true] at hx
      simp only [assignShareCodes, hx, Bool.false_eq_true, if_false] at h
      cases hf : freshShareCode existing fuel rng with
      | none => simp [hf] at h
      | some fresh =>
        simp only [hf] at h
        obtain ⟨hfree, hlen⟩ := freshShareCode_spec existing fuel rng fresh hf
        cases hr : assignShareCodes fuel rest (existing ++ [.str fresh.1]) fresh.2 with
        | throws => simp [hr] at h
        | outOfFuel => simp [hr] at h
        | done r =>
          simp only [hr, Run.done.injEq] at h
          subst h
          have hin3 : ∀ e ∈ rest, truthy (property e "shareCode") = true →
              ∃ c, property e "shareCode" = some (.str c)
                ∧ hasCode (existing ++ [.str fresh.1]) c = true := by
            intro e he ht
            obtain ⟨c, hc, hh⟩ := hin2 e he ht
            exact ⟨c, hc, by simp [hasCode_append, hh]⟩
          obtain ⟨h1, h2, h3⟩ := ih _ _ r hr hobj2 hin3 hpw.2
          have hcode : property (withShareCode (.obj o) fresh.1) "shareCode"
              = some (.str fresh.1) := JObj.get_set_self _ _ _
          refine ⟨by simp [h1], ?_, ?_⟩
          · intro e he
            rcases List.mem_cons.1 he with rfl | he
            · exact Or.inr ⟨_, fresh.1, rfl, hcode, hlen, hfree⟩
            · rcases h2 e he with ⟨hm, ht⟩ | ⟨o2, c, ho, hc, hl, hf2⟩
              · exact Or.inl ⟨List.mem_cons_of_mem _ hm, ht⟩
              · refine Or.inr ⟨o2, c, ho, hc, hl, ?_⟩
                rw [hasCode_append, Bool.or_eq_false_iff] at hf2
                exact hf2.1
          · rw [List.pairwise_cons]
            refine ⟨?_, h3⟩
            intro e he
            rw [hcode]
            rcases h2 e he with ⟨hm, ht⟩ | ⟨o2, c, -, hc, -, hf2⟩
            · obtain ⟨c, hc, hh⟩ := hin2 e hm ht
              rw [hc]
              intro heq
              simp only [Option.some.injEq, JVal.str.injEq] at heq
              subst heq
              rw [hh] at hfree
              exact Bool.noConfusion hfree
            · rw [hc]
              intro heq
              simp only [Option.some.injEq, JVal.str.injEq] at heq
              subst heq
              rw [hasCode_append, Bool.or_eq_false_iff] at hf2
              rw [hasCode_of_mem _ _ (List.mem_singleton.2 rfl)] at hf2
              exact Bool.noConfusion hf2.2

theorem JObj.assign_eq_set (o : JObj) (k : String) (v : JVal) (h : k ≠ "__proto__") :
    JObj.assign o k v = JObj.set o k v := by
  simp [JObj.assign, h]

theorem JObj.get_assign_other (o : JObj) (k k2 : String) (v : JVal) (h : k ≠ k2) :
    (JObj.assign o k v).get k2 = o.get k2 := by
  unfold JObj.assign
  split_ifs
  · rfl
  · exact JObj.get_set_other _ _ _ _ h

theorem foldl_share_other (username : String) (l : List JVal) (acc : JObj) (k : String)
    (h : ∀ e ∈ l, jsStringOpt (property e "shareCode") ≠ k) :
    (l.foldl (fun acc entry =>
        if truthy (property entry "shareCode") then
          JObj.assign acc (jsStringOpt (property entry "shareCode"))
            (shareRecord username entry)
        else acc) acc).get k = acc.get k := by
  induction l generalizing acc with
  | nil => rfl
  | cons x rest ih =>
    rw [List.foldl_cons, ih _ fun e he => h e (List.mem_cons_of_mem _ he)]
    split_ifs
    · exact JObj.get_assign_other _ _ _ _ (h x (List.mem_cons_self _ _))
    · rfl

theorem foldl_share_self (username : String) (l : List JVal) (acc : JObj) (e : JVal)
    (he : e ∈ l) (ht : ∀ x ∈ l, truthy (property x "shareCode") = true)
    (hproto : jsStringOpt (property e "shareCode") ≠ "__proto__")
    (hpw : l.Pairwise (fun a b =>
      jsStringOpt (property a "shareCode") ≠ jsStringOpt (property b "shareCode"))) :
    (l.foldl (fun acc entry =>
        if truthy (property entry "shareCode") then
          JObj.assign acc (jsStringOpt (property entry "shareCode"))
            (shareRecord username entry)
        else acc) acc).get (jsStringOpt (property e "shareCode"))
      = some (shareRecord username e) := by
  induction l generalizing acc with
  | nil => simp at he
  | cons x rest ih =>
    rw [List.pairwise_cons] at hpw
    rw [List.foldl_cons]
    rcases List.mem_cons.1 he with rfl | he2
    · rw [foldl_share_other _ _ _ _ fun y hy => (hpw.1 y hy).symm,
        if_pos (ht _ (List.mem_cons_self _ _)), JObj.assign_eq_set _ _ _ hproto]
      exact JObj.get_set_self _ _ _
    · exact ih _ he2 (fun y hy => ht y (List.mem_cons_of_mem _ hy)) hpw.2

theorem reloadFamilies_currentUserRecord (s : Client) :
    (reloadFamilies s).currentUserRecord = s.currentUserRecord := by
  simp only [reloadFamilies, loadFamilies]
  split <;> rfl

theorem reloadFamilies_currentUser (s : Client) :
    (reloadFamilies s).currentUser = s.currentUser := by
  simp only [reloadFamilies, loadFamilies]
  split <;> rfl

theorem reloadFamilies_backend (s : Client) : (reloadFamilies s).backend = s.backend := by
  simp only [reloadFamilies, loadFamilies]
  split <;> rfl

theorem JObj.get_erase_self (o : JObj) (k : String) : (JObj.erase o k).get k = none := by
  apply JObj.get_eq_none_of_not_mem_keys
  simp only [JObj.erase, JObj.keys, List.mem_map, List.mem_filter, not_exists, not_and]
  rintro ⟨k1, v⟩ ⟨-, hne⟩ rfl
  simp at hne

theorem JObj.keys_erase_nodup (o : JObj) (k : String) (h : o.keys.Nodup) :
    (JObj.erase o k).keys.Nodup :=
  List.Nodup.sublist (List.Sublist.map Prod.fst (List.filter_sublist o)) h

/-- The pointer of the backend store survives `setBackendMembership(username, null)`: the
key deleted from the copy comes back with the merge of `saveBackendStore`. -/
theorem getBackendMembership_clear (username : String) (store : BackendStore) :
    getBackendMembership username (setBackendMembership username none store)
      = getBackendMembership username store := by
  by_cases hu : (username == "") = true
  · simp [setBackendMembership, hu]
  · simp only [Bool.not_eq_true] at hu
    have hget : (JObj.spread store.memberships
        (JObj.erase (JObj.spread [] store.memberships) username)).get username
        = store.memberships.get username := by
      rw [JObj.get_spread _ _ _
        (JObj.keys_erase_nodup _ _ (JObj.keys_spread_nodup [] _ List.nodup_nil))]
      simp [mergedField, JObj.get_erase_self]
    simp only [getBackendMembership, setBackendMembership, hu, Bool.false_eq_true, if_false,
      truthy, saveBackendStore, Option.getD_some, hget]

/-! ## Facts about the order of date strings -/

theorem digitChar_toNat (n : Nat) : (digitChar n).toNat = 48 + n % 10 := by
  have h : ∀ k, k < 10 → (Char.ofNat (48 + k)).toNat = 48 + k := by decide
  exact h _ (Nat.mod_lt _ (by decide))

theorem dash_toNat : dash.toNat = 45 := by decide

theorem codePointCompare_eq (a b : List Char) :
    codePointCompare a b = compareNats (a.map Char.toNat) (b.map Char.toNat) := by
  induction a generalizing b with
  | nil => cases b <;> rfl
  | cons x xs ih =>
    cases b with
    | nil => rfl
    | cons y ys => simp only [codePointCompare, List.map_cons, compareNats, ih]

theorem codePointCompare_self (l : List Char) : codePointCompare l l = 0 := by
  induction l with
  | nil => rfl
  | cons x xs ih => simp [codePointCompare, ih]

theorem compareNats_cons (x y : Nat) (xs ys : List Nat) :
    compareNats (x :: xs) (y :: ys) < 0 ↔ x < y ∨ (x = y ∧ compareNats xs ys < 0) := by
  show (if x < y then (-1 : Int) else if y < x then 1 else compareNats xs ys) < 0 ↔ _
  split_ifs with h1 h2
  · simp [h1]
  · constructor
    · intro h
      omega
    · rintro (h | ⟨h, -⟩) <;> omega
  · have : x = y := by omega
    simp [this]

theorem compareNats_nil : compareNats [] [] < 0 ↔ False := by
  simp [compareNats]

theorem dateInputValue_codes (a : Nat × Nat × Nat) (ha : a.1 < 10000) :
    (dateInputValue a).toList.map Char.toNat
      = [48 + a.1 / 1000 % 10, 48 + a.1 / 100 % 10, 48 + a.1 / 10 % 10, 48 + a.1 % 10, 45,
         48 + a.2.1 / 10 % 10, 48 + a.2.1 % 10, 45, 48 + a.2.2 / 10 % 10, 48 + a.2.2 % 10] := by
  have e1 : a.1 / 10000 = 0 := Nat.div_eq_of_lt ha
  have e2 : (dateInputValue a).toList = yearChars a.1
      ++ [dash, digitChar (a.2.1 / 10), digitChar a.2.1, dash, digitChar (a.2.2 / 10),
          digitChar a.2.2] := rfl
  rw [e2, yearChars, if_pos e1]
  simp only [List.nil_append, List.cons_append, List.map_cons, List.map_nil, digitChar_toNat,
    dash_toNat]

/-- The value of a date input is never empty. -/
theorem dateInputValue_ne_empty (a : Nat × Nat × Nat) : dateInputValue a ≠ "" := by
  intro h
  have h2 : (dateInputValue a).toList.length = 0 := by rw [h]; rfl
  have e2 : (dateInputValue a).toList = yearChars a.1
      ++ [dash, digitChar (a.2.1 / 10), digitChar a.2.1, dash, digitChar (a.2.2 / 10),
          digitChar a.2.2] := rfl
  rw [e2, List.length_append] at h2
  simp at h2

/-- A number below 10000 from its four decimal digits. -/
theorem four_digits (y : Nat) (hy : y < 10000) :
    y = 1000 * (y / 1000 % 10) + 100 * (y / 100 % 10) + 10 * (y / 10 % 10) + y % 10 := by
  omega

/-- A number below 100 from its two decimal digits. -/
theorem two_digits (m : Nat) (hm : m < 100) : m = 10 * (m / 10 % 10) + m % 10 := by
  omega

theorem lex_four (a3 a2 a1 a0 b3 b2 b1 b0 : Nat) (ha2 : a2 < 10) (ha1 : a1 < 10)
    (ha0 : a0 < 10) (hb2 : b2 < 10) (hb1 : b1 < 10) (hb0 : b0 < 10) :
    (1000 * a3 + 100 * a2 + 10 * a1 + a0 < 1000 * b3 + 100 * b2 + 10 * b1 + b0
      ↔ a3 < b3 ∨ (a3 = b3 ∧ (a2 < b2 ∨ (a2 = b2 ∧ (a1 < b1 ∨ (a1 = b1 ∧ a0 < b0))))))
    ∧ (1000 * a3 + 100 * a2 + 10 * a1 + a0 = 1000 * b3 + 100 * b2 + 10 * b1 + b0
      ↔ a3 = b3 ∧ a2 = b2 ∧ a1 = b1 ∧ a0 = b0) := by
  constructor <;> constructor <;> intro h <;> omega

theorem lex_two (a1 a0 b1 b0 : Nat) (ha0 : a0 < 10) (hb0 : b0 < 10) :
    (10 * a1 + a0 < 10 * b1 + b0 ↔ a1 < b1 ∨ (a1 = b1 ∧ a0 < b0))
    ∧ (10 * a1 + a0 = 10 * b1 + b0 ↔ a1 = b1 ∧ a0 = b0) := by
  constructor <;> constructor <;> intro h <;> omega

theorem compareNats_dates (a3 a2 a1 a0 m1 m0 d1 d0 b3 b2 b1 b0 n1 n0 e1 e0 : Nat) :
    compareNats [48 + a3, 48 + a2, 48 + a1, 48 + a0, 45, 48 + m1, 48 + m0, 45, 48 + d1, 48 + d0]
        [48 + b3, 48 + b2, 48 + b1, 48 + b0, 45, 48 + n1, 48 + n0, 45, 48 + e1, 48 + e0] < 0
      ↔ (a3 < b3 ∨ (a3 = b3 ∧ (a2 < b2 ∨ (a2 = b2 ∧ (a1 < b1 ∨ (a1 = b1 ∧ a0 < b0))))))
        ∨ ((a3 = b3 ∧ a2 = b2 ∧ a1 = b1 ∧ a0 = b0)
          ∧ ((m1 < n1 ∨ (m1 = n1 ∧ m0 < n0))
            ∨ ((m1 = n1 ∧ m0 = n0) ∧ (d1 < e1 ∨ (d1 = e1 ∧ d0 < e0))))) := by
  simp only [compareNats_cons, compareNats_nil, Nat.add_lt_add_iff_left,
    Nat.add_left_cancel_iff, and_false, or_false]
  have h45 : ¬ (45 < 45) := by decide
  simp only [h45, false_or, true_and]
  tauto

/-- On the values of date inputs whose years have four digits, the comparison `<` of the
strings is the order of the days. -/
theorem strLess_dateInputValue (a b : Nat × Nat × Nat) (ha : FourDigitYear a)
    (hb : FourDigitYear b) :
    strLess (dateInputValue a) (dateInputValue b) = true ↔ EarlierDay a b := by
  obtain ⟨y, m, d⟩ := a
  obtain ⟨y2, m2, d2⟩ := b
  obtain ⟨hy, hm, hd⟩ := ha
  obtain ⟨hy2, hm2, hd2⟩ := hb
  rw [strLess, decide_eq_true_eq, codePointCompare_eq, dateInputValue_codes _ hy,
    dateInputValue_codes _ hy2, compareNats_dates]
  simp only [EarlierDay] at hy hm hd hy2 hm2 hd2 ⊢
  have ey := four_digits y hy
  have ey2 := four_digits y2 hy2
  have em := two_digits m hm
  have em2 := two_digits m2 hm2
  have ed := two_digits d hd
  have ed2 := two_digits d2 hd2
  have ly := lex_four (y / 1000 % 10) (y / 100 % 10) (y / 10 % 10) (y % 10) (y2 / 1000 % 10)
    (y2 / 100 % 10) (y2 / 10 % 10) (y2 % 10) (Nat.mod_lt _ (by decide))
    (Nat.mod_lt _ (by decide)) (Nat.mod_lt _ (by decide)) (Nat.mod_lt _ (by decide))
    (Nat.mod_lt _ (by decide)) (Nat.mod_lt _ (by decide))
  have lm := lex_two (m / 10 % 10) (m % 10) (m2 / 10 % 10) (m2 % 10) (Nat.mod_lt _ (by decide))
    (Nat.mod_lt _ (by decide))
  have ld := lex_two (d / 10 % 10) (d % 10) (d2 / 10 % 10) (d2 % 10) (Nat.mod_lt _ (by decide))
    (Nat.mod_lt _ (by decide))
  rw [← ey, ← ey2] at ly
  rw [← em, ← em2] at lm
  rw [← ed, ← ed2] at ld
  rw [ly.1, ly.2, lm.1, lm.2, ld.1]

theorem EarlierDay_irrefl (a : Nat × Nat × Nat) : ¬ EarlierDay a a := by
  simp [EarlierDay]

/-- The test of the submit handler on the strings: a form whose end date compares below its
start date is rejected, and the end date that the handler goes on with is the start date
or the end date of the form and does not compare below the start date. -/
theorem formEndDate_string_test (env : Env) (form : TaskForm) :
    (form.type = "event" → form.endDate ≠ "" → strLess form.endDate form.startDate = true →
        ∃ message, formEndDate env form = .error message)
      ∧ ∀ endDate, formEndDate env form = .ok endDate →
          strLess endDate form.startDate = false
            ∧ (endDate = form.startDate ∨ endDate = form.endDate) := by
  constructor
  · intro htype hend hless
    by_cases h1 : form.startDate = ""
    · exact ⟨"Please choose a start date.", by simp [formEndDate, h1]⟩
    · by_cases h2 : env.trim form.title = ""
      · exact ⟨"Please enter a title.", by simp [formEndDate, h1, h2]⟩
      · exact ⟨"End date cannot be before start date.",
          by simp [formEndDate, h1, h2, htype, hend, hless]⟩
  · intro endDate hok
    simp only [formEndDate, beq_iff_eq] at hok
    split_ifs at hok with h1 h2 h3 h4 h5 h6
    all_goals
      injection hok with hok
      subst hok
      first
        | (simp [strLess, codePointCompare_self]; done)
        | simp_all

/-! ## Facts about a sync that adopts the family pulled -/

theorem computeFamilySignature_of_ordered (env : Env) (remote : JVal)
    (members chat : List JVal)
    (hmembers : property remote "members" = some (.arr members))
    (hordered : MembersOrdered env members)
    (hchat : property remote "chat" = some (.arr chat))
    (hchatOrdered : ChatOrdered env chat) :
    ∃ sig, computeFamilySignature env (some remote) = some sig := by
  have hnn1 : ∀ x ∈ members, x ≠ .null := fun x hx => by
    obtain ⟨n, hn⟩ := hordered.1 x hx
    exact ne_null_of_property x _ _ hn
  have hnn2 : ∀ x ∈ chat, x ≠ .null := fun x hx => by
    obtain ⟨n, hn⟩ := hchatOrdered.1 x hx
    exact ne_null_of_property x _ _ hn
  obtain ⟨r1, h1, -⟩ := projectAndSort_perm ["username", "role"] (memberOrder env) members
    members (List.Perm.refl _) hnn1 (memberOrder_consistent env members hordered)
  obtain ⟨r2, h2, -⟩ := projectAndSort_perm ["id", "username", "message", "createdAt"]
    (chatOrder env) chat chat (List.Perm.refl _) hnn2 (chatOrder_consistent env chat hchatOrdered)
  apply Option.isSome_iff_exists.1
  simp only [computeFamilySignature, truthy_of_property remote _ _ hmembers, Bool.not_true,
    Bool.false_eq_true, if_false, hmembers, hchat, h1, h2]
  rfl

theorem objectList_of_usernames (v : Option JVal) (members : List JVal)
    (hv : v = some (.arr members))
    (h : ∀ m ∈ members, ∃ n, property m "username" = some (.str n)) : ObjectList v := by
  refine ⟨members, hv, ?_⟩
  intro m hm
  obtain ⟨n, hn⟩ := h m hm
  cases m <;> first | (simp [property] at hn; done) | exact ⟨_, rfl⟩

theorem logRender_adopted (env : Env) (remote : JVal) (F : List JVal) (name : String)
    (t : Client) (h : Adopted env remote F t) : Adopted env remote F (logRender name t) := h

theorem renderFamilyMemberList_adopted (env : Env) (remote : JVal) (id : String)
    (F members : List JVal) (t : Client)
    (hid : property remote "id" = some (.str id))
    (hfind : findWhere (fun f => strictEq (property f "id") (some (.str id))) F
      = some (some remote))
    (hmembers : property remote "members" = some (.arr members))
    (hnames : ∀ m ∈ members, ∃ n, property m "username" = some (.str n))
    (h : Adopted env remote F t) :
    (renderFamilyMemberList env t).2 = true
      ∧ Adopted env remote F (renderFamilyMemberList env t).1 := by
  simp only [renderFamilyMemberList]
  split
  · exact ⟨rfl, h⟩
  · refine andThen_done (Adopted env remote F) _ _
      (readFamilyState_adopted env remote id F t hid hfind
        (objectList_of_usernames _ members hmembers hnames) h) ?_
    intro t2 ht2
    have hcur : t2.currentFamily = some remote := ht2.2.2.2.2.1
    simp only [hcur, truthy_of_property remote _ _ hid, Bool.not_true, Bool.false_eq_true,
      if_false, optProp, Option.some_bind, hmembers, listOrEmpty, isArray, if_true, arrayItems]
    exact ⟨memberRowsDrawn_of env members hnames, ht2⟩

theorem renderFamilyChat_adopted (env : Env) (remote : JVal) (F chat : List JVal)
    (t : Client)
    (hchat : property remote "chat" = some (.arr chat))
    (hdates : ∀ m ∈ chat, ∃ t v, property m "createdAt" = some (.str t) ∧ t ≠ ""
      ∧ env.timeValue t = some v)
    (htexts : TextsAreStrings chat)
    (h : Adopted env remote F t) :
    (renderFamilyChat env t).2 = true ∧ Adopted env remote F (renderFamilyChat env t).1 := by
  rw [renderFamilyChat_completes env t remote chat h.2.2.2.2.1 hchat hdates htexts]
  exact ⟨rfl, h⟩

theorem renderFamilyReminders_adopted (env : Env) (remote : JVal) (id dateISO : String)
    (F members reminders : List JVal) (t : Client)
    (hid : property remote "id" = some (.str id))
    (hfind : findWhere (fun f => strictEq (property f "id") (some (.str id))) F
      = some (some remote))
    (hmembers : property remote "members" = some (.arr members))
    (hnames : ∀ m ∈ members, ∃ n, property m "username" = some (.str n))
    (hrem : property remote "reminders" = some (.arr reminders))
    (hdraw : RemindersDrawable env reminders)
    (h : Adopted env remote F t) :
    (renderFamilyReminders env dateISO none t).2 = true
      ∧ Adopted env remote F (renderFamilyReminders env dateISO none t).1 := by
  simp only [renderFamilyReminders]
  split
  · exact ⟨rfl, h⟩
  · refine andThen_done (Adopted env remote F) _ _
      (readFamilyState_adopted env remote id F t hid hfind
        (objectList_of_usernames _ members hmembers hnames) h) ?_
    intro t2 ht2
    have hcur : t2.currentFamily = some remote := ht2.2.2.2.2.1
    obtain ⟨relevant, sorted, h1, h2, h3⟩ :=
      reminders_drawn env dateISO t2 remote reminders hcur hrem hdraw
    simp only [hcur, truthy_of_property remote _ _ hid, Bool.not_true, Bool.false_eq_true,
      if_false, h1, h2, h3]
    exact ⟨trivial, ht2⟩

theorem renderFamily_adopted (env : Env) (remote : JVal) (id : String)
    (F members chat reminders : List JVal) (t : Client)
    (hid : property remote "id" = some (.str id))
    (hfind : findWhere (fun f => strictEq (property f "id") (some (.str id))) F
      = some (some remote))
    (hmembers : property remote "members" = some (.arr members))
    (hnames : ∀ m ∈ members, ∃ n, property m "username" = some (.str n))
    (hchat : property remote "chat" = some (.arr chat))
    (hdates : ∀ m ∈ chat, ∃ t v, property m "createdAt" = some (.str t) ∧ t ≠ ""
      ∧ env.timeValue t = some v)
    (htexts : TextsAreStrings chat)
    (hrem : property remote "reminders" = some (.arr reminders))
    (hdraw : RemindersDrawable env reminders)
    (h : Adopted env remote F t) :
    (renderFamily env t).2 = true ∧ Adopted env remote F (renderFamily env t).1 := by
  have hlist : ∀ u, Adopted env remote F u → (renderFamilyMemberList env u).2 = true
      ∧ Adopted env remote F (renderFamilyMemberList env u).1 := fun u hu =>
    renderFamilyMemberList_adopted env remote id F members u hid hfind hmembers hnames hu
  have hc : ∀ u, Adopted env remote F u → (renderFamilyChat env u).2 = true
      ∧ Adopted env remote F (renderFamilyChat env u).1 := fun u hu =>
    renderFamilyChat_adopted env remote F chat u hchat hdates htexts hu
  have hr : ∀ (d : String) u, Adopted env remote F u →
      (renderFamilyReminders env d none u).2 = true
      ∧ Adopted env remote F (renderFamilyReminders env d none u).1 := fun d u hu =>
    renderFamilyReminders_adopted env remote id d F members reminders u hid hfind hmembers
      hnames hrem hdraw hu
  have ho : ∀ u, Adopted env remote F u → (renderFamilyOverview env u).2 = true
      ∧ Adopted env remote F (renderFamilyOverview env u).1 := by
    intro u hu
    simp only [renderFamilyOverview]
    split
    · exact ⟨rfl, hu⟩
    · exact andThen_done (Adopted env remote F) _ _
        (andThen_done (Adopted env remote F) _ _ (hlist u hu) hc) fun v hv => hr _ v hv
  simp only [renderFamily]
  exact andThen_done (Adopted env remote F) _ _
    (andThen_done (Adopted env remote F) _ _
      (ho _ (logRender_adopted env remote F _ t h))
      fun v hv => hc _ (logRender_adopted env remote F _ v hv))
    fun v hv => hr _ _ (logRender_adopted env remote F _ v hv)

theorem adoptRemoteFamily_adopted (env : Env) (remote : JVal) (id : String)
    (index found : Option _) (s : Client)
    (hadmin : s.isAdmin = false)
    (hid : property remote "id" = some (.str id))
    (hpointer : storedFamilyId s = some (.str id))
    (husers : ∀ u ∈ loadUsers s, u ≠ .null) :
    Adopted env remote (placeFamily index remote s.familiesState)
      (adoptRemoteFamily env remote index found s) := by
  have htruthy := storedFamilyId_truthy s _ hpointer
  refine ⟨hadmin, adoptRemoteFamily_cached env remote index found s, ?_, ?_, rfl, rfl⟩
  · rw [hid]
    have hrec : (adoptRemoteFamily env remote index found s).currentUserRecord
        = s.currentUserRecord := rfl
    have hitem : (adoptRemoteFamily env remote index found s).membershipItem
        = s.membershipItem := rfl
    have huser : (adoptRemoteFamily env remote index found s).currentUser
        = s.currentUser := rfl
    by_cases h1 : truthy (optProp s.currentUserRecord "familyId") = true
    · simp only [storedFamilyId, orElse, h1, if_true] at hpointer
      simp only [storedFamilyId, orElse, hrec, h1, if_true]
      exact hpointer
    · by_cases h2 : truthy (s.membershipItem.map fun t => JVal.str t) = true
      · simp only [storedFamilyId, orElse, h1, h2, if_true, Bool.false_eq_true,
          if_false] at hpointer
        simp only [storedFamilyId, orElse, hrec, hitem, h1, h2, if_true, Bool.false_eq_true,
          if_false]
        exact hpointer
      · simp only [storedFamilyId, orElse, h1, h2, Bool.false_eq_true, if_false] at hpointer
        have hu : s.currentUser ≠ "" := by
          intro hu
          simp [getBackendMembership, hu] at hpointer
        simp only [storedFamilyId, orElse, hrec, hitem, huser, h1, h2, Bool.false_eq_true,
          if_false]
        have hb : (adoptRemoteFamily env remote index found s).backend
            = setBackendMembership s.currentUser (some (.str id))
              (setMember env found
                { saveFamilies (placeFamily index remote s.familiesState)
                    { s with familiesState := placeFamily index remote s.familiesState } with
                  currentFamily := some remote }).backend := by
          simp only [adoptRemoteFamily, hid, orElse, htruthy, if_true]
        rw [hb]
        exact getBackendMembership_set _ _ _ hu htruthy
  · have hbu : (adoptRemoteFamily env remote index found s).backend.users
        = s.backend.users := by
      simp only [adoptRemoteFamily, setBackendMembership_users]
      rfl
    have hsu : (adoptRemoteFamily env remote index found s).storedUsers = s.storedUsers := rfl
    have hl : loadUsers (adoptRemoteFamily env remote index found s) = loadUsers s := by
      simp only [loadUsers, hbu, hsu]
    rw [hl]
    exact husers

/-- The sync of a family that can be ordered and drawn, for a client whose pointer names
it: the writes of the sync, the signature, and the renders, which complete and resolve
the family again. -/
theorem sync_of_drawable (env : Env) (silent : Bool) (s : Client)
    (data remote : JVal) (id : String) (members chat reminders : List JVal)
    (hadmin : s.isAdmin = false)
    (hknown : truthy (orElse (optProp s.currentFamily "id")
      (orElse (optProp s.currentUserRecord "familyId") (s.membershipItem.map .str))) = true)
    (hpointer : storedFamilyId s = some (.str id))
    (hdata : property data "family" = some remote)
    (hid : property remote "id" = some (.str id))
    (hmembers : property remote "members" = some (.arr members))
    (hordered : MembersOrdered env members)
    (hchat : property remote "chat" = some (.arr chat))
    (hchatOrdered : ChatOrdered env chat)
    (htexts : TextsAreStrings chat)
    (hrem : property remote "reminders" = some (.arr reminders))
    (hdraw : RemindersDrawable env reminders)
    (hcache : ∀ f ∈ s.familiesState, f ≠ .null)
    (husers : ∀ u ∈ loadUsers s, u ≠ .null) :
    ∃ sig index found,
      computeFamilySignature env (some remote) = some sig
        ∧ (placeFamily index remote s.familiesState).find?
            (fun f => strictEq (property f "id") (some (.str id))) = some remote
        ∧ syncCurrentFamilyFromServer env silent (.ok data) s
          = (if (!silent || signatureDiffers (some sig) s.lastFamilySyncSignature) = true
              then (renderFamily env (adoptRemoteFamily env remote index found s)).1
              else adoptRemoteFamily env remote index found s,
            some (signatureDiffers (some sig) s.lastFamilySyncSignature))
        ∧ Adopted env remote (placeFamily index remote s.familiesState)
            (adoptRemoteFamily env remote index found s)
        ∧ Adopted env remote (placeFamily index remote s.familiesState)
            (renderFamily env (adoptRemoteFamily env remote index found s)).1 := by
  have hget := getFamilyById_ok data remote hdata (truthy_of_property remote _ _ hid)
  obtain ⟨index, hindex⟩ := findIndexById_total (some (.str id)) s.familiesState hcache
  obtain ⟨found, hfound⟩ := optionalFind_total s.currentUser (property remote "members")
    (Or.inr (objectList_of_usernames _ members hmembers hordered.1))
  obtain ⟨sig, hsig⟩ := computeFamilySignature_of_ordered env remote members chat hmembers
    hordered hchat hchatOrdered
  have hfind := find_after_sync id remote hid s.familiesState index hindex
  have hwhere := findWhere_place id remote hid s.familiesState index hindex
  have had := adoptRemoteFamily_adopted env remote id index found s hadmin hid hpointer husers
  obtain ⟨hdone, hafter⟩ := renderFamily_adopted env remote id _ members chat reminders _ hid
    hwhere hmembers hordered.1 hchat hchatOrdered.2.2.1 htexts hrem hdraw had
  refine ⟨sig, index, found, hsig, hfind, ?_, had, hafter⟩
  rw [syncCurrentFamilyFromServer_eq env silent (.ok data) s remote index found hadmin hknown
    hget (by rw [hid]; exact hindex) hfound, hsig, hdone]
  simp only [Option.map_some', if_true]
  by_cases hd : signatureDiffers (some sig) s.lastFamilySyncSignature = true
  · simp [hd]
  · simp only [Bool.not_eq_true] at hd
    cases silent <;> simp [hd]

theorem smithMembers_ordered :
    MembersOrdered sampleEnv [memberEntry "alice" (.str "owner"), memberEntry "bob" (.str "kid")] := by
  refine ⟨?_, ?_, sampleEnv_orders _⟩
  · intro m hm
    simp only [List.mem_cons, List.mem_singleton, List.not_mem_nil, or_false] at hm
    rcases hm with rfl | rfl
    · exact ⟨"alice", rfl⟩
    · exact ⟨"bob", rfl⟩
  · simp [memberEntry, property, JObj.get]

theorem oneMessage_ordered :
    ChatOrdered sampleEnv [chatMessage "msg_1" "alice" "hi" "2024-05-01T10:00:00.000Z"] := by
  refine ⟨?_, ?_, ?_, ?_, sampleEnv_orders _⟩
  · intro m hm
    rw [List.mem_singleton.1 hm]
    exact ⟨"msg_1", rfl⟩
  · simp
  · intro m hm
    rw [List.mem_singleton.1 hm]
    exact ⟨"2024-05-01T10:00:00.000Z", 1714557600000, rfl, by decide, by decide⟩
  · intro t u ht hu _
    obtain ⟨m, hm, hp⟩ := ht
    obtain ⟨m2, hm2, hp2⟩ := hu
    rw [List.mem_singleton.1 hm] at hp
    rw [List.mem_singleton.1 hm2] at hp2
    simp only [chatMessage, property, JObj.get] at hp hp2
    simp at hp hp2
    rw [← hp, ← hp2]

theorem noMessage_ordered : ChatOrdered sampleEnv [] := by
  refine ⟨?_, List.Pairwise.nil, ?_, ?_, sampleEnv_orders _⟩
  · intro m hm
    simp at hm
  · intro m hm
    simp at hm
  · intro t u ht
    obtain ⟨m, hm, -⟩ := ht
    simp at hm

theorem bobClient_users : ∀ u ∈ loadUsers bobClient, u ≠ .null := by
  intro u hu
  simp [loadUsers, bobClient, emptyBackend] at hu

/-! ## Facts about a sync that adopts the planner pulled -/

theorem JObj.get_append_left (a b : JObj) (k : String) (v : JVal)
    (h : JObj.get a k = some v) : JObj.get (a ++ b) k = some v := by
  induction a with
  | nil => simp [JObj.get] at h
  | cons kv rest ih =>
    obtain ⟨k1, w⟩ := kv
    by_cases hk : k1 = k
    · simpa [JObj.get, hk] using h
    · simp only [JObj.get, hk, if_false] at h
      simpa [JObj.get, hk] using ih h

theorem projectEntry_eq (e : JVal) (he : e ≠ .null) :
    projectEntry e = some (projectedEntry e) := by
  cases e <;> first | exact absurd rfl he | rfl

theorem property_projectedEntry (e : JVal) (k : String) (v : JVal) (hk : k ∈ plannerKeys)
    (h : property e k = some v) : property (projectedEntry e) k = some v := by
  have hlit := get_literal plannerKeys (fun k => property e k) k hk
  show JObj.get (literal ((plannerKeys.map fun k => (k, property e k)) ++ _)) k = some v
  rw [literal, List.filterMap_append]
  apply JObj.get_append_left
  rw [literal] at hlit
  rw [hlit]
  exact h

theorem jsOr_str (x : String) : ∃ y, jsOr (some (.str x)) (.str "") = .str y := by
  simp only [jsOr]
  split
  · exact ⟨x, rfl⟩
  · exact ⟨"", rfl⟩

theorem entryOrder_total (env : Env) (a b : JVal) (i d t i2 d2 t2 : String)
    (hi : property a "id" = some (.str i)) (hd : property a "startDate" = some (.str d))
    (ht : property a "startTime" = some (.str t))
    (hi2 : property b "id" = some (.str i2)) (hd2 : property b "startDate" = some (.str d2))
    (ht2 : property b "startTime" = some (.str t2)) :
    ∃ c, entryOrder env a b = some c := by
  obtain ⟨x1, h1⟩ := jsOr_str i
  obtain ⟨x2, h2⟩ := jsOr_str d
  obtain ⟨x3, h3⟩ := jsOr_str t
  apply Option.isSome_iff_exists.1
  simp only [entryOrder, hi, hd, ht, hi2, hd2, ht2, h1, h2, h3, localeCompareValues]
  split
  · split <;> rfl
  · rfl

theorem computePlannerSignature_of_ordered (env : Env) (entries : List JVal)
    (h : EntriesOrdered env entries) :
    ∃ sig, computePlannerSignature env entries = some sig := by
  have hnn : ∀ e ∈ entries, e ≠ .null := fun e he => by
    obtain ⟨i, -, -, hi, -, -⟩ := h.1 e he
    exact ne_null_of_property e _ _ hi
  have hmap : mapAll projectEntry entries = some (entries.map projectedEntry) :=
    mapAll_eq_map _ _ _ fun e he => projectEntry_eq e (hnn e he)
  obtain ⟨r, hr, -⟩ := sortBy_total (entryOrder env) (entries.map projectedEntry) (by
    intro a ha b hb
    obtain ⟨e, he, rfl⟩ := List.mem_map.1 ha
    obtain ⟨e2, he2, rfl⟩ := List.mem_map.1 hb
    obtain ⟨i, d, t, hi, hd, ht⟩ := h.1 e he
    obtain ⟨i2, d2, t2, hi2, hd2, ht2⟩ := h.1 e2 he2
    exact entryOrder_total env _ _ i d t i2 d2 t2
      (property_projectedEntry e _ _ (by decide) hi)
      (property_projectedEntry e _ _ (by decide) hd)
      (property_projectedEntry e _ _ (by decide) ht)
      (property_projectedEntry e2 _ _ (by decide) hi2)
      (property_projectedEntry e2 _ _ (by decide) hd2)
      (property_projectedEntry e2 _ _ (by decide) ht2))
  exact ⟨.arr r, by simp only [computePlannerSignature, hmap, Option.some_bind, hr,
    Option.map_some']⟩

theorem reloadFamilies_planner (s : Client) :
    (reloadFamilies s).plannerData = s.plannerData
      ∧ (reloadFamilies s).lastPlannerSyncSignature = s.lastPlannerSyncSignature := by
  simp only [reloadFamilies, loadFamilies]
  split <;> exact ⟨rfl, rfl⟩

theorem readFamilyState_planner (env : Env) (s : Client) :
    (readFamilyState env s).1.plannerData = s.plannerData
      ∧ (readFamilyState env s).1.lastPlannerSyncSignature = s.lastPlannerSyncSignature := by
  have h := readFamilyState_kept env s
  simp only [Client.kept, Prod.mk.injEq] at h
  obtain ⟨-, -, h1, h2, -⟩ := h
  exact ⟨h1.trans (reloadFamilies_planner s).1, h2.trans (reloadFamilies_planner s).2⟩

/-- The renders of the planner leave the cached planner and its signature as they are. -/
theorem renderPlanner_planner (env : Env) (s : Client) :
    (renderPlanner env s).1.plannerData = s.plannerData
      ∧ (renderPlanner env s).1.lastPlannerSyncSignature = s.lastPlannerSyncSignature := by
  have hread : ∀ t : Client, (t.plannerData = s.plannerData
      ∧ t.lastPlannerSyncSignature = s.lastPlannerSyncSignature) →
      ((readFamilyState env t).1.plannerData = s.plannerData
        ∧ (readFamilyState env t).1.lastPlannerSyncSignature = s.lastPlannerSyncSignature) :=
    fun t ht => ⟨(readFamilyState_planner env t).1.trans ht.1,
      (readFamilyState_planner env t).2.trans ht.2⟩
  simp only [renderPlanner]
  split
  · exact ⟨rfl, rfl⟩
  · simp only [renderDayDetail]
    refine andThen_keeps (fun t => t.plannerData = s.plannerData
      ∧ t.lastPlannerSyncSignature = s.lastPlannerSyncSignature) _ _
      (hread _ ⟨rfl, rfl⟩) ?_
    intro t ht
    split
    · exact ht
    · split
      · exact ht
      · refine andThen_keeps (fun t => t.plannerData = s.plannerData
          ∧ t.lastPlannerSyncSignature = s.lastPlannerSyncSignature) _ _ ?_
          (fun u hu => hu)
        simp only [renderFamilyReminders]
        split
        · exact ht
        · refine andThen_keeps (fun t => t.plannerData = s.plannerData
            ∧ t.lastPlannerSyncSignature = s.lastPlannerSyncSignature) _ _ (hread t ht) ?_
          intro u hu
          repeat' split
          all_goals exact hu

theorem examEntry_ordered : EntriesOrdered sampleEnv [examEntry] := by
  refine ⟨?_, List.pairwise_singleton _ _, sampleEnv_orders _⟩
  intro e he
  rw [List.mem_singleton.1 he]
  exact ⟨"entry_2", "2024-05-03", "09:00", rfl, rfl, rfl⟩

/-! ## Facts about a push that fails -/

theorem updateFamilyBegin_state (env : Env) (mutator : JObj → JObj) (s s1 : Client)
    (pending : Pending)
    (h : updateFamilyBegin env mutator s = (s1, .returned (some pending))) :
    s1.currentFamily = some (.obj pending.draft)
      ∧ s1.familiesState.get? pending.index = some (.obj pending.draft)
      ∧ s1.feedback = s.feedback := by
  simp only [updateFamilyBegin] at h
  cases hcf : s.currentFamily with
  | none => rw [hcf] at h; simp at h
  | some cf =>
    rw [hcf] at h
    simp only [] at h
    by_cases ht : (!truthy (some cf)) = true
    · rw [if_pos ht] at h
      simp at h
    · rw [if_neg ht] at h
      cases hidx : findIndexById (property cf "id") (loadFamilies s).2 with
      | none => rw [hidx] at h; simp at h
      | some r =>
        cases r with
        | none => rw [hidx] at h; simp at h
        | some index =>
          rw [hidx] at h
          simp only [] at h
          obtain ⟨cached, hget, -, -⟩ := findIndexById_some _ _ _ hidx
          have hlt : index < (loadFamilies s).2.length := by
            rcases Nat.lt_or_ge index (loadFamilies s).2.length with hlt | hge
            · exact hlt
            · rw [List.get?_eq_none.2 hge] at hget
              exact Option.noConfusion hget
          cases hfind : strictFind s.currentUser
              ((mutator (draftOf ((loadFamilies s).2.getD index .null))).get "members") with
          | none => rw [hfind] at h; simp at h
          | some found =>
            rw [hfind] at h
            simp only [Prod.mk.injEq, Completion.returned.injEq, Option.some.injEq] at h
            obtain ⟨hs, hp⟩ := h
            rw [← hp, ← hs]
            refine ⟨rfl, ?_, ?_⟩
            · show ((loadFamilies s).2.set index _).get? index = _
              simp [List.get?_eq_getElem?, List.getElem?_set, hlt]
            · simp only [setMember, saveFamilies, loadFamilies]
              split <;> rfl

theorem updateFamilyEnd_failed (env : Env) (pending : Pending) (s : Client) :
    updateFamilyEnd env pending .failed s = (s, .obj pending.draft) := rfl

theorem reloadFamilies_feedback (s : Client) : (reloadFamilies s).feedback = s.feedback := by
  simp only [reloadFamilies, loadFamilies]
  split <;> rfl

theorem readFamilyState_feedback (env : Env) (s : Client) :
    (readFamilyState env s).1.feedback = s.feedback := by
  have h := readFamilyState_kept env s
  simp only [Client.kept, Prod.mk.injEq] at h
  obtain ⟨-, -, -, -, -, -, h1, -⟩ := h
  exact h1.trans (reloadFamilies_feedback s)

/-- The renders of the family leave the feedback of the page as it is. -/
theorem renderFamily_feedback (env : Env) (s : Client) :
    (renderFamily env s).1.feedback = s.feedback := by
  have hread : ∀ t : Client, t.feedback = s.feedback →
      (readFamilyState env t).1.feedback = s.feedback :=
    fun t ht => (readFamilyState_feedback env t).trans ht
  have hlist : ∀ t : Client, t.feedback = s.feedback →
      (renderFamilyMemberList env t).1.feedback = s.feedback := by
    intro t ht
    simp only [renderFamilyMemberList]
    split
    · exact ht
    · refine andThen_keeps (fun u => u.feedback = s.feedback) _ _ (hread t ht) ?_
      intro u hu
      split <;> exact hu
  have hchat : ∀ t : Client, t.feedback = s.feedback →
      (renderFamilyChat env t).1.feedback = s.feedback := by
    intro t ht
    rw [renderFamilyChat_state]
    exact ht
  have hrem : ∀ (d : String) (t : Client), t.feedback = s.feedback →
      (renderFamilyReminders env d none t).1.feedback = s.feedback := by
    intro d t ht
    simp only [renderFamilyReminders]
    split
    · exact ht
    · refine andThen_keeps (fun u => u.feedback = s.feedback) _ _ (hread t ht) ?_
      intro u hu
      repeat' split
      all_goals exact hu
  have hover : ∀ t : Client, t.feedback = s.feedback →
      (renderFamilyOverview env t).1.feedback = s.feedback := by
    intro t ht
    simp only [renderFamilyOverview]
    split
    · exact ht
    · exact andThen_keeps (fun u => u.feedback = s.feedback) _ _
        (andThen_keeps (fun u => u.feedback = s.feedback) _ _ (hlist t ht) hchat)
        fun u hu => hrem _ u hu
  simp only [renderFamily]
  exact andThen_keeps (fun u => u.feedback = s.feedback) _ _
    (andThen_keeps (fun u => u.feedback = s.feedback) _ _ (hover _ rfl)
      fun u hu => hchat _ hu)
    fun u hu => hrem _ _ hu

/-- A sync leaves the feedback of the page as it is, whatever the answer to its request. -/
theorem syncCurrentFamilyFromServer_feedback (env : Env) (silent : Bool) (reply : Response)
    (s : Client) :
    (syncCurrentFamilyFromServer env silent reply s).1.feedback = s.feedback := by
  by_cases hadmin : s.isAdmin = true
  · simp [syncCurrentFamilyFromServer, hadmin]
  · simp only [Bool.not_eq_true] at hadmin
    by_cases hknown : truthy (orElse (optProp s.currentFamily "id")
      (orElse (optProp s.currentUserRecord "familyId") (s.membershipItem.map .str))) = true
    swap
    · simp [syncCurrentFamilyFromServer, hadmin, hknown]
    · cases hget : getFamilyById reply with
      | none => simp [syncCurrentFamilyFromServer, hadmin, hknown, hget]
      | some r =>
        cases r with
        | none => simp [syncCurrentFamilyFromServer, hadmin, hknown, hget]
        | some remote =>
          cases hindex : findIndexById (property remote "id") s.familiesState with
          | none => simp [syncCurrentFamilyFromServer, hadmin, hknown, hget, hindex]
          | some index =>
            cases hfound : optionalFind s.currentUser (property remote "members") with
            | none =>
              unfold syncCurrentFamilyFromServer
              rw [if_neg (by rw [hadmin]; decide)]
              simp only [hknown, hget, hindex, hfound, Bool.false_eq_true, if_false,
                Bool.not_true]
              rfl
            | some found =>
              rw [syncCurrentFamilyFromServer_eq env silent reply s remote index found hadmin
                hknown hget hindex hfound]
              have hr := renderFamily_feedback env (adoptRemoteFamily env remote index found s)
              split
              · split <;> exact hr
              · rfl

/-! ## Claims -/

/-- C1, as amended: when at least one of the 2000 attempts is a code that no stored family
has, `createFamily` appends exactly one family to the store and the code of that family
differs from the code of every family already stored. -/
theorem createFamily_code_unique (name : JVal) (owner id now : String) (rng : Rng) (s : Store)
    (h : SomeAttemptFree rng s) :
    ∃ fam, (createFamily name owner id now rng s).1.families = s.families ++ [fam]
      ∧ ∀ f ∈ s.families, f.get "code" ≠ fam.get "code" := by
  refine ⟨_, createFamily_families name owner id now rng s, ?_⟩
  obtain ⟨k, hk, hfree⟩ := h
  have hloop := generateFamilyCodeLoop_free
    (codeTaken s ((listFamilies s).map fun f => f.get "code")) 1999 rng
    ⟨k, by omega, (codeTaken_eq_false_iff s _).2 hfree⟩
  have := (codeTaken_eq_false_iff s _).1 hloop
  intro f hf
  simpa [newFamilyDoc, JObj.get, generateFamilyCode] using this f hf

/-- C1, witness: on the one-family store (code `AAAAAA`) with every draw `B`, the first
attempt `BBBBBB` is free. -/
theorem createFamily_code_unique_witness :
    ∃ fam, (createFamily (.str "Jones") "bob" "fam_2" "2024-05-02T10:00:00.000Z" onesRng
        oneFamilyStore).1.families = oneFamilyStore.families ++ [fam]
      ∧ ∀ f ∈ oneFamilyStore.families, f.get "code" ≠ fam.get "code" :=
  createFamily_code_unique (.str "Jones") "bob" "fam_2" "2024-05-02T10:00:00.000Z" onesRng
    oneFamilyStore ⟨0, by decide, by
      rw [attemptNo_onesRng]
      simp [oneFamilyStore, newFamilyDoc, JObj.get]⟩

/-- C1, counterexample: on the one-family store (code `AAAAAA`) with every draw `A`, all
2000 attempts collide; `createFamily` does not fail but stores a second family with the
code `AAAAAA`. -/
theorem createFamily_stores_duplicate_code :
    (createFamily (.str "Jones") "bob" "fam_2" "2024-05-02T10:00:00.000Z" zeroRng
        oneFamilyStore).1.families
      = [newFamilyDoc (.str "Smiths") "alice" "fam_1" "2024-05-01T10:00:00.000Z" "AAAAAA",
         newFamilyDoc (.str "Jones") "bob" "fam_2" "2024-05-02T10:00:00.000Z" "AAAAAA"] := by
  rw [createFamily_exhausted, attemptNo_zeroRng]
  · rfl
  · intro k _
    rw [attemptNo_zeroRng]
    exact ⟨_, List.mem_singleton_self _, rfl⟩

/-- C2: when the generated id is not the id of a stored family, `createFamily` returns the
family it stored, and the code of that family has exactly 6 characters, each of them in the
alphabet `ABCDEFGHJKLMNPQRSTUVWXYZ23456789`; so none of them is `I`, `O`, `0` or `1`. -/
theorem createFamily_code_shape (name : JVal) (owner id now : String) (rng : Rng) (s : Store)
    (hid : findFamilyById s (some (.str id)) = none) :
    ∃ fam code, (createFamily name owner id now rng s).2 = some fam
      ∧ (createFamily name owner id now rng s).1.families = s.families ++ [fam]
      ∧ fam.get "code" = some (.str code)
      ∧ code.length = 6
      ∧ (∀ ch ∈ code.toList, ch ∈ alphabet.toList)
      ∧ 'I' ∉ code.toList ∧ 'O' ∉ code.toList ∧ '0' ∉ code.toList ∧ '1' ∉ code.toList := by
  obtain ⟨k, -, hk⟩ := generateFamilyCodeLoop_is_attempt
    (codeTaken s ((listFamilies s).map fun f => f.get "code")) 1999 rng
  have hchars := drawAttempt_chars (rng.advance (6 * k))
  refine ⟨_, attemptNo rng k, createFamily_returns name owner id now rng s hid,
    createFamily_families name owner id now rng s, ?_, drawAttempt_length _, hchars, ?_, ?_, ?_, ?_⟩
  · simp [newFamilyDoc, JObj.get, generateFamilyCode, hk]
  all_goals
    intro hmem
    exact absurd (hchars _ hmem) (by decide)

/-- C2, witness: a second family on the one-family store, under the unused id `fam_2`. -/
theorem createFamily_code_shape_witness :
    ∃ fam code, (createFamily (.str "Jones") "bob" "fam_2" "2024-05-02T10:00:00.000Z" zeroRng
        oneFamilyStore).2 = some fam
      ∧ (createFamily (.str "Jones") "bob" "fam_2" "2024-05-02T10:00:00.000Z" zeroRng
        oneFamilyStore).1.families = oneFamilyStore.families ++ [fam]
      ∧ fam.get "code" = some (.str code)
      ∧ code.length = 6
      ∧ (∀ ch ∈ code.toList, ch ∈ alphabet.toList)
      ∧ 'I' ∉ code.toList ∧ 'O' ∉ code.toList ∧ '0' ∉ code.toList ∧ '1' ∉ code.toList :=
  createFamily_code_shape (.str "Jones") "bob" "fam_2" "2024-05-02T10:00:00.000Z" zeroRng
    oneFamilyStore (by simp [findFamilyById, clone, oneFamilyStore, newFamilyDoc, JObj.get, strictEq])

/-- C3: when the owner has a user record and the generated id is not the id of a stored
family, `createFamily` returns a family with the new id whose members are exactly
`[{username: owner, role: "owner"}]`, whose reminders and chat are empty and whose owner is
the owner; afterwards the owner is found with `familyId` the new id and role `owner`; every
record of the owner is its old record with these two fields written, every other user
record is unchanged; the families are the old ones followed by the new one; the planners
are unchanged. -/
theorem createFamily_initial_state (name : JVal) (owner id now : String) (rng : Rng) (s : Store)
    (howner : (findUserByUsername s owner).isSome = true)
    (hid : findFamilyById s (some (.str id)) = none) :
    ∃ fam, (createFamily name owner id now rng s).2 = some fam
      ∧ fam.get "id" = some (.str id)
      ∧ fam.get "members"
          = some (.arr [.obj [("username", .str owner), ("role", .str "owner")]])
      ∧ fam.get "reminders" = some (.arr [])
      ∧ fam.get "chat" = some (.arr [])
      ∧ fam.get "owner" = some (.str owner)
      ∧ (∃ u, findUserByUsername (createFamily name owner id now rng s).1 owner = some u
          ∧ u.get "familyId" = some (.str id) ∧ u.get "role" = some (.str "owner"))
      ∧ List.Forall₂ (fun u u2 =>
            (u.get "username" = some (.str owner)
              → u2 = (u.set "familyId" (.str id)).set "role" (.str "owner"))
            ∧ (u.get "username" ≠ some (.str owner) → u2 = u))
          s.users (createFamily name owner id now rng s).1.users
      ∧ (createFamily name owner id now rng s).1.families = s.families ++ [fam]
      ∧ (createFamily name owner id now rng s).1.planner = s.planner := by
  refine ⟨_, createFamily_returns name owner id now rng s hid, rfl, rfl, rfl, rfl, rfl, ?_, ?_,
    createFamily_families name owner id now rng s, rfl⟩
  · obtain ⟨u, hu⟩ := Option.isSome_iff_exists.1 howner
    refine ⟨(u.set "familyId" (.str id)).set "role" (.str "owner"), ?_, ?_, ?_⟩
    · simp only [findUserByUsername, clone] at hu ⊢
      show List.find? _ (List.map _ s.users) = _
      rw [find?_map_update _ _ _ s.users, hu]
      · rfl
      · intro a ha
        simpa [clone, spread_two, JObj.get_set_other] using ha
    · rw [JObj.get_set_other _ _ _ _ (by decide), JObj.get_set_self]
    · rw [JObj.get_set_self]
  · show List.Forall₂ _ s.users (List.map _ s.users)
    rw [List.forall₂_map_right_iff]
    apply List.forall₂_same.2
    intro u _
    by_cases hu : u.get "username" = some (.str owner)
    · have : strictEq (some (.str owner)) (some (.str owner)) = true :=
        (strictEq_str_iff _ _).2 rfl
      simp [hu, clone, spread_two, this]
    · have : strictEq (u.get "username") (some (.str owner)) = false := by
        rw [← Bool.not_eq_true, strictEq_str_iff]
        exact hu
      simp [hu, this]

/-- C3, witness: `bob` creates a family on the one-family store. -/
theorem createFamily_initial_state_witness :
    ∃ fam, (createFamily (.str "Jones") "bob" "fam_2" "2024-05-02T10:00:00.000Z" zeroRng
        oneFamilyStore).2 = some fam
      ∧ fam.get "id" = some (.str "fam_2")
      ∧ fam.get "members"
          = some (.arr [.obj [("username", .str "bob"), ("role", .str "owner")]])
      ∧ fam.get "reminders" = some (.arr [])
      ∧ fam.get "chat" = some (.arr [])
      ∧ fam.get "owner" = some (.str "bob")
      ∧ (∃ u, findUserByUsername (createFamily (.str "Jones") "bob" "fam_2"
            "2024-05-02T10:00:00.000Z" zeroRng oneFamilyStore).1 "bob" = some u
          ∧ u.get "familyId" = some (.str "fam_2") ∧ u.get "role" = some (.str "owner"))
      ∧ List.Forall₂ (fun u u2 =>
            (u.get "username" = some (.str "bob")
              → u2 = (u.set "familyId" (.str "fam_2")).set "role" (.str "owner"))
            ∧ (u.get "username" ≠ some (.str "bob") → u2 = u))
          oneFamilyStore.users (createFamily (.str "Jones") "bob" "fam_2"
            "2024-05-02T10:00:00.000Z" zeroRng oneFamilyStore).1.users
      ∧ (createFamily (.str "Jones") "bob" "fam_2" "2024-05-02T10:00:00.000Z" zeroRng
          oneFamilyStore).1.families = oneFamilyStore.families ++ [fam]
      ∧ (createFamily (.str "Jones") "bob" "fam_2" "2024-05-02T10:00:00.000Z" zeroRng
          oneFamilyStore).1.planner = oneFamilyStore.planner :=
  createFamily_initial_state (.str "Jones") "bob" "fam_2" "2024-05-02T10:00:00.000Z" zeroRng
    oneFamilyStore
    (by simp [findUserByUsername, clone, oneFamilyStore, JObj.get, strictEq])
    (by simp [findFamilyById, clone, oneFamilyStore, newFamilyDoc, JObj.get, strictEq])

/-- C4: when user `B` has a record and the family `F` found by the code `c` (with id
`fid`) does not list `B`, `joinFamilyByCode` returns `F` with its roster followed by
`{username: B, role}`, one entry more than before, stores it under the id of `F`, and the
record of `B`, returned and stored, has `familyId` the id of `F` and the role given. -/
theorem joinFamilyByCode_appends_member (B : String) (role : JVal) (c : String) (s : Store)
    (F : JObj) (fid : String)
    (hB : (findUserByUsername s B).isSome = true)
    (hF : findFamilyByCode s (some (.str c)) = some F)
    (hid : F.get "id" = some (.str fid))
    (hnot : someMember B (roster F) = some false) :
    ∃ s2 F2 u2, joinFamilyByCode B role c s = some (s2, some F2, some u2)
      ∧ F2 = F.set "members" (.arr (roster F ++ [memberEntry B role]))
      ∧ roster F2 = roster F ++ [memberEntry B role]
      ∧ (roster F2).length = (roster F).length + 1
      ∧ findFamilyById s2 (some (.str fid)) = some F2
      ∧ u2.get "username" = some (.str B)
      ∧ u2.get "familyId" = some (.str fid)
      ∧ u2.get "role" = some role
      ∧ ∃ u, findUserByUsername s2 B = some u
          ∧ u.get "familyId" = some (.str fid) ∧ u.get "role" = some role := by
  obtain ⟨u0, -, hname, hres⟩ := updateUser_join_result B fid role s hB
  have hid2 : (joinedDoc F B role false).get "id" = some (.str fid) := by
    rw [joinedDoc_get_other _ _ _ _ _ (by decide), hid]
  have hsome : (s.families.find? fun item => strictEq (item.get "code") (some (.str c))).isSome
      = true := by
    simp only [findFamilyByCode, clone] at hF
    simp [hF]
  refine ⟨{ users := usersAfterJoin B fid role s.users, planner := s.planner,
            families := familiesAfterJoin c (joinedDoc F B role false) s.families },
    joinedDoc F B role false, (u0.set "familyId" (.str fid)).set "role" role,
    ?_, ?_, roster_joinedDoc_false F B role, ?_, ?_, ?_, ?_, ?_, ?_⟩
  · rw [joinFamilyByCode_store B role c s F fid false hF hid hnot, hres]
  · simp [joinedDoc]
  · simp [roster_joinedDoc_false]
  · have := find?_id_familiesAfterJoin c (joinedDoc F B role false) s.families
      (by rw [hid2]; exact (strictEq_str_iff _ _).2 rfl) hsome
    rw [hid2] at this
    simpa [findFamilyById, clone] using this
  · rw [JObj.get_set_other _ _ _ _ (by decide), JObj.get_set_other _ _ _ _ (by decide), hname]
  · rw [JObj.get_set_other _ _ _ _ (by decide), JObj.get_set_self]
  · rw [JObj.get_set_self]
  · obtain ⟨u, hu⟩ := Option.isSome_iff_exists.1 hB
    refine ⟨(u.set "familyId" (.str fid)).set "role" role, ?_, ?_, ?_⟩
    · simp only [findUserByUsername, clone] at hu ⊢
      rw [find?_usersAfterJoin, hu]
      rfl
    · rw [JObj.get_set_other _ _ _ _ (by decide), JObj.get_set_self]
    · rw [JObj.get_set_self]

/-- C4, witness: `bob` joins the family of the one-family store with the code `AAAAAA`. -/
theorem joinFamilyByCode_appends_member_witness :
    ∃ s2 F2 u2, joinFamilyByCode "bob" (.str "adult") "AAAAAA" oneFamilyStore
        = some (s2, some F2, some u2)
      ∧ F2 = (newFamilyDoc (.str "Smiths") "alice" "fam_1" "2024-05-01T10:00:00.000Z"
          "AAAAAA").set "members"
            (.arr (roster (newFamilyDoc (.str "Smiths") "alice" "fam_1"
              "2024-05-01T10:00:00.000Z" "AAAAAA") ++ [memberEntry "bob" (.str "adult")]))
      ∧ roster F2 = roster (newFamilyDoc (.str "Smiths") "alice" "fam_1"
          "2024-05-01T10:00:00.000Z" "AAAAAA") ++ [memberEntry "bob" (.str "adult")]
      ∧ (roster F2).length = (roster (newFamilyDoc (.str "Smiths") "alice" "fam_1"
          "2024-05-01T10:00:00.000Z" "AAAAAA")).length + 1
      ∧ findFamilyById s2 (some (.str "fam_1")) = some F2
      ∧ u2.get "username" = some (.str "bob")
      ∧ u2.get "familyId" = some (.str "fam_1")
      ∧ u2.get "role" = some (.str "adult")
      ∧ ∃ u, findUserByUsername s2 "bob" = some u
          ∧ u.get "familyId" = some (.str "fam_1") ∧ u.get "role" = some (.str "adult") :=
  joinFamilyByCode_appends_member "bob" (.str "adult") "AAAAAA" oneFamilyStore
    (newFamilyDoc (.str "Smiths") "alice" "fam_1" "2024-05-01T10:00:00.000Z" "AAAAAA") "fam_1"
    rfl rfl rfl rfl

/-- C5, as amended: when the code resolves to a family `F` (with id `fid`) whose roster
test for the username does not throw and whose roster has at most one entry for the
username, two calls of `joinFamilyByCode` with the username and the code (whatever the
roles) both return the same document, its roster has exactly one entry for the username,
and the second call leaves the families of the store as the first call left them. -/
theorem joinFamilyByCode_twice (B : String) (role1 role2 : JVal) (c : String) (s : Store)
    (F : JObj) (fid : String) (b : Bool)
    (hF : findFamilyByCode s (some (.str c)) = some F)
    (hid : F.get "id" = some (.str fid))
    (hm : someMember B (roster F) = some b)
    (hcount : entriesFor B (roster F) ≤ 1) :
    ∃ s1 r1 s2 r2 F1, joinFamilyByCode B role1 c s = some (s1, some F1, r1)
      ∧ joinFamilyByCode B role2 c s1 = some (s2, some F1, r2)
      ∧ entriesFor B (roster F1) = 1
      ∧ s2.families = s1.families
      ∧ findFamilyByCode s2 (some (.str c)) = some F1 := by
  have hcodeF : F.get "code" = some (.str c) := by
    simp only [findFamilyByCode, clone] at hF
    have := List.find?_some hF
    exact (strictEq_str_iff _ _).1 this
  have hsome : (s.families.find? fun item => strictEq (item.get "code") (some (.str c))).isSome
      = true := by
    simp only [findFamilyByCode, clone] at hF
    simp [hF]
  have hid1 : (joinedDoc F B role1 b).get "id" = some (.str fid) := by
    rw [joinedDoc_get_other _ _ _ _ _ (by decide), hid]
  have hcode1 : (joinedDoc F B role1 b).get "code" = some (.str c) := by
    rw [joinedDoc_get_other _ _ _ _ _ (by decide), hcodeF]
  have hidEq : strictEq ((joinedDoc F B role1 b).get "id") ((joinedDoc F B role1 b).get "id")
      = true := by
    rw [hid1]
    exact (strictEq_str_iff _ _).2 rfl
  have hm1 : someMember B (roster (joinedDoc F B role1 b)) = some true := by
    cases b
    · rw [roster_joinedDoc_false]
      exact someMember_append_entry B role1 _ hm
    · simpa [joinedDoc] using hm
  have hone : entriesFor B (roster (joinedDoc F B role1 b)) = 1 := by
    cases b
    · rw [roster_joinedDoc_false, entriesFor_append_entry,
        entriesFor_of_someMember_false B _ hm]
    · have := entriesFor_pos_of_someMember_true B _ hm
      simp only [joinedDoc, if_true]
      omega
  have hfirst := find?_code_familiesAfterJoin c (joinedDoc F B role1 b) s.families hcode1
    hidEq hsome
  have hF1 : findFamilyByCode
      { users := usersAfterJoin B fid role1 s.users, planner := s.planner,
        families := familiesAfterJoin c (joinedDoc F B role1 b) s.families }
      (some (.str c)) = some (joinedDoc F B role1 b) := by
    simpa [findFamilyByCode, clone] using hfirst
  have hcall2 := joinFamilyByCode_store B role2 c _ (joinedDoc F B role1 b) fid true hF1 hid1 hm1
  have hsame : joinedDoc (joinedDoc F B role1 b) B role2 true = joinedDoc F B role1 b := by
    simp [joinedDoc]
  rw [hsame] at hcall2
  refine ⟨_, _, _, _, _, joinFamilyByCode_store B role1 c s F fid b hF hid hm, hcall2, hone, ?_, ?_⟩
  · exact familiesAfterJoin_idem c _ s.families hcode1 hidEq hsome
  · simp only [findFamilyByCode, clone]
    rw [familiesAfterJoin_idem c _ s.families hcode1 hidEq hsome]
    exact hfirst

/-- C5, witness: `bob` joins the family of the one-family store twice. -/
theorem joinFamilyByCode_twice_witness :
    ∃ s1 r1 s2 r2 F1, joinFamilyByCode "bob" (.str "adult") "AAAAAA" oneFamilyStore
        = some (s1, some F1, r1)
      ∧ joinFamilyByCode "bob" (.str "kid") "AAAAAA" s1 = some (s2, some F1, r2)
      ∧ entriesFor "bob" (roster F1) = 1
      ∧ s2.families = s1.families
      ∧ findFamilyByCode s2 (some (.str "AAAAAA")) = some F1 :=
  joinFamilyByCode_twice "bob" (.str "adult") (.str "kid") "AAAAAA" oneFamilyStore
    (newFamilyDoc (.str "Smiths") "alice" "fam_1" "2024-05-01T10:00:00.000Z" "AAAAAA") "fam_1"
    false rfl rfl rfl (by decide)

/-- C5, counterexample: on a store whose family lists `bob` twice, two calls of
`joinFamilyByCode` for `bob` leave the roster with two entries for `bob`. -/
theorem joinFamilyByCode_twice_keeps_duplicates :
    ((joinFamilyByCode "bob" (.str "kid") "AAAAAA" doubleEntryStore).bind fun r1 =>
        (joinFamilyByCode "bob" (.str "kid") "AAAAAA" r1.1).map fun r2 =>
          (findFamilyByCode r2.1 (some (.str "AAAAAA"))).map fun family =>
            entriesFor "bob" (roster family))
      = some (some 2) := by
  rfl

/-- C6, as amended: when the family `F` found by the code (with id `fid`) already lists
the username, `joinFamilyByCode` with any role returns `F` itself; the code and the id
resolve to `F` afterwards as before, the families are unchanged when no other family has
the id of `F`, and the planners are unchanged.  The user records are not left alone: every
record of the username gets `familyId` the id of `F` and `role` the role given (which
leaves a record as it is when it already holds these two values), all other records are
unchanged. -/
theorem joinFamilyByCode_member (B : String) (role : JVal) (c : String) (s : Store)
    (F : JObj) (fid : String)
    (hF : findFamilyByCode s (some (.str c)) = some F)
    (hid : F.get "id" = some (.str fid))
    (hmem : someMember B (roster F) = some true) :
    ∃ s2 res, joinFamilyByCode B role c s = some (s2, some F, res)
      ∧ findFamilyByCode s2 (some (.str c)) = some F
      ∧ findFamilyById s2 (some (.str fid)) = some F
      ∧ ((∀ f ∈ s.families, f.get "id" = some (.str fid) → f = F) → s2.families = s.families)
      ∧ s2.planner = s.planner
      ∧ List.Forall₂ (fun u u2 =>
            (u.get "username" = some (.str B)
              → u2 = (u.set "familyId" (.str fid)).set "role" role)
            ∧ (u.get "username" ≠ some (.str B) → u2 = u))
          s.users s2.users
      ∧ ∀ u : JObj, u.get "familyId" = some (.str fid) → u.get "role" = some role →
          (u.set "familyId" (.str fid)).set "role" role = u := by
  have hcodeF : F.get "code" = some (.str c) := by
    simp only [findFamilyByCode, clone] at hF
    have := List.find?_some hF
    exact (strictEq_str_iff _ _).1 this
  have hsome : (s.families.find? fun item => strictEq (item.get "code") (some (.str c))).isSome
      = true := by
    simp only [findFamilyByCode, clone] at hF
    simp [hF]
  have hidEq : strictEq (F.get "id") (F.get "id") = true := by
    rw [hid]
    exact (strictEq_str_iff _ _).2 rfl
  have hcall := joinFamilyByCode_store B role c s F fid true hF hid hmem
  have hsame : joinedDoc F B role true = F := by simp [joinedDoc]
  rw [hsame] at hcall
  refine ⟨_, _, hcall, ?_, ?_, ?_, rfl, ?_, ?_⟩
  rotate_right
  · intro u h1 h2
    rw [JObj.set_eq_self u _ _ h1, JObj.set_eq_self u _ _ h2]
  · simpa [findFamilyByCode, clone] using
      find?_code_familiesAfterJoin c F s.families hcodeF hidEq hsome
  · have := find?_id_familiesAfterJoin c F s.families hidEq hsome
    rw [hid] at this
    simpa [findFamilyById, clone] using this
  · intro honly
    apply familiesAfterJoin_self c F s.families
    · simpa [findFamilyByCode, clone] using hF
    · intro f hf hfid
      rw [hid, strictEq_str_iff] at hfid
      exact honly f hf hfid
  · show List.Forall₂ _ s.users (List.map _ s.users)
    rw [List.forall₂_map_right_iff]
    apply List.forall₂_same.2
    intro u _
    by_cases hu : u.get "username" = some (.str B)
    · have : strictEq (some (.str B)) (some (.str B)) = true := (strictEq_str_iff _ _).2 rfl
      simp [hu, this]
    · have : strictEq (u.get "username") (some (.str B)) = false := by
        rw [← Bool.not_eq_true, strictEq_str_iff]
        exact hu
      simp [hu, this]

/-- C6, witness: `bob`, a kid of the family in the two-member store, joins it again. -/
theorem joinFamilyByCode_member_witness :
    ∃ s2 res, joinFamilyByCode "bob" (.str "adult") "AAAAAA" twoMemberStore
        = some (s2, some smithsWithBob, res)
      ∧ findFamilyByCode s2 (some (.str "AAAAAA")) = some smithsWithBob
      ∧ findFamilyById s2 (some (.str "fam_1")) = some smithsWithBob
      ∧ ((∀ f ∈ twoMemberStore.families, f.get "id" = some (.str "fam_1") → f = smithsWithBob)
          → s2.families = twoMemberStore.families)
      ∧ s2.planner = twoMemberStore.planner
      ∧ List.Forall₂ (fun u u2 =>
            (u.get "username" = some (.str "bob")
              → u2 = (u.set "familyId" (.str "fam_1")).set "role" (.str "adult"))
            ∧ (u.get "username" ≠ some (.str "bob") → u2 = u))
          twoMemberStore.users s2.users
      ∧ ∀ u : JObj, u.get "familyId" = some (.str "fam_1") → u.get "role" = some (.str "adult") →
          (u.set "familyId" (.str "fam_1")).set "role" (.str "adult") = u :=
  joinFamilyByCode_member "bob" (.str "adult") "AAAAAA" twoMemberStore smithsWithBob "fam_1"
    rfl rfl rfl

/-- C6, counterexample: `bob` is a kid of the family, in the roster and in his user record;
he calls `joinFamilyByCode` again with the role `adult`: the roster still lists him, but
his user record now has the role `adult`. -/
theorem joinFamilyByCode_member_rewrites_user :
    findFamilyByCode twoMemberStore (some (.str "AAAAAA")) = some smithsWithBob
      ∧ someMember "bob" (roster smithsWithBob) = some true
      ∧ findUserByUsername twoMemberStore "bob"
          = some [("username", .str "bob"), ("familyId", .str "fam_1"), ("role", .str "kid")]
      ∧ (joinFamilyByCode "bob" (.str "adult") "AAAAAA" twoMemberStore).map
            (fun r => findUserByUsername r.1 "bob")
          = some (some [("username", .str "bob"), ("familyId", .str "fam_1"),
              ("role", .str "adult")]) :=
  ⟨rfl, rfl, rfl, rfl⟩

/-- C7, as amended: in a store whose family codes are pairwise distinct, let `F` be the
one family with id `i` and `c` its code.  When at least one of the 2000 attempts of the
first regeneration is a code no family has, `regenerateFamilyCode(i)` gives `F` a code
different from `c`, the code `c` no longer resolves and the new code resolves to the
rewritten family; when the same is true of the attempts of a second regeneration, it again
gives a code different from the previous one, the previous code no longer resolves, the
newest code resolves to the family, and the codes are still pairwise distinct. -/
theorem regenerateFamilyCode_twice (i c : String) (rng1 rng2 : Rng) (clock1 clock2 : Clock)
    (s : Store) (F : JObj)
    (hcodes : CodesDistinct s)
    (hF : (s.families.filter fun f => strictEq (f.get "id") (some (.str i))) = [F])
    (hc : F.get "code" = some (.str c))
    (hfree1 : SomeAttemptFree rng1 s)
    (hfree2 : SomeAttemptFree rng2 (regenerateFamilyCode i rng1 clock1 s).1) :
    ∃ new1 new2 F1 F2,
      (regenerateFamilyCode i rng1 clock1 s).2 = some F1
      ∧ F1 = regeneratedDoc F new1 (clock1 0)
      ∧ new1 ≠ c
      ∧ findFamilyByCode (regenerateFamilyCode i rng1 clock1 s).1 (some (.str c)) = none
      ∧ findFamilyByCode (regenerateFamilyCode i rng1 clock1 s).1 (some (.str new1)) = some F1
      ∧ findFamilyById (regenerateFamilyCode i rng1 clock1 s).1 (some (.str i)) = some F1
      ∧ (regenerateFamilyCode i rng2 clock2 (regenerateFamilyCode i rng1 clock1 s).1).2 = some F2
      ∧ F2 = regeneratedDoc F1 new2 (clock2 0)
      ∧ new2 ≠ new1
      ∧ findFamilyByCode (regenerateFamilyCode i rng2 clock2
          (regenerateFamilyCode i rng1 clock1 s).1).1 (some (.str new1)) = none
      ∧ findFamilyByCode (regenerateFamilyCode i rng2 clock2
          (regenerateFamilyCode i rng1 clock1 s).1).1 (some (.str new2)) = some F2
      ∧ findFamilyById (regenerateFamilyCode i rng2 clock2
          (regenerateFamilyCode i rng1 clock1 s).1).1 (some (.str i)) = some F2
      ∧ CodesDistinct (regenerateFamilyCode i rng2 clock2
          (regenerateFamilyCode i rng1 clock1 s).1).1 := by
  obtain ⟨new1, hne1, hres1, hold1, hnew1, hid1, hcodes1, hF1⟩ :=
    regenerateFamilyCode_step i c rng1 clock1 s F hcodes hF hc hfree1
  obtain ⟨new2, hne2, hres2, hold2, hnew2, hid2, hcodes2, -⟩ :=
    regenerateFamilyCode_step i new1 rng2 clock2 _ _ hcodes1 hF1
      (regeneratedDoc_get_code F new1 (clock1 0)) hfree2
  exact ⟨new1, new2, _, _, hres1, rfl, hne1, hold1, hnew1, hid1, hres2, rfl, hne2, hold2, hnew2,
    hid2, hcodes2⟩

/-- C7, witness: two regenerations on the one-family store, the first drawing `BBBBBB`,
the second `CCCCCC`. -/
theorem regenerateFamilyCode_twice_witness :
    ∃ new1 new2 F1 F2,
      (regenerateFamilyCode "fam_1" onesRng stillClock oneFamilyStore).2 = some F1
      ∧ F1 = regeneratedDoc (newFamilyDoc (.str "Smiths") "alice" "fam_1"
          "2024-05-01T10:00:00.000Z" "AAAAAA") new1 (stillClock 0)
      ∧ new1 ≠ "AAAAAA"
      ∧ findFamilyByCode (regenerateFamilyCode "fam_1" onesRng stillClock oneFamilyStore).1
          (some (.str "AAAAAA")) = none
      ∧ findFamilyByCode (regenerateFamilyCode "fam_1" onesRng stillClock oneFamilyStore).1
          (some (.str new1)) = some F1
      ∧ findFamilyById (regenerateFamilyCode "fam_1" onesRng stillClock oneFamilyStore).1
          (some (.str "fam_1")) = some F1
      ∧ (regenerateFamilyCode "fam_1" twosRng stillClock
          (regenerateFamilyCode "fam_1" onesRng stillClock oneFamilyStore).1).2 = some F2
      ∧ F2 = regeneratedDoc F1 new2 (stillClock 0)
      ∧ new2 ≠ new1
      ∧ findFamilyByCode (regenerateFamilyCode "fam_1" twosRng stillClock
          (regenerateFamilyCode "fam_1" onesRng stillClock oneFamilyStore).1).1
          (some (.str new1)) = none
      ∧ findFamilyByCode (regenerateFamilyCode "fam_1" twosRng stillClock
          (regenerateFamilyCode "fam_1" onesRng stillClock oneFamilyStore).1).1
          (some (.str new2)) = some F2
      ∧ findFamilyById (regenerateFamilyCode "fam_1" twosRng stillClock
          (regenerateFamilyCode "fam_1" onesRng stillClock oneFamilyStore).1).1
          (some (.str "fam_1")) = some F2
      ∧ CodesDistinct (regenerateFamilyCode "fam_1" twosRng stillClock
          (regenerateFamilyCode "fam_1" onesRng stillClock oneFamilyStore).1).1 :=
  regenerateFamilyCode_twice "fam_1" "AAAAAA" onesRng twosRng stillClock stillClock
    oneFamilyStore
    (newFamilyDoc (.str "Smiths") "alice" "fam_1" "2024-05-01T10:00:00.000Z" "AAAAAA")
    (by simp [CodesDistinct, oneFamilyStore])
    rfl rfl
    ⟨0, by decide, by
      rw [attemptNo_onesRng]
      simp [oneFamilyStore, newFamilyDoc, JObj.get]⟩
    ⟨0, by decide, by
      rw [attemptNo_twosRng]
      have h1 : (regenerateFamilyCode "fam_1" onesRng stillClock oneFamilyStore).1.families
          = [regeneratedDoc (newFamilyDoc (.str "Smiths") "alice" "fam_1"
              "2024-05-01T10:00:00.000Z" "AAAAAA") "BBBBBB" "2024-05-03T09:00:00.000Z"] := rfl
      rw [h1]
      simp [regeneratedDoc_get_code]⟩

/-- C7, counterexample: on the one-family store (code `AAAAAA`, so the codes are pairwise
distinct) with every draw `A`, all 2000 attempts collide: `regenerateFamilyCode("fam_1")`
returns the family with the code `AAAAAA` it had, and that code still resolves to it. -/
theorem regenerateFamilyCode_keeps_code_when_exhausted :
    CodesDistinct oneFamilyStore
      ∧ findFamilyById oneFamilyStore (some (.str "fam_1"))
          = some (newFamilyDoc (.str "Smiths") "alice" "fam_1" "2024-05-01T10:00:00.000Z"
              "AAAAAA")
      ∧ (regenerateFamilyCode "fam_1" zeroRng stillClock oneFamilyStore).2
          = some (regeneratedDoc (newFamilyDoc (.str "Smiths") "alice" "fam_1"
              "2024-05-01T10:00:00.000Z" "AAAAAA") "AAAAAA" "2024-05-03T09:00:00.000Z")
      ∧ findFamilyByCode (regenerateFamilyCode "fam_1" zeroRng stillClock oneFamilyStore).1
            (some (.str "AAAAAA"))
          = some (regeneratedDoc (newFamilyDoc (.str "Smiths") "alice" "fam_1"
              "2024-05-01T10:00:00.000Z" "AAAAAA") "AAAAAA" "2024-05-03T09:00:00.000Z") := by
  refine ⟨by simp [CodesDistinct, oneFamilyStore], rfl, ?_, ?_⟩
  · rw [regenerateFamilyCode_unique "fam_1" zeroRng stillClock oneFamilyStore [] []
        (newFamilyDoc (.str "Smiths") "alice" "fam_1" "2024-05-01T10:00:00.000Z" "AAAAAA")
        rfl (by simp) rfl (by simp), generateFamilyCode_oneFamilyStore_zeroRng]
    rfl
  · rw [regenerateFamilyCode_unique "fam_1" zeroRng stillClock oneFamilyStore [] []
        (newFamilyDoc (.str "Smiths") "alice" "fam_1" "2024-05-01T10:00:00.000Z" "AAAAAA")
        rfl (by simp) rfl (by simp), generateFamilyCode_oneFamilyStore_zeroRng]
    rfl

/-- C8: `regenerateFamilyCode(i)` leaves the users and the planners as they are, leaves every
family whose id is not `i` as it is, and rewrites a family whose id is `i` to
`{ ...family, code, regeneratedAt }`: every field other than `code` and `regeneratedAt`
(so `id`, `name`, `owner`, `createdAt`, `members`, `reminders`, `chat`) keeps its value.
When a family has the id, the family returned is one of the rewritten families. -/
theorem regenerateFamilyCode_frame (i : String) (rng : Rng) (clock : Clock) (s : Store) :
    (regenerateFamilyCode i rng clock s).1.users = s.users
      ∧ (regenerateFamilyCode i rng clock s).1.planner = s.planner
      ∧ List.Forall₂ (fun f f2 =>
            (f.get "id" = some (.str i) →
              (∃ code now, f2.get "code" = some (.str code)
                ∧ f2.get "regeneratedAt" = some (.str now))
              ∧ ∀ k, k ≠ "code" → k ≠ "regeneratedAt" → f2.get k = f.get k)
            ∧ (f.get "id" ≠ some (.str i) → f2 = f))
          s.families (regenerateFamilyCode i rng clock s).1.families
      ∧ ((findFamilyById s (some (.str i))).isSome = true →
          ∃ f2, (regenerateFamilyCode i rng clock s).2 = some f2
            ∧ f2 ∈ (regenerateFamilyCode i rng clock s).1.families
            ∧ f2.get "id" = some (.str i)) := by
  refine ⟨rfl, rfl, ?_, ?_⟩
  · have := regenerateFamilies_frame
      (codeTaken s ((clone s).families.map fun f => f.get "code")) i s.families rng clock
    refine List.Forall₂.imp ?_ this
    intro f f2 h
    refine ⟨fun hid => ?_, h.2⟩
    obtain ⟨code, now, rfl⟩ := h.1 hid
    exact ⟨⟨code, now, regeneratedDoc_get_code f code now,
      regeneratedDoc_get_regeneratedAt f code now⟩,
      fun k h1 h2 => regeneratedDoc_get_other f code now k h1 h2⟩
  · intro hex
    simp only [findFamilyById, clone, List.find?_isSome] at hex
    have hsome := regenerateFamilies_result_isSome
      (codeTaken s ((clone s).families.map fun f => f.get "code")) i s.families rng clock hex
    obtain ⟨f2, hf2⟩ := Option.isSome_iff_exists.1 hsome
    have := regenerateFamilies_result_mem _ i s.families rng clock f2 hf2
    exact ⟨f2, hf2, this.1, this.2⟩

/-- C9, as amended: `PUT` merges the submitted document `d` (a proper object with a truthy
id) into the stored one.  When no family has the id of `d` the reply is 404 and the store is
unchanged.  When a family has it and the chat of `d` can be sanitized, the reply is 200,
users and planners are unchanged, a family with another id is unchanged, and in a family
with the id of `d` the field `chat` is the sanitized chat of `d` and every other field is
the one of `d` when `d` has it and the previously stored one when `d` omits it. -/
theorem putFamily_merges (d : JObj) (s : Store)
    (hd : d.keys.Nodup) (hid : truthy (d.get "id") = true) :
    (findFamilyById s (d.get "id") = none →
        (putFamily (some (.obj d)) s).status = 404
        ∧ (putFamily (some (.obj d)) s).store = s)
    ∧ (∀ chat, (findFamilyById s (d.get "id")).isSome = true → sanitizedChatOf d = some chat →
        (putFamily (some (.obj d)) s).status = 200
        ∧ (putFamily (some (.obj d)) s).store.users = s.users
        ∧ (putFamily (some (.obj d)) s).store.planner = s.planner
        ∧ List.Forall₂ (fun f f2 =>
              (strictEq (f.get "id") (d.get "id") = true →
                f2.get "chat" = some (.arr chat)
                ∧ ∀ k, k ≠ "chat" → f2.get k = mergedField f d k)
              ∧ (strictEq (f.get "id") (d.get "id") = false → f2 = f))
            s.families (putFamily (some (.obj d)) s).store.families) := by
  constructor
  · intro hnone
    simp [putFamily, hid, hnone]
  · intro chat hfound hchat
    rw [putFamily_ok d s chat hid hfound hchat]
    refine ⟨rfl, rfl, rfl, ?_⟩
    show List.Forall₂ _ s.families (saveFamily (d.set "chat" (.arr chat)) s).1.families
    rw [saveFamily_families, List.forall₂_map_right_iff]
    apply List.forall₂_same.2
    intro f _
    have hkeys : (d.set "chat" (.arr chat)).keys.Nodup := JObj.keys_set_nodup d _ _ hd
    rw [JObj.get_set_other _ _ _ _ (by decide)]
    constructor
    · intro hm
      simp only [hm, if_true]
      constructor
      · rw [JObj.get_spread _ _ _ hkeys]
        simp [mergedField, JObj.get_set_self]
      · intro k hk
        rw [JObj.get_spread _ _ _ hkeys]
        simp [mergedField, JObj.get_set_other _ _ _ _ (Ne.symm hk)]
    · intro hm
      simp [hm]

/-- C9, witness: `PUT` of a document with only `id` and `name` on the two-member store. -/
theorem putFamily_merges_witness :
    (findFamilyById twoMemberStore (renameDoc.get "id") = none →
        (putFamily (some (.obj renameDoc)) twoMemberStore).status = 404
        ∧ (putFamily (some (.obj renameDoc)) twoMemberStore).store = twoMemberStore)
    ∧ (∀ chat, (findFamilyById twoMemberStore (renameDoc.get "id")).isSome = true →
        sanitizedChatOf renameDoc = some chat →
        (putFamily (some (.obj renameDoc)) twoMemberStore).status = 200
        ∧ (putFamily (some (.obj renameDoc)) twoMemberStore).store.users = twoMemberStore.users
        ∧ (putFamily (some (.obj renameDoc)) twoMemberStore).store.planner
            = twoMemberStore.planner
        ∧ List.Forall₂ (fun f f2 =>
              (strictEq (f.get "id") (renameDoc.get "id") = true →
                f2.get "chat" = some (.arr chat)
                ∧ ∀ k, k ≠ "chat" → f2.get k = mergedField f renameDoc k)
              ∧ (strictEq (f.get "id") (renameDoc.get "id") = false → f2 = f))
            twoMemberStore.families
            (putFamily (some (.obj renameDoc)) twoMemberStore).store.families) :=
  putFamily_merges renameDoc twoMemberStore (by decide) rfl

/-- C9, counterexample: the submitted document has only `id` and `name`; after the `PUT`
the stored family is not that document: it still has the code, the owner, the creation
time, the two members and the reminders of the family stored before. -/
theorem putFamily_keeps_omitted_fields :
    renameDoc.get "members" = none
      ∧ (putFamily (some (.obj renameDoc)) twoMemberStore).status = 200
      ∧ (putFamily (some (.obj renameDoc)) twoMemberStore).store.families
          = [[("id", .str "fam_1"), ("name", .str "Smith family"), ("code", .str "AAAAAA"),
              ("owner", .str "alice"), ("createdAt", .str "2024-05-01T10:00:00.000Z"),
              ("members", .arr [memberEntry "alice" (.str "owner"),
                                memberEntry "bob" (.str "kid")]),
              ("reminders", .arr []), ("chat", .arr [])]] :=
  ⟨rfl, rfl, rfl⟩

/-- C10, as amended: in every store reached from the empty store by a sequence of `POST`,
`PUT`, `PATCH join`, `PATCH regenerate` and `PATCH updateMemberRole` requests in which every
family creation gets an unused id and every code generation finds a free code within its
2000 attempts, and in which no `PUT` changes the code of a family, no two families have the
same code, and every code is the code of at most one family. -/
theorem guardedRun_codes_unique (reqs : List Request) (h : GuardedRun reqs DEFAULT_STORE) :
    CodesDistinct (run reqs DEFAULT_STORE)
      ∧ ∀ c, ((run reqs DEFAULT_STORE).families.filter
          fun f => strictEq (f.get "code") (some (.str c))).length ≤ 1 := by
  have hinv := run_inv reqs DEFAULT_STORE Inv_default h
  exact ⟨hinv.2.2, filter_code_length_le_one _ hinv.2.2⟩

/-- C10, witness: two families are created, `bob` joins the first, its code is regenerated
and it is renamed by a `PUT` that carries no code. -/
theorem guardedRun_codes_unique_witness :
    CodesDistinct (run quietRequests DEFAULT_STORE)
      ∧ ∀ c, ((run quietRequests DEFAULT_STORE).families.filter
          fun f => strictEq (f.get "code") (some (.str c))).length ≤ 1 :=
  guardedRun_codes_unique quietRequests quietRequests_guarded

/-- C10, counterexample: after two `POST` requests and a `PUT` that gives the second family
the code of the first, both families have the code `AAAAAA`; `findFamilyByCode` resolves it
to the first of them. -/
theorem put_breaks_code_uniqueness :
    ((run hijackRequests DEFAULT_STORE).families.map fun f => (f.get "id", f.get "code"))
        = [(some (.str "fam_1"), some (.str "AAAAAA")),
           (some (.str "fam_2"), some (.str "AAAAAA"))]
      ∧ ((findFamilyByCode (run hijackRequests DEFAULT_STORE) (some (.str "AAAAAA"))).map
          fun f => f.get "id") = some (some (.str "fam_1"))
      ∧ ¬ CodesDistinct (run hijackRequests DEFAULT_STORE) := by
  refine ⟨rfl, rfl, ?_⟩
  intro h
  rw [CodesDistinct, pairwise_get_iff_map] at h
  have hm : ((run hijackRequests DEFAULT_STORE).families.map fun f => JObj.get f "code")
      = [some (.str "AAAAAA"), some (.str "AAAAAA")] := rfl
  rw [hm] at h
  simp at h

/-- C12, at the failing input: `bob` exists; a `PUT` of `api/users` submits his
`lastDeviceId` and `lastDeviceLabel` (as the dashboard does on load).  The reply is 200, but
the two keys are not in the list `allowed` of the handler: nothing is written, the store is
the same as before and the record returned has no `lastDeviceId`. -/
theorem putUser_drops_device_info :
    safeUpdatesOf (.obj [("lastDeviceId", .str "device_1"),
        ("lastDeviceLabel", .str "Desktop")]) = []
      ∧ (putUser "bob" (some (.obj [("lastDeviceId", .str "device_1"),
          ("lastDeviceLabel", .str "Desktop")])) oneFamilyStore).status = 200
      ∧ (putUser "bob" (some (.obj [("lastDeviceId", .str "device_1"),
          ("lastDeviceLabel", .str "Desktop")])) oneFamilyStore).store = oneFamilyStore
      ∧ ((putUser "bob" (some (.obj [("lastDeviceId", .str "device_1"),
          ("lastDeviceLabel", .str "Desktop")])) oneFamilyStore).user.map
            fun u => u.get "lastDeviceId") = some none :=
  ⟨rfl, rfl, rfl, rfl⟩

/-- C13, at the counterexample: the registered user `__proto__` has no stored planner; the
`GET` of `api/planner` answers 200 with the planner `{}`, which has no `entries`, and not
with `{entries: []}`. -/
theorem getPlanner_of_proto_user :
    protoUserStore.planner.get "__proto__" = none
      ∧ (getPlannerRequest "__proto__" protoUserStore).status = 200
      ∧ (getPlannerRequest "__proto__" protoUserStore).planner = some (.obj [])
      ∧ property (getPlanner protoUserStore "__proto__") "entries" = none :=
  ⟨rfl, rfl, rfl, rfl⟩

/-- C13, as the code has it: `setPlanner(username, {entries})` returns `{entries}` and a
following `getPlanner(username)` returns `{entries}`, with exactly the submitted list, for
every username; `getPlanner` for a username without a stored planner returns
`{entries: []}` when the username is not `__proto__`. -/
theorem planner_round_trip (s : Store) (username : String) (entries : List JVal) :
    (setPlanner username (some (.obj [("entries", .arr entries)])) s).2
        = .obj [("entries", .arr entries)]
      ∧ getPlanner (setPlanner username (some (.obj [("entries", .arr entries)])) s).1 username
        = .obj [("entries", .arr entries)]
      ∧ (username ≠ "__proto__" → s.planner.get username = none →
          getPlanner s username = .obj [("entries", .arr [])]) := by
  have h : getPlanner (setPlanner username (some (.obj [("entries", .arr entries)])) s).1
      username = .obj [("entries", .arr entries)] := by
    simp [getPlanner, setPlanner, updateStore, clone, JObj.get_set_self, truthy, typeofObject]
  refine ⟨h, h, ?_⟩
  intro hname hnone
  simp [getPlanner, hnone, hname]

theorem planner_round_trip_witness :
    getPlanner (setPlanner "bob" (some (.obj [("entries", .arr [dentistEntry])]))
        DEFAULT_STORE).1 "bob" = .obj [("entries", .arr [dentistEntry])]
      ∧ getPlanner DEFAULT_STORE "bob" = .obj [("entries", .arr [])] :=
  ⟨(planner_round_trip DEFAULT_STORE "bob" [dentistEntry]).2.1,
    (planner_round_trip DEFAULT_STORE "bob" []).2.2 (by decide) rfl⟩

/-- C11, at the counterexample: `alice` creates a family and `bob` joins it with the role
`owner`; both requests are served, and the family then has two members whose role is
`owner`. -/
theorem join_makes_second_owner :
    ((run secondOwnerRequests DEFAULT_STORE).families.map fun f =>
        (f.get "owner", roster f, ownerCount (roster f)))
      = [(some (.str "alice"),
          [memberEntry "alice" (.str "owner"), memberEntry "bob" (.str "owner")], 2)] :=
  rfl

/-- C11, as the code has it: single ownership is kept by the runs from the empty store in
which every `join` gives the role `adult` or `kid` (or none), every `updateMemberRole` gives
`adult` or `kid` to a user who is not the owner of the family, and every `PUT` document has
distinct keys and leaves `members` and `owner` out or as stored.  After such a run every
family has exactly one member with the role `owner`, that member is the one of the `owner`
field, and every role is one of `owner`, `adult`, `kid`. -/
theorem roleGuardedRun_single_owner (reqs : List Request)
    (h : RoleGuardedRun reqs DEFAULT_STORE) :
    ∀ f ∈ (run reqs DEFAULT_STORE).families,
      ∃ o, f.get "owner" = some (.str o)
        ∧ ownerCount (roster f) = 1
        ∧ (∀ e ∈ roster f, property e "role" = some (.str "owner") →
            property e "username" = some (.str o))
        ∧ ∀ e ∈ roster f, RoleOk e :=
  (run_ownerInv reqs DEFAULT_STORE OwnerInv_default h).2

theorem roleGuardedRun_single_owner_witness :
    RoleGuardedRun ownerSafeRequests DEFAULT_STORE
      ∧ ((run ownerSafeRequests DEFAULT_STORE).families.map fun f => roster f)
          = [[memberEntry "alice" (.str "owner"), memberEntry "bob" (.str "kid")]]
      ∧ ∀ f ∈ (run ownerSafeRequests DEFAULT_STORE).families,
          ∃ o, f.get "owner" = some (.str o)
            ∧ ownerCount (roster f) = 1
            ∧ (∀ e ∈ roster f, property e "role" = some (.str "owner") →
                property e "username" = some (.str o))
            ∧ ∀ e ∈ roster f, RoleOk e :=
  ⟨ownerSafeRequests_guarded, rfl,
    roleGuardedRun_single_owner ownerSafeRequests ownerSafeRequests_guarded⟩

/-- C14, at the counterexample: two chat messages with valid time stamps and distinct ids,
sent at the same instant but with two spellings of it; the comparator gives `0`, the
sort keeps the order of the list, and the two orders of the chat have different
signatures. -/
theorem computeFamilySignature_order_matters :
    sampleEnv.timeValue "2024-05-01T10:00:00.000Z" = some 1714557600000
      ∧ sampleEnv.timeValue "2024-05-01T10:00:00Z" = some 1714557600000
      ∧ sameInstantChat.reverse.Perm sameInstantChat
      ∧ signatureDiffers
          (computeFamilySignature sampleEnv
            (some (.obj (withLists smithsWithBob twoMembers sameInstantChat))))
          (computeFamilySignature sampleEnv
            (some (.obj (withLists smithsWithBob twoMembers sameInstantChat.reverse)))) = true :=
  ⟨rfl, rfl, List.reverse_perm _, rfl⟩

/-- C14, as the code has it: when the usernames of the members are distinct strings that
`localeCompare` orders, the ids of the chat messages are distinct strings that
`localeCompare` orders, every `createdAt` is a valid time stamp and two messages with the
same date have the same `createdAt` string, then every permutation of the members and
every permutation of the chat gives the same signature, which is not `null`. -/
theorem computeFamilySignature_perm (env : Env) (family : JObj)
    (members1 members2 chat1 chat2 : List JVal)
    (hm : members1.Perm members2) (hc : chat1.Perm chat2)
    (hmembers : MembersOrdered env members1) (hchat : ChatOrdered env chat1) :
    computeFamilySignature env (some (.obj (withLists family members1 chat1)))
        = computeFamilySignature env (some (.obj (withLists family members2 chat2)))
      ∧ (computeFamilySignature env (some (.obj (withLists family members1 chat1)))).isSome
          = true := by
  obtain ⟨rm, hrm1, hrm2⟩ := projectAndSort_perm ["username", "role"] (memberOrder env)
    members1 members2 hm
    (fun x hx => by
      obtain ⟨n, hn⟩ := hmembers.1 x hx
      exact ne_null_of_property x _ _ hn)
    (memberOrder_consistent env members1 hmembers)
  obtain ⟨rc, hrc1, hrc2⟩ := projectAndSort_perm ["id", "username", "message", "createdAt"]
    (chatOrder env) chat1 chat2 hc
    (fun x hx => by
      obtain ⟨n, hn⟩ := hchat.1 x hx
      exact ne_null_of_property x _ _ hn)
    (chatOrder_consistent env chat1 hchat)
  have get_members : ∀ members chat : List JVal,
      property (.obj (withLists family members chat)) "members" = some (.arr members) := by
    intro members chat
    simp only [property, withLists]
    rw [JObj.get_set_other _ _ _ _ (by decide), JObj.get_set_self]
  have get_chat : ∀ members chat : List JVal,
      property (.obj (withLists family members chat)) "chat" = some (.arr chat) := by
    intro members chat
    simp only [property, withLists]
    rw [JObj.get_set_self]
  have get_other : ∀ (members chat : List JVal) (k : String), k ≠ "members" → k ≠ "chat" →
      property (.obj (withLists family members chat)) k = family.get k := by
    intro members chat k h1 h2
    simp only [property, withLists]
    rw [JObj.get_set_other _ _ _ _ (fun e => h2 e.symm),
      JObj.get_set_other _ _ _ _ (fun e => h1 e.symm)]
  simp only [computeFamilySignature, truthy, Bool.not_true, Bool.false_eq_true, if_false,
    get_members, get_chat, hrm1, hrm2, hrc1, hrc2,
    get_other _ _ "id" (by decide) (by decide), get_other _ _ "code" (by decide) (by decide)]
  exact ⟨trivial, rfl⟩

theorem computeFamilySignature_perm_witness :
    twoMembers.Perm twoMembers.reverse ∧ orderedChat.Perm orderedChat.reverse
      ∧ MembersOrdered sampleEnv twoMembers ∧ ChatOrdered sampleEnv orderedChat
      ∧ computeFamilySignature sampleEnv (some (.obj (withLists smithsWithBob twoMembers orderedChat)))
          = computeFamilySignature sampleEnv
              (some (.obj (withLists smithsWithBob twoMembers.reverse orderedChat.reverse)))
      ∧ (computeFamilySignature sampleEnv
            (some (.obj (withLists smithsWithBob twoMembers orderedChat)))).isSome = true :=
  ⟨(List.reverse_perm _).symm, (List.reverse_perm _).symm, twoMembers_ordered,
    orderedChat_ordered,
    computeFamilySignature_perm sampleEnv smithsWithBob twoMembers twoMembers.reverse
      orderedChat orderedChat.reverse (List.reverse_perm _).symm (List.reverse_perm _).symm
      twoMembers_ordered orderedChat_ordered⟩

/-- C15, at the counterexample: two family documents that differ in the name and in the
reminders (and in nothing that the signature reads) have the same signature. -/
theorem computeFamilySignature_ignores_name :
    smithsWithBob.get "name" = some (.str "Smiths")
      ∧ smithsRenamed.get "name" = some (.str "Smith family")
      ∧ smithsWithBob.get "reminders" = some (.arr [])
      ∧ smithsRenamed.get "reminders"
          = some (.arr [.obj [("id", .str "rem_1"), ("title", .str "Buy milk")]])
      ∧ signatureDiffers (computeFamilySignature sampleEnv (some (.obj smithsWithBob)))
          (computeFamilySignature sampleEnv (some (.obj smithsRenamed))) = false
      ∧ (computeFamilySignature sampleEnv (some (.obj smithsWithBob))).isSome = true :=
  ⟨rfl, rfl, rfl, rfl, rfl, rfl⟩

/-- C15, as the code has it: the signature reads the `id`, the `code`, the username and role
of every member and the id, username, message and createdAt of every chat message, and
nothing else.  Writing any other field of a document leaves the signature as it is; and
two documents with the same signature (not `null`) have the same `id`, the same `code`,
the same members as `{username, role}` objects up to order, and the same chat messages
as `{id, username, message, createdAt}` objects up to order. -/
theorem computeFamilySignature_reads (env : Env) (a b : JObj) :
    (∀ (k : String) (v : JVal), k ∉ ["id", "code", "members", "chat"] →
        computeFamilySignature env (some (.obj (a.set k v)))
          = computeFamilySignature env (some (.obj a)))
      ∧ ∀ sig : JVal, computeFamilySignature env (some (.obj a)) = some sig →
          computeFamilySignature env (some (.obj b)) = some sig →
          a.get "id" = b.get "id" ∧ a.get "code" = b.get "code"
            ∧ ((arrayItems (a.get "members")).map (projected ["username", "role"])).Perm
                ((arrayItems (b.get "members")).map (projected ["username", "role"]))
            ∧ ((arrayItems (a.get "chat")).map
                  (projected ["id", "username", "message", "createdAt"])).Perm
                ((arrayItems (b.get "chat")).map
                  (projected ["id", "username", "message", "createdAt"])) := by
  constructor
  · intro k v hk
    have h1 : k ≠ "id" := fun e => hk (by simp [e])
    have h2 : k ≠ "code" := fun e => hk (by simp [e])
    have h3 : k ≠ "members" := fun e => hk (by simp [e])
    have h4 : k ≠ "chat" := fun e => hk (by simp [e])
    simp only [computeFamilySignature, property, JObj.get_set_other _ _ _ _ h1,
      JObj.get_set_other _ _ _ _ h2, JObj.get_set_other _ _ _ _ h3,
      JObj.get_set_other _ _ _ _ h4, truthy]
  · intro sig ha hb
    obtain ⟨m, c, hm, hc, hsig⟩ := computeFamilySignature_some env a sig ha
    obtain ⟨m2, c2, hm2, hc2, hsig2⟩ := computeFamilySignature_some env b sig hb
    rw [hsig] at hsig2
    obtain ⟨e1, e2, e3, e4⟩ := signature_literal_inj _ _ _ _ _ _ _ _ (JVal.obj.inj hsig2)
    subst e3
    subst e4
    exact ⟨e1, e2,
      (projectAndSort_perm_of_some _ _ _ _ hm).symm.trans
        (projectAndSort_perm_of_some _ _ _ _ hm2),
      (projectAndSort_perm_of_some _ _ _ _ hc).symm.trans
        (projectAndSort_perm_of_some _ _ _ _ hc2)⟩

theorem computeFamilySignature_reads_witness :
    computeFamilySignature sampleEnv (some (.obj (withLists smithsWithBob twoMembers orderedChat)))
        = computeFamilySignature sampleEnv
            (some (.obj (withLists smithsRenamed twoMembers.reverse orderedChat.reverse)))
      ∧ ((arrayItems ((withLists smithsWithBob twoMembers orderedChat).get "members")).map
            (projected ["username", "role"])).Perm
          ((arrayItems ((withLists smithsRenamed twoMembers.reverse
              orderedChat.reverse).get "members")).map (projected ["username", "role"])) :=
  ⟨rfl,
    ((computeFamilySignature_reads sampleEnv (withLists smithsWithBob twoMembers orderedChat)
      (withLists smithsRenamed twoMembers.reverse orderedChat.reverse)).2
        ((computeFamilySignature sampleEnv
          (some (.obj (withLists smithsWithBob twoMembers orderedChat)))).getD .null)
        rfl rfl).2.2.1⟩

/-- C16, at the counterexample: the server sends the family with a chat message whose
`createdAt` is not a date.  No mutation is pending, the pull succeeds and the signature of
the document is not `null` and differs from the last one; the sync writes the document to
the cache, but `renderFamilyChat()` throws on the date, the `catch` returns `false`, and
the sync reports no change. -/
theorem syncCurrentFamilyFromServer_render_throws :
    (computeFamilySignature sampleEnv (some (.obj smithsBadDate))).isSome = true
      ∧ signatureDiffers (computeFamilySignature sampleEnv (some (.obj smithsBadDate)))
          bobClient.lastFamilySyncSignature = true
      ∧ (syncCurrentFamilyFromServer sampleEnv true
          (.ok (.obj [("family", .obj smithsBadDate)])) bobClient).1.currentFamily
          = some (.obj smithsBadDate)
      ∧ (renderFamilyChat sampleEnv
          { bobClient with currentFamily := some (.obj smithsBadDate) }).2 = false
      ∧ (syncCurrentFamilyFromServer sampleEnv true
          (.ok (.obj [("family", .obj smithsBadDate)])) bobClient).2 = some false :=
  ⟨rfl, rfl, rfl, rfl, rfl⟩

/-- C16, as the code has it: when the pull of a sync succeeds with a family document whose
signature differs from the last one, and the renders that follow complete, the cached
family is the pulled document, the first entry of the cached list with its id is the
pulled document, the last signature is the signature of the pulled document, which is not
`null`, and the sync returns `true`.  For the renders to complete and to resolve the
pulled family again, the pointer of the client names the pulled family, its members and
its chat can be ordered (distinct string usernames and ids, valid dates), the texts of
the chat are strings, its reminders can be drawn, and no family and no user of the cache
is `null`; the user is not the administrator and a family id is known. -/
theorem syncCurrentFamilyFromServer_adopts (env : Env) (silent : Bool) (s : Client)
    (data remote : JVal) (id : String) (members chat reminders : List JVal)
    (hadmin : s.isAdmin = false)
    (hknown : truthy (orElse (optProp s.currentFamily "id")
      (orElse (optProp s.currentUserRecord "familyId") (s.membershipItem.map .str))) = true)
    (hpointer : storedFamilyId s = some (.str id))
    (hdata : property data "family" = some remote)
    (hid : property remote "id" = some (.str id))
    (hmembers : property remote "members" = some (.arr members))
    (hordered : MembersOrdered env members)
    (hchat : property remote "chat" = some (.arr chat))
    (hchatOrdered : ChatOrdered env chat)
    (htexts : TextsAreStrings chat)
    (hrem : property remote "reminders" = some (.arr reminders))
    (hdraw : RemindersDrawable env reminders)
    (hcache : ∀ f ∈ s.familiesState, f ≠ .null)
    (husers : ∀ u ∈ loadUsers s, u ≠ .null)
    (hdiff : signatureDiffers (computeFamilySignature env (some remote))
      s.lastFamilySyncSignature = true) :
    (computeFamilySignature env (some remote)).isSome = true
      ∧ (syncCurrentFamilyFromServer env silent (.ok data) s).1.currentFamily = some remote
      ∧ (syncCurrentFamilyFromServer env silent (.ok data) s).1.familiesState.find?
          (fun f => strictEq (property f "id") (some (.str id))) = some remote
      ∧ (syncCurrentFamilyFromServer env silent (.ok data) s).1.lastFamilySyncSignature
          = computeFamilySignature env (some remote)
      ∧ (syncCurrentFamilyFromServer env silent (.ok data) s).2 = some true := by
  obtain ⟨sig, index, found, hsig, hfind, hsync, -, hafter⟩ := sync_of_drawable env silent s
    data remote id members chat reminders hadmin hknown hpointer hdata hid hmembers hordered
    hchat hchatOrdered htexts hrem hdraw hcache husers
  rw [hsig] at hdiff
  rw [hsync, hdiff, Bool.or_true, if_pos rfl]
  obtain ⟨-, hc, -, -, hcur, hlast⟩ := hafter
  refine ⟨by rw [hsig]; rfl, hcur, ?_, hlast, rfl⟩
  show (renderFamily env (adoptRemoteFamily env remote index found s)).1.familiesState.find? _
    = some remote
  rw [hc.1]
  exact hfind

theorem syncCurrentFamilyFromServer_adopts_witness :
    (syncCurrentFamilyFromServer sampleEnv true
        (.ok (.obj [("family", .obj smithsWithChat)])) bobClient).1.currentFamily
        = some (.obj smithsWithChat)
      ∧ (syncCurrentFamilyFromServer sampleEnv true
          (.ok (.obj [("family", .obj smithsWithChat)])) bobClient).1.familiesState.find?
            (fun f => strictEq (property f "id") (some (.str "fam_1")))
          = some (.obj smithsWithChat)
      ∧ (syncCurrentFamilyFromServer sampleEnv true
          (.ok (.obj [("family", .obj smithsWithChat)])) bobClient).1.lastFamilySyncSignature
          = computeFamilySignature sampleEnv (some (.obj smithsWithChat))
      ∧ (syncCurrentFamilyFromServer sampleEnv true
          (.ok (.obj [("family", .obj smithsWithChat)])) bobClient).2 = some true :=
  (syncCurrentFamilyFromServer_adopts sampleEnv true bobClient
    (.obj [("family", .obj smithsWithChat)]) (.obj smithsWithChat) "fam_1"
    [memberEntry "alice" (.str "owner"), memberEntry "bob" (.str "kid")]
    [chatMessage "msg_1" "alice" "hi" "2024-05-01T10:00:00.000Z"] []
    rfl rfl rfl rfl rfl rfl smithMembers_ordered rfl oneMessage_ordered
    (fun m hm => by rw [List.mem_singleton.1 hm]; exact ⟨"hi", rfl⟩)
    rfl (fun r hr => by simp at hr) bobClient_cache bobClient_users rfl).2

/-- C18, at the counterexample: the cache of `bob` holds the family under the name `Smiths`;
the server sends the family renamed and with a reminder, which has the same signature.
The silent sync returns `false` and asks for no re-render, but the cached family and the
cached list are replaced by the document pulled. -/
theorem syncCurrentFamilyFromServer_replaces_cache :
    signatureDiffers (computeFamilySignature sampleEnv (some (.obj smithsRenamed)))
        bobClient.lastFamilySyncSignature = false
      ∧ optProp bobClient.currentFamily "name" = some (.str "Smiths")
      ∧ (syncCurrentFamilyFromServer sampleEnv true
          (.ok (.obj [("family", .obj smithsRenamed)])) bobClient).2 = some false
      ∧ (syncCurrentFamilyFromServer sampleEnv true
          (.ok (.obj [("family", .obj smithsRenamed)])) bobClient).1.renders = []
      ∧ optProp (syncCurrentFamilyFromServer sampleEnv true
          (.ok (.obj [("family", .obj smithsRenamed)])) bobClient).1.currentFamily "name"
          = some (.str "Smith family")
      ∧ (syncCurrentFamilyFromServer sampleEnv true
          (.ok (.obj [("family", .obj smithsRenamed)])) bobClient).1.familiesState
          = [.obj smithsRenamed] :=
  ⟨rfl, rfl, rfl, rfl, rfl, rfl⟩

/-- C18, as the code has it: when the pull of a silent sync succeeds with a document whose
signature is the last one, the sync returns `false`, asks for no re-render and leaves
the last signature as it is; the cached family and the first entry of the cached list
with its id become the document pulled.  The members and the chat of the pulled document
can be ordered (distinct string usernames and ids, valid dates), so that its signature
is not `null`; the user is not the administrator, a family id is known, and the cached
list has no `null` entry. -/
theorem syncCurrentFamilyFromServer_unchanged (env : Env) (s : Client)
    (data remote : JVal) (id : String) (members chat : List JVal)
    (hadmin : s.isAdmin = false)
    (hknown : truthy (orElse (optProp s.currentFamily "id")
      (orElse (optProp s.currentUserRecord "familyId") (s.membershipItem.map .str))) = true)
    (hdata : property data "family" = some remote)
    (hid : property remote "id" = some (.str id))
    (hmembers : property remote "members" = some (.arr members))
    (hordered : MembersOrdered env members)
    (hchat : property remote "chat" = some (.arr chat))
    (hchatOrdered : ChatOrdered env chat)
    (hcache : ∀ f ∈ s.familiesState, f ≠ .null)
    (hsame : computeFamilySignature env (some remote) = s.lastFamilySyncSignature) :
    (syncCurrentFamilyFromServer env true (.ok data) s).2 = some false
      ∧ (syncCurrentFamilyFromServer env true (.ok data) s).1.renders = s.renders
      ∧ (syncCurrentFamilyFromServer env true (.ok data) s).1.lastFamilySyncSignature
          = s.lastFamilySyncSignature
      ∧ (syncCurrentFamilyFromServer env true (.ok data) s).1.currentFamily = some remote
      ∧ (syncCurrentFamilyFromServer env true (.ok data) s).1.familiesState.find?
          (fun f => strictEq (property f "id") (some (.str id))) = some remote := by
  have hget := getFamilyById_ok data remote hdata (truthy_of_property remote _ _ hid)
  obtain ⟨index, hindex⟩ := findIndexById_total (some (.str id)) s.familiesState hcache
  obtain ⟨found, hfound⟩ := optionalFind_total s.currentUser (property remote "members")
    (Or.inr (objectList_of_usernames _ members hmembers hordered.1))
  obtain ⟨sig, hsig⟩ := computeFamilySignature_of_ordered env remote members chat hmembers
    hordered hchat hchatOrdered
  have hfind := find_after_sync id remote hid s.familiesState index hindex
  have hdiff : signatureDiffers (some sig) s.lastFamilySyncSignature = false := by
    rw [← hsame, hsig]
    exact signatureDiffers_self _
  rw [syncCurrentFamilyFromServer_eq env true (.ok data) s remote index found hadmin hknown
    hget (by rw [hid]; exact hindex) hfound, hsig]
  simp only [Option.map_some', hdiff, Bool.not_true, Bool.false_or]
  rw [if_neg (by decide)]
  exact ⟨rfl, rfl, hsame, rfl, hfind⟩

theorem syncCurrentFamilyFromServer_unchanged_witness :
    (syncCurrentFamilyFromServer sampleEnv true
        (.ok (.obj [("family", .obj smithsRenamed)])) bobClient).2 = some false
      ∧ (syncCurrentFamilyFromServer sampleEnv true
          (.ok (.obj [("family", .obj smithsRenamed)])) bobClient).1.renders
          = bobClient.renders
      ∧ (syncCurrentFamilyFromServer sampleEnv true
          (.ok (.obj [("family", .obj smithsRenamed)])) bobClient).1.lastFamilySyncSignature
          = bobClient.lastFamilySyncSignature
      ∧ (syncCurrentFamilyFromServer sampleEnv true
          (.ok (.obj [("family", .obj smithsRenamed)])) bobClient).1.currentFamily
          = some (.obj smithsRenamed)
      ∧ (syncCurrentFamilyFromServer sampleEnv true
          (.ok (.obj [("family", .obj smithsRenamed)])) bobClient).1.familiesState.find?
            (fun f => strictEq (property f "id") (some (.str "fam_1")))
          = some (.obj smithsRenamed) :=
  syncCurrentFamilyFromServer_unchanged sampleEnv bobClient
    (.obj [("family", .obj smithsRenamed)]) (.obj smithsRenamed) "fam_1"
    [memberEntry "alice" (.str "owner"), memberEntry "bob" (.str "kid")] []
    rfl rfl rfl rfl rfl smithMembers_ordered rfl noMessage_ordered bobClient_cache rfl

/-- C19: when the request of a sync fails, `syncCurrentFamilyFromServer` and
`syncPlannerFromServer` return `false` and leave the whole state of the client, the
cached family, the cached list, the planner and the two signatures included, as it
was. -/
theorem failed_pull_keeps_cache (env : Env) (fuel : Nat) (rng : Rng) (silent : Bool)
    (s : Client) :
    syncCurrentFamilyFromServer env silent .failed s = (s, some false)
      ∧ syncPlannerFromServer env fuel rng silent .failed s = some (s, some false) := by
  constructor
  · simp only [syncCurrentFamilyFromServer, getFamilyById, Response.field, Option.map_none']
    split
    · rfl
    · split <;> rfl
  · simp only [syncPlannerFromServer, DataClient.getPlanner, Response.field,
      Option.map_none']
    split <;> rfl

/-- C17, at the counterexample: the server sends a planner whose only entry carries no share
code; after the sync the cached entry has a field `shareCode` that the entry pulled
does not have. -/
theorem syncPlannerFromServer_adds_share_code :
    property dentistEntry "shareCode" = none
      ∧ (syncPlannerFromServer sampleEnv 1 zeroRng true
          (.ok (.obj [("planner", .obj [("entries", .arr [dentistEntry])])])) bobClient).map
          (fun r => (r.1.plannerData.get "entries", r.2))
        = some (some (.arr [withShareCode dentistEntry "AAAAAA"]), some true)
      ∧ property (withShareCode dentistEntry "AAAAAA") "shareCode" = some (.str "AAAAAA") :=
  ⟨rfl, rfl, rfl⟩

/-- C17, as the code has it: when the pull of a planner sync succeeds with a planner whose
entries all carry a share code and can be ordered (their `id`, `startDate` and
`startTime` are strings, the ids distinct), so that the signature is not `null`, and the
signature differs from the last one, then the cached entries are the entries pulled and
the last signature is the signature of the entries pulled, whether the renders that
follow complete or throw; the sync returns `true` when they complete and `false` when
one of them throws.  An entry without a share code is given one before it is cached. -/
theorem syncPlannerFromServer_adopts (env : Env) (fuel : Nat) (rng : Rng) (silent : Bool)
    (s : Client) (data planner : JVal) (entries : List JVal)
    (hadmin : s.isAdmin = false)
    (hdata : property data "planner" = some planner)
    (hentries : property planner "entries" = some (.arr entries))
    (hcodes : ∀ e ∈ entries, truthy (property e "shareCode") = true)
    (hordered : EntriesOrdered env entries)
    (hdiff : signatureDiffers (computePlannerSignature env entries)
      s.lastPlannerSyncSignature = true) :
    (computePlannerSignature env entries).isSome = true
      ∧ ∃ s2 completed,
          syncPlannerFromServer env fuel rng silent (.ok data) s = some (s2, some completed)
          ∧ s2.plannerData.get "entries" = some (.arr entries)
          ∧ s2.lastPlannerSyncSignature = computePlannerSignature env entries
          ∧ completed = (renderPlanner env (adoptPlanner env entries s)).2 := by
  have hget := getPlanner_ok data planner _ _ hdata hentries
  have hens : ensureEntryShareCodes fuel rng entries s.backend = .done entries :=
    assignShareCodes_done fuel entries _ rng hcodes
  obtain ⟨sig, hsig⟩ := computePlannerSignature_of_ordered env entries hordered
  have h1 : ((some true : Option Bool) != some true) = false := by decide
  have h2 : ((some true : Option Bool) == some true) = true := by decide
  have hsync : syncPlannerFromServer env fuel rng silent (.ok data) s
      = if (renderPlanner env (adoptPlanner env entries s)).2 = true
        then some ((renderPlanner env (adoptPlanner env entries s)).1, some true)
        else some ((renderPlanner env (adoptPlanner env entries s)).1, some false) := by
    have hadopt : adoptPlanner env entries s
        = { s with
            backend := persistPlannerEntries s.currentUser entries s.backend
            plannerData := JObj.set s.plannerData "entries" (.arr entries)
            storedPlanner := some (.obj [("entries", .arr entries)])
            lastPlannerSyncSignature := some sig } := by
      simp only [adoptPlanner, hsig]
    rw [hadopt]
    unfold syncPlannerFromServer
    rw [if_neg (by rw [hadmin]; decide)]
    rw [hsig] at hdiff
    simp only [hget, hentries, listOrEmpty, isArray, arrayItems, if_true, hsig,
      Option.map_some', hdiff, hens, h1, h2, Bool.false_and, Bool.or_true, Bool.false_eq_true,
      if_false]
  have hframe := renderPlanner_planner env (adoptPlanner env entries s)
  refine ⟨by rw [hsig]; rfl, (renderPlanner env (adoptPlanner env entries s)).1,
    (renderPlanner env (adoptPlanner env entries s)).2, ?_, ?_, hframe.2, rfl⟩
  · rw [hsync]
    cases (renderPlanner env (adoptPlanner env entries s)).2 <;> rfl
  · rw [hframe.1]
    exact JObj.get_set_self _ _ _

theorem syncPlannerFromServer_adopts_witness :
    (computePlannerSignature sampleEnv [examEntry]).isSome = true
      ∧ ∃ s2 completed,
          syncPlannerFromServer sampleEnv 0 zeroRng true
            (.ok (.obj [("planner", .obj [("entries", .arr [examEntry])])])) bobClient
            = some (s2, some completed)
          ∧ s2.plannerData.get "entries" = some (.arr [examEntry])
          ∧ s2.lastPlannerSyncSignature = computePlannerSignature sampleEnv [examEntry]
          ∧ completed = (renderPlanner sampleEnv (adoptPlanner sampleEnv [examEntry]
              bobClient)).2 :=
  syncPlannerFromServer_adopts sampleEnv 0 zeroRng true bobClient
    (.obj [("planner", .obj [("entries", .arr [examEntry])])])
    (.obj [("entries", .arr [examEntry])]) [examEntry] rfl rfl rfl
    (by
      intro e he
      rw [List.mem_singleton.1 he]
      rfl)
    examEntry_ordered rfl

/-- C20, at the counterexample: `bob` sends a chat message and `alice` shares a reminder
while every request fails.  `updateFamily` catches the failure of its `PUT` and returns
the draft, so the callers do not take their failure branch: the edit is in the local
cache and the feedback of the page is not set. -/
theorem push_failure_is_silent :
    (sendFamilyChatMessage sampleEnv "chat_1" "2024-05-01T10:05:00.000Z"
        (fun _ => .failed) .failed bobClient).1.feedback = none
      ∧ optProp (sendFamilyChatMessage sampleEnv "chat_1" "2024-05-01T10:05:00.000Z"
          (fun _ => .failed) .failed bobClient).1.currentFamily "chat"
        = some (.arr [chatMessage "chat_1" "bob" "see you at six" "2024-05-01T10:05:00.000Z"])
      ∧ (sendFamilyChatMessage sampleEnv "chat_1" "2024-05-01T10:05:00.000Z"
          (fun _ => .failed) .failed bobClient).1.chatInput = ""
      ∧ (shareReminder sampleEnv true milkReminder (fun _ => .failed) aliceClient).1.feedback
          = none
      ∧ optProp (shareReminder sampleEnv true milkReminder (fun _ => .failed)
          aliceClient).1.currentFamily "reminders" = some (.arr [milkReminder]) :=
  ⟨rfl, rfl, rfl, rfl, rfl⟩

/-- C20, as the code has it: when the push of `updateFamily` fails, `updateFamily` returns
its draft, which is in the cache as the current family and at its place in the cached
list; the draft is an object, so the chat send and the shared-reminder step do not take
their failure branch, and the feedback of the page is after them what it was before,
whatever the sync that follows the chat send pulls. -/
theorem failed_push_returns_draft (env : Env) (push : JObj → Response) (s : Client)
    (hpush : ∀ draft, push draft = .failed) :
    (∀ mutator s1 pending, updateFamilyBegin env mutator s = (s1, .returned (some pending)) →
        updateFamily env mutator push s = (s1, .returned (some (.obj pending.draft)))
          ∧ s1.currentFamily = some (.obj pending.draft)
          ∧ s1.familiesState.get? pending.index = some (.obj pending.draft))
      ∧ (∀ id now pull s1 pending,
          updateFamilyBegin env (pushChatMessage id s.currentUser (env.trim s.chatInput) now) s
            = (s1, .returned (some pending)) →
          (sendFamilyChatMessage env id now push pull s).1.feedback = s.feedback)
      ∧ (∀ checked reminder s1 pending,
          updateFamilyBegin env (pushReminder reminder) s = (s1, .returned (some pending)) →
          (shareReminder env checked reminder push s).1.feedback = s.feedback) := by
  have hupdate : ∀ mutator s1 pending,
      updateFamilyBegin env mutator s = (s1, .returned (some pending)) →
      updateFamily env mutator push s = (s1, .returned (some (.obj pending.draft))) := by
    intro mutator s1 pending h
    simp only [updateFamily, h, hpush, updateFamilyEnd_failed]
  refine ⟨?_, ?_, ?_⟩
  · intro mutator s1 pending h
    obtain ⟨h1, h2, -⟩ := updateFamilyBegin_state env mutator s s1 pending h
    exact ⟨hupdate mutator s1 pending h, h1, h2⟩
  · intro id now pull s1 pending h
    obtain ⟨-, -, h3⟩ := updateFamilyBegin_state env _ s s1 pending h
    simp only [sendFamilyChatMessage]
    split
    · rfl
    · split
      · rfl
      · rw [hupdate _ s1 pending h]
        simp only [truthy, Bool.not_true, Bool.false_eq_true, if_false]
        split
        · rw [syncCurrentFamilyFromServer_feedback, renderFamilyChat_state]
          exact h3
        · rw [renderFamilyChat_state]
          exact h3
  · intro checked reminder s1 pending h
    obtain ⟨-, -, h3⟩ := updateFamilyBegin_state env _ s s1 pending h
    simp only [shareReminder]
    split
    · rw [hupdate _ s1 pending h]
      simp only [truthy, Bool.not_true, Bool.false_eq_true, if_false]
      exact h3
    · rfl

theorem failed_push_returns_draft_witness :
    (∃ s1 draft,
        updateFamily sampleEnv
          (pushChatMessage "chat_1" "bob" "see you at six" "2024-05-01T10:05:00.000Z")
          (fun _ => .failed) bobClient = (s1, .returned (some (.obj draft)))
        ∧ s1.currentFamily = some (.obj draft))
      ∧ (sendFamilyChatMessage sampleEnv "chat_1" "2024-05-01T10:05:00.000Z"
          (fun _ => .failed) .failed bobClient).1.feedback = bobClient.feedback
      ∧ (shareReminder sampleEnv true milkReminder (fun _ => .failed)
          aliceClient).1.feedback = aliceClient.feedback :=
  ⟨⟨_, _, ((failed_push_returns_draft sampleEnv (fun _ => .failed) bobClient
        (fun _ => rfl)).1
      (pushChatMessage "chat_1" "bob" "see you at six" "2024-05-01T10:05:00.000Z")
      (updateFamilyBegin sampleEnv
        (pushChatMessage "chat_1" "bob" "see you at six" "2024-05-01T10:05:00.000Z")
        bobClient).1
      ⟨0, pushChatMessage "chat_1" "bob" "see you at six" "2024-05-01T10:05:00.000Z"
        (draftOf (.obj smithsWithBob))⟩ rfl).1,
      ((failed_push_returns_draft sampleEnv (fun _ => .failed) bobClient
        (fun _ => rfl)).1
      (pushChatMessage "chat_1" "bob" "see you at six" "2024-05-01T10:05:00.000Z")
      (updateFamilyBegin sampleEnv
        (pushChatMessage "chat_1" "bob" "see you at six" "2024-05-01T10:05:00.000Z")
        bobClient).1
      ⟨0, pushChatMessage "chat_1" "bob" "see you at six" "2024-05-01T10:05:00.000Z"
        (draftOf (.obj smithsWithBob))⟩ rfl).2.1⟩,
    (failed_push_returns_draft sampleEnv (fun _ => .failed) bobClient (fun _ => rfl)).2.1
      "chat_1" "2024-05-01T10:05:00.000Z" .failed
      (updateFamilyBegin sampleEnv
        (pushChatMessage "chat_1" "bob" "see you at six" "2024-05-01T10:05:00.000Z")
        bobClient).1
      ⟨0, pushChatMessage "chat_1" "bob" "see you at six" "2024-05-01T10:05:00.000Z"
        (draftOf (.obj smithsWithBob))⟩ rfl,
    (failed_push_returns_draft sampleEnv (fun _ => .failed) aliceClient (fun _ => rfl)).2.2
      true milkReminder
      (updateFamilyBegin sampleEnv (pushReminder milkReminder) aliceClient).1
      ⟨0, pushReminder milkReminder (draftOf (.obj smithsWithBob))⟩ rfl⟩

/-- C29, at the failing input: the pointer of `bob` is set, then cleared with
`setBackendMembership(bob, null)`; `saveBackendStore` merges the memberships it is given
over the stored ones, which still have the key, so `getBackendMembership(bob)` returns the
family id as before. -/
theorem setBackendMembership_null_keeps_pointer :
    getBackendMembership "bob" (setBackendMembership "bob" (some (.str "fam_1")) emptyBackend)
        = some (.str "fam_1")
      ∧ getBackendMembership "bob" (setBackendMembership "bob" none
          (setBackendMembership "bob" (some (.str "fam_1")) emptyBackend)) = some (.str "fam_1")
      ∧ getBackendMembership "bob" (setBackendMembership "bob" none bobBackend)
          = some (.str "fam_1") :=
  ⟨rfl, rfl, rfl⟩

/-- C27, at the counterexample: the cache of `bob` holds the family without chat, the server
holds it with a message of `alice`; the document that `updateFamily` pushes for a message
of `bob` has the chat of the cache plus the message, and not the chat of the server plus
the message. -/
theorem updateFamily_pushes_stale_chat :
    (chatServer.families.map fun f => f.get "chat")
        = [some (.arr [chatMessage "msg_1" "alice" "hi" "2024-05-01T10:00:00.000Z"])]
      ∧ ((pushedDraft (updateFamilyBegin sampleEnv
            (pushChatMessage "msg_2" "bob" "hello" "2024-05-01T10:05:00.000Z") bobClient)).map
          fun d => d.get "chat")
        = some (some (.arr [chatMessage "msg_2" "bob" "hello" "2024-05-01T10:05:00.000Z"]))
      ∧ (pushChatMessage "msg_2" "bob" "hello" "2024-05-01T10:05:00.000Z"
          (draftOf (.obj smithsWithChat))).get "chat"
        = some (.arr [chatMessage "msg_1" "alice" "hi" "2024-05-01T10:00:00.000Z",
            chatMessage "msg_2" "bob" "hello" "2024-05-01T10:05:00.000Z"]) :=
  ⟨rfl, rfl, rfl⟩

/-- C27, as the code has it: the document that `updateFamily` pushes is the mutator applied
to a copy of the cached document, the first one with the id of the current family in the
list that `loadFamilies()` reads from local storage; no request is made before the
push. -/
theorem updateFamily_pushes_cached (env : Env) (mutator : JObj → JObj) (s s1 : Client)
    (pending : Pending)
    (h : updateFamilyBegin env mutator s = (s1, .returned (some pending))) :
    ∃ cached, (loadFamilies s).2.get? pending.index = some cached
      ∧ strictEq (property cached "id") (optProp s.currentFamily "id") = true
      ∧ pending.draft = mutator (draftOf cached)
      ∧ ∀ push : JObj → Response,
          updateFamily env mutator push s
            = ((updateFamilyEnd env pending (push (mutator (draftOf cached))) s1).1,
                .returned (some (updateFamilyEnd env pending
                  (push (mutator (draftOf cached))) s1).2)) := by
  obtain ⟨cached, h1, h2, h3⟩ := updateFamilyBegin_draft env mutator s s1 pending h
  refine ⟨cached, h1, h2, h3, ?_⟩
  intro push
  simp only [updateFamily, h, h3]

theorem updateFamily_pushes_cached_witness :
    ∃ cached, (loadFamilies bobClient).2.get? 0 = some cached
      ∧ strictEq (property cached "id") (optProp bobClient.currentFamily "id") = true
      ∧ pushChatMessage "msg_2" "bob" "hello" "2024-05-01T10:05:00.000Z"
          (draftOf (.obj smithsWithBob))
        = pushChatMessage "msg_2" "bob" "hello" "2024-05-01T10:05:00.000Z" (draftOf cached)
      ∧ ∀ push : JObj → Response,
          updateFamily sampleEnv
              (pushChatMessage "msg_2" "bob" "hello" "2024-05-01T10:05:00.000Z") push bobClient
            = ((updateFamilyEnd sampleEnv
                  ⟨0, pushChatMessage "msg_2" "bob" "hello" "2024-05-01T10:05:00.000Z"
                    (draftOf (.obj smithsWithBob))⟩
                  (push (pushChatMessage "msg_2" "bob" "hello" "2024-05-01T10:05:00.000Z"
                    (draftOf cached)))
                  (updateFamilyBegin sampleEnv
                    (pushChatMessage "msg_2" "bob" "hello" "2024-05-01T10:05:00.000Z")
                    bobClient).1).1,
                .returned (some (updateFamilyEnd sampleEnv
                  ⟨0, pushChatMessage "msg_2" "bob" "hello" "2024-05-01T10:05:00.000Z"
                    (draftOf (.obj smithsWithBob))⟩
                  (push (pushChatMessage "msg_2" "bob" "hello" "2024-05-01T10:05:00.000Z"
                    (draftOf cached)))
                  (updateFamilyBegin sampleEnv
                    (pushChatMessage "msg_2" "bob" "hello" "2024-05-01T10:05:00.000Z")
                    bobClient).1).2)) :=
  updateFamily_pushes_cached sampleEnv
    (pushChatMessage "msg_2" "bob" "hello" "2024-05-01T10:05:00.000Z") bobClient
    (updateFamilyBegin sampleEnv
      (pushChatMessage "msg_2" "bob" "hello" "2024-05-01T10:05:00.000Z") bobClient).1
    ⟨0, pushChatMessage "msg_2" "bob" "hello" "2024-05-01T10:05:00.000Z"
      (draftOf (.obj smithsWithBob))⟩ rfl

/-- C21, at the counterexample: `alice` sends a message and her push is stored; then `bob`,
whose cache has not pulled it, sends a message.  His draft has the chat of his cache plus
his message, and the `PUT` replaces the chat of the server by it: the message of `alice`
is no longer in the log of the server. -/
theorem sequential_send_loses_message :
    ((serverAfterSend sampleEnv "msg_1" "alice" "hi" "2024-05-01T10:00:00.000Z" aliceClient
        plainServer).families.map fun f => f.get "chat")
        = [some (.arr [chatMessage "msg_1" "alice" "hi" "2024-05-01T10:00:00.000Z"])]
      ∧ ((serverAfterSend sampleEnv "msg_2" "bob" "hello" "2024-05-01T10:05:00.000Z" bobClient
          (serverAfterSend sampleEnv "msg_1" "alice" "hi" "2024-05-01T10:00:00.000Z"
            aliceClient plainServer)).families.map fun f => f.get "chat")
        = [some (.arr [chatMessage "msg_2" "bob" "hello" "2024-05-01T10:05:00.000Z"])] :=
  ⟨rfl, rfl⟩

/-- C21, as the code has it: the chat of the server after the push of a sender is the chat
of the document in the cache of the sender followed by the new message.  A message that
another member has pushed before is in the log afterwards when the cache of the sender
held it.  The cached document is an object with distinct keys and a truthy id that the
server knows, and its chat messages are objects with a text. -/
theorem sequential_send_keeps_cached_chat (env : Env) (b b1 : Client) (store : Store)
    (id text now : String) (pending : Pending) (cached : JObj) (chat0 : List JVal)
    (hbegin : updateFamilyBegin env (pushChatMessage id b.currentUser text now) b
      = (b1, .returned (some pending)))
    (hcached : (loadFamilies b).2.get? pending.index = some (.obj cached))
    (hkeys : cached.keys.Nodup)
    (hchat : cached.get "chat" = some (.arr chat0))
    (hobj : ∀ m ∈ chat0, ∃ o t, m = JVal.obj o ∧ JObj.get o "message" = some (.str t))
    (hid : truthy (cached.get "id") = true)
    (hfound : (findFamilyById store (cached.get "id")).isSome = true) :
    (putFamily (some (.obj pending.draft)) store).status = 200
      ∧ ∀ f ∈ (putFamily (some (.obj pending.draft)) store).store.families,
          strictEq (f.get "id") (cached.get "id") = true →
            f.get "chat" = some (.arr (chat0 ++ [chatMessage id b.currentUser text now])) := by
  obtain ⟨cached2, h1, _, h3⟩ := updateFamilyBegin_draft env _ b b1 pending hbegin
  rw [hcached] at h1
  have hc : cached2 = .obj cached := (Option.some.inj h1).symm
  subst hc
  have hidd : pending.draft.get "id" = cached.get "id" := by
    rw [h3]
    simp only [pushChatMessage]
    rw [JObj.get_set_other _ _ _ _ (by decide),
      draftOf_get_other _ _ (by decide) (by decide) (by decide)]
  have hk : pending.draft.keys.Nodup := by
    rw [h3]
    exact JObj.keys_set_nodup _ _ _ (draftOf_keys cached hkeys)
  have hch : pending.draft.get "chat"
      = some (.arr (chat0 ++ [chatMessage id b.currentUser text now])) := by
    rw [h3]
    exact pushChatMessage_chat cached chat0 _ _ _ _ hchat
  have := putFamily_chat pending.draft store _ hk (by rw [hidd]; exact hid)
    (by rw [hidd]; exact hfound) hch
    (by
      intro m hm
      rcases List.mem_append.1 hm with hm | hm
      · exact hobj m hm
      · rw [List.mem_singleton.1 hm]
        exact ⟨_, text, rfl, rfl⟩)
  rw [hidd] at this
  exact this

theorem sequential_send_keeps_cached_chat_witness :
    (putFamily (some (.obj (pushChatMessage "msg_2" "bob" "hello" "2024-05-01T10:05:00.000Z"
        (draftOf (.obj smithsWithChat))))) chatServer).status = 200
      ∧ ∀ f ∈ (putFamily (some (.obj (pushChatMessage "msg_2" "bob" "hello"
          "2024-05-01T10:05:00.000Z" (draftOf (.obj smithsWithChat))))) chatServer).store.families,
          strictEq (f.get "id") (smithsWithChat.get "id") = true →
            f.get "chat" = some (.arr ([chatMessage "msg_1" "alice" "hi"
                "2024-05-01T10:00:00.000Z"]
              ++ [chatMessage "msg_2" "bob" "hello" "2024-05-01T10:05:00.000Z"])) :=
  sequential_send_keeps_cached_chat sampleEnv bobSynced
    (updateFamilyBegin sampleEnv
      (pushChatMessage "msg_2" "bob" "hello" "2024-05-01T10:05:00.000Z") bobSynced).1
    chatServer "msg_2" "hello" "2024-05-01T10:05:00.000Z"
    ⟨0, pushChatMessage "msg_2" "bob" "hello" "2024-05-01T10:05:00.000Z"
      (draftOf (.obj smithsWithChat))⟩
    smithsWithChat [chatMessage "msg_1" "alice" "hi" "2024-05-01T10:00:00.000Z"]
    rfl rfl (by decide) rfl
    (by
      intro m hm
      rw [List.mem_singleton.1 hm]
      exact ⟨_, "hi", rfl, rfl⟩)
    rfl rfl

/-- C25: when the push of `updateFamily` succeeds, the document that the server returns is
a document of its store after the write, `updateFamily` returns it, the cached family and
the entry of the cached list at the index of the draft are this document, and the last
signature is its signature.  The draft is a proper object with a truthy id that the
server knows, its members and reminders are arrays of objects, its chat is an array
without `null`, and the index of the draft is within the cached list. -/
theorem updateFamily_adopts_saved (env : Env) (s : Client) (pending : Pending)
    (store : Store)
    (hkeys : pending.draft.keys.Nodup) (hid : truthy (pending.draft.get "id") = true)
    (hfound : (findFamilyById store (pending.draft.get "id")).isSome = true)
    (hmembers : ObjectList (pending.draft.get "members"))
    (hreminders : ObjectList (pending.draft.get "reminders"))
    (hchat : ∃ chat, pending.draft.get "chat" = some (.arr chat) ∧ ∀ m ∈ chat, m ≠ .null)
    (hindex : pending.index < s.familiesState.length) :
    ∃ saved : JObj,
      saved ∈ (putFamily (some (.obj pending.draft)) store).store.families
      ∧ (putFamily (some (.obj pending.draft)) store).family = some saved
      ∧ (updateFamilyEnd env pending (serverPut store pending.draft) s).2 = .obj saved
      ∧ (updateFamilyEnd env pending (serverPut store pending.draft) s).1.currentFamily
          = some (.obj saved)
      ∧ (updateFamilyEnd env pending (serverPut store pending.draft)
            s).1.familiesState.get? pending.index = some (.obj saved)
      ∧ (updateFamilyEnd env pending (serverPut store pending.draft)
            s).1.lastFamilySyncSignature = computeFamilySignature env (some (.obj saved)) :=
  updateFamilyEnd_saved env s pending store hkeys hid hfound hmembers hreminders hchat hindex

theorem updateFamily_adopts_saved_witness :
    ∃ saved : JObj,
      saved ∈ (putFamily (some (.obj bobDraft)) chatServer).store.families
      ∧ (putFamily (some (.obj bobDraft)) chatServer).family = some saved
      ∧ (updateFamilyEnd sampleEnv ⟨0, bobDraft⟩ (serverPut chatServer bobDraft) bobSynced).2
          = .obj saved
      ∧ (updateFamilyEnd sampleEnv ⟨0, bobDraft⟩ (serverPut chatServer bobDraft)
            bobSynced).1.currentFamily = some (.obj saved)
      ∧ (updateFamilyEnd sampleEnv ⟨0, bobDraft⟩ (serverPut chatServer bobDraft)
            bobSynced).1.familiesState.get? 0 = some (.obj saved)
      ∧ (updateFamilyEnd sampleEnv ⟨0, bobDraft⟩ (serverPut chatServer bobDraft)
            bobSynced).1.lastFamilySyncSignature
          = computeFamilySignature sampleEnv (some (.obj saved)) :=
  updateFamily_adopts_saved sampleEnv bobSynced ⟨0, bobDraft⟩ chatServer (by decide) rfl rfl
    ⟨[memberEntry "alice" (.str "owner"), memberEntry "bob" (.str "kid")], rfl, by
      intro m hm
      simp only [List.mem_cons, List.mem_singleton, List.not_mem_nil, or_false] at hm
      rcases hm with rfl | rfl <;> exact ⟨_, rfl⟩⟩
    ⟨[], rfl, by
      intro m hm
      simp at hm⟩
    ⟨[chatMessage "msg_1" "alice" "hi" "2024-05-01T10:00:00.000Z",
      chatMessage "msg_2" "bob" "hello" "2024-05-01T10:05:00.000Z"], rfl, by
      intro m hm
      simp only [List.mem_cons, List.mem_singleton, List.not_mem_nil, or_false] at hm
      rcases hm with rfl | rfl <;> simp [chatMessage]⟩
    (by decide)

/-- C22, at the counterexample: two messages with the same `createdAt`, stored with the
greater id first, are shown in the stored order and not by ascending id; stored the other
way round they are shown the other way round. -/
theorem displayedChat_keeps_ties :
    displayedChat sampleEnv (bobWithChat tiedChat) = some tiedChat
      ∧ displayedChat sampleEnv (bobWithChat tiedChat.reverse) = some tiedChat.reverse
      ∧ tiedChat.map (fun m => property m "id") = [some (.str "msg_2"), some (.str "msg_1")] :=
  ⟨rfl, rfl, rfl⟩

/-- C22, as the code has it: when no message is `null` and every `createdAt` is a valid
date, `renderFamilyChat` shows the messages of the chat, each once, in ascending order of
the instant of `createdAt`, and the messages of one instant in the order in which they
are stored. -/
theorem displayedChat_sorted (env : Env) (s : Client) (fam : JVal) (chat : List JVal)
    (hfam : s.currentFamily = some fam)
    (hchat : property fam "chat" = some (.arr chat))
    (hvalid : ∀ m ∈ chat, m ≠ .null ∧ ∃ t, newDate env (property m "createdAt") = some t) :
    ∃ shown, displayedChat env s = some shown ∧ shown.Perm chat
      ∧ shown.Pairwise (fun a b => chatTime env a ≤ chatTime env b)
      ∧ ∀ t : Int, shown.filter (fun m => chatTime env m == t)
          = chat.filter (fun m => chatTime env m == t) := by
  obtain ⟨r, hr, hperm, hsorted, hfilter⟩ := sortBy_key (chatTime env) (renderOrder env) chat
    fun a ha b hb => renderOrder_key env a b (hvalid a ha).1 (hvalid b hb).1
      (hvalid a ha).2 (hvalid b hb).2
  refine ⟨r, ?_, hperm, hsorted, hfilter⟩
  have hnull := any_null_eq_false r fun m hm => (hvalid m (hperm.subset hm)).1
  simp only [displayedChat, hfam, truthy_of_property fam _ _ hchat, Bool.not_true,
    Bool.false_eq_true, if_false, hchat, listOrEmpty, isArray, if_true, arrayItems, hr,
    Option.some_bind, hnull]

theorem displayedChat_sorted_witness :
    ∃ shown, displayedChat sampleEnv (bobWithChat orderedChat) = some shown
      ∧ shown.Perm orderedChat
      ∧ shown.Pairwise (fun a b => chatTime sampleEnv a ≤ chatTime sampleEnv b)
      ∧ ∀ t : Int, shown.filter (fun m => chatTime sampleEnv m == t)
          = orderedChat.filter (fun m => chatTime sampleEnv m == t) :=
  displayedChat_sorted sampleEnv (bobWithChat orderedChat)
    (.obj (withLists smithsWithBob twoMembers orderedChat)) orderedChat rfl rfl
    (by
      intro m hm
      simp only [orderedChat, List.mem_cons, List.mem_singleton, List.not_mem_nil,
        or_false] at hm
      rcases hm with rfl | rfl | rfl
      · exact ⟨by simp [chatMessage], _, rfl⟩
      · exact ⟨by simp [chatMessage], _, rfl⟩
      · exact ⟨by simp [chatMessage], _, rfl⟩)

/-- C30, at the counterexample: `alice` and `bob` exist; each creates a family, then `alice`
joins the family of `bob`.  She is then in the roster of both families, and her `familyId`
is the id of the second one. -/
theorem second_family_breaks_back_reference :
    usersOnly.families = []
      ∧ ((applyCalls secondFamilyCalls usersOnly).families.map fun f =>
            (f.get "id", roster f))
        = [(some (.str "fam_1"), [memberEntry "alice" (.str "owner")]),
           (some (.str "fam_2"),
             [memberEntry "bob" (.str "owner"), memberEntry "alice" (.str "adult")])]
      ∧ ((applyCalls secondFamilyCalls usersOnly).users.map fun r =>
            (JObj.get r "username", JObj.get r "familyId"))
        = [(some (.str "alice"), some (.str "fam_2")), (some (.str "bob"), some (.str "fam_2"))] :=
  ⟨rfl, rfl, rfl⟩

/-- C30, as the code has it: roster and back-reference agree after the sequences of calls,
from a store with no family, in which every call of `createFamily` or `joinFamilyByCode`
is made by a user who is in no roster at that time.  After such a sequence the record
of a user who is in the roster of a family has the id of that family as `familyId`, and a
user who has a record is not in the rosters of two families with different ids. -/
theorem fresh_calls_back_reference (calls : List Call) (s0 : Store)
    (h0 : s0.families = []) (hg : FreshCalls calls s0) :
    (∀ f ∈ (applyCalls calls s0).families, ∀ u, InRoster u f →
        ∀ r ∈ (applyCalls calls s0).users, JObj.get r "username" = some (.str u) →
          JObj.get r "familyId" = f.get "id")
      ∧ ∀ f ∈ (applyCalls calls s0).families, ∀ g ∈ (applyCalls calls s0).families,
          ∀ u, InRoster u f → InRoster u g →
            (∃ r ∈ (applyCalls calls s0).users, JObj.get r "username" = some (.str u)) →
            f.get "id" = g.get "id" := by
  have hinv0 : BackRefInv s0 := by
    constructor
    · intro f hf
      rw [h0] at hf
      simp at hf
    · intro f hf
      rw [h0] at hf
      simp at hf
  have hinv := applyCalls_backRef calls s0 hinv0 hg
  refine ⟨hinv.1, ?_⟩
  intro f hf g hgm u huf hug hrec
  obtain ⟨r, hr, hname⟩ := hrec
  rw [← hinv.1 f hf u huf r hr hname, ← hinv.1 g hgm u hug r hr hname]

theorem fresh_calls_back_reference_witness :
    ((applyCalls oneFamilyCalls usersOnly).families.map fun f => roster f)
        = [[memberEntry "alice" (.str "owner"), memberEntry "bob" (.str "adult")]]
      ∧ (∀ f ∈ (applyCalls oneFamilyCalls usersOnly).families, ∀ u, InRoster u f →
          ∀ r ∈ (applyCalls oneFamilyCalls usersOnly).users,
            JObj.get r "username" = some (.str u) → JObj.get r "familyId" = f.get "id") :=
  ⟨rfl, (fresh_calls_back_reference oneFamilyCalls usersOnly rfl oneFamilyCalls_fresh).1⟩

/-- C23, at the counterexample: an event that starts on 1 January 10000 and ends on
31 December 9999, the day before.  The end date is earlier than the start date, but the
handler compares the two strings, of which `9999-12-31` is the greater: no alert is shown,
the entry is put into the planner with its end before its start, and it is sent with
`DataClient.savePlanner`. -/
theorem submitTaskForm_accepts_backwards :
    farFutureEvent.type = "event"
      ∧ farFutureEvent.startDate = dateInputValue (10000, 1, 1)
      ∧ farFutureEvent.endDate = dateInputValue (9999, 12, 31)
      ∧ EarlierDay (9999, 12, 31) (10000, 1, 1)
      ∧ (submitTaskForm sampleEnv 1 zeroRng farFutureEvent "" "entry_1"
            "2024-04-20T09:00:00.000Z" bobClient).result.map
          (fun r => (r.alert,
            (arrayItems (r.state.plannerData.get "entries")).map
              (fun e => (property e "startDate", property e "endDate")),
            r.saved.map fun entries =>
              entries.map fun e => (property e "startDate", property e "endDate")))
        = some (none, [(some (.str "10000-01-01"), some (.str "9999-12-31"))],
            some [(some (.str "10000-01-01"), some (.str "9999-12-31"))]) :=
  ⟨rfl, by decide, by decide, Or.inl (by decide), rfl⟩

/-- C23, for years of four digits: the start date of the form is the value of a date input
for a day whose year is below 10000.  A submit with the type `event` and an end date that
is the value for an earlier day is rejected with an alert: the state of the client, the
planner included, is as it was and `DataClient.savePlanner` is not called.  And whenever
the handler goes on to build an entry from a form whose end date is empty or such a value,
the end date of the entry is the value for a day that is not earlier than the start. -/
theorem submitTaskForm_rejects_backwards (env : Env) (fuel : Nat) (rng : Rng)
    (form : TaskForm) (editingEntryId generatedId now : String) (s : Client)
    (start : Nat × Nat × Nat) (hstart : form.startDate = dateInputValue start)
    (hyear : FourDigitYear start) :
    (∀ finish, form.type = "event" → form.endDate = dateInputValue finish →
        FourDigitYear finish → EarlierDay finish start →
        ∃ message, submitTaskForm env fuel rng form editingEntryId generatedId now s
          = .done { state := s, alert := some message, saved := none })
      ∧ ∀ endDate, formEndDate env form = .ok endDate →
          (form.endDate = ""
            ∨ ∃ finish, form.endDate = dateInputValue finish ∧ FourDigitYear finish) →
          ∀ existingEntry,
            (entryPayload env form endDate editingEntryId existingEntry generatedId now).get
                "startDate" = some (.str (dateInputValue start))
            ∧ ∃ finish,
                (entryPayload env form endDate editingEntryId existingEntry generatedId
                  now).get "endDate" = some (.str (dateInputValue finish))
                ∧ ¬ EarlierDay finish start := by
  constructor
  · intro finish htype hend hfour hearlier
    have hless : strLess form.endDate form.startDate = true := by
      rw [hend, hstart]
      exact (strLess_dateInputValue finish start hfour hyear).2 hearlier
    obtain ⟨message, hmsg⟩ := (formEndDate_string_test env form).1 htype
      (by rw [hend]; exact dateInputValue_ne_empty finish) hless
    exact ⟨message, by simp only [submitTaskForm, hmsg]⟩
  · intro endDate hok hform existingEntry
    obtain ⟨hnot, hwhich⟩ := (formEndDate_string_test env form).2 endDate hok
    refine ⟨by rw [← hstart]; rfl, ?_⟩
    have hempty : endDate ≠ "" → endDate = form.startDate ∨
        ∃ finish, endDate = dateInputValue finish ∧ FourDigitYear finish := by
      intro hne
      rcases hwhich with h | h
      · exact Or.inl h
      · rcases hform with h2 | h2
        · exact absurd (h.trans h2) hne
        · exact Or.inr (h ▸ h2)
    have hne : endDate ≠ "" := by
      rcases hwhich with h | h
      · rw [h, hstart]
        exact dateInputValue_ne_empty start
      · rcases hform with h2 | ⟨finish, h2, -⟩
        · intro h3
          simp only [formEndDate, beq_iff_eq] at hok
          split_ifs at hok with h4 h5 h6 h7 h8 h9
          all_goals
            injection hok with hok
            rw [hstart] at hok
            exact dateInputValue_ne_empty start (hok.trans h3)
        · rw [h, h2]
          exact dateInputValue_ne_empty finish
    rcases hempty hne with h | ⟨finish, h, hfour⟩
    · exact ⟨start, by rw [h, hstart]; rfl, EarlierDay_irrefl start⟩
    · refine ⟨finish, by rw [h]; rfl, ?_⟩
      intro hearlier
      rw [h, hstart, (strLess_dateInputValue finish start hfour hyear).2 hearlier] at hnot
      exact Bool.noConfusion hnot

theorem submitTaskForm_rejects_backwards_witness :
    (∃ message, submitTaskForm sampleEnv 1 zeroRng backwardsEvent "" "entry_1"
        "2024-04-20T09:00:00.000Z" bobClient
          = .done { state := bobClient, alert := some message, saved := none })
      ∧ ∃ finish,
          (entryPayload sampleEnv twoDayEvent "2024-05-02" "" none "entry_1"
            "2024-04-20T09:00:00.000Z").get "endDate" = some (.str (dateInputValue finish))
          ∧ ¬ EarlierDay finish (2024, 5, 1) :=
  ⟨(submitTaskForm_rejects_backwards sampleEnv 1 zeroRng backwardsEvent "" "entry_1"
      "2024-04-20T09:00:00.000Z" bobClient (2024, 5, 1) rfl
      ⟨by decide, by decide, by decide⟩).1 (2024, 4, 30) rfl rfl
      ⟨by decide, by decide, by decide⟩ (Or.inr ⟨rfl, Or.inl (by decide)⟩),
    ((submitTaskForm_rejects_backwards sampleEnv 1 zeroRng twoDayEvent "" "entry_1"
      "2024-04-20T09:00:00.000Z" bobClient (2024, 5, 1) rfl
      ⟨by decide, by decide, by decide⟩).2 "2024-05-02" rfl
      (Or.inr ⟨(2024, 5, 2), rfl, by decide, by decide, by decide⟩) none).2⟩

/-- C28, at the counterexample: the pointer of `bob` names a family that is not in the cache,
by id or by code.  `updateFamilyStateFromStorage` sets the current family to `null` and
removes the item of local storage, but the pointer is not cleared: the user record keeps
its `familyId`, and the backend store keeps its entry, so the next call resolves the same
pointer again. -/
theorem cleared_pointer_survives :
    (updateFamilyStateFromStorage sampleEnv bobStale).map
        (fun s2 => (s2.currentFamily, s2.membershipItem, storedFamilyId s2))
        = some (none, none, some (.str "fam_9"))
      ∧ storedFamilyId bobBackendOnly = some (.str "fam_9")
      ∧ (updateFamilyStateFromStorage sampleEnv bobBackendOnly).map
          (fun s2 => (s2.currentFamily, s2.membershipItem, storedFamilyId s2))
        = some (none, none, some (.str "fam_9")) :=
  ⟨rfl, rfl, rfl⟩

/-- C28, as the code has it: for a user who is not the administrator, a non-empty pointer and
a cache that can be read without a throw, `updateFamilyStateFromStorage` makes the first
family whose id is the pointer the current family; when there is none, it makes the first
family whose code, trimmed and in capitals, is the pointer, trimmed and in capitals, the
current family and then the item `familyhub_membership_<user>` is the id of that family;
when there is none either, the current family is `null` and the item is removed, while the
user record and the pointer of the backend store are as they were. -/
theorem updateFamilyStateFromStorage_resolves (env : Env) (s : Client)
    (hadmin : s.isAdmin = false) (hp : truthy (storedFamilyId s) = true)
    (hread : ReadableCache s) :
    (∀ f, (loadFamilies s).2.find? (fun f => strictEq (property f "id") (storedFamilyId s))
          = some f →
        ∃ s2, updateFamilyStateFromStorage env s = some s2 ∧ s2.currentFamily = some f)
      ∧ ((loadFamilies s).2.find? (fun f => strictEq (property f "id") (storedFamilyId s))
          = none →
        (∀ f i, (loadFamilies s).2.find?
              (codeMatches env (env.toUpperCase (env.trim (jsStringOpt (storedFamilyId s)))))
              = some f → property f "id" = some (.str i) →
            ∃ s2, updateFamilyStateFromStorage env s = some s2 ∧ s2.currentFamily = some f
              ∧ s2.membershipItem = some i)
        ∧ ((loadFamilies s).2.find?
              (codeMatches env (env.toUpperCase (env.trim (jsStringOpt (storedFamilyId s)))))
              = none →
            ∃ s2, updateFamilyStateFromStorage env s = some s2 ∧ s2.currentFamily = none
              ∧ s2.membershipItem = none
              ∧ s2.currentUserRecord = s.currentUserRecord
              ∧ getBackendMembership s.currentUser s2.backend
                  = getBackendMembership s.currentUser s.backend)) := by
  have hnn : ∀ f ∈ (loadFamilies s).2, f ≠ .null := fun f hf => (hread.1 f hf).1
  have hadmin2 : (reloadFamilies s).isAdmin = false := by
    rw [reloadFamilies_isAdmin]
    exact hadmin
  have husers : ∀ u ∈ loadUsers (reloadFamilies s), u ≠ .null := by
    rw [loadUsers_reload]
    exact hread.2
  have hid := findWhere_eq (fun f => strictEq (property f "id") (storedFamilyId s)) _ hnn
  have hcode := findWhere_eq
    (codeMatches env (env.toUpperCase (env.trim (jsStringOpt (storedFamilyId s))))) _ hnn
  refine ⟨?_, ?_⟩
  · intro f hf
    obtain ⟨s2, h2, h3, _⟩ := adoptStoredFamily_spec env f (reloadFamilies s)
      (hread.1 f (List.mem_of_find?_eq_some hf)).2 husers
    refine ⟨s2, ?_, h3⟩
    simp only [updateFamilyStateFromStorage, hadmin2, storedFamilyId_reload, hp,
      reloadFamilies_familiesState, hid, hf, if_true, Bool.false_eq_true, if_false]
    exact h2
  · intro hnone
    refine ⟨?_, ?_⟩
    · intro f i hf hi
      obtain ⟨s2, h2, h3, h4⟩ := adoptStoredFamily_spec env f (reloadFamilies s)
        (hread.1 f (List.mem_of_find?_eq_some hf)).2 husers
      refine ⟨s2, ?_, h3, h4 i hi⟩
      simp only [updateFamilyStateFromStorage, hadmin2, storedFamilyId_reload, hp,
        reloadFamilies_familiesState, hid, hnone, hcode, hf, if_true, Bool.false_eq_true,
        if_false]
      exact h2
    · intro hnone2
      refine ⟨{ clearFamily (reloadFamilies s) with
        membershipItem := none
        backend := setBackendMembership (reloadFamilies s).currentUser none
          (reloadFamilies s).backend }, ?_, rfl, rfl, ?_, ?_⟩
      · simp only [updateFamilyStateFromStorage, hadmin2, storedFamilyId_reload, hp,
          reloadFamilies_familiesState, hid, hnone, hcode, hnone2, if_true, Bool.false_eq_true,
          if_false]
      · exact reloadFamilies_currentUserRecord s
      · show getBackendMembership s.currentUser
            (setBackendMembership (reloadFamilies s).currentUser none (reloadFamilies s).backend)
          = getBackendMembership s.currentUser s.backend
        rw [reloadFamilies_currentUser, reloadFamilies_backend, getBackendMembership_clear]

theorem updateFamilyStateFromStorage_resolves_witness :
    (loadFamilies bobWithCode).2.find?
        (fun f => strictEq (property f "id") (storedFamilyId bobWithCode)) = none
      ∧ ∃ s2, updateFamilyStateFromStorage sampleEnv bobWithCode = some s2
          ∧ s2.currentFamily = some (.obj smithsWithBob) ∧ s2.membershipItem = some "fam_1" :=
  ⟨rfl,
    ((updateFamilyStateFromStorage_resolves sampleEnv bobWithCode rfl rfl
      ⟨by
        intro f hf
        have : f = .obj smithsWithBob := by simpa [loadFamilies, bobWithCode, bobClient,
          emptyBackend] using hf
        subst this
        refine ⟨by simp, Or.inr ⟨[memberEntry "alice" (.str "owner"),
          memberEntry "bob" (.str "kid")], rfl, ?_⟩⟩
        intro m hm
        simp only [List.mem_cons, List.mem_singleton, List.not_mem_nil, or_false] at hm
        rcases hm with rfl | rfl <;> exact ⟨_, rfl⟩,
       by
        intro u hu
        simp [loadUsers, bobWithCode, bobClient, emptyBackend] at hu⟩).2 rfl).1
      (.obj smithsWithBob) "fam_1" rfl rfl⟩

/-- C26, at the counterexample: `bob` sends a message and, while his push is pending, the
timer of the family sync fires and its pull is answered with the family as the server
has it.  The tick runs (the mutation is still pending afterwards), and the chat of the
cached family, which held the message after the first half of `updateFamily`, no longer
holds it. -/
theorem tick_runs_while_push_pending :
    optProp (Session.run sampleEnv [.sendStarts "msg_2" "hello" "2024-05-01T10:05:00.000Z"]
        ⟨bobClient, none⟩).client.currentFamily "chat"
        = some (.arr [chatMessage "msg_2" "bob" "hello" "2024-05-01T10:05:00.000Z"])
      ∧ (Session.run sampleEnv tickInFlight ⟨bobClient, none⟩).pending.isSome = true
      ∧ optProp (Session.run sampleEnv tickInFlight ⟨bobClient, none⟩).client.currentFamily
          "chat" = some (.arr []) :=
  ⟨rfl, rfl, rfl⟩

/-- C26, as the code has it: the ticks of the family sync are not held back while a mutation
is pending; whatever ticks run in between, the mutation stays pending, and when its push
is answered by the server with success the cached family is the document that the server
returns for the draft.  The draft is a proper object with a truthy id that the server
knows, its members and reminders are arrays of objects, its chat is an array without
`null`, and the index of the draft is within the cached list. -/
theorem pending_write_survives_ticks (env : Env) (σ : Session) (ticks : List Response)
    (pending : Pending) (store : Store)
    (hpending : σ.pending = some pending)
    (hkeys : pending.draft.keys.Nodup) (hid : truthy (pending.draft.get "id") = true)
    (hfound : (findFamilyById store (pending.draft.get "id")).isSome = true)
    (hmembers : ObjectList (pending.draft.get "members"))
    (hreminders : ObjectList (pending.draft.get "reminders"))
    (hchat : ∃ chat, pending.draft.get "chat" = some (.arr chat) ∧ ∀ m ∈ chat, m ≠ .null)
    (hindex : pending.index < σ.client.familiesState.length) :
    (Session.run env (ticks.map Event.familyTick) σ).pending = some pending
      ∧ ∃ saved : JObj,
          (putFamily (some (.obj pending.draft)) store).family = some saved
          ∧ (Session.run env
              (ticks.map Event.familyTick ++ [.pushAnswered (serverPut store pending.draft)])
              σ).client.currentFamily = some (.obj saved)
          ∧ (Session.run env
              (ticks.map Event.familyTick ++ [.pushAnswered (serverPut store pending.draft)])
              σ).pending = none := by
  obtain ⟨hp, hlen⟩ := run_ticks env ticks σ
  rw [hpending] at hp
  refine ⟨hp, ?_⟩
  obtain ⟨saved, _, h2, _, h4, _⟩ := updateFamilyEnd_saved env
    (Session.run env (ticks.map Event.familyTick) σ).client pending store hkeys hid hfound
    hmembers hreminders hchat (lt_of_lt_of_le hindex hlen)
  refine ⟨saved, h2, ?_, ?_⟩
  · rw [run_append_one]
    simp only [Session.step, hp]
    exact h4
  · rw [run_append_one]
    simp only [Session.step, hp]

theorem pending_write_survives_ticks_witness :
    (Session.run sampleEnv
        ([Response.ok (.obj [("family", .obj smithsWithChat)])].map Event.familyTick)
        ⟨bobSynced, some ⟨0, bobDraft⟩⟩).pending = some ⟨0, bobDraft⟩
      ∧ ∃ saved : JObj,
          (putFamily (some (.obj bobDraft)) chatServer).family = some saved
          ∧ (Session.run sampleEnv
              ([Response.ok (.obj [("family", .obj smithsWithChat)])].map Event.familyTick
                ++ [.pushAnswered (serverPut chatServer bobDraft)])
              ⟨bobSynced, some ⟨0, bobDraft⟩⟩).client.currentFamily = some (.obj saved)
          ∧ (Session.run sampleEnv
              ([Response.ok (.obj [("family", .obj smithsWithChat)])].map Event.familyTick
                ++ [.pushAnswered (serverPut chatServer bobDraft)])
              ⟨bobSynced, some ⟨0, bobDraft⟩⟩).pending = none :=
  pending_write_survives_ticks sampleEnv ⟨bobSynced, some ⟨0, bobDraft⟩⟩
    [Response.ok (.obj [("family", .obj smithsWithChat)])] ⟨0, bobDraft⟩ chatServer rfl
    (by decide) rfl rfl
    ⟨[memberEntry "alice" (.str "owner"), memberEntry "bob" (.str "kid")], rfl, by
      intro m hm
      simp only [List.mem_cons, List.mem_singleton, List.not_mem_nil, or_false] at hm
      rcases hm with rfl | rfl <;> exact ⟨_, rfl⟩⟩
    ⟨[], rfl, by
      intro m hm
      simp at hm⟩
    ⟨[chatMessage "msg_1" "alice" "hi" "2024-05-01T10:00:00.000Z",
      chatMessage "msg_2" "bob" "hello" "2024-05-01T10:05:00.000Z"], rfl, by
      intro m hm
      simp only [List.mem_cons, List.mem_singleton, List.not_mem_nil, or_false] at hm
      rcases hm with rfl | rfl <;> simp [chatMessage]⟩
    (by decide)

/-- C24, at the counterexample: two entries that carry the same share code keep it through
`ensureEntryShareCodes` and `persistPlannerEntries`, and the code resolves to the second
of them only. -/
theorem carried_share_codes_stay_duplicates :
    ensureEntryShareCodes 1 zeroRng twinEntries emptyBackend = .done twinEntries
      ∧ twinEntries.map (fun e => property e "shareCode")
          = [some (.str "AAAAAA"), some (.str "AAAAAA")]
      ∧ getPlannerEntryByShareCode (some (.str "AAAAAA"))
          (persistPlannerEntries "bob" twinEntries emptyBackend)
        = some (.obj [("owner", .str "bob"),
            ("entry", .obj [("id", .str "entry_2"), ("title", .str "Pick up"),
              ("shareCode", .str "AAAAAA")])]) :=
  ⟨rfl, rfl, rfl⟩

/-- C24, as the code has it: for a list of entries that are objects, whose share codes, where
they carry one, are strings other than `__proto__` and differ from one another, and a
user name that is not empty: `ensureEntryShareCodes` ends when the first attempt drawn
for every entry without a code is free, and whenever it ends every entry carries a share
code, no two entries carry the same code, an entry that is not one of the entries given
carries a code that was not in the registry, and after `persistPlannerEntries` the code of
every entry resolves to this entry with the user as its owner. -/
theorem share_codes_unique_after_persist (fuel : Nat) (rng : Rng) (username : String)
    (entries : List JVal) (store : BackendStore)
    (huser : username ≠ "")
    (hobj : ∀ e ∈ entries, ∃ o, e = JVal.obj o)
    (hstr : ∀ e ∈ entries, truthy (property e "shareCode") = true →
      ∃ c, property e "shareCode" = some (.str c) ∧ c ≠ "__proto__")
    (hdistinct : entries.Pairwise (fun a b => truthy (property a "shareCode") = true →
      property a "shareCode" ≠ property b "shareCode")) :
    (0 < fuel → FreshDraws entries (existingCodes entries store) rng →
        ∃ result, ensureEntryShareCodes fuel rng entries store = .done result)
      ∧ ∀ result, ensureEntryShareCodes fuel rng entries store = .done result →
          result.length = entries.length
          ∧ (∀ e ∈ result, truthy (property e "shareCode") = true)
          ∧ result.Pairwise (fun a b => property a "shareCode" ≠ property b "shareCode")
          ∧ (∀ e ∈ result, e ∈ entries
              ∨ store.shareCodes.get (jsStringOpt (property e "shareCode")) = none)
          ∧ ∀ e ∈ result,
              getPlannerEntryByShareCode (property e "shareCode")
                  (persistPlannerEntries username result store)
                = some (.obj [("owner", .str username), ("entry", e)]) := by
  refine ⟨?_, ?_⟩
  · intro hfuel hfd
    obtain ⟨n, rfl⟩ : ∃ n, fuel = n + 1 := ⟨fuel - 1, by omega⟩
    exact assignShareCodes_runs n entries _ rng
      (fun e he hnull => by
        obtain ⟨o, ho⟩ := hobj e he
        rw [ho] at hnull
        exact JVal.noConfusion hnull) hfd
  · intro result hres
    have hin : ∀ e ∈ entries, truthy (property e "shareCode") = true →
        ∃ c, property e "shareCode" = some (.str c)
          ∧ hasCode (existingCodes entries store) c = true := by
      intro e he ht
      obtain ⟨c, hc, _⟩ := hstr e he ht
      refine ⟨c, hc, hasCode_of_mem _ _ ?_⟩
      simp only [existingCodes, List.mem_append, List.mem_filterMap]
      exact Or.inr ⟨e, he, by rw [if_pos ht, hc]⟩
    obtain ⟨h1, h2, h3⟩ := assignShareCodes_spec fuel entries _ rng result hres hobj hin
      hdistinct
    have hcoded : ∀ e ∈ result, ∃ o c, e = JVal.obj o ∧ property e "shareCode" = some (.str c)
        ∧ c ≠ "" ∧ c ≠ "__proto__" := by
      intro e he
      rcases h2 e he with ⟨hm, ht⟩ | ⟨o, c, ho, hc, hl, _⟩
      · obtain ⟨o, ho⟩ := hobj e hm
        obtain ⟨c, hc, hproto⟩ := hstr e hm ht
        refine ⟨o, c, ho, hc, ?_, hproto⟩
        intro hempty
        rw [hc, hempty] at ht
        simp [truthy] at ht
      · refine ⟨o, c, ho, hc, ?_, ?_⟩
        · intro hempty
          rw [hempty] at hl
          exact absurd hl (by decide)
        · intro hproto
          rw [hproto] at hl
          exact absurd hl (by decide)
    have htruthy : ∀ e ∈ result, truthy (property e "shareCode") = true := by
      intro e he
      obtain ⟨o, c, -, hc, hne, -⟩ := hcoded e he
      rw [hc]
      simpa [truthy] using hne
    refine ⟨h1, htruthy, h3, ?_, ?_⟩
    · intro e he
      rcases h2 e he with ⟨hm, _⟩ | ⟨o, c, -, hc, -, hfree⟩
      · exact Or.inl hm
      · right
        rw [hc]
        simp only [existingCodes, hasCode_append, Bool.or_eq_false_iff] at hfree
        exact JObj.get_eq_none_of_not_mem_keys _ _ (hasCode_keys _ _ hfree.1)
    · intro e he
      obtain ⟨o, c, ho, hc, hne, hproto⟩ := hcoded e he
      have hmap : (result.map fun m => JVal.obj (spreadValue m)) = result :=
        map_spread_objects result fun m hm => by
          obtain ⟨o2, _, ho2, _⟩ := hcoded m hm
          exact ⟨o2, ho2⟩
      have hpw : result.Pairwise (fun a b =>
          jsStringOpt (property a "shareCode") ≠ jsStringOpt (property b "shareCode")) := by
        refine List.Pairwise.imp_of_mem ?_ h3
        intro a b ha hb hab
        obtain ⟨_, ca, -, hca, -, -⟩ := hcoded a ha
        obtain ⟨_, cb, -, hcb, -, -⟩ := hcoded b hb
        rw [hca, hcb] at hab ⊢
        simp only [jsStringOpt, jsString_str]
        intro heq
        exact hab (by rw [heq])
      have hkey : jsStringOpt (property e "shareCode") = c := by
        rw [hc]
        simp [jsStringOpt, jsString_str]
      have hget := foldl_share_self username result
        ((JObj.spread [] store.shareCodes).filter fun kv =>
          !strictEq (property kv.2 "owner") (some (.str username))) e he htruthy
        (by rw [hkey]; exact hproto) hpw
      have huser2 : (username == "") = false := by simpa using huser
      rw [hkey] at hget
      have hstore : (persistPlannerEntries username result store).shareCodes.get c
          = some (shareRecord username e) := by
        simp only [persistPlannerEntries, huser2, Bool.false_eq_true, if_false, hmap]
        exact hget
      have ht := htruthy e he
      rw [hc] at ht ⊢
      subst ho
      simp only [getPlannerEntryByShareCode, ht, Bool.not_true, Bool.false_eq_true, if_false,
        jsStringOpt, jsString_str, hstore]
      simp [shareRecord, truthy, optProp, property, JObj.get, literal, spreadValue]

theorem share_codes_unique_after_persist_witness :
    FreshDraws [dentistEntry, pickupEntry]
        (existingCodes [dentistEntry, pickupEntry] emptyBackend) stepRng
      ∧ ∃ result, ensureEntryShareCodes 1 stepRng [dentistEntry, pickupEntry] emptyBackend
          = .done result
        ∧ result.length = [dentistEntry, pickupEntry].length
        ∧ (∀ e ∈ result, truthy (property e "shareCode") = true)
        ∧ result.Pairwise (fun a b => property a "shareCode" ≠ property b "shareCode")
        ∧ (∀ e ∈ result, e ∈ [dentistEntry, pickupEntry]
            ∨ emptyBackend.shareCodes.get (jsStringOpt (property e "shareCode")) = none)
        ∧ ∀ e ∈ result,
            getPlannerEntryByShareCode (property e "shareCode")
                (persistPlannerEntries "bob" result emptyBackend)
              = some (.obj [("owner", .str "bob"), ("entry", e)]) :=
  have hfd : FreshDraws [dentistEntry, pickupEntry]
      (existingCodes [dentistEntry, pickupEntry] emptyBackend) stepRng := by
    show hasCode _ (drawAttempt stepRng) = false
      ∧ (hasCode _ (drawAttempt (stepRng.advance 6)) = false ∧ True)
    exact ⟨rfl, rfl, trivial⟩
  have h := share_codes_unique_after_persist 1 stepRng "bob" [dentistEntry, pickupEntry]
    emptyBackend (by decide)
    (by
      intro e he
      simp only [List.mem_cons, List.mem_singleton, List.not_mem_nil, or_false] at he
      rcases he with rfl | rfl <;> exact ⟨_, rfl⟩)
    (by
      intro e he ht
      simp only [List.mem_cons, List.mem_singleton, List.not_mem_nil, or_false] at he
      rcases he with rfl | rfl <;> exact absurd ht (by decide))
    (List.pairwise_cons.2 ⟨fun _ _ ht => absurd ht (by decide),
      List.pairwise_cons.2 ⟨fun _ h => absurd h (List.not_mem_nil _), List.Pairwise.nil⟩⟩)
  ⟨hfd, (h.1 (by decide) hfd).elim fun result hr => ⟨result, hr, h.2 result hr⟩⟩

end FamilyHub
